import Mathlib

/-!
# Stripe alias analysis: a shallow embedding

The development embeds `tile/stripe/stripe.h` (the Stripe IR data model) and
`tile/codegen/alias.{h,cc}` (`CheckOverlap`, `AliasInfo::Compare`, the `AliasMap`
constructors) as Lean definitions and proves properties of them.

Conventions of the embedding:

* `int64_t` / `uint64_t` / `size_t` values are `Int` / `Nat`; the arithmetic of the
  embedded functions (`eval`, `range - 1`, `eval + size - 1`) is exact integer
  arithmetic, which agrees with the machine arithmetic whenever the latter does not
  overflow (index ranges lie in `[0, 2^63)`).
* A thrown `std::runtime_error` is `Except.error`; a normal return is `Except.ok`.
* `std::map<std::string, T>` is a partial function `String → Option T`
  (only `find`, `operator[]` and `at` are used on the maps embedded here).
* `std::set<std::string>` (`Tags`) is a list read as a set.
* `Affine = math::Polynomial<int64_t>` and `TensorShape` come from headers that are
  not part of the sources at hand; they are modelled from the specification.
-/

namespace Stripe

deriving instance DecidableEq for Except

/-! ## Affine (math::Polynomial<int64_t>) -/

/-- Lexicographic comparison of two character sequences by code point, the order of
`std::string::operator<` on UTF-8 text (the key order of a `std::map<std::string, _>`). -/
def ltChars : List Char → List Char → Bool
  | _, [] => false
  | [], _ :: _ => true
  | a :: as, b :: bs =>
    decide (a.toNat < b.toNat) || (decide (a.toNat = b.toNat) && ltChars as bs)

/-- Key order of the coefficient map of an `Affine`, a `std::map<std::string, int64_t>`. -/
def keyLt (a b : String) : Bool := ltChars a.data b.data

/-- Modelled from the spec: `math::Polynomial<int64_t>` (tile/math/polynomial.h is
missing). "Canonical form: a mapping from variable name (with "" denoting the constant
term) to nonzero integer coefficient. Equality is structural."  The map is kept as an
association list in increasing key order. -/
structure Affine where
  map_ : List (String × Int) := []
deriving DecidableEq, Repr

instance : Inhabited Affine := ⟨{}⟩

/-- Canonical form of a coefficient map: keys strictly increasing, no zero coefficient. -/
def Affine.WF (a : Affine) : Prop :=
  a.map_.Pairwise (fun s t => keyLt s.1 t.1 = true) ∧ ∀ t ∈ a.map_, t.2 ≠ 0

instance (a : Affine) : Decidable a.WF := by
  unfold Affine.WF; infer_instance

/-- Modelled from the spec: `map_[k] += c` followed by erasing a coefficient that became
zero (polynomial.h is missing); the primitive from which every arithmetic operation of
`Affine` is built. -/
def Affine.addTerm (k : String) (c : Int) : List (String × Int) → List (String × Int)
  | [] => if c = 0 then [] else [(k, c)]
  | (k', c') :: rest =>
    if k = k' then
      (if c' + c = 0 then rest else (k', c' + c) :: rest)
    else if keyLt k k' then
      (if c = 0 then (k', c') :: rest else (k, c) :: (k', c') :: rest)
    else (k', c') :: Affine.addTerm k c rest

/-- Modelled from the spec: the constructor `Affine(name, coeff)` (polynomial.h is
missing): the polynomial `coeff * name`. -/
def Affine.term (name : String) (coeff : Int := 1) : Affine :=
  ⟨Affine.addTerm name coeff []⟩

/-- Modelled from the spec: `Affine::operator+=(const Affine&)`, "add" (polynomial.h is
missing): every term of the right operand is added into the left operand. -/
def Affine.add (a b : Affine) : Affine :=
  ⟨b.map_.foldl (fun acc t => Affine.addTerm t.1 t.2 acc) a.map_⟩

instance : Add Affine := ⟨Affine.add⟩

/-- Modelled from the spec: `Affine::operator+=(int64_t)` (polynomial.h is missing): adds to
the constant term, the coefficient of the empty name. -/
def Affine.addConst (a : Affine) (c : Int) : Affine :=
  ⟨Affine.addTerm "" c a.map_⟩

/-- Modelled from the spec: the coefficient that the map gives to a name, 0 when the name
is absent (polynomial.h is missing). -/
def Affine.coeff (a : Affine) (k : String) : Int :=
  match a.map_.find? (fun t => t.1 = k) with
  | some t => t.2
  | none => 0

/-- Modelled from the spec: `constant() → int` (polynomial.h is missing): the constant term. -/
def Affine.constant (a : Affine) : Int := a.coeff ""

/-- Modelled from the spec: `isConstant() → bool` (polynomial.h is missing): no variable
occurs. -/
def Affine.isConstant (a : Affine) : Bool :=
  a.map_.all (fun t => decide (t.1 = ""))

/-- Modelled from the spec: `eval(env: name→int) → int`: "sum `coeff * env[name]` over
non-empty keys plus the constant" (polynomial.h is missing).  The environment is a
`std::map<std::string, int64_t>`; the spec names no failure case, and a name without a
binding contributes nothing. -/
def Affine.eval (a : Affine) (env : String → Option Int) : Int :=
  (a.map_.map (fun t => if t.1 = "" then t.2 else t.2 * (env t.1).getD 0)).sum

/-- `UniqifyAffine` of alias.cc: rebuilds the polynomial term by term in map order,
keeping the constant term and renaming every variable `v` to `pfx + v`. -/
def UniqifyAffine (orig : Affine) (pfx : String) : Affine :=
  orig.map_.foldl
    (fun ret kvp =>
      if kvp.1 = "" then ret.addConst kvp.2
      else ret + Affine.term (pfx ++ kvp.1) kvp.2)
    {}

/-! ## Stripe IR (tile/stripe/stripe.h) -/

/-- `Tags = std::set<std::string>`. -/
abbrev Tags := List String

/-- `Taggable::has_tag`. -/
def has_tag (tags : Tags) (tag : String) : Bool := decide (tag ∈ tags)

/-- `Taggable::has_tags`: every tag of `to_find` is present. -/
def has_tags (tags : Tags) (to_find : Tags) : Bool :=
  to_find.all (fun tag => decide (tag ∈ tags))

/-- Modelled from the spec: the element type of a `TensorShape` (tile/base/shape.h is
missing). -/
inductive DataType where
  | INVALID | BOOLEAN | INT8 | INT16 | INT32 | INT64 | INT128
  | UINT8 | UINT16 | UINT32 | UINT64 | FLOAT16 | FLOAT32 | FLOAT64 | PRNG
deriving DecidableEq, Repr

/-- Modelled from the spec: one dimension of a `TensorShape`, "per-dimension size and
stride" (tile/base/shape.h is missing). -/
structure TensorDimension where
  stride : Int := 0
  size : Nat := 0
deriving DecidableEq, Repr

instance : Inhabited TensorDimension := ⟨{}⟩

/-- Modelled from the spec: `TensorShape`, "per-dimension size and stride, elem type"
(tile/base/shape.h is missing); `==` is structural. -/
structure TensorShape where
  type : DataType := DataType.INVALID
  dims : List TensorDimension := []
deriving DecidableEq, Repr

instance : Inhabited TensorShape := ⟨{}⟩

/-- `struct Index`. -/
structure Index where
  tags : Tags := []
  name : String
  range : Nat
  affine : Affine := {}
deriving DecidableEq, Repr

/-- `enum class RefDir`. -/
inductive RefDir where
  | None | In | Out | InOut
deriving DecidableEq, Repr

/-- `IsReadDir`. -/
def IsReadDir (dir : RefDir) : Bool := dir = RefDir.In || dir = RefDir.InOut

/-- `IsWriteDir`. -/
def IsWriteDir (dir : RefDir) : Bool := dir = RefDir.Out || dir = RefDir.InOut

/-- `struct Location`; `operator==` / `operator!=` (declared in stripe.h) compare name and
unit. -/
structure Location where
  name : String := ""
  unit : Affine := {}
deriving DecidableEq, Repr

instance : Inhabited Location := ⟨{}⟩

/-- `struct BankDimension`. -/
structure BankDimension where
  dim_pos : Nat
deriving DecidableEq, Repr

/-- `struct Refinement`; the member `from` is spelled `from_`. -/
structure Refinement where
  tags : Tags := []
  dir : RefDir := RefDir.None
  from_ : String := ""
  into : String := ""
  access : List Affine := []
  interior_shape : TensorShape := {}
  agg_op : String := ""
  location : Location := {}
  is_const : Bool := false
  offset : Nat := 0
  bank_dim : Option BankDimension := none
  cache_unit : Option Affine := none
deriving DecidableEq, Repr

/-- `enum class ConstType`. -/
inductive ConstType where
  | Integer | Float
deriving DecidableEq, Repr

/-- The members of `struct Block` other than those inherited from `Statement`, over the
type `S` of statements; `stmts` is the `StatementList`. -/
structure BlockOf (S : Type) where
  tags : Tags := []
  deps : List Nat := []
  name : String := ""
  comments : String := ""
  idxs : List Index := []
  constraints : List Affine := []
  refs : List Refinement := []
  stmts : List S := []
  location : Location := {}

/-- `struct Statement` and its six variants.  Every variant carries the `tags` of
`Taggable` and the `deps` of `Statement` (positions in the enclosing statement list);
`Block` carries them inside `BlockOf`.  The floating-point payload of `Constant` is not
represented. -/
inductive Statement where
  | Load (tags : Tags) (deps : List Nat) (from_ into : String)
  | Store (tags : Tags) (deps : List Nat) (from_ into : String)
  | Constant (tags : Tags) (deps : List Nat) (name : String) (type : ConstType) (iconst : Int)
  | Special (tags : Tags) (deps : List Nat) (name : String) (params inputs outputs : List String)
  | Intrinsic (tags : Tags) (deps : List Nat) (name : String) (type : DataType)
      (inputs outputs : List String)
  | Block (b : BlockOf Statement)

/-- `struct Block`. -/
abbrev Block := BlockOf Statement

/-! ## Alias analysis (tile/codegen/alias.h, alias.cc) -/

/-- `enum class AliasType`. -/
inductive AliasType where
  | None | Partial | Exact
deriving DecidableEq, Repr

/-- `struct Extent`. -/
structure Extent where
  min : Int := 0
  max : Int := 0
deriving DecidableEq, Repr

instance : Inhabited Extent := ⟨{}⟩

/-- `struct AliasInfo`.  The raw back-pointers `base_block` and `base_ref` are kept as the
depth of the pointed-to block on the construction path and the position of the pointed-to
refinement in that block's `refs` (`none` is `nullptr`). -/
structure AliasInfo where
  base_block : Option Nat := none
  base_ref : Option Nat := none
  base_name : String := ""
  access : List Affine := []
  extents : List Extent := []
  location : Location := {}
  shape : TensorShape := {}
deriving DecidableEq, Repr

instance : Inhabited AliasInfo := ⟨{}⟩

/-- The loop of `CheckOverlap`: `ret &= be[i].min <= ae[i].max; ret &= ae[i].min <= be[i].max`
for every position `i`, starting from `ret`. -/
def CheckOverlap.loop (ret : Bool) : List Extent → List Extent → Bool
  | a :: ae, b :: be =>
    CheckOverlap.loop ((ret && decide (b.min ≤ a.max)) && decide (a.min ≤ b.max)) ae be
  | _, _ => ret

/-- `CheckOverlap` of alias.cc. -/
def CheckOverlap (ae be : List Extent) : Except String Bool :=
  if ae.length ≠ be.length then Except.error "Incompatible extents"
  else Except.ok (CheckOverlap.loop true ae be)

/-- `AliasInfo::Compare` of alias.cc. -/
def AliasInfo.Compare (ai bi : AliasInfo) : Except String AliasType :=
  if ai.base_name ≠ bi.base_name then Except.ok AliasType.None
  else if ai.shape = bi.shape then
    if ai.location.unit.isConstant && bi.location.unit.isConstant
        && decide (ai.location ≠ bi.location) then
      Except.ok AliasType.None
    else if ai.access = bi.access then Except.ok AliasType.Exact
    else
      match CheckOverlap ai.extents bi.extents with
      | Except.error e => Except.error e
      | Except.ok overlap =>
        if !overlap then Except.ok AliasType.None else Except.ok AliasType.Partial
  else Except.ok AliasType.Partial

/-- `class AliasMap`: `depth_` and the per-buffer data `info_`. -/
structure AliasMap where
  depth_ : Nat := 0
  info_ : String → Option AliasInfo := fun _ => none

/-- `AliasMap::AliasMap()`: the root level map. -/
def AliasMap.root : AliasMap := {}

/-- `AliasMap::at`. -/
def AliasMap.at (m : AliasMap) (name : String) : Except String AliasInfo :=
  match m.info_ name with
  | some info => Except.ok info
  | none => Except.error "safe_at: key not found"

/-- Assignment `m[key] = value` on a `std::map`. -/
def mapSet {α : Type} (m : String → Option α) (key : String) (value : α) : String → Option α :=
  fun k => if k = key then some value else m k

/-- `std::vector::resize(n)`: keeps the first `n` elements and pads with value-initialised
ones. -/
def resize {α : Type} [Inhabited α] (v : List α) (n : Nat) : List α :=
  v.take n ++ List.replicate (n - v.length) default

/-- `str(boost::format("d%1%:") % depth_)`. -/
def depthPrefix (depth : Nat) : String := "d" ++ toString depth ++ ":"

/-- The `min_idxs` of the `AliasMap` constructor: an index whose affine has a nonzero
`constant()` is bound to that constant, every other index to 0. -/
def AliasMap.min_idxs (idxs : List Index) : String → Option Int :=
  idxs.foldl
    (fun m idx =>
      if idx.affine.constant ≠ 0 then mapSet m idx.name idx.affine.constant
      else mapSet m idx.name 0)
    (fun _ => none)

/-- The `int64_t` that a computation in 64-bit arithmetic leaves for the integer `x`: the
value congruent to `x` modulo 2^64 in `[-2^63, 2^63)`.  It is `x` itself when `x` is in that
interval. -/
def wrap64 (x : Int) : Int :=
  (x + 9223372036854775808) % 18446744073709551616 - 9223372036854775808

/-- The integer is one that an `int64_t` holds. -/
def InInt64 (x : Int) : Prop := -9223372036854775808 ≤ x ∧ x ≤ 9223372036854775807

instance (x : Int) : Decidable (InInt64 x) := by
  unfold InInt64
  infer_instance

/-- The `max_idxs` of the `AliasMap` constructor: an index whose affine has a nonzero
`constant()` is bound to that constant, every other index to `range - 1`, which is computed
in `uint64_t` and stored as an `int64_t`. -/
def AliasMap.max_idxs (idxs : List Index) : String → Option Int :=
  idxs.foldl
    (fun m idx =>
      if idx.affine.constant ≠ 0 then mapSet m idx.name idx.affine.constant
      else mapSet m idx.name (wrap64 ((idx.range : Int) - 1)))
    (fun _ => none)

/-- The extents computed by the last loop of the `AliasMap` constructor, from position `i`
on: `Extent{access[i].eval(min_idxs), access[i].eval(max_idxs) + dims[i].size - 1}`, both
stored as `int64_t`.  The sum with the `size_t` size is computed in 64-bit unsigned
arithmetic, and `eval`, modelled over the integers, returns an `int64_t`: each of the two
values is the one that 64-bit arithmetic leaves (`wrap64`).
Reading `dims[i]` past the end of `dims` is undefined in the source; here it reads a
dimension of size 0. -/
def AliasMap.extentsFrom (min_idxs max_idxs : String → Option Int)
    (dims : List TensorDimension) : Nat → List Affine → List Extent
  | _, [] => []
  | i, a :: rest =>
    { min := wrap64 (a.eval min_idxs),
      max := wrap64 (a.eval max_idxs + ((dims.getD i default).size : Int) - 1) }
      :: AliasMap.extentsFrom min_idxs max_idxs dims (i + 1) rest

/-- One iteration of the loop over `block->refs` in the `AliasMap` constructor, as a
function of the entry `old` found (or value-initialised) at `info_[ref.into]`: the new
contents of that entry, or the exception thrown.  `depth` is `depth_` and `pos` the
position of `ref` in `block->refs`. -/
def AliasMap.entry (outer : AliasMap) (depth : Nat) (block : Block) (pos : Nat)
    (ref : Refinement) (old : AliasInfo) : Except String AliasInfo :=
  let pfx := depthPrefix depth
  let copied : Except String AliasInfo :=
    if ref.dir ≠ RefDir.None then
      match outer.info_ ref.from_ with
      | none =>
        Except.error "AliasMap::AliasMap: invalid ref.from during aliasing computation"
      | some o =>
        Except.ok { old with
          base_block := o.base_block
          base_ref := o.base_ref
          base_name := o.base_name
          access := o.access
          location := { name := o.location.name, unit := o.location.unit + ref.location.unit } }
    else
      Except.ok { old with
        base_block := some depth
        base_ref := some pos
        base_name := pfx ++ ref.into
        access := resize old.access ref.access.length
        location := ref.location }
  match copied with
  | Except.error e => Except.error e
  | Except.ok info =>
    if info.access.length ≠ ref.access.length then
      Except.error "AliasMap::AliasMap: Mismatched access dimensions on refinement"
    else
      Except.ok { info with
        access := List.zipWith (fun a r => a + UniqifyAffine r pfx) info.access ref.access
        extents :=
          AliasMap.extentsFrom (AliasMap.min_idxs block.idxs) (AliasMap.max_idxs block.idxs)
            ref.interior_shape.dims 0 ref.access
        shape := ref.interior_shape }

/-- The loop `for (auto& ref : block->refs)` of the `AliasMap` constructor over the remaining
refinements `refs` (the first of them at position `pos`), on the map `info_` built so far. -/
def AliasMap.addRefs (outer : AliasMap) (depth : Nat) (block : Block) :
    Nat → List Refinement → (String → Option AliasInfo) → Except String (String → Option AliasInfo)
  | _, [], info_ => Except.ok info_
  | pos, ref :: rest, info_ =>
    match AliasMap.entry outer depth block pos ref ((info_ ref.into).getD default) with
    | Except.error e => Except.error e
    | Except.ok info => AliasMap.addRefs outer depth block (pos + 1) rest (mapSet info_ ref.into info)

/-- `AliasMap::AliasMap(const AliasMap& outer, stripe::Block* block)`: the map of an inner
block. -/
def AliasMap.inner (outer : AliasMap) (block : Block) : Except String AliasMap :=
  match AliasMap.addRefs outer (outer.depth_ + 1) block 0 block.refs (fun _ => none) with
  | Except.error e => Except.error e
  | Except.ok info_ => Except.ok { depth_ := outer.depth_ + 1, info_ := info_ }

/-- Nested construction: starting from the map `m`, the constructor is applied to each
block of `path` in turn (outermost first), as `RunOnBlocks` / `RunOnBlocksRecurse` do along
one branch of the block tree. -/
def AliasMap.nestFrom (m : AliasMap) : List Block → Except String AliasMap
  | [] => Except.ok m
  | b :: rest =>
    match AliasMap.inner m b with
    | Except.error e => Except.error e
    | Except.ok m' => AliasMap.nestFrom m' rest

/-- Nested construction from the root map along `path` (outermost block first). -/
def AliasMap.nest (path : List Block) : Except String AliasMap :=
  AliasMap.nestFrom AliasMap.root path

/-! ## Notions used to state the properties -/

/-- The integer point `p` lies in the box denoted by `es`: one coordinate per dimension,
each within the closed interval `[min, max]` of its extent. -/
def InBox (p : List Int) (es : List Extent) : Prop :=
  List.Forall₂ (fun x e => e.min ≤ x ∧ x ≤ e.max) p es

/-- The condition "different banks" of the comparison: both location units are constants
and the locations differ. -/
def DifferentBanks (a b : AliasInfo) : Prop :=
  (a.location.unit.isConstant = true ∧ b.location.unit.isConstant = true)
    ∧ a.location ≠ b.location

instance (a b : AliasInfo) : Decidable (DifferentBanks a b) := by
  unfold DifferentBanks; infer_instance

/-- The overlap test as the specification words it: in every dimension the two intervals
intersect, `be[i].min ≤ ae[i].max ∧ ae[i].min ≤ be[i].max`. -/
def OverlapSpec (ae be : List Extent) : Bool :=
  (List.zipWith (fun a b => decide (b.min ≤ a.max ∧ a.min ≤ b.max)) ae be).all id

/-- The decision procedure `Compare(a, b) → {None, Partial, Exact}` as the specification
words it (steps 1, 2 and 3 of §4.2). -/
def CompareSpec (a b : AliasInfo) : AliasType :=
  if a.base_name ≠ b.base_name then AliasType.None
  else if a.shape = b.shape then
    if DifferentBanks a b then AliasType.None
    else if a.access = b.access then AliasType.Exact
    else if OverlapSpec a.extents b.extents = false then AliasType.None
    else AliasType.Partial
  else AliasType.Partial

/-- The first refinement of `refs` whose `into` is `name`, with its position (positions
counted from `pos`). -/
def refByInto (name : String) : Nat → List Refinement → Option (Nat × Refinement)
  | _, [] => none
  | pos, r :: rest => if r.into = name then some (pos, r) else refByInto name (pos + 1) rest

/-- The allocation site of the buffer that the innermost block of a path knows as `name`:
the path is given innermost block first; a refinement with `dir = None` is the allocation
itself, at the depth of its block, and a borrowing refinement is followed through `from`
into the enclosing block.  The result is the depth of the allocating block and the
position of the allocating refinement in it. -/
def allocSite : List Block → String → Option (Nat × Nat)
  | [], _ => none
  | b :: enclosing, name =>
    match refByInto name 0 b.refs with
    | none => none
    | some (pos, r) =>
      if r.dir = RefDir.None then some (enclosing.length + 1, pos)
      else allocSite enclosing r.from_

/-- The refinement at position `pos` of the block at depth `depth` of a path (outermost
block first, at depth 1). -/
def refAt (path : List Block) (depth pos : Nat) : Option Refinement :=
  match path[depth - 1]? with
  | none => none
  | some b => if depth = 0 then none else b.refs[pos]?

/-- Every entry of the map `m`, built along `path`, records its allocation site: the
allocating refinement found by following the borrows has `dir = None`, the back-pointers
of the entry designate it, and the base name is `"d<k>:"` followed by its `into` name,
`k` being the depth of its block. -/
def AliasMap.Traced (path : List Block) (m : AliasMap) : Prop :=
  ∀ name info, m.info_ name = some info →
    ∃ k pos r, allocSite path.reverse name = some (k, pos) ∧ refAt path k pos = some r ∧
      r.dir = RefDir.None ∧ info.base_block = some k ∧ info.base_ref = some pos ∧
      info.base_name = depthPrefix k ++ r.into

/-- The closed intervals denoted by two extents have no integer in common. -/
def DisjointExtents (a b : Extent) : Prop :=
  ¬ ∃ x : Int, (a.min ≤ x ∧ x ≤ a.max) ∧ (b.min ≤ x ∧ x ≤ b.max)

/-- Two lists of extents are disjoint in at least one dimension. -/
def DisjointSomewhere (ae be : List Extent) : Prop :=
  ∃ (i : Nat) (ha : i < ae.length) (hb : i < be.length), DisjointExtents ae[i] be[i]

/-- Every extent of the list denotes a non-empty interval. -/
def NonEmptyExtents (es : List Extent) : Prop := ∀ e ∈ es, e.min ≤ e.max

/-! ## Inputs used as concrete instances -/

/-- A one-dimensional FLOAT32 shape of the given size with stride 1. -/
def shape1 (size : Nat) : TensorShape :=
  { type := DataType.FLOAT32, dims := [{ stride := 1, size := size }] }

/-- An entry for base `d1:A` in bank 0 of `RAM`, elements 0..3. -/
def bankA : AliasInfo :=
  { base_name := "d1:A", access := [{}], extents := [{ min := 0, max := 3 }],
    location := { name := "RAM", unit := {} }, shape := shape1 4 }

/-- The same entry in bank 1 of `RAM`. -/
def bankB : AliasInfo :=
  { bankA with location := { name := "RAM", unit := ⟨[("", 1)]⟩ } }

/-- An entry for base `d1:A` with the access of `bankA` and a larger shape. -/
def wideA : AliasInfo := { bankA with shape := shape1 8 }

/-- An entry for base `d1:A`, elements 8..11, reached with the access `d2:i`. -/
def farA : AliasInfo :=
  { bankA with access := [⟨[("d2:i", 1)]⟩], extents := [{ min := 8, max := 11 }] }

/-- An entry for base `d1:A`, elements 8..15, with the shape of `wideA`. -/
def farWideA : AliasInfo :=
  { bankA with access := [⟨[("d2:i", 1)]⟩], extents := [{ min := 8, max := 15 }],
               shape := shape1 8 }

/-- An entry with the access and shape of `bankA` whose extents are elements 8..11. -/
def shiftedA : AliasInfo := { bankA with extents := [{ min := 8, max := 11 }] }

/-- An entry for base `d1:A` reached with the access `2 - d2:i` whose extent is inverted
(min 2, max 1) and so denotes no element. -/
def invertedA : AliasInfo :=
  { bankA with access := [⟨[("", 2), ("d2:i", -1)]⟩], extents := [{ min := 2, max := 1 }] }

/-- The allocation of the buffer `A` (16 elements) in `RAM`. -/
def allocA : Refinement :=
  { into := "A", access := [{}], interior_shape := shape1 16, location := { name := "RAM" } }

/-- A root block allocating `A`. -/
def rootBlock : Block := { name := "program", refs := [allocA] }

/-- A view `x` of `A`, four elements at a time, at offset `4 * i`. -/
def borrowX : Refinement :=
  { dir := RefDir.In, from_ := "A", into := "x", access := [⟨[("i", 4)]⟩],
    interior_shape := shape1 4, location := { name := "RAM" } }

/-- A block nested in `rootBlock` that borrows `A` as `x`, with an index `i` of range 4. -/
def innerBlock : Block :=
  { name := "main", idxs := [{ name := "i", range := 4 }], refs := [borrowX] }

/-- The entry of `A` in the map of `rootBlock`. -/
def entryA : AliasInfo :=
  { base_block := some 1, base_ref := some 0, base_name := "d1:A", access := [{}],
    extents := [{ min := 0, max := 15 }], location := { name := "RAM" }, shape := shape1 16 }

/-- The entry of `x` in the map of `innerBlock`. -/
def entryX : AliasInfo :=
  { base_block := some 1, base_ref := some 0, base_name := "d1:A",
    access := [⟨[("d2:i", 4)]⟩],
    extents := [{ min := 0, max := 15 }], location := { name := "RAM" }, shape := shape1 4 }

/-- The map of `rootBlock`. -/
def rootMap : AliasMap := { depth_ := 1, info_ := mapSet (fun _ => none) "A" entryA }

/-- The map of `innerBlock` inside `rootBlock`. -/
def innerMap : AliasMap := { depth_ := 2, info_ := mapSet (fun _ => none) "x" entryX }

/-- The number denoted by a sequence of decimal digit characters. -/
def digitsVal (l : List Char) : Nat := l.foldl (fun acc c => 10 * acc + (c.toNat - 48)) 0

/-- No index name has a negative coefficient in the polynomial. -/
def Affine.NonNegVars (a : Affine) : Prop := ∀ t ∈ a.map_, t.1 ≠ "" → 0 ≤ t.2

/-- An assignment of the indices of a block as the constructor classifies them: it binds
the index names and nothing else, an index whose affine has a nonzero constant term to
that constant term, any other index to a value in `[0, range)`. -/
def IndexAssignment (idxs : List Index) (env : String → Option Int) : Prop :=
  (∀ n, (∀ idx ∈ idxs, idx.name ≠ n) → env n = none) ∧
  ∀ idx ∈ idxs,
    (idx.affine.constant ≠ 0 → env idx.name = some idx.affine.constant) ∧
    (idx.affine.constant = 0 → ∃ v : Int, env idx.name = some v ∧ 0 ≤ v ∧ v < idx.range)

/-- An assignment of the indices of a block as the specification classifies them: it binds
the index names and nothing else, an index whose affine is a pure constant to that
constant, any other index to a value in `[0, range)`. -/
def SpecIndexAssignment (idxs : List Index) (env : String → Option Int) : Prop :=
  (∀ n, (∀ idx ∈ idxs, idx.name ≠ n) → env n = none) ∧
  ∀ idx ∈ idxs,
    (idx.affine.isConstant = true → env idx.name = some idx.affine.constant) ∧
    (idx.affine.isConstant = false → ∃ v : Int, env idx.name = some v ∧ 0 ≤ v ∧ v < idx.range)

/-- An index `i` of range 4 that is offset from an outer index: its affine is `x + 3`. -/
def offsetIdx : Index := { name := "i", range := 4, affine := ⟨[("", 3), ("x", 1)]⟩ }

/-- A block with the index `offsetIdx` allocating a buffer `T` that it reads one element at
a time at position `i`. -/
def offsetBlock : Block :=
  { name := "offset", idxs := [offsetIdx],
    refs := [{ into := "T", access := [⟨[("i", 1)]⟩], interior_shape := shape1 1 }] }

/-- The entry of `T` in the map of `offsetBlock` built from the root map. -/
def entryOffsetT : AliasInfo :=
  { base_block := some 1, base_ref := some 0, base_name := "d1:T",
    access := [⟨[("d1:i", 1)]⟩], extents := [{ min := 3, max := 3 }], shape := shape1 1 }

/-- A block with a plain index `i` of range 4 allocating a buffer `T` that it reads one
element at a time, backwards, at position `-i`. -/
def reversedBlock : Block :=
  { name := "reversed", idxs := [{ name := "i", range := 4 }],
    refs := [{ into := "T", access := [⟨[("i", -1)]⟩], interior_shape := shape1 1 }] }

/-- The entry of `T` in the map of `reversedBlock` built from the root map. -/
def entryReversedT : AliasInfo :=
  { base_block := some 1, base_ref := some 0, base_name := "d1:T",
    access := [⟨[("d1:i", -1)]⟩], extents := [{ min := 0, max := -3 }], shape := shape1 1 }

/-- The map of `offsetBlock` built from the root map. -/
def offsetMap : AliasMap := { depth_ := 1, info_ := mapSet (fun _ => none) "T" entryOffsetT }

/-- The map of `reversedBlock` built from the root map. -/
def reversedMap : AliasMap := { depth_ := 1, info_ := mapSet (fun _ => none) "T" entryReversedT }

/-- A block without indices allocating a buffer `T` that it reads two elements at a time at
the constant position `2^63 - 1`, the largest `int64_t`. -/
def edgeBlock : Block :=
  { name := "edge",
    refs := [{ into := "T", access := [⟨[("", 9223372036854775807)]⟩],
               interior_shape := shape1 2 }] }

/-- The entry of `T` in the map of `edgeBlock` built from the root map: the maximum of the
extent, `2^63 - 1 + 2 - 1` in 64-bit arithmetic, is `-2^63`. -/
def entryEdgeT : AliasInfo :=
  { base_block := some 1, base_ref := some 0, base_name := "d1:T",
    access := [⟨[("", 9223372036854775807)]⟩],
    extents := [{ min := 9223372036854775807, max := -9223372036854775808 }],
    shape := shape1 2 }

/-- The map of `edgeBlock` built from the root map. -/
def edgeMap : AliasMap := { depth_ := 1, info_ := mapSet (fun _ => none) "T" entryEdgeT }

/-- No value that the constructor computes for the extents of `r` over the indices `idxs`
leaves `int64_t`: `range - 1` for every index that ranges and, in every dimension, the
access evaluated at `min_idxs` and the access evaluated at `max_idxs` plus `size - 1`. -/
def AliasMap.ExtentsFit (idxs : List Index) (r : Refinement) : Prop :=
  (∀ idx ∈ idxs, idx.affine.constant = 0 → InInt64 ((idx.range : Int) - 1)) ∧
  ∀ (i : Nat) (x : Affine) (d : TensorDimension),
    r.access[i]? = some x → r.interior_shape.dims[i]? = some d →
      InInt64 (x.eval (AliasMap.min_idxs idxs)) ∧
      InInt64 (x.eval (AliasMap.max_idxs idxs) + (d.size : Int) - 1)

/-- The assignment that binds nothing: the only one of a block without indices. -/
def envNone : String → Option Int := fun _ => none

/-- The assignment that gives the index `i` the value 0 and binds nothing else. -/
def envZero : String → Option Int := mapSet (fun _ => none) "i" 0

/-- The assignment that gives the index `i` the value 2 and binds nothing else. -/
def envTwo : String → Option Int := mapSet (fun _ => none) "i" 2

/-! ## Statements: buffer uses -/

/-- `Statement::buffer_reads()`, by variant.  `Block::buffer_reads()` is declared in
stripe.h and defined elsewhere; it is the parameter `blockReads`. -/
def Statement.buffer_reads (blockReads : BlockOf Statement → List String) :
    Statement → List String
  | Statement.Load _ _ from_ _ => [from_]
  | Statement.Store _ _ _ _ => []
  | Statement.Constant _ _ _ _ _ => []
  | Statement.Special _ _ _ _ inputs _ => inputs
  | Statement.Intrinsic _ _ _ _ _ _ => []
  | Statement.Block b => blockReads b

/-- `Statement::buffer_writes()`, by variant.  `Block::buffer_writes()` is declared in
stripe.h and defined elsewhere; it is the parameter `blockWrites`. -/
def Statement.buffer_writes (blockWrites : BlockOf Statement → List String) :
    Statement → List String
  | Statement.Load _ _ _ _ => []
  | Statement.Store _ _ _ into => [into]
  | Statement.Constant _ _ _ _ _ => []
  | Statement.Special _ _ _ _ _ outputs => outputs
  | Statement.Intrinsic _ _ _ _ _ _ => []
  | Statement.Block b => blockWrites b

/-- `std::set<std::string>::emplace`: the element is added unless it is already there.
The set is a duplicate-free list. -/
def setEmplace (s : List String) (x : String) : List String :=
  if x ∈ s then s else s ++ [x]

/-- The set `buf_use` that `RefUseCounts` builds for one statement: its buffer reads, then
its buffer writes. -/
def buf_use (blockReads blockWrites : Block → List String) (stmt : Statement) : List String :=
  (stmt.buffer_writes blockWrites).foldl setEmplace
    ((stmt.buffer_reads blockReads).foldl setEmplace [])

/-- `AliasMap::RefUseCounts` of alias.cc: for every statement of the block, `use_count[str]++`
for every `str` of its `buf_use` (an absent key starts at 0).  The `std::unordered_map` is a
partial function; the map `this` is not consulted. -/
def AliasMap.RefUseCounts (_m : AliasMap) (blockReads blockWrites : Block → List String)
    (block : Block) : String → Option Nat :=
  block.stmts.foldl
    (fun use_count stmt =>
      (buf_use blockReads blockWrites stmt).foldl
        (fun uc str => mapSet uc str ((uc str).getD 0 + 1)) use_count)
    (fun _ => none)

/-- The statement mentions the buffer `name` among its reads or its writes. -/
def Statement.mentions (blockReads blockWrites : BlockOf Statement → List String) (name : String)
    (stmt : Statement) : Bool :=
  decide (name ∈ stmt.buffer_reads blockReads ∨ name ∈ stmt.buffer_writes blockWrites)

/-! ## RunOnBlocks (tile/codegen/alias.h) -/

mutual
/-- `RunOnBlocksRecurse` of alias.h.  The callback `func(map, block)` may change the block
it is given and the state `σ` it captures, or throw; here it returns the new block and the
new state.  A block whose tags do not contain `reqs` has its statements visited in order
(`RunOnBlocksStmts`); the statements come back with the changes the callback made below
them. -/
def RunOnBlocksRecurse {σ : Type} (func : AliasMap → BlockOf Statement → σ →
    Except String (BlockOf Statement × σ)) (reqs : Tags) (map : AliasMap) :
    BlockOf Statement → σ → Except String (BlockOf Statement × σ)
  | ⟨tags, deps, name, comments, idxs, constraints, refs, stmts, location⟩, s =>
    if has_tags tags reqs then
      func map ⟨tags, deps, name, comments, idxs, constraints, refs, stmts, location⟩ s
    else
      match RunOnBlocksStmts func reqs map stmts s with
      | Except.error e => Except.error e
      | Except.ok (stmts', s') =>
        Except.ok (⟨tags, deps, name, comments, idxs, constraints, refs, stmts', location⟩, s')

/-- The loop `for (auto& stmt : block->stmts)` of `RunOnBlocksRecurse`. -/
def RunOnBlocksStmts {σ : Type} (func : AliasMap → BlockOf Statement → σ →
    Except String (BlockOf Statement × σ)) (reqs : Tags) (map : AliasMap) :
    List Statement → σ → Except String (List Statement × σ)
  | [], s => Except.ok ([], s)
  | stmt :: rest, s =>
    match RunOnBlocksStmt func reqs map stmt s with
    | Except.error e => Except.error e
    | Except.ok (stmt', s') =>
      match RunOnBlocksStmts func reqs map rest s' with
      | Except.error e => Except.error e
      | Except.ok (rest', s'') => Except.ok (stmt' :: rest', s'')

/-- The body of the loop of `RunOnBlocksRecurse`: a statement that is a block gets its own
AliasMap, built from `map`, and is visited with it; any other statement is passed over. -/
def RunOnBlocksStmt {σ : Type} (func : AliasMap → BlockOf Statement → σ →
    Except String (BlockOf Statement × σ)) (reqs : Tags) (map : AliasMap) :
    Statement → σ → Except String (Statement × σ)
  | Statement.Block inner, s =>
    match AliasMap.inner map inner with
    | Except.error e => Except.error e
    | Except.ok inner_map =>
      match RunOnBlocksRecurse func reqs inner_map inner s with
      | Except.error e => Except.error e
      | Except.ok (inner', s') => Except.ok (Statement.Block inner', s')
  | Statement.Load tags deps from_ into, s => Except.ok (Statement.Load tags deps from_ into, s)
  | Statement.Store tags deps from_ into, s => Except.ok (Statement.Store tags deps from_ into, s)
  | Statement.Constant tags deps name type iconst, s =>
    Except.ok (Statement.Constant tags deps name type iconst, s)
  | Statement.Special tags deps name params inputs outputs, s =>
    Except.ok (Statement.Special tags deps name params inputs outputs, s)
  | Statement.Intrinsic tags deps name type inputs outputs, s =>
    Except.ok (Statement.Intrinsic tags deps name type inputs outputs, s)
end

/-- `RunOnBlocks` of alias.h: the root map, the map of `root`, then the recursion. -/
def RunOnBlocks {σ : Type} (func : AliasMap → Block → σ → Except String (Block × σ))
    (root : Block) (reqs : Tags) (s : σ) : Except String (Block × σ) :=
  match AliasMap.inner AliasMap.root root with
  | Except.error e => Except.error e
  | Except.ok root_map => RunOnBlocksRecurse func reqs root_map root s

/-- The callback `func` instrumented to record, in a trace kept next to its own state, the
block of every invocation (as it is when the callback receives it). -/
def recording {σ : Type} (func : AliasMap → Block → σ → Except String (Block × σ)) :
    AliasMap → Block → σ × List Block → Except String (Block × (σ × List Block)) :=
  fun map block st =>
    match func map block st.1 with
    | Except.error e => Except.error e
    | Except.ok (block', s') => Except.ok (block', (s', st.2 ++ [block]))

/-- A callback that changes nothing. -/
def keepBlock (_map : AliasMap) (block : Block) (s : Unit) : Except String (Block × Unit) :=
  Except.ok (block, s)

/-- The block reached from `b` along a path of statement positions, each of which must
hold a nested block. -/
def subBlock : Block → List Nat → Option Block
  | b, [] => some b
  | b, i :: rest =>
    match b.stmts[i]? with
    | some (Statement.Block inner) => subBlock inner rest
    | _ => none

/-- The block at path `p` of the tree rooted at `root` is one the traversal must stop at:
its tags contain all of `reqs`, and the tags of none of its proper ancestors do. -/
def TopMatch (reqs : Tags) (root : Block) (p : List Nat) (b : Block) : Prop :=
  subBlock root p = some b ∧ (∀ t ∈ reqs, t ∈ b.tags) ∧
    ∀ q a, q <+: p → q ≠ p → subBlock root q = some a → ¬ (∀ t ∈ reqs, t ∈ a.tags)

mutual
/-- The blocks at which the traversal stops, with their paths, in order of visit: the block
itself when its tags contain `reqs`, else those of its nested blocks, statement by
statement. -/
def topBlocks (reqs : Tags) : BlockOf Statement → List (List Nat × BlockOf Statement)
  | ⟨tags, deps, name, comments, idxs, constraints, refs, stmts, location⟩ =>
    if has_tags tags reqs then
      [([], ⟨tags, deps, name, comments, idxs, constraints, refs, stmts, location⟩)]
    else topBlocksStmts reqs 0 stmts

/-- The blocks of `topBlocks` below a list of statements whose first position is `i`. -/
def topBlocksStmts (reqs : Tags) : Nat → List Statement →
    List (List Nat × BlockOf Statement)
  | _, [] => []
  | i, stmt :: rest =>
    (topBlocksStmt reqs stmt).map (fun pb => (i :: pb.1, pb.2))
      ++ topBlocksStmts reqs (i + 1) rest

/-- The blocks of `topBlocks` below one statement. -/
def topBlocksStmt (reqs : Tags) : Statement → List (List Nat × BlockOf Statement)
  | Statement.Block inner => topBlocks reqs inner
  | Statement.Load _ _ _ _ => []
  | Statement.Store _ _ _ _ => []
  | Statement.Constant _ _ _ _ _ => []
  | Statement.Special _ _ _ _ _ _ => []
  | Statement.Intrinsic _ _ _ _ _ _ => []
end

/-- A leaf block with the given name and tags. -/
def leafBlock (name : String) (tags : Tags) : Block := { name := name, tags := tags }

/-- A block `main`, tagged `main`, holding a block that is tagged `main` too. -/
def mainBlock : Block :=
  { name := "main", tags := ["main"], stmts := [Statement.Block (leafBlock "nested" ["main"])] }

/-- A tree: `program` holds `main`, a load, and `side`, which holds a block `kernel` tagged
`main`. -/
def treeBlock : Block :=
  { name := "program",
    stmts := [
      Statement.Block mainBlock,
      Statement.Load [] [] "a" "$x",
      Statement.Block { name := "side",
                        stmts := [Statement.Block (leafBlock "kernel" ["main", "k"])] }] }

/-- A block with three statements: a load from `A`, a special that reads `A` twice and
writes `A` and `B`, and a store to `B`. -/
def usesBlock : Block :=
  { name := "uses",
    stmts := [
      Statement.Load [] [] "A" "$x",
      Statement.Special [] [] "copy" [] ["A", "A"] ["A", "B"],
      Statement.Store [] [] "$x" "B"] }

/-! ## Cache pass (tile/codegen/cache.cc) -/

/-- Modelled from the spec: `TensorShape::sizes()` (tile/base/shape.h is missing): the
sizes of the dimensions, in order. -/
def TensorShape.sizes (shape : TensorShape) : List Nat := shape.dims.map (fun d => d.size)

/-- The dimensions of a dense shape: each stride is the product of the sizes of the
dimensions that follow. -/
def simpleDims : List Nat → List TensorDimension
  | [] => []
  | size :: rest => { stride := ((rest.foldl (fun a b => a * b) 1 : Nat) : Int), size := size }
      :: simpleDims rest

/-- Modelled from the spec: `SimpleShape(type, sizes)` (tile/base/shape.h is missing),
"dense, stride-1 in natural order". -/
def SimpleShape (type : DataType) (sizes : List Nat) : TensorShape :=
  { type := type, dims := simpleDims sizes }

/-- `Block::ref_by_into(name, false)` (declared in stripe.h: "Find which refinement has an
into called 'name'"): the first such refinement with its position, `none` for `refs.end()`. -/
def ref_by_into (block : Block) (name : String) : Option (Nat × Refinement) :=
  refByInto name 0 block.refs

/-- Modelled from the spec: `Block::unique_ref_name(into)` (declared in stripe.h, "by
appending _2, etc, if needed"; its definition is missing): "the first name of the form
`into` or `into_k` (k ≥ 2) not present in `refs`".  Among the candidates `into_2`, ...,
`into_(n+2)` for `n` refinements one is always free, so the search is bounded. -/
def unique_ref_name (block : Block) (into : String) : String :=
  if block.refs.all (fun r => decide (r.into ≠ into)) then into
  else
    match (List.range (block.refs.length + 1)).find?
        (fun k => block.refs.all (fun r => decide (r.into ≠ into ++ "_" ++ toString (k + 2)))) with
    | some k => into ++ "_" ++ toString (k + 2)
    | none => into ++ "_" ++ toString (block.refs.length + 3)

/-- The statement with every position held in its `deps` moved `k` places down the
statement list. -/
def Statement.shiftDeps (k : Nat) : Statement → Statement
  | Statement.Load tags deps from_ into =>
    Statement.Load tags (deps.map (fun d => d + k)) from_ into
  | Statement.Store tags deps from_ into =>
    Statement.Store tags (deps.map (fun d => d + k)) from_ into
  | Statement.Constant tags deps name type iconst =>
    Statement.Constant tags (deps.map (fun d => d + k)) name type iconst
  | Statement.Special tags deps name params inputs outputs =>
    Statement.Special tags (deps.map (fun d => d + k)) name params inputs outputs
  | Statement.Intrinsic tags deps name type inputs outputs =>
    Statement.Intrinsic tags (deps.map (fun d => d + k)) name type inputs outputs
  | Statement.Block b => Statement.Block { b with deps := b.deps.map (fun d => d + k) }

/-- `stmts.emplace_front(stmt)` on a `StatementList`.  The `deps` of the statements already
in the list are iterators, which go on designating the same statements; as positions they
are all moved one place down. -/
def emplace_front (stmt : Statement) (stmts : List Statement) : List Statement :=
  stmt :: stmts.map (Statement.shiftDeps 1)

/-- The strides of `dims` replaced, dimension by dimension, by those of `source` (a
dimension without a counterpart in `source` keeps its stride). -/
def copyStrides : List TensorDimension → List TensorDimension → List TensorDimension
  | [], _ => []
  | d :: rest, [] => d :: rest
  | d :: rest, s :: source => { d with stride := s.stride } :: copyStrides rest source

/-- Modelled from the spec: what `FixupRefs` does to one refinement of an inner block: if it
borrows `var_name`, its location and strides become those of the refinement `cached`. -/
def FixupRefs.ref (cached : Refinement) (var_name : String) (refi : Refinement) : Refinement :=
  if refi.from_ = var_name then
    { refi with
      location := cached.location
      interior_shape :=
        { refi.interior_shape with
          dims := copyStrides refi.interior_shape.dims cached.interior_shape.dims } }
  else refi

/-- Modelled from the spec: what `FixupRefs` does to one statement: only a nested block is
touched, in its refinements. -/
def FixupRefs.stmt (cached : Refinement) (var_name : String) : Statement → Statement
  | Statement.Block inner =>
    Statement.Block { inner with refs := inner.refs.map (FixupRefs.ref cached var_name) }
  | Statement.Load tags deps from_ into => Statement.Load tags deps from_ into
  | Statement.Store tags deps from_ into => Statement.Store tags deps from_ into
  | Statement.Constant tags deps name type iconst =>
    Statement.Constant tags deps name type iconst
  | Statement.Special tags deps name params inputs outputs =>
    Statement.Special tags deps name params inputs outputs
  | Statement.Intrinsic tags deps name type inputs outputs =>
    Statement.Intrinsic tags deps name type inputs outputs

/-- Modelled from the spec: `FixupRefs(block, var_name)` (tile/codegen/localize.h is
missing), an external collaborator that is "to rewrite strides and locations in inner
blocks that referenced `V`, so they bind to the new cached refinement": the refinement
named `var_name` is looked up in the block, and the refinements of the nested blocks that
borrow it take its location and its strides. -/
def FixupRefs (block : Block) (var_name : String) : Block :=
  match ref_by_into block var_name with
  | none => block
  | some (_, cached) => { block with stmts := block.stmts.map (FixupRefs.stmt cached var_name) }

/-- The indices of the transfer block of `ApplyCache`, for the dimensions from position `i`
on: `Index{"i<i>", sizes[i]}` for every size above 1. -/
def xferIdxsFrom : Nat → List Nat → List Index
  | _, [] => []
  | i, size :: rest =>
    if size > 1 then { name := "i" ++ toString i, range := size } :: xferIdxsFrom (i + 1) rest
    else xferIdxsFrom (i + 1) rest

/-- The access `xfer_access` of the transfer block of `ApplyCache`, for the dimensions from
position `i` on: `Affine("i<i>")` for a size above 1, `Affine()` otherwise. -/
def xferAccessFrom : Nat → List Nat → List Affine
  | _, [] => []
  | i, size :: rest =>
    (if size > 1 then Affine.term ("i" ++ toString i) else {}) :: xferAccessFrom (i + 1) rest

/-- The loop `dims[i].size = 1` of `ApplyCache` over all the dimensions of a shape. -/
def unitSizes (shape : TensorShape) : TensorShape :=
  { shape with dims := shape.dims.map (fun d => { d with size := 1 }) }

/-- The refinement `src` of the transfer block of `ApplyCache` as first built: `dir = In`,
borrowing `var_name`, with the dense shape cut down to unit sizes and the location,
constness, offset and bank dimension of the located refinement `it`. -/
def ApplyCache.src (it : Refinement) (var_name : String) : Refinement :=
  { dir := RefDir.In, from_ := var_name, into := "src",
    access := xferAccessFrom 0 it.interior_shape.sizes,
    interior_shape := unitSizes (SimpleShape it.interior_shape.type it.interior_shape.sizes),
    agg_op := "", location := it.location,
    is_const := it.is_const, offset := it.offset, bank_dim := it.bank_dim }

/-- The refinement `dst` of the transfer block of `ApplyCache` as first built: like `src`
with `dir = Out`. -/
def ApplyCache.dst (it : Refinement) (var_name : String) : Refinement :=
  { dir := RefDir.Out, from_ := var_name, into := "dst",
    access := xferAccessFrom 0 it.interior_shape.sizes,
    interior_shape := unitSizes (SimpleShape it.interior_shape.type it.interior_shape.sizes),
    agg_op := "", location := it.location,
    is_const := it.is_const, offset := it.offset, bank_dim := it.bank_dim }

/-- The base block `xfer_block` of `ApplyCache` for the located refinement `it`: located at
`xfer_loc`, with the indices, the two refinements and the statements `Load("src", "$X")`,
`Store("$X", "dst")`. -/
def ApplyCache.xfer_block (it : Refinement) (var_name : String) (xfer_loc : Location) : Block :=
  { location := xfer_loc
    idxs := xferIdxsFrom 0 it.interior_shape.sizes
    refs := [ApplyCache.src it var_name, ApplyCache.dst it var_name]
    stmts := [Statement.Load [] [] "src" "$X", Statement.Store [] [] "$X" "dst"] }

/-- The block `cache_load` of `ApplyCache`: a copy of `xfer_block` named `load_<var_name>`,
tagged `{cache, cache_load}`, with `refs[0].from = raw_name`,
`refs[0].interior_shape = raw_xfer_shape` and `refs[1].location = mem_loc`. -/
def ApplyCache.cache_load (it : Refinement) (var_name raw_name : String)
    (mem_loc xfer_loc : Location) : Block :=
  { ApplyCache.xfer_block it var_name xfer_loc with
    name := "load_" ++ var_name
    tags := ["cache", "cache_load"]
    refs := [
      { ApplyCache.src it var_name with
        from_ := raw_name, interior_shape := unitSizes it.interior_shape },
      { ApplyCache.dst it var_name with location := mem_loc }] }

/-- The block `cache_store` of `ApplyCache`: a copy of `xfer_block` named
`store_<var_name>`, tagged `{cache, cache_store}`, with `refs[1].from = raw_name`,
`refs[1].interior_shape = raw_xfer_shape` and `refs[0].location = mem_loc`. -/
def ApplyCache.cache_store (it : Refinement) (var_name raw_name : String)
    (mem_loc xfer_loc : Location) : Block :=
  { ApplyCache.xfer_block it var_name xfer_loc with
    name := "store_" ++ var_name
    tags := ["cache", "cache_store"]
    refs := [
      { ApplyCache.src it var_name with location := mem_loc },
      { ApplyCache.dst it var_name with
        from_ := raw_name, interior_shape := unitSizes it.interior_shape }] }

/-- The refinement that `ApplyCache` appends: the new declaration of `var_name` at
`mem_loc`, with the dense shape and a zero access in every dimension. -/
def ApplyCache.new_ref (it : Refinement) (var_name : String) (mem_loc : Location) : Refinement :=
  let cached_ts := SimpleShape it.interior_shape.type it.interior_shape.sizes
  { dir := RefDir.None, from_ := "", into := var_name,
    access := resize [] cached_ts.dims.length,
    interior_shape := cached_ts, agg_op := "", location := mem_loc }

/-- `ApplyCache` of cache.cc.  The function works on the block in place and may throw; the
result is the outcome together with the block as the call leaves it. -/
def ApplyCache (block : Block) (var_name : String) (mem_loc xfer_loc : Location) :
    Except String Unit × Block :=
  match ref_by_into block var_name with
  | none => (Except.error "ApplyCache: Invalid var_name", block)
  | some (pos, it) =>
    let raw_name := unique_ref_name block (var_name ++ "_raw")
    let refs1 := block.refs.set pos { it with into := raw_name }
    let stmts1 :=
      if IsReadDir it.dir then
        emplace_front
          (Statement.Block (ApplyCache.cache_load it var_name raw_name mem_loc xfer_loc))
          block.stmts
      else block.stmts
    let stmts2 :=
      if IsWriteDir it.dir then
        stmts1 ++ [Statement.Block (ApplyCache.cache_store it var_name raw_name mem_loc xfer_loc)]
      else stmts1
    let refs2 := refs1 ++ [ApplyCache.new_ref it var_name mem_loc]
    (Except.ok (), FixupRefs { block with refs := refs2, stmts := stmts2 } var_name)

/-- The shape of a transfer block as the specification words it, for the dimension sizes
`sizes`: located at `xfer_loc`; one index `i<i>` of range `sizes[i]` for every dimension
with `sizes[i] > 1`, in increasing order of `i`, and no other index; two refinements, each
with an access of one entry per dimension, the Affine of the index `i<i>` when
`sizes[i] > 1` and the zero Affine otherwise, and with every dimension size equal to 1. -/
def IsTransferBlock (sizes : List Nat) (xfer_loc : Location) (t : Block) : Prop :=
  t.location = xfer_loc ∧
  t.idxs = ((sizes.enum.filter (fun p => decide (p.2 > 1))).map
    (fun p => ({ name := "i" ++ toString p.1, range := p.2 } : Index))) ∧
  t.refs.length = 2 ∧
  ∀ r ∈ t.refs,
    r.access = sizes.enum.map
      (fun p => if p.2 > 1 then (⟨[("i" ++ toString p.1, 1)]⟩ : Affine) else {}) ∧
    ∀ d ∈ r.interior_shape.dims, d.size = 1

/-- A block `main` that reads the buffer `V` (dir In) through one load. -/
def cacheBlockIn : Block :=
  { name := "main",
    refs := [{ dir := RefDir.In, from_ := "V", into := "V", access := [{}],
               interior_shape := shape1 16, location := { name := "RAM" } }],
    stmts := [Statement.Load [] [] "V" "$x"] }

/-- A block like `cacheBlockIn` that already has a refinement named `V_raw`. -/
def cacheBlockTaken : Block :=
  { name := "main",
    refs := [{ dir := RefDir.In, from_ := "V", into := "V", access := [{}],
               interior_shape := shape1 16, location := { name := "RAM" } },
             { dir := RefDir.In, from_ := "W", into := "V_raw", access := [{}],
               interior_shape := shape1 16, location := { name := "RAM" } }],
    stmts := [Statement.Load [] [] "V" "$x"] }

/-- The refinement `V` of `cacheBlockIn` and `cacheBlockTaken`. -/
def refV : Refinement :=
  { dir := RefDir.In, from_ := "V", into := "V", access := [{}],
    interior_shape := shape1 16, location := { name := "RAM" } }

/-- The strides of a shape, dimension by dimension. -/
def TensorShape.strides (shape : TensorShape) : List Int := shape.dims.map (fun d => d.stride)

/-- The transfer block `t` copies from the buffer `src_from` to the buffer `dst_from`: its
two refinements are `src` (dir In), borrowing `src_from` at `src_loc` with the strides
`src_strides`, and `dst` (dir Out), borrowing `dst_from` at `dst_loc` with the strides
`dst_strides`; its body is exactly `Load("src" → "$X")` followed by `Store("$X" → "dst")`. -/
def CopiesFromTo (t : Block) (src_from : String) (src_loc : Location) (src_strides : List Int)
    (dst_from : String) (dst_loc : Location) (dst_strides : List Int) : Prop :=
  ∃ src dst : Refinement, t.refs = [src, dst] ∧
    src.dir = RefDir.In ∧ src.into = "src" ∧ src.from_ = src_from ∧ src.location = src_loc ∧
      src.interior_shape.strides = src_strides ∧
    dst.dir = RefDir.Out ∧ dst.into = "dst" ∧ dst.from_ = dst_from ∧ dst.location = dst_loc ∧
      dst.interior_shape.strides = dst_strides ∧
    t.stmts = [Statement.Load [] [] "src" "$X", Statement.Store [] [] "$X" "dst"]

/-- The loop of `CacheBlock` over the copy `refs` of the block's refinements:
`ApplyCache(block, ref.into, ...)` for every `ref` with `dirs.count(ref.dir)`; an exception
ends the loop.  The set `dirs` is a list. -/
def CacheBlock.loop (dirs : List RefDir) (mem_loc xfer_loc : Location) :
    List Refinement → Block → Except String Unit × Block
  | [], block => (Except.ok (), block)
  | ref :: rest, block =>
    if ref.dir ∈ dirs then
      match ApplyCache block ref.into mem_loc xfer_loc with
      | (Except.ok (), block') => CacheBlock.loop dirs mem_loc xfer_loc rest block'
      | (Except.error e, block') => (Except.error e, block')
    else CacheBlock.loop dirs mem_loc xfer_loc rest block

/-- `CacheBlock` of cache.cc: the loop runs over `auto refs = block->refs`, the refinements
as they are on entry. -/
def CacheBlock (block : Block) (dirs : List RefDir) (mem_loc xfer_loc : Location) :
    Except String Unit × Block :=
  CacheBlock.loop dirs mem_loc xfer_loc block.refs block

/-- `ApplyCache` called once for each name of `names`, in order, each call on the block as
the call before left it; a call that throws ends the sequence. -/
def ApplyCacheEach (mem_loc xfer_loc : Location) :
    List String → Block → Except String Unit × Block
  | [], block => (Except.ok (), block)
  | var_name :: rest, block =>
    match ApplyCache block var_name mem_loc xfer_loc with
    | (Except.ok (), block') => ApplyCacheEach mem_loc xfer_loc rest block'
    | (Except.error e, block') => (Except.error e, block')

/-- A block `main` with the refinements `a` (In), `t` (None) and `b` (Out). -/
def cacheBlockMixed : Block :=
  { name := "main",
    refs := [{ dir := RefDir.In, from_ := "a", into := "a", access := [{}],
               interior_shape := shape1 16, location := { name := "RAM" } },
             { dir := RefDir.None, from_ := "", into := "t", access := [{}],
               interior_shape := shape1 16, location := { name := "RAM" } },
             { dir := RefDir.Out, from_ := "b", into := "b", access := [{}],
               interior_shape := shape1 16, location := { name := "RAM" } }],
    stmts := [Statement.Load [] [] "a" "$x", Statement.Store [] [] "$x" "b"] }

/-! ## Pass driver (tile/codegen/driver.cc) -/

/-- Modelled from the spec: `proto::Pass::PassCase` (codegen.pb.h is missing), the "kind
discriminator" of a pass: the nineteen kinds of the `switch` of `Optimize`, and
`PASS_NOT_SET`, the unset kind, which falls to `default`. -/
inductive PassCase where
  | kCache | kComputeDeps | kFusion | kLocalize | kLocateBlock | kLocateInnerBlock
  | kLocateMemory | kMemoryPlacement | kScalarize | kSchedule | kStencil | kAutotile
  | kTranspose | kPartitionCompute | kPartitionMemory | kUnroll | kPruneIdxs | kPruneRefs
  | kThreadInner | PASS_NOT_SET
deriving DecidableEq, Repr

/-- Modelled from the spec: `proto::Pass` (codegen.pb.h is missing): a name, "a kind
discriminator and a per-kind options record", the record being of a type `ω` left open. -/
structure Pass (ω : Type) where
  name : String
  pass_case : PassCase
  options : ω

/-- Modelled from the spec: `proto::Config` (codegen.pb.h is missing), "listing passes in
order". -/
structure Config (ω : Type) where
  passes : List (Pass ω) := []

/-- The pass functions that `Optimize` dispatches to, one for each kind.  Each works on the
IR in place, given the options record of the pass, and may throw: its result is the outcome
together with the IR as the call leaves it. -/
structure PassFns (ω : Type) where
  CachePass : Block → ω → Except String Unit × Block
  ComputeDepsPass : Block → ω → Except String Unit × Block
  FusionPass : Block → ω → Except String Unit × Block
  LocalizePass : Block → ω → Except String Unit × Block
  LocateBlockPass : Block → ω → Except String Unit × Block
  LocateInnerBlockPass : Block → ω → Except String Unit × Block
  LocateMemoryPass : Block → ω → Except String Unit × Block
  MemPlacementPass : Block → ω → Except String Unit × Block
  ScalarizePass : Block → ω → Except String Unit × Block
  SchedulePass : Block → ω → Except String Unit × Block
  StencilPass : Block → ω → Except String Unit × Block
  AutotilePass : Block → ω → Except String Unit × Block
  TransposePass : Block → ω → Except String Unit × Block
  PartitionComputePass : Block → ω → Except String Unit × Block
  PartitionMemoryPass : Block → ω → Except String Unit × Block
  UnrollPass : Block → ω → Except String Unit × Block
  PruneIndexesPass : Block → ω → Except String Unit × Block
  PruneRefinementsPass : Block → ω → Except String Unit × Block
  ThreadInnerPass : Block → ω → Except String Unit × Block

/-- `struct OptimizeOptions` (used by driver.cc and test/schedule.cc). -/
structure OptimizeOptions where
  dump_passes : Bool := false
  dbg_dir : String := ""
deriving DecidableEq, Repr

/-- A file written by `DumpProgram`: the directory, the file name in it, and the program
whose text is written. -/
structure Dump where
  dbg_dir : String
  filename : String
  program : Block

/-- The file system as `DumpProgram` meets it.  `create_directory counter dir` is the outcome
of `boost::filesystem::create_directory(dir)` in the call of `DumpProgram` with that
counter: it returns normally (the directory is there afterwards) or throws a
`filesystem_error`, whose text is the error.  `opens dir filename` tells whether
`std::ofstream fout(path)` opens the path `dir / filename` for writing; the stream is not
checked, and what is sent to a stream that is not open is dropped. -/
structure FileSys where
  create_directory : Nat → String → Except String Unit
  opens : String → String → Bool

/-- The conversion `%02zu` of `boost::format`: the number in decimal, padded on the left
with zeros to a width of two. -/
def fmt02 (counter : Nat) : String :=
  "".pushn '0' (2 - (toString counter).length) ++ toString counter

/-- `DumpProgram`: with `dump_passes`, the directory `dbg_dir` is created, which may throw,
and the program is written to the file `<counter as %02zu>_<name>.txt` of `dbg_dir` if the
stream opens; `files` are the files written so far.  Without `dump_passes` nothing is
done. -/
def DumpProgram (fs : FileSys) (program : Block) (options : OptimizeOptions) (name : String)
    (counter : Nat) (files : List Dump) : Except String (List Dump) :=
  if options.dump_passes then
    match fs.create_directory counter options.dbg_dir with
    | Except.error e => Except.error e
    | Except.ok () =>
      if fs.opens options.dbg_dir (fmt02 counter ++ "_" ++ name ++ ".txt") then
        Except.ok (files ++ [{ dbg_dir := options.dbg_dir,
                               filename := fmt02 counter ++ "_" ++ name ++ ".txt",
                               program := program }])
      else Except.ok files
  else Except.ok files

/-- The `switch` of `Optimize` on `pass.pass_case()`: the pass function of the kind, on the
options record of the pass; `default` throws "Unsupported pass". -/
def Optimize.dispatch {ω : Type} (fns : PassFns ω) (pass : Pass ω) (block : Block) :
    Except String Unit × Block :=
  match pass.pass_case with
  | PassCase.kCache => fns.CachePass block pass.options
  | PassCase.kComputeDeps => fns.ComputeDepsPass block pass.options
  | PassCase.kFusion => fns.FusionPass block pass.options
  | PassCase.kLocalize => fns.LocalizePass block pass.options
  | PassCase.kLocateBlock => fns.LocateBlockPass block pass.options
  | PassCase.kLocateInnerBlock => fns.LocateInnerBlockPass block pass.options
  | PassCase.kLocateMemory => fns.LocateMemoryPass block pass.options
  | PassCase.kMemoryPlacement => fns.MemPlacementPass block pass.options
  | PassCase.kScalarize => fns.ScalarizePass block pass.options
  | PassCase.kSchedule => fns.SchedulePass block pass.options
  | PassCase.kStencil => fns.StencilPass block pass.options
  | PassCase.kAutotile => fns.AutotilePass block pass.options
  | PassCase.kTranspose => fns.TransposePass block pass.options
  | PassCase.kPartitionCompute => fns.PartitionComputePass block pass.options
  | PassCase.kPartitionMemory => fns.PartitionMemoryPass block pass.options
  | PassCase.kUnroll => fns.UnrollPass block pass.options
  | PassCase.kPruneIdxs => fns.PruneIndexesPass block pass.options
  | PassCase.kPruneRefs => fns.PruneRefinementsPass block pass.options
  | PassCase.kThreadInner => fns.ThreadInnerPass block pass.options
  | PassCase.PASS_NOT_SET => (Except.error ("Unsupported pass: " ++ pass.name), block)

/-- The loop of `Optimize` over the passes still to run, from the IR `block`, the value
`counter` and the files written so far: the pass is dispatched, then the program is dumped
under the name of the pass; an exception, of the pass or of the dump, ends the loop. -/
def Optimize.loop {ω : Type} (fns : PassFns ω) (fs : FileSys) (options : OptimizeOptions) :
    List (Pass ω) → Block → Nat → List Dump → Except String Unit × Block × List Dump
  | [], block, _, files => (Except.ok (), block, files)
  | pass :: rest, block, counter, files =>
    match Optimize.dispatch fns pass block with
    | (Except.ok (), block') =>
      match DumpProgram fs block' options pass.name counter files with
      | Except.ok files' => Optimize.loop fns fs options rest block' (counter + 1) files'
      | Except.error e => (Except.error e, block', files)
    | (Except.error e, block') => (Except.error e, block', files)

/-- `Optimize` of driver.cc: the outcome, the IR as the call leaves it, and the files
written. -/
def Optimize {ω : Type} (fns : PassFns ω) (fs : FileSys) (block : Block) (cfg : Config ω)
    (options : OptimizeOptions) : Except String Unit × Block × List Dump :=
  match DumpProgram fs block options "initial" 0 [] with
  | Except.ok files => Optimize.loop fns fs options cfg.passes block 1 files
  | Except.error e => (Except.error e, block, [])

/-- The IRs that the passes of a list leave one after the other, each pass applied to the
IR left by the one before it, provided every one of them returns normally. -/
def irAfter {ω : Type} (fns : PassFns ω) : List (Pass ω) → Block → Option (List Block)
  | [], _ => some []
  | pass :: rest, block =>
    match Optimize.dispatch fns pass block with
    | (Except.ok (), block') => (irAfter fns rest block').map (fun irs => block' :: irs)
    | (Except.error _, _) => none

/-- The IR left by the last pass of those that left `irs`, starting from `block`. -/
def lastIR (block : Block) (irs : List Block) : Block := (block :: irs).getLast (by simp)

/-- According to the specification ("dispatches on kind to the corresponding function"): the
pass function that corresponds to a kind, which is the one named after it; the unset kind
has none. -/
def specPassFunction {ω : Type} (fns : PassFns ω) :
    PassCase → Option (Block → ω → Except String Unit × Block)
  | PassCase.kCache => some fns.CachePass
  | PassCase.kComputeDeps => some fns.ComputeDepsPass
  | PassCase.kFusion => some fns.FusionPass
  | PassCase.kLocalize => some fns.LocalizePass
  | PassCase.kLocateBlock => some fns.LocateBlockPass
  | PassCase.kLocateInnerBlock => some fns.LocateInnerBlockPass
  | PassCase.kLocateMemory => some fns.LocateMemoryPass
  | PassCase.kMemoryPlacement => some fns.MemPlacementPass
  | PassCase.kScalarize => some fns.ScalarizePass
  | PassCase.kSchedule => some fns.SchedulePass
  | PassCase.kStencil => some fns.StencilPass
  | PassCase.kAutotile => some fns.AutotilePass
  | PassCase.kTranspose => some fns.TransposePass
  | PassCase.kPartitionCompute => some fns.PartitionComputePass
  | PassCase.kPartitionMemory => some fns.PartitionMemoryPass
  | PassCase.kUnroll => some fns.UnrollPass
  | PassCase.kPruneIdxs => some fns.PruneIndexesPass
  | PassCase.kPruneRefs => some fns.PruneRefinementsPass
  | PassCase.kThreadInner => some fns.ThreadInnerPass
  | PassCase.PASS_NOT_SET => none

/-- According to the specification: the passes `passes` are applied strictly in list order
from `block`, each to the IR left by the previous one (the first to `block`), and return
normally, leaving the IRs `irs` one after the other.  The pass at position `k` is of a
known kind; the function of its kind, given the IR before it (`block` for `k = 0`, else
`irs[k - 1]`) and the options of the pass, returns normally and leaves `irs[k]`. -/
def SpecAppliedInOrder {ω : Type} (fns : PassFns ω) (passes : List (Pass ω)) (block : Block)
    (irs : List Block) : Prop :=
  irs.length = passes.length ∧
  ∀ (k : Nat) (p : Pass ω), passes[k]? = some p →
    ∃ (f : Block → ω → Except String Unit × Block) (before after : Block),
      specPassFunction fns p.pass_case = some f ∧
      (block :: irs)[k]? = some before ∧ irs[k]? = some after ∧
      f before p.options = (Except.ok (), after)

/-- The files that a run over `passes` which left the IRs `irs` writes with `dump_passes`,
according to the specification: one for the initial IR, counter 0 and name `initial`, and
one after each pass, the `k`-th pass (from 1) with counter `k`. -/
def dumpsSpec (dbg_dir : String) (block : Block) (passes : List String) (irs : List Block) :
    List Dump :=
  { dbg_dir := dbg_dir, filename := fmt02 0 ++ "_" ++ "initial" ++ ".txt", program := block }
    :: ((List.zip passes irs).enumFrom 1).map
      (fun p => { dbg_dir := dbg_dir,
                  filename := fmt02 p.1 ++ "_" ++ p.2.1 ++ ".txt", program := p.2.2 })

/-- Pass functions that all leave the IR as it is and return normally. -/
def idFns : PassFns Unit :=
  { CachePass := fun b _ => (Except.ok (), b), ComputeDepsPass := fun b _ => (Except.ok (), b),
    FusionPass := fun b _ => (Except.ok (), b), LocalizePass := fun b _ => (Except.ok (), b),
    LocateBlockPass := fun b _ => (Except.ok (), b),
    LocateInnerBlockPass := fun b _ => (Except.ok (), b),
    LocateMemoryPass := fun b _ => (Except.ok (), b),
    MemPlacementPass := fun b _ => (Except.ok (), b),
    ScalarizePass := fun b _ => (Except.ok (), b), SchedulePass := fun b _ => (Except.ok (), b),
    StencilPass := fun b _ => (Except.ok (), b), AutotilePass := fun b _ => (Except.ok (), b),
    TransposePass := fun b _ => (Except.ok (), b),
    PartitionComputePass := fun b _ => (Except.ok (), b),
    PartitionMemoryPass := fun b _ => (Except.ok (), b),
    UnrollPass := fun b _ => (Except.ok (), b), PruneIndexesPass := fun b _ => (Except.ok (), b),
    PruneRefinementsPass := fun b _ => (Except.ok (), b),
    ThreadInnerPass := fun b _ => (Except.ok (), b) }

/-- A pass function that records its call in the name of the IR, to which it appends the
name `kind` of the function and the options it is given; given the options `throw` it
throws and leaves the IR as it is. -/
def tagPass (kind : String) (b : Block) (o : String) : Except String Unit × Block :=
  if o = "throw" then (Except.error (kind ++ ": failed"), b)
  else (Except.ok (), { b with name := b.name ++ " " ++ kind ++ "(" ++ o ++ ")" })

/-- Pass functions that record their calls in the name of the IR, each under its own name:
the name of the IR that a run leaves tells the functions called, their order and their
options. -/
def tagFns : PassFns String :=
  { CachePass := tagPass "CachePass", ComputeDepsPass := tagPass "ComputeDepsPass",
    FusionPass := tagPass "FusionPass", LocalizePass := tagPass "LocalizePass",
    LocateBlockPass := tagPass "LocateBlockPass",
    LocateInnerBlockPass := tagPass "LocateInnerBlockPass",
    LocateMemoryPass := tagPass "LocateMemoryPass",
    MemPlacementPass := tagPass "MemPlacementPass",
    ScalarizePass := tagPass "ScalarizePass", SchedulePass := tagPass "SchedulePass",
    StencilPass := tagPass "StencilPass", AutotilePass := tagPass "AutotilePass",
    TransposePass := tagPass "TransposePass",
    PartitionComputePass := tagPass "PartitionComputePass",
    PartitionMemoryPass := tagPass "PartitionMemoryPass",
    UnrollPass := tagPass "UnrollPass", PruneIndexesPass := tagPass "PruneIndexesPass",
    PruneRefinementsPass := tagPass "PruneRefinementsPass",
    ThreadInnerPass := tagPass "ThreadInnerPass" }

/-- A pass of kind `cache` named `a`, with the options `x`. -/
def cachePassA : Pass String := { name := "a", pass_case := PassCase.kCache, options := "x" }

/-- A pass of kind `fusion` named `b`, with the options `y`. -/
def fusionPassB : Pass String := { name := "b", pass_case := PassCase.kFusion, options := "y" }

/-- A pass of kind `unroll` named `u`, with the options `throw`. -/
def unrollPassU : Pass String :=
  { name := "u", pass_case := PassCase.kUnroll, options := "throw" }

/-- A pass named `q` whose kind is not set. -/
def unsetPass : Pass String := { name := "q", pass_case := PassCase.PASS_NOT_SET, options := "z" }

/-- A pass of kind `prune_refs` named `a/b`. -/
def slashPass : Pass Unit := { name := "a/b", pass_case := PassCase.kPruneRefs, options := () }

/-- The root block after the pass `cachePassA` under `tagFns`. -/
def rootAfterA : Block := { rootBlock with name := "program CachePass(x)" }

/-- The root block after the passes `cachePassA` and `fusionPassB` under `tagFns`. -/
def rootAfterAB : Block := { rootBlock with name := "program CachePass(x) FusionPass(y)" }

/-- A file system in which every directory can be created and every file of a directory
opens, unless its name has a `/` in it: the directories have no subdirectories. -/
def flatFs : FileSys :=
  { create_directory := fun _ _ => Except.ok (),
    opens := fun _ filename => !(filename.data.contains '/') }

/-- A file system in which every directory can be created and every file opens. -/
def okFs : FileSys :=
  { create_directory := fun _ _ => Except.ok (), opens := fun _ _ => true }

/-- A file system in which the directory `/nonexistent/x/y` cannot be created, its parent
being absent: `create_directory` throws. -/
def noDirFs : FileSys :=
  { create_directory := fun _ dir =>
      if dir = "/nonexistent/x/y" then
        Except.error "boost::filesystem::create_directory: No such file or directory"
      else Except.ok (),
    opens := fun dir filename =>
      decide (dir ≠ "/nonexistent/x/y") && !(filename.data.contains '/') }

/-- A configuration of a hundred passes. -/
def hundredPasses : Config Unit :=
  { passes := List.replicate 100 { name := "p", pass_case := PassCase.kPruneRefs, options := () } }

/-- A pass of kind `prune_refs` named `p`. -/
def prunePass : Pass Unit := { name := "p", pass_case := PassCase.kPruneRefs, options := () }

/-- The files written by the calls of `DumpProgram` that follow the passes named `names`,
which left the IRs `irs`, the first of them with the value `counter`, or the exception of
the first call that throws. -/
def dumpEach (fs : FileSys) (options : OptimizeOptions) :
    List String → List Block → Nat → List Dump → Except String (List Dump)
  | name :: names, ir :: irs, counter, files =>
    match DumpProgram fs ir options name counter files with
    | Except.ok files' => dumpEach fs options names irs (counter + 1) files'
    | Except.error e => Except.error e
  | _, _, _, files => Except.ok files

/-- An Affine with a constant term and two variables: `5 + 2*i - 3*j`. -/
def affineIJ : Affine := ⟨[("", 5), ("i", 2), ("j", -3)]⟩

/-- An environment for the names `i` and `j`. -/
def envIJ : String → Option Int := fun k => if k = "i" then some 4 else if k = "j" then some 1 else none

/-- The environment `envIJ` seen through the prefix `d1:`. -/
def envIJ1 : String → Option Int :=
  fun k => if k = "d1:i" then some 4 else if k = "d1:j" then some 1 else none

/-! ## Schedule pass (tile/codegen/schedule.h; schedule.cc is missing) -/

/-- Modelled from the spec: `proto::SchedulePass` (codegen.pb.h is missing), the options of
the schedule pass: "`reqs`, `mem_loc`, `mem_KiB: uint`, `alignment: uint`, `xfer_loc`". -/
structure SchedulePassOptions where
  reqs : Tags := []
  mem_loc : Location := {}
  mem_KiB : Nat := 0
  alignment : Nat := 0
  xfer_loc : Location := {}

/-- Modelled from the spec: the number of bytes of an element of the given type
(tile/base/shape.h is missing); the widths are those the names of the types tell. -/
def byte_width : DataType → Nat
  | DataType.INVALID => 0
  | DataType.BOOLEAN => 1
  | DataType.INT8 => 1
  | DataType.INT16 => 2
  | DataType.INT32 => 4
  | DataType.INT64 => 8
  | DataType.INT128 => 16
  | DataType.UINT8 => 1
  | DataType.UINT16 => 2
  | DataType.UINT32 => 4
  | DataType.UINT64 => 8
  | DataType.FLOAT16 => 2
  | DataType.FLOAT32 => 4
  | DataType.FLOAT64 => 8
  | DataType.PRNG => 4

/-- Modelled from the spec: `size_bytes(shape)` of a dense shape (tile/base/shape.h is
missing): the number of elements times the width of an element. -/
def size_bytes (shape : TensorShape) : Nat :=
  byte_width shape.type * shape.sizes.foldl (fun a b => a * b) 1

/-- The refinements of a statement: those of a nested block; no other statement has any. -/
def Statement.refs : Statement → List Refinement
  | Statement.Block b => b.refs
  | Statement.Load _ _ _ _ => []
  | Statement.Store _ _ _ _ => []
  | Statement.Constant _ _ _ _ _ => []
  | Statement.Special _ _ _ _ _ _ => []
  | Statement.Intrinsic _ _ _ _ _ _ => []

/-- The member `deps` of a statement. -/
def Statement.deps : Statement → List Nat
  | Statement.Block b => b.deps
  | Statement.Load _ deps _ _ => deps
  | Statement.Store _ deps _ _ => deps
  | Statement.Constant _ deps _ _ _ => deps
  | Statement.Special _ deps _ _ _ _ => deps
  | Statement.Intrinsic _ deps _ _ _ _ => deps

/-- The statement with its member `deps` replaced. -/
def Statement.setDeps (deps : List Nat) : Statement → Statement
  | Statement.Block b => Statement.Block { b with deps := deps }
  | Statement.Load tags _ from_ into => Statement.Load tags deps from_ into
  | Statement.Store tags _ from_ into => Statement.Store tags deps from_ into
  | Statement.Constant tags _ name type iconst => Statement.Constant tags deps name type iconst
  | Statement.Special tags _ name params inputs outputs =>
    Statement.Special tags deps name params inputs outputs
  | Statement.Intrinsic tags _ name type inputs outputs =>
    Statement.Intrinsic tags deps name type inputs outputs

/-- The statement has a refinement that borrows the buffer `buf` of the enclosing block. -/
def Statement.uses (buf : String) (s : Statement) : Bool :=
  s.refs.any (fun r => decide (r.dir ≠ RefDir.None) && decide (r.from_ = buf))

/-- The statement reads the buffer `buf`: it borrows it with a read direction. -/
def Statement.reads (buf : String) (s : Statement) : Bool :=
  s.refs.any (fun r => IsReadDir r.dir && decide (r.from_ = buf))

/-- The statement writes the buffer `buf`: it borrows it with a write direction. -/
def Statement.writes (buf : String) (s : Statement) : Bool :=
  s.refs.any (fun r => IsWriteDir r.dir && decide (r.from_ = buf))

/-- The positions, in increasing order, of the statements of a list that satisfy `p`. -/
def stmtsWhere (p : Statement → Bool) (stmts : List Statement) : List Nat :=
  (List.range stmts.length).filter
    (fun i => match stmts[i]? with
      | some s => p s
      | none => false)

/-- Modelled from the spec: an "external↔scratchpad twin pair (O, C)" of the block `B` being
scheduled: `source` is the refinement `O` of `B`, at position `pos` of `B.refs`; `users`
are the positions of the child statements with a refinement that borrows `O`; `swap_in` is
the position of the first child statement that reads `O` and `swap_out` that of the last
one that writes it, for a twin that needs the transfer. -/
structure SchedTwin where
  pos : Nat
  source : Refinement
  users : List Nat
  swap_in : Option Nat
  swap_out : Option Nat
deriving DecidableEq, Repr

/-- Modelled from the spec: the name of the scratchpad twin, "`into = r.from + "^<k>"` (k
monotonically incremented per base name, starting at 0)".  A buffer gets one twin for the
whole block, shared by the statements that use it (as `i2^0` and `t1^0` are in
`ScheduleTest.UsesTmps`), so that `k` is 0. -/
def SchedTwin.name (t : SchedTwin) : String := t.source.into ++ "^0"

/-- Modelled from the spec: the shape of the scratchpad twin, the "dense shape matching the
interior shape" of the buffer at the level of `B`. -/
def SchedTwin.shape (t : SchedTwin) : TensorShape :=
  SimpleShape t.source.interior_shape.type t.source.interior_shape.sizes

/-- The size of the scratchpad twin in bytes. -/
def SchedTwin.size (t : SchedTwin) : Nat := size_bytes t.shape

/-- The places in the schedule at which the twin is accessed.  Child statement `i` has the
place `3 * i + 1`, the swap-ins placed before it the place `3 * i`, and the swap-outs placed
after it the place `3 * i + 2`. -/
def SchedTwin.slots (t : SchedTwin) : List Nat :=
  (match t.swap_in with
    | some a => [3 * a]
    | none => [])
  ++ t.users.map (fun i => 3 * i + 1)
  ++ (match t.swap_out with
    | some w => [3 * w + 2]
    | none => [])

/-- Modelled from the spec: the live ranges of two twins overlap ("Live range of C: from
its first appearance ... through its last appearance"): the first access of each is not
after the last access of the other. -/
def SchedTwin.overlaps (t u : SchedTwin) : Bool :=
  t.slots.any (fun a => u.slots.any (fun b => decide (a ≤ b))) &&
    u.slots.any (fun b => t.slots.any (fun a => decide (b ≤ a)))

/-- Modelled from the spec: the twins of the block (section 4.4.1): a refinement `O` of `B`
gets a scratchpad twin when some child statement has a refinement borrowing it and `O`
"resolves (through the AliasMap for B) to a non-scratchpad location".  "A pure-temporary
allocation (originally `dir=None` in B) skips swap-in and swap-out"; otherwise the swap-in
goes "before the first such consumer" and the swap-out "after the last such producer". -/
def schedTwins (alias_map : AliasMap) (block : Block) (mem_loc : Location) : List SchedTwin :=
  block.refs.enum.filterMap (fun jO =>
    if stmtsWhere (Statement.uses jO.2.into) block.stmts ≠ [] ∧
        (match alias_map.info_ jO.2.into with
          | some info => decide (info.location ≠ mem_loc)
          | none => false) = true then
      some { pos := jO.1, source := jO.2,
             users := stmtsWhere (Statement.uses jO.2.into) block.stmts,
             swap_in :=
               if jO.2.dir = RefDir.None then none
               else (stmtsWhere (Statement.reads jO.2.into) block.stmts).head?,
             swap_out :=
               if jO.2.dir = RefDir.None then none
               else (stmtsWhere (Statement.writes jO.2.into) block.stmts).getLast? }
    else none)

/-- The least multiple of `alignment` that is not below `x`. -/
def alignUp (alignment x : Nat) : Nat := ((x + alignment - 1) / alignment) * alignment

/-- At `offset` the twin `t` would share bytes with a twin already placed whose live range
overlaps its own. -/
def SchedTwin.conflicts (t : SchedTwin) (offset : Nat) (placed : List (SchedTwin × Nat)) :
    Bool :=
  placed.any (fun p => t.overlaps p.1 && decide (offset < p.2 + p.1.size) &&
    decide (p.2 < offset + t.size))

/-- Modelled from the spec: the offset of one twin (section 4.4.2), first fit: the lowest
multiple of `alignment` at which the twin shares no byte with a placed twin whose live
range overlaps its own (the candidates are 0 and the aligned ends of the placed twins);
"if capacity is exceeded, fail with a fatal scheduling error". -/
def firstFit (options : SchedulePassOptions) (t : SchedTwin) (placed : List (SchedTwin × Nat)) :
    Except String Nat :=
  if options.alignment = 0 then Except.error "Schedule: invalid alignment"
  else
    match ((0 :: placed.map (fun p => alignUp options.alignment (p.2 + p.1.size))).insertionSort
        (fun a b => a ≤ b)).find? (fun c => !t.conflicts c placed) with
    | none => Except.error "Schedule: no offset"
    | some c =>
      if c + t.size ≤ options.mem_KiB * 1024 then Except.ok c
      else Except.error "Schedule: capacity exceeded"

/-- The twins of a list placed one after the other by `firstFit`, after those of
`placed`. -/
def placeTwins (options : SchedulePassOptions) :
    List SchedTwin → List (SchedTwin × Nat) → Except String (List (SchedTwin × Nat))
  | [], placed => Except.ok placed
  | t :: rest, placed =>
    match firstFit options t placed with
    | Except.error e => Except.error e
    | Except.ok c => placeTwins options rest (placed ++ [(t, c)])

/-- Modelled from the spec: the order in which the twins are placed, "first-fit decreasing
by size"; among twins of one size the one defined last comes first (the order that gives
the offsets of `ScheduleTest.CachesIO` and `ScheduleTest.UsesTmps`). -/
def placementOrder (twins : List SchedTwin) : List SchedTwin :=
  twins.reverse.insertionSort (fun a b => b.size ≤ a.size)

/-- A statement of the scheduled block: the swap-in of the twin of `B.refs[t]`, placed
before child statement `before`; child statement `i`; the swap-out of the twin of
`B.refs[t]`, placed after child statement `after`. -/
inductive SchedItem where
  | swapIn (t : Nat) (before : Nat)
  | stmt (i : Nat)
  | swapOut (t : Nat) (after : Nat)
deriving DecidableEq, Repr

/-- The place of a statement of the scheduled block (see `SchedTwin.slots`). -/
def SchedItem.slot : SchedItem → Nat
  | SchedItem.swapIn _ before => 3 * before
  | SchedItem.stmt i => 3 * i + 1
  | SchedItem.swapOut _ after => 3 * after + 2

/-- The statement of the scheduled block accesses the twin of `B.refs[j]`. -/
def SchedItem.accesses (twins : List SchedTwin) : SchedItem → Nat → Bool
  | SchedItem.swapIn t _, j => decide (t = j)
  | SchedItem.stmt i, j => twins.any (fun t => decide (t.pos = j) && decide (i ∈ t.users))
  | SchedItem.swapOut t _, j => decide (t = j)

/-- Modelled from the spec: the statements of the scheduled block in order (sections 4.4.3
and 4.4.4): the `n` child statements keep their order; each swap-in comes just before the
first consumer and each swap-out just after the last producer; transfers at one place are
in increasing order of offset (as in the fixtures of test/schedule.cc). -/
def schedItems (placed : List (SchedTwin × Nat)) (n : Nat) : List SchedItem :=
  (((placed.insertionSort (fun a b => a.2 ≤ b.2)).filterMap
      (fun p => p.1.swap_in.map (SchedItem.swapIn p.1.pos)))
    ++ (List.range n).map SchedItem.stmt
    ++ ((placed.insertionSort (fun a b => a.2 ≤ b.2)).filterMap
      (fun p => p.1.swap_out.map (SchedItem.swapOut p.1.pos)))).insertionSort
    (fun a b => a.slot ≤ b.slot)

/-- Modelled from the spec: the scratchpad refinement `r'` of section 4.4.1: "`dir = None`,
`location = mem_loc`, shape = dense shape ..., `access` = zero Affines", with its offset. -/
def SchedTwin.ref (t : SchedTwin) (mem_loc : Location) (offset : Nat) : Refinement :=
  { dir := RefDir.None, from_ := "", into := t.name,
    access := t.source.interior_shape.dims.map (fun _ => ({} : Affine)),
    interior_shape := t.shape, agg_op := "", location := mem_loc, offset := offset }

/-- The refinements of the scheduled block: those of `B`, each followed by its scratchpad
twin when it has one (the order of the fixtures of test/schedule.cc). -/
def schedRefs (placed : List (SchedTwin × Nat)) (mem_loc : Location)
    (refs : List Refinement) : List Refinement :=
  (refs.enum.map (fun jO =>
    match placed.find? (fun p => decide (p.1.pos = jO.1)) with
    | some p => [jO.2, p.1.ref mem_loc p.2]
    | none => [jO.2])).flatten

/-- Modelled from the spec: a refinement of a child statement re-bound (section 4.4.1):
"Redirect `r.from = r'.into`; set `r.location = mem_loc`; retain `r.dir`". -/
def rebind (twins : List SchedTwin) (mem_loc : Location) (r : Refinement) : Refinement :=
  if r.dir ≠ RefDir.None ∧ twins.any (fun t => decide (t.source.into = r.from_)) = true then
    { r with from_ := r.from_ ++ "^0", location := mem_loc }
  else r

/-- A child statement with the refinements of a nested block re-bound. -/
def Statement.rebind (twins : List SchedTwin) (mem_loc : Location) : Statement → Statement
  | Statement.Block b => Statement.Block { b with refs := b.refs.map (Stripe.rebind twins mem_loc) }
  | Statement.Load tags deps from_ into => Statement.Load tags deps from_ into
  | Statement.Store tags deps from_ into => Statement.Store tags deps from_ into
  | Statement.Constant tags deps name type iconst =>
    Statement.Constant tags deps name type iconst
  | Statement.Special tags deps name params inputs outputs =>
    Statement.Special tags deps name params inputs outputs
  | Statement.Intrinsic tags deps name type inputs outputs =>
    Statement.Intrinsic tags deps name type inputs outputs

/-- The refinement of a transfer block on the side of the buffer `O`: it borrows `O`, at
the location of `O`, with the strides of `O`. -/
def SchedTwin.outer (t : SchedTwin) (dir : RefDir) (into : String) : Refinement :=
  { dir := dir, from_ := t.source.into, into := into,
    access := xferAccessFrom 0 t.source.interior_shape.sizes,
    interior_shape := unitSizes t.source.interior_shape, agg_op := "",
    location := t.source.location }

/-- The refinement of a transfer block on the side of the scratchpad twin. -/
def SchedTwin.inner (t : SchedTwin) (mem_loc : Location) (dir : RefDir) (into : String) :
    Refinement :=
  { dir := dir, from_ := t.name, into := into,
    access := xferAccessFrom 0 t.source.interior_shape.sizes,
    interior_shape := unitSizes t.shape, agg_op := "", location := mem_loc }

/-- Modelled from the spec: the block `swap_in_<C.into>`, a "transfer block (structure per
§4.3 step 4–5) reading from O and writing to C". -/
def SchedTwin.swap_in_block (t : SchedTwin) (options : SchedulePassOptions)
    (deps : List Nat) : Block :=
  { name := "swap_in_" ++ t.name, deps := deps, location := options.xfer_loc,
    idxs := xferIdxsFrom 0 t.source.interior_shape.sizes,
    refs := [t.outer RefDir.In "src", t.inner options.mem_loc RefDir.Out "dst"],
    stmts := [Statement.Load [] [] "src" "$X", Statement.Store [] [] "$X" "dst"] }

/-- Modelled from the spec: the block `swap_out_<C.into>`, "reading from C and writing back
to O". -/
def SchedTwin.swap_out_block (t : SchedTwin) (options : SchedulePassOptions)
    (deps : List Nat) : Block :=
  { name := "swap_out_" ++ t.name, deps := deps, location := options.xfer_loc,
    idxs := xferIdxsFrom 0 t.source.interior_shape.sizes,
    refs := [t.inner options.mem_loc RefDir.In "src", t.outer RefDir.Out "dst"],
    stmts := [Statement.Load [] [] "src" "$X", Statement.Store [] [] "$X" "dst"] }

/-- The statement at position `q` of the schedule accesses the twin of `B.refs[j]`. -/
def accessAt (twins : List SchedTwin) (items : List SchedItem) (q j : Nat) : Bool :=
  match items[q]? with
  | some x => x.accesses twins j
  | none => false

/-- Modelled from the spec: the `deps` of the statement at position `p` of the schedule
(section 4.4.3), as positions.  The statement depends on the statement at an earlier
position `q` when, for a twin that both access, `q` is the last access before `p` (the
consumer that follows a swap-in depends on it, the swap-out depends on the last writer, a
statement on the producer of what it consumes; a later consumer depends on the statement
that used the twin last before it, as `sub_block_2` does in `ScheduleTest.UsesTmps`); when
`p` is the first access of a twin that occupies bytes of a twin whose last access is `q`
("eviction ordering"); and when the child statement at `p` depended on the child statement
at `q` before ("existing cross-statement deps are preserved"). -/
def schedDeps (twins : List SchedTwin) (placed : List (SchedTwin × Nat)) (stmts : List Statement)
    (items : List SchedItem) (p : Nat) : List Nat :=
  (List.range p).filter (fun q =>
    twins.any (fun t => accessAt twins items p t.pos && accessAt twins items q t.pos &&
      (List.range p).all (fun q' => !(decide (q < q') && accessAt twins items q' t.pos)))
    || placed.any (fun c => accessAt twins items p c.1.pos &&
        (List.range p).all (fun q' => !accessAt twins items q' c.1.pos) &&
        placed.any (fun d => decide (d.1.pos ≠ c.1.pos) &&
          decide (c.2 < d.2 + d.1.size) && decide (d.2 < c.2 + c.1.size) &&
          accessAt twins items q d.1.pos &&
          (List.range items.length).all
            (fun q' => !(decide (q < q') && accessAt twins items q' d.1.pos))))
    || (match items[p]?, items[q]? with
        | some (SchedItem.stmt i), some (SchedItem.stmt d) =>
          (match stmts[i]? with
            | some s => decide (d ∈ s.deps)
            | none => false)
        | _, _ => false))

/-- The statement of the scheduled block for an item of the schedule, with its `deps`. -/
def renderItem (twins : List SchedTwin) (options : SchedulePassOptions) (stmts : List Statement)
    (deps : List Nat) : SchedItem → Option Statement
  | SchedItem.swapIn j _ =>
    (twins.find? (fun t => decide (t.pos = j))).map
      (fun t => Statement.Block (t.swap_in_block options deps))
  | SchedItem.stmt i =>
    stmts[i]?.map (fun s => (s.rebind twins options.mem_loc).setDeps deps)
  | SchedItem.swapOut j _ =>
    (twins.find? (fun t => decide (t.pos = j))).map
      (fun t => Statement.Block (t.swap_out_block options deps))

/-- Modelled from the spec: `ScheduleBlock(alias_map, block, options)` (declared in
schedule.h; schedule.cc is missing), section 4.4: a refinement of a child statement that
names no refinement of the block, or none that the AliasMap knows, is a fatal error
("unknown refinement during twin lookup"); the twins are found and placed; the block gets
their refinements, the transfers and the re-bound child statements, with new `deps`. -/
def ScheduleBlock (alias_map : AliasMap) (block : Block) (options : SchedulePassOptions) :
    Except String Block :=
  if block.stmts.all (fun s => s.refs.all (fun r =>
      decide (r.dir = RefDir.None) ||
        ((ref_by_into block r.from_).isSome && (alias_map.info_ r.from_).isSome))) then
    match placeTwins options (placementOrder (schedTwins alias_map block options.mem_loc)) [] with
    | Except.error e => Except.error e
    | Except.ok placed =>
      Except.ok { block with
        refs := schedRefs placed options.mem_loc block.refs
        stmts := (schedItems placed block.stmts.length).enum.filterMap (fun x =>
          renderItem (schedTwins alias_map block options.mem_loc) options block.stmts
            (schedDeps (schedTwins alias_map block options.mem_loc) placed block.stmts
              (schedItems placed block.stmts.length) x.1) x.2) }
  else Except.error "Schedule: unknown refinement"

/-- `SchedulePass` of schedule.h: `ScheduleBlock` under `RunOnBlocks`. -/
def SchedulePass (root : Block) (options : SchedulePassOptions) : Except String Block :=
  match RunOnBlocks
      (fun map block (_ : Unit) =>
        match ScheduleBlock map block options with
        | Except.error e => Except.error e
        | Except.ok block' => Except.ok (block', ()))
      root options.reqs () with
  | Except.error e => Except.error e
  | Except.ok (root', _) => Except.ok root'

/-- The options of the fixture `ScheduleTest` of test/schedule.cc. -/
def scheduleOptions : SchedulePassOptions :=
  { reqs := ["main"], mem_loc := { name := "CACHE" }, mem_KiB := 1024, alignment := 16,
    xfer_loc := { name := "DMA" } }

/-- A refinement of the fixtures of test/schedule.cc: FLOAT32, 16 elements with stride 1,
one zero access, in `RAM`. -/
def fixRef (dir : RefDir) (from_ into : String) : Refinement :=
  { dir := dir, from_ := from_, into := into, access := [{}], interior_shape := shape1 16,
    location := { name := "RAM" } }

/-- The block `program` of the fixture `ScheduleTest` around a given block `main`. -/
def fixProgram (main : Block) : Block :=
  { name := "program",
    refs := [fixRef RefDir.None "" "i1", fixRef RefDir.None "" "i2", fixRef RefDir.None "" "o1"],
    stmts := [Statement.Block main] }

/-- The block `main` of the fixture `ScheduleTest` as set up (`EmptyMain`). -/
def fixMain : Block :=
  { name := "main", tags := ["main"],
    refs := [fixRef RefDir.In "i1" "i1", fixRef RefDir.In "i2" "i2", fixRef RefDir.Out "o1" "o1"] }

/-- The block `sub_block_1` of `ScheduleTest.CachesIO`. -/
def fixSub1 : Block :=
  { name := "sub_block_1",
    refs := [fixRef RefDir.In "i1" "i1", fixRef RefDir.In "i2" "i2", fixRef RefDir.Out "o1" "o1"] }

/-- The block `main` of `ScheduleTest.CachesIO`. -/
def fixMainCaches : Block := { fixMain with stmts := [Statement.Block fixSub1] }

/-- The block `sub_block_1` of `ScheduleTest.UsesTmps`. -/
def fixTmp1 : Block :=
  { name := "sub_block_1",
    refs := [fixRef RefDir.In "i1" "i1", fixRef RefDir.In "i2" "i2", fixRef RefDir.Out "t1" "t1"] }

/-- The block `sub_block_2` of `ScheduleTest.UsesTmps`. -/
def fixTmp2 : Block :=
  { name := "sub_block_2",
    refs := [fixRef RefDir.In "t1" "t1", fixRef RefDir.In "i2" "i2", fixRef RefDir.Out "o1" "o1"] }

/-- The block `main` of `ScheduleTest.UsesTmps`. -/
def fixMainTmps : Block :=
  { fixMain with
    refs := fixMain.refs ++ [fixRef RefDir.None "" "t1"]
    stmts := [Statement.Block fixTmp1, Statement.Block fixTmp2] }

/-- A scratchpad refinement as the fixtures of test/schedule.cc expect it: FLOAT32, 16
elements with stride 1, one zero access, in `CACHE`, at the given offset. -/
def fixTwin (into : String) (offset : Nat) : Refinement :=
  { into := into, access := [{}], interior_shape := shape1 16, location := { name := "CACHE" },
    offset := offset }

/-- A refinement of a transfer block as the fixtures of test/schedule.cc expect it: the
access `i0`, one element with stride 1. -/
def fixXfer (dir : RefDir) (from_ into loc : String) : Refinement :=
  { dir := dir, from_ := from_, into := into, access := [⟨[("i0", 1)]⟩],
    interior_shape := shape1 1, location := { name := loc } }

/-- A transfer block as the fixtures of test/schedule.cc expect it: located at `DMA`, with
the index `i0` of range 16, a load from `src` and a store to `dst`. -/
def fixSwap (name : String) (deps : List Nat) (src dst : Refinement) : Block :=
  { name := name, deps := deps, location := { name := "DMA" },
    idxs := [{ name := "i0", range := 16 }], refs := [src, dst],
    stmts := [Statement.Load [] [] "src" "$X", Statement.Store [] [] "$X" "dst"] }

/-- A refinement of a child block after scheduling, as the fixtures expect it: bound to the
scratchpad twin, in `CACHE`. -/
def fixBound (dir : RefDir) (from_ into : String) : Refinement :=
  { dir := dir, from_ := from_, into := into, access := [{}], interior_shape := shape1 16,
    location := { name := "CACHE" } }

/-- The block `main` that `ScheduleTest.CachesIO` expects. -/
def fixMainCachesExpected : Block :=
  { name := "main", tags := ["main"],
    refs := [fixRef RefDir.In "i1" "i1", fixTwin "i1^0" 128,
             fixRef RefDir.In "i2" "i2", fixTwin "i2^0" 64,
             fixRef RefDir.Out "o1" "o1", fixTwin "o1^0" 0],
    stmts := [
      Statement.Block (fixSwap "swap_in_i2^0" []
        (fixXfer RefDir.In "i2" "src" "RAM") (fixXfer RefDir.Out "i2^0" "dst" "CACHE")),
      Statement.Block (fixSwap "swap_in_i1^0" []
        (fixXfer RefDir.In "i1" "src" "RAM") (fixXfer RefDir.Out "i1^0" "dst" "CACHE")),
      Statement.Block
        { name := "sub_block_1", deps := [0, 1],
          refs := [fixBound RefDir.In "i1^0" "i1", fixBound RefDir.In "i2^0" "i2",
                   fixBound RefDir.Out "o1^0" "o1"] },
      Statement.Block (fixSwap "swap_out_o1^0" [2]
        (fixXfer RefDir.In "o1^0" "src" "CACHE") (fixXfer RefDir.Out "o1" "dst" "RAM"))] }

/-- The block `main` that `ScheduleTest.UsesTmps` expects. -/
def fixMainTmpsExpected : Block :=
  { name := "main", tags := ["main"],
    refs := [fixRef RefDir.In "i1" "i1", fixTwin "i1^0" 64,
             fixRef RefDir.In "i2" "i2", fixTwin "i2^0" 128,
             fixRef RefDir.Out "o1" "o1", fixTwin "o1^0" 64,
             fixRef RefDir.None "" "t1", fixTwin "t1^0" 0],
    stmts := [
      Statement.Block (fixSwap "swap_in_i1^0" []
        (fixXfer RefDir.In "i1" "src" "RAM") (fixXfer RefDir.Out "i1^0" "dst" "CACHE")),
      Statement.Block (fixSwap "swap_in_i2^0" []
        (fixXfer RefDir.In "i2" "src" "RAM") (fixXfer RefDir.Out "i2^0" "dst" "CACHE")),
      Statement.Block
        { name := "sub_block_1", deps := [0, 1],
          refs := [fixBound RefDir.In "i1^0" "i1", fixBound RefDir.In "i2^0" "i2",
                   fixBound RefDir.Out "t1^0" "t1"] },
      Statement.Block
        { name := "sub_block_2", deps := [2],
          refs := [fixBound RefDir.In "t1^0" "t1", fixBound RefDir.In "i2^0" "i2",
                   fixBound RefDir.Out "o1^0" "o1"] },
      Statement.Block (fixSwap "swap_out_o1^0" [3]
        (fixXfer RefDir.In "o1^0" "src" "CACHE") (fixXfer RefDir.Out "o1" "dst" "RAM"))] }
mutual
/-- Equality of two statements, as a test. -/
def Statement.same : Statement → Statement → Bool
  | Statement.Load tags deps from_ into, Statement.Load tags' deps' from_' into' =>
    decide (tags = tags') && decide (deps = deps') && decide (from_ = from_') &&
      decide (into = into')
  | Statement.Store tags deps from_ into, Statement.Store tags' deps' from_' into' =>
    decide (tags = tags') && decide (deps = deps') && decide (from_ = from_') &&
      decide (into = into')
  | Statement.Constant tags deps name type iconst,
      Statement.Constant tags' deps' name' type' iconst' =>
    decide (tags = tags') && decide (deps = deps') && decide (name = name') &&
      decide (type = type') && decide (iconst = iconst')
  | Statement.Special tags deps name params inputs outputs,
      Statement.Special tags' deps' name' params' inputs' outputs' =>
    decide (tags = tags') && decide (deps = deps') && decide (name = name') &&
      decide (params = params') && decide (inputs = inputs') && decide (outputs = outputs')
  | Statement.Intrinsic tags deps name type inputs outputs,
      Statement.Intrinsic tags' deps' name' type' inputs' outputs' =>
    decide (tags = tags') && decide (deps = deps') && decide (name = name') &&
      decide (type = type') && decide (inputs = inputs') && decide (outputs = outputs')
  | Statement.Block ⟨tags, deps, name, comments, idxs, constraints, refs, stmts, location⟩,
      Statement.Block
        ⟨tags', deps', name', comments', idxs', constraints', refs', stmts', location'⟩ =>
    decide (tags = tags') && decide (deps = deps') && decide (name = name') &&
      decide (comments = comments') && decide (idxs = idxs') &&
      decide (constraints = constraints') && decide (refs = refs') &&
      decide (location = location') && Statement.sameList stmts stmts'
  | _, _ => false

/-- Equality of two lists of statements, as a test. -/
def Statement.sameList : List Statement → List Statement → Bool
  | [], [] => true
  | a :: as, b :: bs => Statement.same a b && Statement.sameList as bs
  | _, _ => false
end

/-- The result is the normal return of the block `b`, as a test. -/
def returnsBlock (r : Except String Block) (b : Block) : Bool :=
  match r with
  | Except.ok b' => Statement.same (Statement.Block b') (Statement.Block b)
  | Except.error _ => false

/-- A placement is sound: every offset is a multiple of the alignment, every twin ends
within the capacity, and two twins whose live ranges overlap occupy disjoint byte
intervals. -/
def PlacedOk (options : SchedulePassOptions) (placed : List (SchedTwin × Nat)) : Prop :=
  (∀ p ∈ placed, options.alignment ∣ p.2 ∧ p.2 + p.1.size ≤ options.mem_KiB * 1024) ∧
  placed.Pairwise (fun a b =>
    a.1.overlaps b.1 = true → a.2 + a.1.size ≤ b.2 ∨ b.2 + b.1.size ≤ a.2)

/-- The live ranges of the buffers `c` and `d` overlap in a list of statements ("Live range
of C: from its first appearance ... through its last appearance"): an appearance of `c`
is not after one of `d`, and an appearance of `d` is not after one of `c`. -/
def LiveOverlap (stmts : List Statement) (c d : String) : Prop :=
  (∃ (p q : Nat) (s s' : Statement), p ≤ q ∧ stmts[p]? = some s ∧ stmts[q]? = some s' ∧
    s.uses c = true ∧ s'.uses d = true) ∧
  (∃ (q p : Nat) (s' s : Statement), q ≤ p ∧ stmts[q]? = some s' ∧ stmts[p]? = some s ∧
    s'.uses d = true ∧ s.uses c = true)

/-- The AliasMap with which `RunOnBlocks` visits the block `main` of a fixture of
test/schedule.cc: that of `main` inside `program`. -/
def fixAliasMap (main : Block) : AliasMap :=
  match AliasMap.nest [fixProgram main, main] with
  | Except.ok map => map
  | Except.error _ => AliasMap.root

/-- The options `proto::CachePass` of the cache pass, as `CachePass` of cache.cc reads
them: `reqs`, `dirs`, `mem_loc` and `xfer_loc`. -/
structure CachePassOptions where
  reqs : Tags := []
  dirs : List RefDir := []
  mem_loc : Location := {}
  xfer_loc : Location := {}

/-- `CachePass` of cache.cc: `CacheBlock` under `RunOnBlocks`. -/
def CachePass (root : Block) (options : CachePassOptions) : Except String Block :=
  match RunOnBlocks
      (fun _map block (_ : Unit) =>
        match CacheBlock block options.dirs options.mem_loc options.xfer_loc with
        | (Except.error e, _) => Except.error e
        | (Except.ok (), block') => Except.ok (block', ()))
      root options.reqs () with
  | Except.error e => Except.error e
  | Except.ok (root', _) => Except.ok root'

/-- A nested block that borrows `V` in both directions, with the given name and deps. -/
def cacheChild (name : String) (deps : List Nat) : Block :=
  { name := name, deps := deps,
    refs := [{ dir := RefDir.InOut, from_ := "V", into := "v", access := [{}],
               interior_shape := shape1 16, location := { name := "RAM" } }] }

/-- A block `main` with the refinement `V` (InOut) and two nested blocks that borrow it, the
second depending on the first. -/
def cacheBlockDeps : Block :=
  { name := "main",
    refs := [{ dir := RefDir.InOut, from_ := "V", into := "V", access := [{}],
               interior_shape := shape1 16, location := { name := "RAM" } }],
    stmts := [Statement.Block (cacheChild "first" []),
              Statement.Block (cacheChild "second" [0])] }

/-- The chain of borrows by which the innermost block of a path (given innermost block
first) reaches the buffer it knows as `name`: the refinement named `name`, with the depth
of its block, followed, when it borrows, by the chain of its `from` in the enclosing
blocks, down to the allocating refinement. -/
def borrowChain : List Block → String → List (Nat × Refinement)
  | [], _ => []
  | b :: enclosing, name =>
    match refByInto name 0 b.refs with
    | none => []
    | some (_, r) =>
      if r.dir = RefDir.None then [(enclosing.length + 1, r)]
      else (enclosing.length + 1, r) :: borrowChain enclosing r.from_

/-- The sum, over a chain of borrows, of `ref.access[i]` of each level evaluated under the
index assignment `envs k` of the depth `k` of that level. -/
def chainAccess (envs : Nat → String → Option Int) (i : Nat)
    (chain : List (Nat × Refinement)) : Int :=
  (chain.map (fun kr => (kr.2.access.getD i {}).eval (envs kr.1))).sum

/-- The union of the index assignments `envs k` of the depths `k`, over the renamed names:
the name `"d<k>:" + v` has the value that `v` has at depth `k`. -/
def unionEnv (envs : Nat → String → Option Int) (s : String) : Option Int :=
  match s.data with
  | 'd' :: rest =>
    envs (digitsVal (rest.takeWhile (fun c => decide (c ≠ ':'))))
      ⟨(rest.dropWhile (fun c => decide (c ≠ ':'))).drop 1⟩
  | _ => none

/-- Every entry of the map `m`, built along `path`, has as access, in each dimension, a
polynomial whose value under the union of the index assignments is the sum over the chain
of borrows of the accesses of the levels, each under the assignment of its depth. -/
def AliasMap.AccessTraced (path : List Block) (m : AliasMap) : Prop :=
  ∀ name info, m.info_ name = some info →
    ∀ (envs : Nat → String → Option Int) (i : Nat) (a : Affine), info.access[i]? = some a →
      a.eval (unionEnv envs) = chainAccess envs i (borrowChain path.reverse name)

/-- A block nested in `innerBlock` that borrows `x` as `y`, one element at a time at
offset `i`, with an index again named `i`, of range 4. -/
def innermostBlock : Block :=
  { name := "inner", idxs := [{ name := "i", range := 4 }],
    refs := [{ dir := RefDir.In, from_ := "x", into := "y", access := [⟨[("i", 1)]⟩],
               interior_shape := shape1 1, location := { name := "RAM" } }] }

/-- A block nested in `rootBlock` with two views of `A`, eight elements each: `x` from
element 0 and `z` from element 6. -/
def viewsBlock : Block :=
  { name := "views",
    refs := [{ dir := RefDir.In, from_ := "A", into := "x", access := [{}],
               interior_shape := shape1 8, location := { name := "RAM" } },
             { dir := RefDir.In, from_ := "A", into := "z", access := [⟨[("", 6)]⟩],
               interior_shape := shape1 8, location := { name := "RAM" } }] }

/-- A block nested in `viewsBlock` with two tiles of four elements: `a`, the elements 4..7
of `x`, and `b`, the elements 0..3 of `z`; both hold the elements 6 and 7 of `A`. -/
def tilesBlock : Block :=
  { name := "tiles",
    refs := [{ dir := RefDir.In, from_ := "x", into := "a", access := [⟨[("", 4)]⟩],
               interior_shape := shape1 4, location := { name := "RAM" } },
             { dir := RefDir.In, from_ := "z", into := "b", access := [{}],
               interior_shape := shape1 4, location := { name := "RAM" } }] }

/-- The entry of `a` in the map of `tilesBlock` in `viewsBlock` in `rootBlock`. -/
def entryTileA : AliasInfo :=
  { base_block := some 1, base_ref := some 0, base_name := "d1:A", access := [⟨[("", 4)]⟩],
    extents := [{ min := 4, max := 7 }], location := { name := "RAM" }, shape := shape1 4 }

/-- The entry of `b` in the map of `tilesBlock` in `viewsBlock` in `rootBlock`. -/
def entryTileB : AliasInfo :=
  { base_block := some 1, base_ref := some 0, base_name := "d1:A", access := [⟨[("", 6)]⟩],
    extents := [{ min := 0, max := 3 }], location := { name := "RAM" }, shape := shape1 4 }
/-- A view `lo` of `A`, two elements at a time, at offset `2 * i`. -/
def loRef : Refinement :=
  { dir := RefDir.In, from_ := "A", into := "lo", access := [⟨[("i", 2)]⟩],
    interior_shape := shape1 2, location := { name := "RAM" } }

/-- A view `hi` of `A`, two elements at a time, at offset `8 + 2 * i`. -/
def hiRef : Refinement :=
  { dir := RefDir.In, from_ := "A", into := "hi", access := [⟨[("", 8), ("i", 2)]⟩],
    interior_shape := shape1 2, location := { name := "RAM" } }

/-- A block nested in `rootBlock` with an index `i` of range 2 and the views `lo` and `hi`
of `A`: the elements 0..3 and the elements 8..11. -/
def splitBlock : Block :=
  { name := "split", idxs := [{ name := "i", range := 2 }], refs := [loRef, hiRef] }

/-- The entry of `lo` in the map of `splitBlock` in `rootBlock`. -/
def entryLo : AliasInfo :=
  { base_block := some 1, base_ref := some 0, base_name := "d1:A",
    access := [⟨[("d2:i", 2)]⟩], extents := [{ min := 0, max := 3 }],
    location := { name := "RAM" }, shape := shape1 2 }

/-- The entry of `hi` in the map of `splitBlock` in `rootBlock`. -/
def entryHi : AliasInfo :=
  { base_block := some 1, base_ref := some 0, base_name := "d1:A",
    access := [⟨[("", 8), ("d2:i", 2)]⟩], extents := [{ min := 8, max := 11 }],
    location := { name := "RAM" }, shape := shape1 2 }

theorem ltChars_irrefl (l : List Char) : ltChars l l = false := by
  induction l with
  | nil => rfl
  | cons a l ih => simp [ltChars, ih]

theorem ltChars_asymm (a b : List Char) (h : ltChars a b = true) : ltChars b a = false := by
  induction a generalizing b with
  | nil => cases b <;> simp [ltChars] at h ⊢
  | cons x a ih =>
    cases b with
    | nil => simp [ltChars] at h
    | cons y b =>
      simp only [ltChars, Bool.or_eq_true, Bool.and_eq_true, decide_eq_true_eq] at h
      simp only [ltChars, Bool.or_eq_false_iff, Bool.and_eq_false_iff, decide_eq_false_iff_not]
      rcases h with h | ⟨h1, h2⟩
      · exact ⟨by omega, Or.inl (by omega)⟩
      · exact ⟨by omega, Or.inr (ih b h2)⟩

theorem ltChars_trans (a b c : List Char) (hab : ltChars a b = true) (hbc : ltChars b c = true) :
    ltChars a c = true := by
  induction a generalizing b c with
  | nil =>
    cases b with
    | nil => simp [ltChars] at hab
    | cons y b =>
      cases c with
      | nil => simp [ltChars] at hbc
      | cons z c => simp [ltChars]
  | cons x a ih =>
    cases b with
    | nil => simp [ltChars] at hab
    | cons y b =>
      cases c with
      | nil => simp [ltChars] at hbc
      | cons z c =>
        simp only [ltChars, Bool.or_eq_true, Bool.and_eq_true, decide_eq_true_eq] at hab hbc ⊢
        rcases hab with h | ⟨h1, h2⟩ <;> rcases hbc with h' | ⟨h1', h2'⟩
        · exact Or.inl (by omega)
        · exact Or.inl (by omega)
        · exact Or.inl (by omega)
        · exact Or.inr ⟨by omega, ih b c h2 h2'⟩

theorem ltChars_total (a b : List Char) (hne : a ≠ b) (h : ltChars a b = false) :
    ltChars b a = true := by
  induction a generalizing b with
  | nil =>
    cases b with
    | nil => exact absurd rfl hne
    | cons y b => simp [ltChars] at h
  | cons x a ih =>
    cases b with
    | nil => simp [ltChars]
    | cons y b =>
      simp only [ltChars, Bool.or_eq_false_iff, Bool.and_eq_false_iff, decide_eq_false_iff_not] at h
      simp only [ltChars, Bool.or_eq_true, Bool.and_eq_true, decide_eq_true_eq]
      obtain ⟨h1, h2⟩ := h
      by_cases hxy : x.toNat = y.toNat
      · right
        have hxy' : x = y := by
          have := congrArg Char.ofNat hxy
          simpa [Char.ofNat_toNat] using this
        subst hxy'
        have hab : a ≠ b := fun e => hne (by rw [e])
        rcases h2 with h2 | h2
        · exact absurd rfl h2
        · exact ⟨rfl, ih b hab h2⟩
      · left
        omega

theorem keyLt_irrefl (k : String) : keyLt k k = false := ltChars_irrefl k.data

theorem keyLt_asymm (a b : String) (h : keyLt a b = true) : keyLt b a = false :=
  ltChars_asymm a.data b.data h

theorem keyLt_trans (a b c : String) (hab : keyLt a b = true) (hbc : keyLt b c = true) :
    keyLt a c = true :=
  ltChars_trans a.data b.data c.data hab hbc

theorem keyLt_total (a b : String) (hne : a ≠ b) (h : keyLt a b = false) : keyLt b a = true :=
  ltChars_total a.data b.data (fun e => hne (String.ext e)) h

/-- A term whose key is above every key of the map is appended at its end. -/
theorem Affine.addTerm_append (k : String) (c : Int) (hc : c ≠ 0) (l : List (String × Int))
    (hl : ∀ t ∈ l, keyLt t.1 k = true) : Affine.addTerm k c l = l ++ [(k, c)] := by
  induction l with
  | nil => simp [Affine.addTerm, hc]
  | cons t l ih =>
    obtain ⟨k', c'⟩ := t
    have hk : keyLt k' k = true := hl (k', c') (List.mem_cons_self _ _)
    have hne : k ≠ k' := by
      rintro rfl
      rw [keyLt_irrefl] at hk
      exact absurd hk (by decide)
    have hnlt : keyLt k k' = false := keyLt_asymm k' k hk
    simp [Affine.addTerm, hne, hnlt, ih (fun t ht => hl t (List.mem_cons_of_mem _ ht))]

/-- Adding the terms of a canonical map, in order, to a map below all of them appends
them. -/
theorem Affine.foldl_addTerm_append (l acc : List (String × Int))
    (hs : (acc ++ l).Pairwise (fun s t => keyLt s.1 t.1 = true)) (hnz : ∀ t ∈ l, t.2 ≠ 0) :
    l.foldl (fun acc t => Affine.addTerm t.1 t.2 acc) acc = acc ++ l := by
  induction l generalizing acc with
  | nil => simp
  | cons t l ih =>
    have hs' : ((acc ++ [t]) ++ l).Pairwise (fun s t => keyLt s.1 t.1 = true) := by
      simpa using hs
    have hlt : ∀ s ∈ acc, keyLt s.1 t.1 = true := by
      intro s hsmem
      exact (List.pairwise_append.1 hs).2.2 s hsmem t (List.mem_cons_self _ _)
    rw [List.foldl_cons, Affine.addTerm_append t.1 t.2 (hnz t (List.mem_cons_self _ _)) acc hlt,
      ih (acc ++ [t]) hs' (fun s hsmem => hnz s (List.mem_cons_of_mem _ hsmem))]
    simp

theorem Affine.mem_addTerm (k : String) (c : Int) (l : List (String × Int)) (t : String × Int)
    (ht : t ∈ Affine.addTerm k c l) : t.1 = k ∨ t ∈ l := by
  induction l with
  | nil =>
    by_cases hc : c = 0
    · simp [Affine.addTerm, hc] at ht
    · simp [Affine.addTerm, hc] at ht
      exact Or.inl (by rw [ht])
  | cons s l ih =>
    obtain ⟨k', c'⟩ := s
    by_cases hk : k = k'
    · subst hk
      by_cases hz : c' + c = 0
      · simp [Affine.addTerm, hz] at ht
        exact Or.inr (List.mem_cons_of_mem _ ht)
      · simp [Affine.addTerm, hz] at ht
        rcases ht with ht | ht
        · exact Or.inl (by rw [ht])
        · exact Or.inr (List.mem_cons_of_mem _ ht)
    · by_cases hlt : keyLt k k' = true
      · by_cases hc : c = 0
        · simp [Affine.addTerm, hk, hlt, hc] at ht
          exact Or.inr (by simpa using ht)
        · simp [Affine.addTerm, hk, hlt, hc] at ht
          rcases ht with ht | ht
          · exact Or.inl (by rw [ht])
          · exact Or.inr (by simpa using ht)
      · simp [Affine.addTerm, hk, hlt] at ht
        rcases ht with ht | ht
        · exact Or.inr (by rw [ht]; exact List.mem_cons_self _ _)
        · rcases ih ht with h | h
          · exact Or.inl h
          · exact Or.inr (List.mem_cons_of_mem _ h)

theorem Affine.addTerm_nonzero (k : String) (c : Int) (l : List (String × Int))
    (hl : ∀ t ∈ l, t.2 ≠ 0) : ∀ t ∈ Affine.addTerm k c l, t.2 ≠ 0 := by
  induction l with
  | nil =>
    intro t ht
    by_cases hc : c = 0
    · simp [Affine.addTerm, hc] at ht
    · simp [Affine.addTerm, hc] at ht
      rw [ht]; exact hc
  | cons s l ih =>
    obtain ⟨k', c'⟩ := s
    have hl' : ∀ t ∈ l, t.2 ≠ 0 := fun t ht => hl t (List.mem_cons_of_mem _ ht)
    have hc' : c' ≠ 0 := hl (k', c') (List.mem_cons_self _ _)
    intro t ht
    by_cases hk : k = k'
    · subst hk
      by_cases hz : c' + c = 0
      · simp [Affine.addTerm, hz] at ht
        exact hl' t ht
      · simp [Affine.addTerm, hz] at ht
        rcases ht with ht | ht
        · rw [ht]; exact hz
        · exact hl' t ht
    · by_cases hlt : keyLt k k' = true
      · by_cases hc : c = 0
        · simp [Affine.addTerm, hk, hlt, hc] at ht
          exact hl t (by simpa using ht)
        · simp [Affine.addTerm, hk, hlt, hc] at ht
          rcases ht with ht | ht
          · rw [ht]; exact hc
          · exact hl t (by simpa using ht)
      · simp [Affine.addTerm, hk, hlt] at ht
        rcases ht with ht | ht
        · rw [ht]; exact hc'
        · exact ih hl' t ht

theorem Affine.addTerm_sorted (k : String) (c : Int) (l : List (String × Int))
    (hl : l.Pairwise (fun s t => keyLt s.1 t.1 = true)) :
    (Affine.addTerm k c l).Pairwise (fun s t => keyLt s.1 t.1 = true) := by
  induction l with
  | nil =>
    by_cases hc : c = 0 <;> simp [Affine.addTerm, hc]
  | cons s l ih =>
    obtain ⟨k', c'⟩ := s
    obtain ⟨hhead, htail⟩ := List.pairwise_cons.1 hl
    by_cases hk : k = k'
    · subst hk
      by_cases hz : c' + c = 0
      · simpa [Affine.addTerm, hz] using htail
      · simp only [Affine.addTerm, hz, if_true, if_false]
        exact List.pairwise_cons.2 ⟨hhead, htail⟩
    · by_cases hlt : keyLt k k' = true
      · by_cases hc : c = 0
        · simpa [Affine.addTerm, hk, hlt, hc] using hl
        · simp only [Affine.addTerm, hk, hlt, hc, if_true, if_false]
          refine List.pairwise_cons.2 ⟨?_, hl⟩
          intro t ht
          rcases List.mem_cons.1 ht with ht | ht
          · rw [ht]; exact hlt
          · exact keyLt_trans k k' t.1 hlt (hhead t ht)
      · have hgt : keyLt k' k = true := keyLt_total k k' hk (by simpa using hlt)
        simp only [Affine.addTerm, hk, hlt, if_false]
        refine List.pairwise_cons.2 ⟨?_, ih htail⟩
        intro t ht
        rcases Affine.mem_addTerm k c l t ht with h | h
        · show keyLt k' t.1 = true
          rw [h]; exact hgt
        · exact hhead t h

theorem Affine.addTerm_WF (k : String) (c : Int) (a : Affine) (ha : a.WF) :
    Affine.WF ⟨Affine.addTerm k c a.map_⟩ :=
  ⟨Affine.addTerm_sorted k c a.map_ ha.1, Affine.addTerm_nonzero k c a.map_ ha.2⟩

theorem Affine.WF_zero : Affine.WF {} := by decide

theorem Affine.term_WF (name : String) (coeff : Int) : (Affine.term name coeff).WF :=
  Affine.addTerm_WF name coeff {} Affine.WF_zero

theorem Affine.addConst_WF (a : Affine) (c : Int) (ha : a.WF) : (a.addConst c).WF :=
  Affine.addTerm_WF "" c a ha

theorem Affine.add_WF (a b : Affine) (ha : a.WF) : (a + b).WF := by
  show Affine.WF ⟨b.map_.foldl (fun acc t => Affine.addTerm t.1 t.2 acc) a.map_⟩
  obtain ⟨l⟩ := b
  induction l generalizing a with
  | nil => exact ha
  | cons t l ih => exact ih ⟨Affine.addTerm t.1 t.2 a.map_⟩ (Affine.addTerm_WF t.1 t.2 a ha)

/-- The zero polynomial is a left unit on canonical forms. -/
theorem Affine.zero_add (b : Affine) (hb : b.WF) : ({} : Affine) + b = b := by
  show Affine.mk (b.map_.foldl (fun acc t => Affine.addTerm t.1 t.2 acc) []) = b
  rw [Affine.foldl_addTerm_append b.map_ [] (by simpa using hb.1) hb.2]
  simp

/-- `UniqifyAffine` returns a canonical form, whatever its argument. -/
theorem UniqifyAffine_WF (orig : Affine) (pfx : String) : (UniqifyAffine orig pfx).WF := by
  unfold UniqifyAffine
  suffices h : ∀ (l : List (String × Int)) (ret : Affine), ret.WF →
      (l.foldl (fun ret kvp =>
        if kvp.1 = "" then ret.addConst kvp.2
        else ret + Affine.term (pfx ++ kvp.1) kvp.2) ret).WF from
    h orig.map_ {} Affine.WF_zero
  intro l
  induction l with
  | nil => intro ret hret; exact hret
  | cons t l ih =>
    intro ret hret
    rw [List.foldl_cons]
    apply ih
    by_cases ht : t.1 = ""
    · simp only [ht, if_true]
      exact Affine.addConst_WF ret t.2 hret
    · simp only [ht, if_false]
      exact Affine.add_WF ret _ hret

/-! ## CheckOverlap and Compare -/

theorem CheckOverlap.loop_false (ae be : List Extent) :
    CheckOverlap.loop false ae be = false := by
  induction ae generalizing be with
  | nil => simp [CheckOverlap.loop]
  | cons a ae ih => cases be <;> simp [CheckOverlap.loop, ih]

theorem CheckOverlap.loop_comm (ret : Bool) (ae be : List Extent) :
    CheckOverlap.loop ret ae be = CheckOverlap.loop ret be ae := by
  induction ae generalizing ret be with
  | nil => cases be <;> simp [CheckOverlap.loop]
  | cons a ae ih =>
    cases be with
    | nil => simp [CheckOverlap.loop]
    | cons b be =>
      simp only [CheckOverlap.loop]
      rw [ih, Bool.and_assoc, Bool.and_assoc, Bool.and_comm (decide (b.min ≤ a.max))]

theorem CheckOverlap.loop_true_iff (ae be : List Extent) (hlen : ae.length = be.length) :
    CheckOverlap.loop true ae be = true ↔
      List.Forall₂ (fun a b => b.min ≤ a.max ∧ a.min ≤ b.max) ae be := by
  induction ae generalizing be with
  | nil =>
    cases be with
    | nil => simp [CheckOverlap.loop]
    | cons b be => simp at hlen
  | cons a ae ih =>
    cases be with
    | nil => simp at hlen
    | cons b be =>
      have hlen' : ae.length = be.length := by simpa using hlen
      simp only [CheckOverlap.loop, List.forall₂_cons, Bool.true_and]
      by_cases h1 : b.min ≤ a.max <;> by_cases h2 : a.min ≤ b.max <;>
        simp [h1, h2, ih be hlen', CheckOverlap.loop_false]

theorem CheckOverlap.loop_eq_spec (ae be : List Extent) :
    CheckOverlap.loop true ae be = OverlapSpec ae be := by
  suffices h : ∀ ret, CheckOverlap.loop ret ae be = (ret && OverlapSpec ae be) by simpa using h true
  induction ae generalizing be with
  | nil => intro ret; cases be <;> simp [CheckOverlap.loop, OverlapSpec]
  | cons a ae ih =>
    intro ret
    cases be with
    | nil => simp [CheckOverlap.loop, OverlapSpec]
    | cons b be =>
      have h := ih be ((ret && decide (b.min ≤ a.max)) && decide (a.min ≤ b.max))
      simp only [CheckOverlap.loop, h]
      simp only [OverlapSpec, List.zipWith_cons_cons, List.all_cons, id, Bool.decide_and,
        Bool.and_assoc]

theorem CheckOverlap_comm (ae be : List Extent) : CheckOverlap ae be = CheckOverlap be ae := by
  unfold CheckOverlap
  by_cases h : ae.length = be.length
  · simp [h, CheckOverlap.loop_comm true ae be]
  · have h' : ¬ be.length = ae.length := fun e => h e.symm
    simp [h, h']

theorem CheckOverlap_of_length (ae be : List Extent) (hlen : ae.length = be.length) :
    CheckOverlap ae be = Except.ok (CheckOverlap.loop true ae be) := by
  simp [CheckOverlap, hlen]

/-- The intervals of two boxes with a common point intersect in every dimension. -/
theorem forall₂_of_inBox (ae be : List Extent) (p : List Int)
    (ha : InBox p ae) (hb : InBox p be) :
    List.Forall₂ (fun a b => b.min ≤ a.max ∧ a.min ≤ b.max) ae be := by
  unfold InBox at ha hb
  induction ha generalizing be with
  | nil => cases hb; exact List.Forall₂.nil
  | cons hx _ ih =>
    cases hb with
    | cons hy hrest =>
      exact List.Forall₂.cons ⟨le_trans hy.1 hx.2, le_trans hx.1 hy.2⟩ (ih _ hrest)

/-- Non-empty intervals that intersect pairwise contain a common point. -/
theorem exists_inBox_of_forall₂ (ae be : List Extent)
    (h : List.Forall₂ (fun a b => b.min ≤ a.max ∧ a.min ≤ b.max) ae be)
    (hae : ∀ e ∈ ae, e.min ≤ e.max) (hbe : ∀ e ∈ be, e.min ≤ e.max) :
    ∃ p, InBox p ae ∧ InBox p be := by
  induction h with
  | nil => exact ⟨[], List.Forall₂.nil, List.Forall₂.nil⟩
  | @cons a b ae be hab _ ih =>
    obtain ⟨p, hpa, hpb⟩ := ih (fun e he => hae e (List.mem_cons_of_mem _ he))
      (fun e he => hbe e (List.mem_cons_of_mem _ he))
    have ha := hae a (List.mem_cons_self _ _)
    have hb := hbe b (List.mem_cons_self _ _)
    refine ⟨max a.min b.min :: p, List.Forall₂.cons ⟨le_max_left _ _, ?_⟩ hpa,
      List.Forall₂.cons ⟨le_max_right _ _, ?_⟩ hpb⟩
    · exact max_le ha hab.1
    · exact max_le hab.2 hb

/-- C1: for every AliasInfo `a`, whatever its base name, shape, location, access and
extents, `AliasInfo::Compare(a, a)` returns `Exact`. -/
theorem Compare_self (a : AliasInfo) : AliasInfo.Compare a a = Except.ok AliasType.Exact := by
  simp [AliasInfo.Compare]

/-- C2: `AliasInfo::Compare(a, b)` and `AliasInfo::Compare(b, a)` have the same outcome:
the same AliasType when one returns, the same failure when one fails. -/
theorem Compare_comm (a b : AliasInfo) : AliasInfo.Compare a b = AliasInfo.Compare b a := by
  unfold AliasInfo.Compare
  rw [CheckOverlap_comm a.extents b.extents]
  by_cases hn : a.base_name = b.base_name
  · by_cases hs : a.shape = b.shape
    · by_cases hl : a.location = b.location
      · by_cases hacc : a.access = b.access
        · simp [hn, hs, hl, hacc]
        · have hacc' : ¬ b.access = a.access := fun e => hacc e.symm
          simp [hn, hs, hl, hacc, hacc']
      · have hl' : ¬ b.location = a.location := fun e => hl e.symm
        by_cases hacc : a.access = b.access
        · cases a.location.unit.isConstant <;> cases b.location.unit.isConstant <;>
            simp [hn, hs, hl, hl', hacc]
        · have hacc' : ¬ b.access = a.access := fun e => hacc e.symm
          cases a.location.unit.isConstant <;> cases b.location.unit.isConstant <;>
            simp [hn, hs, hl, hl', hacc, hacc']
    · have hs' : ¬ b.shape = a.shape := fun e => hs e.symm
      simp [hn, hs, hs']
  · have hn' : ¬ b.base_name = a.base_name := fun e => hn e.symm
    simp [hn, hn']

theorem forall₂_iff_index (ae be : List Extent) (hlen : ae.length = be.length) :
    List.Forall₂ (fun a b => b.min ≤ a.max ∧ a.min ≤ b.max) ae be ↔
      ∀ (i : Nat) (ha : i < ae.length) (hb : i < be.length),
        be[i].min ≤ ae[i].max ∧ ae[i].min ≤ be[i].max := by
  rw [List.forall₂_iff_get]
  simp [hlen]

/-- The cascade of `AliasInfo::Compare` with its bank test read as `DifferentBanks`. -/
theorem Compare_cases (a b : AliasInfo) :
    AliasInfo.Compare a b =
      if a.base_name ≠ b.base_name then Except.ok AliasType.None
      else if a.shape = b.shape then
        if DifferentBanks a b then Except.ok AliasType.None
        else if a.access = b.access then Except.ok AliasType.Exact
        else
          match CheckOverlap a.extents b.extents with
          | Except.error e => Except.error e
          | Except.ok overlap =>
            if !overlap then Except.ok AliasType.None else Except.ok AliasType.Partial
      else Except.ok AliasType.Partial := by
  have hbank : ((a.location.unit.isConstant && b.location.unit.isConstant
      && decide (a.location ≠ b.location)) = true) ↔ DifferentBanks a b := by
    simp [DifferentBanks, and_assoc]
  unfold AliasInfo.Compare
  by_cases hd : DifferentBanks a b
  · rw [if_pos (hbank.2 hd), if_pos hd]
  · rw [if_neg (fun h => hd (hbank.1 h)), if_neg hd]

/-- The polynomials of the concrete inputs are in canonical form. -/
theorem inputs_canonical :
    bankB.location.unit.WF ∧ (∀ a ∈ farA.access, a.WF) ∧ (∀ a ∈ invertedA.access, a.WF) ∧
      (∀ a ∈ borrowX.access, a.WF) ∧ (∀ a ∈ entryX.access, a.WF) := by
  decide

theorem Compare_bankA_bankB : AliasInfo.Compare bankA bankB = Except.ok AliasType.None := by
  decide

theorem Compare_bankA_wideA : AliasInfo.Compare bankA wideA = Except.ok AliasType.Partial := by
  decide

theorem Compare_bankA_farA : AliasInfo.Compare bankA farA = Except.ok AliasType.None := by
  decide

theorem Compare_bankA_farWideA :
    AliasInfo.Compare bankA farWideA = Except.ok AliasType.Partial := by
  decide

theorem Compare_bankA_shiftedA :
    AliasInfo.Compare bankA shiftedA = Except.ok AliasType.Exact := by
  decide

theorem Compare_bankA_invertedA :
    AliasInfo.Compare bankA invertedA = Except.ok AliasType.Partial := by
  decide

/-- C3 fails as stated: `bankA` and `bankB` have the same base name and the same extents
(elements 0..3, so element 0 lies in both boxes), yet `Compare` returns `None`, because
they sit in different banks. -/
theorem Compare_none_disjoint_counterexample :
    ¬ (bankA.extents.length = bankB.extents.length →
        AliasInfo.Compare bankA bankB = Except.ok AliasType.None →
        (bankA.base_name ≠ bankB.base_name ∨
          ¬ ∃ p, InBox p bankA.extents ∧ InBox p bankB.extents)) := by
  intro h
  rcases h rfl Compare_bankA_bankB with hne | hno
  · exact hne rfl
  · refine hno ⟨[0], ?_, ?_⟩ <;>
      exact List.Forall₂.cons ⟨by decide, by decide⟩ List.Forall₂.nil

/-- C3, amended: for all AliasInfos `a`, `b` with extents of equal arity, if
`AliasInfo::Compare(a, b)` returns `None` then the base names differ, or the shapes are
equal, both location units are constants and the locations differ (different banks), or the
boxes denoted by the extents have no point in common. -/
theorem Compare_none_sound (a b : AliasInfo) (hlen : a.extents.length = b.extents.length)
    (h : AliasInfo.Compare a b = Except.ok AliasType.None) :
    a.base_name ≠ b.base_name ∨ (a.shape = b.shape ∧ DifferentBanks a b) ∨
      ¬ ∃ p, InBox p a.extents ∧ InBox p b.extents := by
  by_cases hn : a.base_name = b.base_name
  · right
    by_cases hs : a.shape = b.shape
    · by_cases hb : DifferentBanks a b
      · exact Or.inl ⟨hs, hb⟩
      · right
        rintro ⟨p, hpa, hpb⟩
        have hov := (CheckOverlap.loop_true_iff a.extents b.extents hlen).2
          (forall₂_of_inBox a.extents b.extents p hpa hpb)
        rw [Compare_cases] at h
        by_cases hacc : a.access = b.access
        · simp [hn, hs, hb, hacc] at h
        · simp [hn, hs, hb, hacc, CheckOverlap_of_length _ _ hlen, hov] at h
    · simp [AliasInfo.Compare, hn, hs] at h
  · exact Or.inl hn

/-- The amended C3 at `bankA` and `farA` (same base, elements 0..3 against 8..11). -/
theorem Compare_none_sound_witness :
    bankA.extents.length = farA.extents.length ∧
      AliasInfo.Compare bankA farA = Except.ok AliasType.None ∧
      (bankA.base_name ≠ farA.base_name ∨ (bankA.shape = farA.shape ∧ DifferentBanks bankA farA) ∨
        ¬ ∃ p, InBox p bankA.extents ∧ InBox p farA.extents) :=
  ⟨rfl, Compare_bankA_farA, Compare_none_sound bankA farA rfl Compare_bankA_farA⟩

/-- C4: for all AliasInfos `a`, `b` with extents of equal arity, `AliasInfo::Compare(a, b)`
returns, and what it returns is the verdict of the decision procedure of the
specification: `None` for different base names; for equal shapes `None` for different
banks, else `Exact` for structurally equal access, else `None` when the extents do not
overlap; `Partial` in every remaining case. -/
theorem Compare_eq_CompareSpec (a b : AliasInfo)
    (hlen : a.extents.length = b.extents.length) :
    AliasInfo.Compare a b = Except.ok (CompareSpec a b) := by
  rw [Compare_cases]
  unfold CompareSpec
  rw [CheckOverlap_of_length _ _ hlen, CheckOverlap.loop_eq_spec]
  by_cases hn : a.base_name = b.base_name
  · by_cases hs : a.shape = b.shape
    · by_cases hb : DifferentBanks a b
      · simp [hn, hs, hb]
      · by_cases hacc : a.access = b.access
        · simp [hn, hs, hb, hacc]
        · cases hov : OverlapSpec a.extents b.extents <;> simp [hn, hs, hb, hacc]
    · simp [hn, hs]
  · simp [hn]

/-- C4 at `bankA` and `farA`. -/
theorem Compare_eq_CompareSpec_witness :
    bankA.extents.length = farA.extents.length ∧
      AliasInfo.Compare bankA farA = Except.ok (CompareSpec bankA farA) :=
  ⟨rfl, Compare_eq_CompareSpec bankA farA rfl⟩

/-- C5 fails as stated: `bankA` and `wideA` have the same base name and the same access but
different shapes, and `Compare` returns `Partial`; `bankA` and `bankB` have the same base
name, access and shape but sit in different banks, and `Compare` returns `None`. -/
theorem Compare_same_access_counterexample :
    ¬ (bankA.base_name = wideA.base_name → bankA.access = wideA.access →
        AliasInfo.Compare bankA wideA = Except.ok AliasType.Exact) ∧
    ¬ (bankA.base_name = bankB.base_name → bankA.access = bankB.access →
        AliasInfo.Compare bankA bankB = Except.ok AliasType.Exact) := by
  constructor
  · intro h
    have h' := h rfl rfl
    rw [Compare_bankA_wideA] at h'
    exact absurd h' (by decide)
  · intro h
    have h' := h rfl rfl
    rw [Compare_bankA_bankB] at h'
    exact absurd h' (by decide)

/-- C5, amended: for all AliasInfos `a`, `b` with the same base name, equal shapes,
structurally identical access vectors and not in different banks (not both location units
constant with differing locations), `AliasInfo::Compare(a, b)` returns `Exact`. -/
theorem Compare_same_access (a b : AliasInfo) (hn : a.base_name = b.base_name)
    (hs : a.shape = b.shape) (hb : ¬ DifferentBanks a b) (hacc : a.access = b.access) :
    AliasInfo.Compare a b = Except.ok AliasType.Exact := by
  rw [Compare_cases]
  simp [hn, hs, hb, hacc]

/-- The amended C5 at `bankA` and `shiftedA`. -/
theorem Compare_same_access_witness :
    bankA.base_name = shiftedA.base_name ∧ bankA.shape = shiftedA.shape ∧
      ¬ DifferentBanks bankA shiftedA ∧ bankA.access = shiftedA.access ∧
      AliasInfo.Compare bankA shiftedA = Except.ok AliasType.Exact :=
  ⟨rfl, rfl, by decide, rfl, Compare_same_access bankA shiftedA rfl rfl (by decide) rfl⟩

theorem nonEmpty_bankA : NonEmptyExtents bankA.extents := by
  intro e he
  simp [bankA] at he
  subst he
  decide

theorem nonEmpty_farA : NonEmptyExtents farA.extents := by
  intro e he
  simp [farA] at he
  subst he
  decide

theorem disjoint_bankA_farA : DisjointSomewhere bankA.extents farA.extents := by
  refine ⟨0, by decide, by decide, ?_⟩
  rintro ⟨x, ⟨_, h2⟩, ⟨h3, _⟩⟩
  simp [bankA, farA] at h2 h3
  omega

theorem disjoint_bankA_farWideA : DisjointSomewhere bankA.extents farWideA.extents := by
  refine ⟨0, by decide, by decide, ?_⟩
  rintro ⟨x, ⟨_, h2⟩, ⟨h3, _⟩⟩
  simp [bankA, farWideA] at h2 h3
  omega

theorem disjoint_bankA_shiftedA : DisjointSomewhere bankA.extents shiftedA.extents := by
  refine ⟨0, by decide, by decide, ?_⟩
  rintro ⟨x, ⟨_, h2⟩, ⟨h3, _⟩⟩
  simp [bankA, shiftedA] at h2 h3
  omega

theorem disjoint_bankA_invertedA : DisjointSomewhere bankA.extents invertedA.extents := by
  refine ⟨0, by decide, by decide, ?_⟩
  rintro ⟨x, _, ⟨h3, h4⟩⟩
  simp [bankA, invertedA] at h3 h4
  omega

/-- Non-empty extents that are disjoint in some dimension fail the overlap test. -/
theorem CheckOverlap.loop_of_disjoint (ae be : List Extent) (hlen : ae.length = be.length)
    (hae : NonEmptyExtents ae) (hbe : NonEmptyExtents be) (hd : DisjointSomewhere ae be) :
    CheckOverlap.loop true ae be = false := by
  cases hloop : CheckOverlap.loop true ae be with
  | false => rfl
  | true =>
    exfalso
    obtain ⟨i, ha, hb, hdis⟩ := hd
    have hall := (forall₂_iff_index ae be hlen).1 ((CheckOverlap.loop_true_iff ae be hlen).1 hloop)
    obtain ⟨h1, h2⟩ := hall i ha hb
    have hea := hae ae[i] (List.getElem_mem ha)
    have heb := hbe be[i] (List.getElem_mem hb)
    exact hdis ⟨max ae[i].min be[i].min,
      ⟨le_max_left _ _, max_le hea h1⟩, ⟨le_max_right _ _, max_le h2 heb⟩⟩

/-- C6 fails as stated, in three ways.  `bankA` and `farWideA` have the same base name and
disjoint extents (0..3 against 8..15) but different shapes: `Compare` returns `Partial`.
`bankA` and `shiftedA` have the same base name and disjoint extents (0..3 against 8..11)
but identical access vectors: `Compare` returns `Exact`.  `bankA` and `invertedA` have the
same base name and shape, and the extent of `invertedA` (min 2, max 1) denotes no element at
all, so the boxes are disjoint, yet the overlap test passes: `Compare` returns `Partial`. -/
theorem Compare_disjoint_counterexample :
    ¬ (bankA.base_name = farWideA.base_name →
        bankA.extents.length = farWideA.extents.length →
        DisjointSomewhere bankA.extents farWideA.extents →
        AliasInfo.Compare bankA farWideA = Except.ok AliasType.None) ∧
    ¬ (bankA.base_name = shiftedA.base_name →
        bankA.extents.length = shiftedA.extents.length →
        DisjointSomewhere bankA.extents shiftedA.extents →
        AliasInfo.Compare bankA shiftedA = Except.ok AliasType.None) ∧
    ¬ (bankA.base_name = invertedA.base_name →
        bankA.extents.length = invertedA.extents.length →
        DisjointSomewhere bankA.extents invertedA.extents →
        AliasInfo.Compare bankA invertedA = Except.ok AliasType.None) := by
  refine ⟨?_, ?_, ?_⟩
  · intro h
    have h' := h rfl rfl disjoint_bankA_farWideA
    rw [Compare_bankA_farWideA] at h'
    exact absurd h' (by decide)
  · intro h
    have h' := h rfl rfl disjoint_bankA_shiftedA
    rw [Compare_bankA_shiftedA] at h'
    exact absurd h' (by decide)
  · intro h
    have h' := h rfl rfl disjoint_bankA_invertedA
    rw [Compare_bankA_invertedA] at h'
    exact absurd h' (by decide)

/-- C6, amended: for all AliasInfos `a`, `b` with the same base name, equal shapes, access
vectors that are not structurally identical, and extents of equal arity that are non-empty
(min ≤ max in every dimension) and disjoint in at least one dimension,
`AliasInfo::Compare(a, b)` returns `None`. -/
theorem Compare_disjoint (a b : AliasInfo) (hn : a.base_name = b.base_name)
    (hs : a.shape = b.shape) (hacc : a.access ≠ b.access)
    (hlen : a.extents.length = b.extents.length)
    (hae : NonEmptyExtents a.extents) (hbe : NonEmptyExtents b.extents)
    (hd : DisjointSomewhere a.extents b.extents) :
    AliasInfo.Compare a b = Except.ok AliasType.None := by
  rw [Compare_cases, CheckOverlap_of_length _ _ hlen,
    CheckOverlap.loop_of_disjoint _ _ hlen hae hbe hd]
  by_cases hb : DifferentBanks a b
  · simp [hn, hs, hb]
  · simp [hn, hs, hb, hacc]

/-- The amended C6 at `bankA` and `farA` (elements 0..3 against 8..11 of the same base). -/
theorem Compare_disjoint_witness :
    bankA.base_name = farA.base_name ∧ bankA.shape = farA.shape ∧ bankA.access ≠ farA.access ∧
      bankA.extents.length = farA.extents.length ∧
      NonEmptyExtents bankA.extents ∧ NonEmptyExtents farA.extents ∧
      DisjointSomewhere bankA.extents farA.extents ∧
      AliasInfo.Compare bankA farA = Except.ok AliasType.None :=
  ⟨rfl, rfl, by decide, rfl, nonEmpty_bankA, nonEmpty_farA, disjoint_bankA_farA,
    Compare_disjoint bankA farA rfl rfl (by decide) rfl nonEmpty_bankA nonEmpty_farA
      disjoint_bankA_farA⟩

/-- C7: `CheckOverlap(ae, be)` fails exactly when `ae` and `be` have different lengths; for
equal lengths it returns a value, which is `true` if and only if `be[i].min ≤ ae[i].max` and
`ae[i].min ≤ be[i].max` hold in every dimension `i` (so it is `true` for zero dimensions);
and when moreover every extent is non-empty, the value is `true` if and only if some
integer point lies in both boxes. -/
theorem CheckOverlap_spec (ae be : List Extent) :
    ((∃ e, CheckOverlap ae be = Except.error e) ↔ ae.length ≠ be.length) ∧
    (ae.length = be.length →
      ∃ r, CheckOverlap ae be = Except.ok r ∧
        (r = true ↔ ∀ (i : Nat) (ha : i < ae.length) (hb : i < be.length),
          be[i].min ≤ ae[i].max ∧ ae[i].min ≤ be[i].max)) ∧
    (ae.length = be.length → NonEmptyExtents ae → NonEmptyExtents be →
      ∃ r, CheckOverlap ae be = Except.ok r ∧
        (r = true ↔ ∃ p, InBox p ae ∧ InBox p be)) := by
  refine ⟨?_, ?_, ?_⟩
  · by_cases hlen : ae.length = be.length
    · simp [CheckOverlap, hlen]
    · simp [CheckOverlap, hlen]
  · intro hlen
    refine ⟨CheckOverlap.loop true ae be, CheckOverlap_of_length ae be hlen, ?_⟩
    rw [CheckOverlap.loop_true_iff ae be hlen, forall₂_iff_index ae be hlen]
  · intro hlen hae hbe
    refine ⟨CheckOverlap.loop true ae be, CheckOverlap_of_length ae be hlen, ?_⟩
    rw [CheckOverlap.loop_true_iff ae be hlen]
    constructor
    · intro h
      exact exists_inBox_of_forall₂ ae be h hae hbe
    · rintro ⟨p, hpa, hpb⟩
      exact forall₂_of_inBox ae be p hpa hpb

/-- C7 at the extents of `bankA` and `farA` (one dimension, elements 0..3 and 8..11): the
call returns, and returns `true` exactly when the two boxes share a point. -/
theorem CheckOverlap_spec_witness :
    bankA.extents.length = farA.extents.length ∧
      NonEmptyExtents bankA.extents ∧ NonEmptyExtents farA.extents ∧
      ∃ r, CheckOverlap bankA.extents farA.extents = Except.ok r ∧
        (r = true ↔ ∃ p, InBox p bankA.extents ∧ InBox p farA.extents) :=
  ⟨rfl, nonEmpty_bankA, nonEmpty_farA,
    (CheckOverlap_spec bankA.extents farA.extents).2.2 rfl nonEmpty_bankA nonEmpty_farA⟩

/-! ## The AliasMap constructor -/

theorem inner_rootBlock : AliasMap.inner AliasMap.root rootBlock = Except.ok rootMap := rfl

theorem inner_innerBlock : AliasMap.inner rootMap innerBlock = Except.ok innerMap := rfl

theorem nest_rootBlock_innerBlock :
    AliasMap.nest [rootBlock, innerBlock] = Except.ok innerMap := rfl

theorem mapSet_same {α : Type} (m : String → Option α) (key : String) (value : α) :
    mapSet m key value key = some value := by
  simp [mapSet]

theorem mapSet_other {α : Type} (m : String → Option α) (key : String) (value : α)
    (k : String) (hk : k ≠ key) : mapSet m key value k = m k := by
  simp [mapSet, hk]

/-- The loop over the refinements, for pairwise distinct `into` names: the entry of each
refinement is the one its own iteration writes, and no other key is touched. -/
theorem AliasMap.addRefs_spec (outer : AliasMap) (depth : Nat) (block : Block)
    (refs : List Refinement) :
    ∀ (pos : Nat) (m0 m : String → Option AliasInfo),
      AliasMap.addRefs outer depth block pos refs m0 = Except.ok m →
      (refs.map (fun r => r.into)).Nodup →
      (∀ (i : Nat) (r : Refinement), refs[i]? = some r →
        ∃ info, AliasMap.entry outer depth block (pos + i) r ((m0 r.into).getD default)
            = Except.ok info ∧ m r.into = some info) ∧
      (∀ name, (∀ r ∈ refs, r.into ≠ name) → m name = m0 name) := by
  induction refs with
  | nil =>
    intro pos m0 m h _
    simp only [AliasMap.addRefs, Except.ok.injEq] at h
    subst h
    exact ⟨fun i r hr => by simp at hr, fun _ _ => rfl⟩
  | cons r rest ih =>
    intro pos m0 m h hnd
    have hnd' : r.into ∉ rest.map (fun r => r.into) ∧ (rest.map (fun r => r.into)).Nodup := by
      simpa using hnd
    have hfresh : ∀ r' ∈ rest, r'.into ≠ r.into := by
      intro r' hr' e
      exact hnd'.1 (List.mem_map.2 ⟨r', hr', e⟩)
    simp only [AliasMap.addRefs] at h
    cases hentry : AliasMap.entry outer depth block pos r ((m0 r.into).getD default) with
    | error e => rw [hentry] at h; simp at h
    | ok info =>
      rw [hentry] at h
      simp only at h
      obtain ⟨ih1, ih2⟩ := ih (pos + 1) (mapSet m0 r.into info) m h hnd'.2
      refine ⟨?_, ?_⟩
      · intro i r' hr'
        cases i with
        | zero =>
          simp only [List.getElem?_cons_zero, Option.some.injEq] at hr'
          subst hr'
          refine ⟨info, by simpa using hentry, ?_⟩
          rw [ih2 r.into hfresh, mapSet_same]
        | succ i =>
          simp only [List.getElem?_cons_succ] at hr'
          obtain ⟨info', h1, h2⟩ := ih1 i r' hr'
          have hmem : r' ∈ rest := by
            obtain ⟨hlt, e⟩ := List.getElem?_eq_some.1 hr'
            rw [← e]; exact List.getElem_mem hlt
          rw [mapSet_other _ _ _ _ (hfresh r' hmem)] at h1
          refine ⟨info', ?_, h2⟩
          rw [← h1]
          congr 1
          omega
      · intro name hname
        rw [ih2 name (fun r' hr' => hname r' (List.mem_cons_of_mem _ hr'))]
        exact mapSet_other _ _ _ _ (fun e => hname r (List.mem_cons_self _ _) e.symm)

/-- What a successful construction of an inner map amounts to. -/
theorem AliasMap.inner_ok (outer : AliasMap) (block : Block) (m : AliasMap)
    (h : AliasMap.inner outer block = Except.ok m) :
    m.depth_ = outer.depth_ + 1 ∧
      AliasMap.addRefs outer (outer.depth_ + 1) block 0 block.refs (fun _ => none)
        = Except.ok m.info_ := by
  unfold AliasMap.inner at h
  cases hadd : AliasMap.addRefs outer (outer.depth_ + 1) block 0 block.refs (fun _ => none) with
  | error e => rw [hadd] at h; simp at h
  | ok info_ =>
    rw [hadd] at h
    simp only [Except.ok.injEq] at h
    subst h
    exact ⟨rfl, rfl⟩

/-- The entries of a successfully constructed inner map, for pairwise distinct `into`
names: the refinement at position `i` owns the entry keyed by its `into`, computed from a
value-initialised `AliasInfo`; names that are no `into` of the block have no entry. -/
theorem AliasMap.inner_spec (outer : AliasMap) (block : Block) (m : AliasMap)
    (h : AliasMap.inner outer block = Except.ok m)
    (hnd : (block.refs.map (fun r => r.into)).Nodup) :
    (∀ (i : Nat) (r : Refinement), block.refs[i]? = some r →
      ∃ info, AliasMap.entry outer (outer.depth_ + 1) block i r default = Except.ok info ∧
        m.info_ r.into = some info) ∧
    (∀ name, (∀ r ∈ block.refs, r.into ≠ name) → m.info_ name = none) := by
  obtain ⟨_, hadd⟩ := AliasMap.inner_ok outer block m h
  obtain ⟨h1, h2⟩ := AliasMap.addRefs_spec outer (outer.depth_ + 1) block block.refs 0
    (fun _ => none) m.info_ hadd hnd
  refine ⟨?_, h2⟩
  intro i r hr
  obtain ⟨info, hi1, hi2⟩ := h1 i r hr
  exact ⟨info, by simpa using hi1, hi2⟩

theorem resize_nil_length {α : Type} [Inhabited α] (n : Nat) :
    (resize ([] : List α) n).length = n := by
  simp [resize]

theorem resize_nil_affine (n : Nat) :
    resize ([] : List Affine) n = List.replicate n ({} : Affine) := by
  simp only [resize, List.take_nil, List.length_nil, Nat.sub_zero, List.nil_append]
  rfl

theorem zipWith_replicate_uniqify (pfx : String) (l : List Affine) :
    List.zipWith (fun a r => a + UniqifyAffine r pfx)
      (List.replicate l.length ({} : Affine)) l = l.map (fun a => UniqifyAffine a pfx) := by
  induction l with
  | nil => rfl
  | cons a l ih =>
    simp only [List.length_cons, List.replicate_succ, List.zipWith_cons_cons, List.map_cons, ih]
    rw [Affine.zero_add _ (UniqifyAffine_WF a pfx)]

theorem zipWith_zero_uniqify (pfx : String) (l : List Affine) :
    List.zipWith (fun a r => a + UniqifyAffine r pfx)
      (resize ([] : List Affine) l.length) l = l.map (fun a => UniqifyAffine a pfx) := by
  rw [resize_nil_affine, zipWith_replicate_uniqify]

/-- The entry written for an allocating refinement, from a value-initialised start. -/
theorem AliasMap.entry_alloc (outer : AliasMap) (depth : Nat) (block : Block) (pos : Nat)
    (r : Refinement) (hdir : r.dir = RefDir.None) :
    ∃ info, AliasMap.entry outer depth block pos r default = Except.ok info ∧
      info.base_block = some depth ∧ info.base_ref = some pos ∧
      info.base_name = depthPrefix depth ++ r.into ∧ info.location = r.location ∧
      info.shape = r.interior_shape ∧
      info.access = r.access.map (fun a => UniqifyAffine a (depthPrefix depth)) := by
  have hd : (default : AliasInfo).access = [] := rfl
  simp only [AliasMap.entry, hdir, ne_eq, not_true_eq_false, if_false, hd, resize_nil_length,
    zipWith_zero_uniqify]
  exact ⟨_, rfl, rfl, rfl, rfl, rfl, rfl, rfl⟩

/-- The entry written for a borrowing refinement, when it is written. -/
theorem AliasMap.entry_borrow (outer : AliasMap) (depth : Nat) (block : Block) (pos : Nat)
    (r : Refinement) (old info : AliasInfo) (hdir : r.dir ≠ RefDir.None)
    (h : AliasMap.entry outer depth block pos r old = Except.ok info) :
    ∃ o, outer.info_ r.from_ = some o ∧ o.access.length = r.access.length ∧
      info.base_block = o.base_block ∧ info.base_ref = o.base_ref ∧
      info.base_name = o.base_name ∧
      info.access =
        List.zipWith (fun a x => a + UniqifyAffine x (depthPrefix depth)) o.access r.access ∧
      info.location.name = o.location.name ∧
      info.location.unit = o.location.unit + r.location.unit ∧
      info.shape = r.interior_shape := by
  unfold AliasMap.entry at h
  simp only [ne_eq, hdir, not_false_eq_true, if_true] at h
  cases ho : outer.info_ r.from_ with
  | none => rw [ho] at h; simp at h
  | some o =>
    rw [ho] at h
    by_cases hlen : o.access.length = r.access.length
    · simp only [hlen, not_true_eq_false, if_false, Except.ok.injEq] at h
      subst h
      exact ⟨o, rfl, hlen, rfl, rfl, rfl, rfl, rfl, rfl, rfl⟩
    · simp [hlen] at h

theorem exists_getElem?_of_mem {α : Type} (l : List α) (a : α) (h : a ∈ l) :
    ∃ i : Nat, l[i]? = some a := by
  obtain ⟨i, hi, e⟩ := List.getElem_of_mem h
  exact ⟨i, by rw [List.getElem?_eq_getElem hi, e]⟩

/-- C8: when an AliasMap is constructed for an inner block from an outer map of depth `d`,
and the `into` names of the block are distinct, every refinement of the block with
`dir = None` has an entry keyed by its `into` name, with `base_name = "d<d+1>:" + into`,
the refinement's own location, its interior shape as shape, and as access vector the
refinement's access vector with `UniqifyAffine(·, "d<d+1>:")` applied in every dimension. -/
theorem AliasMap.inner_alloc (outer : AliasMap) (block : Block) (m : AliasMap)
    (h : AliasMap.inner outer block = Except.ok m)
    (hnd : (block.refs.map (fun r => r.into)).Nodup)
    (r : Refinement) (hr : r ∈ block.refs) (hdir : r.dir = RefDir.None) :
    ∃ info, m.info_ r.into = some info ∧
      info.base_name = "d" ++ toString (outer.depth_ + 1) ++ ":" ++ r.into ∧
      info.location = r.location ∧
      info.shape = r.interior_shape ∧
      info.access =
        r.access.map (fun a => UniqifyAffine a ("d" ++ toString (outer.depth_ + 1) ++ ":")) := by
  obtain ⟨i, hi⟩ := exists_getElem?_of_mem block.refs r hr
  obtain ⟨info, he, hm⟩ := (AliasMap.inner_spec outer block m h hnd).1 i r hi
  obtain ⟨info', he', _, _, hname, hloc, hshape, hacc⟩ :=
    AliasMap.entry_alloc outer (outer.depth_ + 1) block i r hdir
  rw [he] at he'
  simp only [Except.ok.injEq] at he'
  subst he'
  exact ⟨info, hm, hname, hloc, hshape, hacc⟩

/-- C8 at `rootBlock`, constructed from the root map (depth 0): its refinement `A`. -/
theorem AliasMap.inner_alloc_witness :
    AliasMap.inner AliasMap.root rootBlock = Except.ok rootMap ∧
      (rootBlock.refs.map (fun r => r.into)).Nodup ∧
      allocA ∈ rootBlock.refs ∧ allocA.dir = RefDir.None ∧
      ∃ info, rootMap.info_ allocA.into = some info ∧
        info.base_name = "d" ++ toString (AliasMap.root.depth_ + 1) ++ ":" ++ allocA.into ∧
        info.location = allocA.location ∧
        info.shape = allocA.interior_shape ∧
        info.access = allocA.access.map
          (fun a => UniqifyAffine a ("d" ++ toString (AliasMap.root.depth_ + 1) ++ ":")) :=
  ⟨inner_rootBlock, by decide, List.mem_cons_self _ _, rfl,
    AliasMap.inner_alloc AliasMap.root rootBlock rootMap inner_rootBlock (by decide)
      allocA (List.mem_cons_self _ _) rfl⟩

/-- C9: when an AliasMap is constructed for an inner block whose `into` names are distinct,
every refinement with `dir ≠ None` whose `from` is present in the outer map has an entry,
keyed by its `into` name; the arities match; the entry's base name is the outer entry's;
its access is, dimension by dimension, the outer entry's access plus
`UniqifyAffine(ref.access[i], prefix)`; its location has the outer entry's location name
and the outer unit plus `ref.location.unit`; its shape is the refinement's interior
shape. -/
theorem AliasMap.inner_borrow (outer : AliasMap) (block : Block) (m : AliasMap)
    (h : AliasMap.inner outer block = Except.ok m)
    (hnd : (block.refs.map (fun r => r.into)).Nodup)
    (r : Refinement) (hr : r ∈ block.refs) (hdir : r.dir ≠ RefDir.None)
    (o : AliasInfo) (ho : outer.info_ r.from_ = some o) :
    ∃ info, m.info_ r.into = some info ∧
      o.access.length = r.access.length ∧
      info.base_name = o.base_name ∧
      info.access =
        List.zipWith
          (fun a x => a + UniqifyAffine x ("d" ++ toString (outer.depth_ + 1) ++ ":"))
          o.access r.access ∧
      info.location.name = o.location.name ∧
      info.location.unit = o.location.unit + r.location.unit ∧
      info.shape = r.interior_shape := by
  obtain ⟨i, hi⟩ := exists_getElem?_of_mem block.refs r hr
  obtain ⟨info, he, hm⟩ := (AliasMap.inner_spec outer block m h hnd).1 i r hi
  obtain ⟨o', ho', hlen, _, _, hname, hacc, hlname, hlunit, hshape⟩ :=
    AliasMap.entry_borrow outer (outer.depth_ + 1) block i r default info hdir he
  rw [ho] at ho'
  simp only [Option.some.injEq] at ho'
  subst ho'
  exact ⟨info, hm, hlen, hname, hacc, hlname, hlunit, hshape⟩

/-- C9 at `innerBlock`, constructed from the map of `rootBlock`: its refinement `x`, which
borrows `A`. -/
theorem AliasMap.inner_borrow_witness :
    AliasMap.inner rootMap innerBlock = Except.ok innerMap ∧
      (innerBlock.refs.map (fun r => r.into)).Nodup ∧
      borrowX ∈ innerBlock.refs ∧ borrowX.dir ≠ RefDir.None ∧
      rootMap.info_ borrowX.from_ = some entryA ∧
      ∃ info, innerMap.info_ borrowX.into = some info ∧
        entryA.access.length = borrowX.access.length ∧
        info.base_name = entryA.base_name ∧
        info.access =
          List.zipWith
            (fun a x => a + UniqifyAffine x ("d" ++ toString (rootMap.depth_ + 1) ++ ":"))
            entryA.access borrowX.access ∧
        info.location.name = entryA.location.name ∧
        info.location.unit = entryA.location.unit + borrowX.location.unit ∧
        info.shape = borrowX.interior_shape :=
  ⟨inner_innerBlock, by decide, List.mem_cons_self _ _, by decide, rfl,
    AliasMap.inner_borrow rootMap innerBlock innerMap inner_innerBlock (by decide)
      borrowX (List.mem_cons_self _ _) (by decide) entryA rfl⟩

/-! ## Base names along a path of blocks -/

theorem digitChar_val : ∀ d, d < 10 →
    ((Nat.digitChar d).toNat - 48 = d ∧ Nat.digitChar d ≠ ':') := by
  decide

theorem digitsVal_append_singleton (l : List Char) (c : Char) :
    digitsVal (l ++ [c]) = 10 * digitsVal l + (c.toNat - 48) := by
  simp [digitsVal, List.foldl_append]

/-- The digits produced by `Nat.toDigitsCore` in base 10, with enough fuel, denote the
number and contain no colon. -/
theorem toDigitsCore_spec (fuel : Nat) :
    ∀ (n : Nat) (ds : List Char), n < fuel →
      ∃ l, Nat.toDigitsCore 10 fuel n ds = l ++ ds ∧ digitsVal l = n ∧ ∀ c ∈ l, c ≠ ':' := by
  induction fuel with
  | zero => intro n ds h; omega
  | succ fuel ih =>
    intro n ds h
    have hd := digitChar_val (n % 10) (Nat.mod_lt _ (by decide))
    by_cases hq : n / 10 = 0
    · refine ⟨[Nat.digitChar (n % 10)], ?_, ?_, ?_⟩
      · simp [Nat.toDigitsCore, hq]
      · have hn : n % 10 = n := by omega
        simp only [digitsVal, List.foldl_cons, List.foldl_nil, Nat.mul_zero, Nat.zero_add]
        rw [hd.1, hn]
      · intro c hc
        simp only [List.mem_singleton] at hc
        rw [hc]; exact hd.2
    · have hlt : n / 10 < fuel := by omega
      obtain ⟨l, hl, hv, hc⟩ := ih (n / 10) (Nat.digitChar (n % 10) :: ds) hlt
      refine ⟨l ++ [Nat.digitChar (n % 10)], ?_, ?_, ?_⟩
      · simp [Nat.toDigitsCore, hq, hl]
      · rw [digitsVal_append_singleton, hv, hd.1]
        omega
      · intro c hmem
        rcases List.mem_append.1 hmem with h1 | h1
        · exact hc c h1
        · simp only [List.mem_singleton] at h1
          rw [h1]; exact hd.2

/-- The characters of `"d<k>:"`: the letter, the decimal digits of `k`, the colon. -/
theorem depthPrefix_data (k : Nat) :
    ∃ l, (depthPrefix k).data = 'd' :: (l ++ [':']) ∧ digitsVal l = k ∧ ∀ c ∈ l, c ≠ ':' := by
  obtain ⟨l, hl, hv, hc⟩ := toDigitsCore_spec (k + 1) k [] (Nat.lt_succ_self k)
  refine ⟨l, ?_, hv, hc⟩
  have hrepr : (toString k).data = l := by
    show (Nat.repr k).data = l
    simp only [Nat.repr, Nat.toDigits, hl, List.append_nil]
    rfl
  simp only [depthPrefix, String.data_append, hrepr]
  rfl

theorem append_cons_inj {α : Type} (x : α) :
    ∀ (l1 l2 r1 r2 : List α), (∀ c ∈ l1, c ≠ x) → (∀ c ∈ l2, c ≠ x) →
      l1 ++ x :: r1 = l2 ++ x :: r2 → l1 = l2 ∧ r1 = r2 := by
  intro l1
  induction l1 with
  | nil =>
    intro l2 r1 r2 _ h2 h
    cases l2 with
    | nil => simpa using h
    | cons b l2 =>
      simp only [List.nil_append, List.cons_append, List.cons.injEq] at h
      exact absurd h.1.symm (h2 b (List.mem_cons_self _ _))
  | cons a l1 ih =>
    intro l2 r1 r2 h1 h2 h
    cases l2 with
    | nil =>
      simp only [List.nil_append, List.cons_append, List.cons.injEq] at h
      exact absurd h.1 (h1 a (List.mem_cons_self _ _))
    | cons b l2 =>
      simp only [List.cons_append, List.cons.injEq] at h
      obtain ⟨e1, e2⟩ := ih l2 r1 r2 (fun c hc => h1 c (List.mem_cons_of_mem _ hc))
        (fun c hc => h2 c (List.mem_cons_of_mem _ hc)) h.2
      exact ⟨by rw [h.1, e1], e2⟩

/-- Base names determine the depth and the name: `"d<j>:" + u = "d<k>:" + v` only if
`j = k` and `u = v`. -/
theorem depthPrefix_append_inj (j k : Nat) (u v : String)
    (h : depthPrefix j ++ u = depthPrefix k ++ v) : j = k ∧ u = v := by
  obtain ⟨lj, hj, hvj, hcj⟩ := depthPrefix_data j
  obtain ⟨lk, hk, hvk, hck⟩ := depthPrefix_data k
  have hdata := congrArg String.data h
  simp only [String.data_append, hj, hk, List.cons_append, List.append_assoc,
    List.singleton_append, List.cons.injEq, true_and] at hdata
  obtain ⟨e1, e2⟩ := append_cons_inj ':' lj lk u.data v.data hcj hck hdata
  refine ⟨?_, String.ext e2⟩
  rw [← hvj, ← hvk, e1]

theorem refByInto_of_getElem? (refs : List Refinement) :
    ∀ (pos i : Nat) (r : Refinement), (refs.map (fun r => r.into)).Nodup →
      refs[i]? = some r → refByInto r.into pos refs = some (pos + i, r) := by
  induction refs with
  | nil => intro pos i r _ h; simp at h
  | cons a rest ih =>
    intro pos i r hnd h
    have hnd' : a.into ∉ rest.map (fun r => r.into) ∧ (rest.map (fun r => r.into)).Nodup := by
      simpa using hnd
    cases i with
    | zero =>
      simp only [List.getElem?_cons_zero, Option.some.injEq] at h
      subst h
      simp [refByInto]
    | succ i =>
      simp only [List.getElem?_cons_succ] at h
      have hmem : r ∈ rest := by
        obtain ⟨hlt, e⟩ := List.getElem?_eq_some.1 h
        rw [← e]; exact List.getElem_mem hlt
      have hne : a.into ≠ r.into := fun e => hnd'.1 (List.mem_map.2 ⟨r, hmem, e.symm⟩)
      simp only [refByInto, hne, if_false]
      rw [ih (pos + 1) i r hnd'.2 h]
      congr 2
      omega

theorem refAt_append_last (path : List Block) (b : Block) (pos : Nat) :
    refAt (path ++ [b]) (path.length + 1) pos = b.refs[pos]? := by
  simp [refAt]

theorem refAt_append_of_some (path : List Block) (b : Block) (k pos : Nat) (r : Refinement)
    (h : refAt path k pos = some r) : refAt (path ++ [b]) k pos = some r := by
  unfold refAt at h ⊢
  cases hk : path[k - 1]? with
  | none => rw [hk] at h; simp at h
  | some b' =>
    have hlt : k - 1 < path.length := (List.getElem?_eq_some.1 hk).1
    rw [List.getElem?_append_left hlt, hk]
    rw [hk] at h
    exact h

theorem getElem?_inj_of_nodup_map {α β : Type} (f : α → β) (l : List α)
    (hnd : (l.map f).Nodup) (i j : Nat) (a b : α) (hi : l[i]? = some a) (hj : l[j]? = some b)
    (hf : f a = f b) : i = j := by
  obtain ⟨hil, ea⟩ := List.getElem?_eq_some.1 hi
  obtain ⟨hjl, eb⟩ := List.getElem?_eq_some.1 hj
  have hil' : i < (l.map f).length := by simpa using hil
  have hjl' : j < (l.map f).length := by simpa using hjl
  have heq : (l.map f)[i] = (l.map f)[j] := by
    simp only [List.getElem_map, ea, eb, hf]
  exact (List.Nodup.getElem_inj_iff hnd).1 heq

/-- One step of nested construction keeps every entry traced to its allocation site. -/
theorem AliasMap.inner_traced (path : List Block) (m : AliasMap) (b : Block) (m' : AliasMap)
    (hd : m.depth_ = path.length) (hinv : AliasMap.Traced path m)
    (h : AliasMap.inner m b = Except.ok m')
    (hnd : (b.refs.map (fun r => r.into)).Nodup) :
    m'.depth_ = (path ++ [b]).length ∧ AliasMap.Traced (path ++ [b]) m' := by
  obtain ⟨hdepth, _⟩ := AliasMap.inner_ok m b m' h
  obtain ⟨hentries, hnone⟩ := AliasMap.inner_spec m b m' h hnd
  refine ⟨by simp [hdepth, hd], ?_⟩
  intro name info hinfo
  have hex : ∃ r ∈ b.refs, r.into = name := by
    by_contra hcon
    have hall : ∀ r ∈ b.refs, r.into ≠ name := fun r hr e => hcon ⟨r, hr, e⟩
    rw [hnone name hall] at hinfo
    simp at hinfo
  obtain ⟨r, hr, rfl⟩ := hex
  obtain ⟨i, hi⟩ := exists_getElem?_of_mem b.refs r hr
  obtain ⟨info', he, hm⟩ := hentries i r hi
  rw [hinfo] at hm
  simp only [Option.some.injEq] at hm
  subst hm
  have hfind : refByInto r.into 0 b.refs = some (i, r) := by
    simpa using refByInto_of_getElem? b.refs 0 i r hnd hi
  have hsite : allocSite (path ++ [b]).reverse r.into =
      if r.dir = RefDir.None then some (path.length + 1, i)
      else allocSite path.reverse r.from_ := by
    simp [allocSite, hfind]
  by_cases hdir : r.dir = RefDir.None
  · obtain ⟨info', he', hb, hp, hname, _, _, _⟩ :=
      AliasMap.entry_alloc m (m.depth_ + 1) b i r hdir
    rw [he] at he'
    simp only [Except.ok.injEq] at he'
    subst he'
    refine ⟨path.length + 1, i, r, ?_, ?_, hdir, ?_, hp, ?_⟩
    · rw [hsite, if_pos hdir]
    · rw [refAt_append_last, hi]
    · rw [hb, hd]
    · rw [hname, hd]
  · obtain ⟨o, ho, _, hb, hp, hname, _, _, _, _⟩ :=
      AliasMap.entry_borrow m (m.depth_ + 1) b i r default info hdir he
    obtain ⟨k, pos, r0, hsite0, hat, hdir0, hb0, hp0, hname0⟩ := hinv r.from_ o ho
    refine ⟨k, pos, r0, ?_, refAt_append_of_some path b k pos r0 hat, hdir0, ?_, ?_, ?_⟩
    · rw [hsite, if_neg hdir, hsite0]
    · rw [hb, hb0]
    · rw [hp, hp0]
    · rw [hname, hname0]

theorem AliasMap.nestFrom_traced (rest : List Block) :
    ∀ (path : List Block) (m m' : AliasMap), m.depth_ = path.length →
      AliasMap.Traced path m → AliasMap.nestFrom m rest = Except.ok m' →
      (∀ b ∈ rest, (b.refs.map (fun r => r.into)).Nodup) →
      AliasMap.Traced (path ++ rest) m' := by
  induction rest with
  | nil =>
    intro path m m' _ hinv h _
    simp only [AliasMap.nestFrom, Except.ok.injEq] at h
    subst h
    simpa using hinv
  | cons b rest ih =>
    intro path m m' hd hinv h hnd
    simp only [AliasMap.nestFrom] at h
    cases hin : AliasMap.inner m b with
    | error e => rw [hin] at h; simp at h
    | ok m1 =>
      rw [hin] at h
      simp only at h
      obtain ⟨hd1, hinv1⟩ := AliasMap.inner_traced path m b m1 hd hinv hin
        (hnd b (List.mem_cons_self _ _))
      have := ih (path ++ [b]) m1 m' hd1 hinv1 h
        (fun b' hb' => hnd b' (List.mem_cons_of_mem _ hb'))
      simpa using this

theorem AliasMap.nest_traced (path : List Block) (m : AliasMap)
    (h : AliasMap.nest path = Except.ok m)
    (hnd : ∀ b ∈ path, (b.refs.map (fun r => r.into)).Nodup) : AliasMap.Traced path m := by
  have hroot : AliasMap.Traced [] AliasMap.root := by
    intro name info hinfo
    simp [AliasMap.root] at hinfo
  simpa using AliasMap.nestFrom_traced path [] AliasMap.root m rfl hroot h hnd

/-- C10: in an AliasMap obtained by nested construction along a path of blocks with
distinct `into` names per block, every entry's base name is `"d<k>:" + n`, where `k` is
the depth of the block holding the allocating refinement (`dir = None`) found by following
the entry's borrows outwards, however many, and `n` is that refinement's `into` name (the
entry's back-pointers designate the same refinement); and two entries of the map have equal
base names if and only if they have the same allocation site. -/
theorem AliasMap.nest_base_name (path : List Block) (m : AliasMap)
    (h : AliasMap.nest path = Except.ok m)
    (hnd : ∀ b ∈ path, (b.refs.map (fun r => r.into)).Nodup) :
    (∀ name info, m.info_ name = some info →
      ∃ k pos r, allocSite path.reverse name = some (k, pos) ∧ refAt path k pos = some r ∧
        r.dir = RefDir.None ∧ info.base_block = some k ∧ info.base_ref = some pos ∧
        info.base_name = "d" ++ toString k ++ ":" ++ r.into) ∧
    (∀ n1 i1 n2 i2, m.info_ n1 = some i1 → m.info_ n2 = some i2 →
      (i1.base_name = i2.base_name ↔ allocSite path.reverse n1 = allocSite path.reverse n2)) := by
  have htr := AliasMap.nest_traced path m h hnd
  refine ⟨htr, ?_⟩
  intro n1 i1 n2 i2 h1 h2
  obtain ⟨k1, p1, r1, hs1, hat1, _, _, _, hname1⟩ := htr n1 i1 h1
  obtain ⟨k2, p2, r2, hs2, hat2, _, _, _, hname2⟩ := htr n2 i2 h2
  constructor
  · intro heq
    rw [hname1, hname2] at heq
    obtain ⟨hk, hinto⟩ := depthPrefix_append_inj k1 k2 r1.into r2.into heq
    subst hk
    rw [hs1, hs2]
    unfold refAt at hat1 hat2
    cases hb : path[k1 - 1]? with
    | none => rw [hb] at hat1; simp at hat1
    | some b =>
      rw [hb] at hat1 hat2
      have hmem : b ∈ path := by
        obtain ⟨hlt, e⟩ := List.getElem?_eq_some.1 hb
        rw [← e]; exact List.getElem_mem hlt
      by_cases hk0 : k1 = 0
      · simp [hk0] at hat1
      · simp only [hk0, if_false] at hat1 hat2
        have hp : p1 = p2 :=
          getElem?_inj_of_nodup_map (fun r => r.into) b.refs (hnd b hmem) p1 p2 r1 r2
            hat1 hat2 hinto
        rw [hp]
  · intro heq
    rw [hs1, hs2] at heq
    simp only [Option.some.injEq, Prod.mk.injEq] at heq
    obtain ⟨hk, hp⟩ := heq
    subst hk hp
    rw [hat1] at hat2
    simp only [Option.some.injEq] at hat2
    subst hat2
    rw [hname1, hname2]

/-- C10 along the path `rootBlock`, `innerBlock`: the entry `x` of the inner map is traced
through its borrow to the allocation `A` of the root block, and has the base name of any
entry with the same allocation site. -/
theorem AliasMap.nest_base_name_witness :
    AliasMap.nest [rootBlock, innerBlock] = Except.ok innerMap ∧
    (∀ b ∈ [rootBlock, innerBlock], (b.refs.map (fun r => r.into)).Nodup) ∧
    innerMap.info_ "x" = some entryX ∧
    (∃ k pos r, allocSite [rootBlock, innerBlock].reverse "x" = some (k, pos) ∧
      refAt [rootBlock, innerBlock] k pos = some r ∧
      r.dir = RefDir.None ∧ entryX.base_block = some k ∧ entryX.base_ref = some pos ∧
      entryX.base_name = "d" ++ toString k ++ ":" ++ r.into) ∧
    (entryX.base_name = entryX.base_name ↔
      allocSite [rootBlock, innerBlock].reverse "x" =
        allocSite [rootBlock, innerBlock].reverse "x") :=
  have hnd : ∀ b ∈ [rootBlock, innerBlock], (b.refs.map (fun r => r.into)).Nodup := by
    intro b hb
    simp only [List.mem_cons, List.mem_singleton, List.not_mem_nil, or_false] at hb
    rcases hb with rfl | rfl <;> decide
  ⟨nest_rootBlock_innerBlock, hnd, rfl,
    (AliasMap.nest_base_name [rootBlock, innerBlock] innerMap
      nest_rootBlock_innerBlock hnd).1 "x" entryX rfl,
    (AliasMap.nest_base_name [rootBlock, innerBlock] innerMap
      nest_rootBlock_innerBlock hnd).2 "x" entryX "x" entryX rfl rfl⟩

/-! ## Failure of the AliasMap constructor -/

theorem resize_length {α : Type} [Inhabited α] (v : List α) (n : Nat) :
    (resize v n).length = n := by
  simp only [resize, List.length_append, List.length_take, List.length_replicate]
  omega

/-- One iteration of the constructor throws exactly for a borrowing refinement whose `from`
is unknown to the outer map or whose arity differs from the outer entry's; the entry found
at `info_[ref.into]` plays no part. -/
theorem AliasMap.entry_error_iff (outer : AliasMap) (depth : Nat) (block : Block) (pos : Nat)
    (r : Refinement) (old : AliasInfo) :
    (∃ e, AliasMap.entry outer depth block pos r old = Except.error e) ↔
      (r.dir ≠ RefDir.None ∧ (outer.info_ r.from_ = none ∨
        ∃ o, outer.info_ r.from_ = some o ∧ o.access.length ≠ r.access.length)) := by
  unfold AliasMap.entry
  by_cases hdir : r.dir = RefDir.None
  · simp [hdir, resize_length]
  · cases ho : outer.info_ r.from_ with
    | none => simp [hdir, ho]
    | some o =>
      by_cases hlen : o.access.length = r.access.length
      · simp [hdir, ho, hlen]
      · simp [hdir, ho, hlen]

theorem AliasMap.addRefs_error_iff (outer : AliasMap) (depth : Nat) (block : Block)
    (refs : List Refinement) :
    ∀ (pos : Nat) (m0 : String → Option AliasInfo),
      (∃ e, AliasMap.addRefs outer depth block pos refs m0 = Except.error e) ↔
        ∃ r ∈ refs, r.dir ≠ RefDir.None ∧ (outer.info_ r.from_ = none ∨
          ∃ o, outer.info_ r.from_ = some o ∧ o.access.length ≠ r.access.length) := by
  induction refs with
  | nil => intro pos m0; simp [AliasMap.addRefs]
  | cons r rest ih =>
    intro pos m0
    have hent := AliasMap.entry_error_iff outer depth block pos r ((m0 r.into).getD default)
    simp only [AliasMap.addRefs, List.exists_mem_cons_iff] -- split on the first iteration
    cases hentry : AliasMap.entry outer depth block pos r ((m0 r.into).getD default) with
    | error e =>
      have hbad := hent.1 ⟨e, hentry⟩
      simp only [exists_apply_eq_apply', true_iff, Except.error.injEq, exists_eq']
      exact Or.inl hbad
    | ok info =>
      have hgood : ¬ (r.dir ≠ RefDir.None ∧ (outer.info_ r.from_ = none ∨
          ∃ o, outer.info_ r.from_ = some o ∧ o.access.length ≠ r.access.length)) := by
        intro hbad
        obtain ⟨e, he⟩ := hent.2 hbad
        rw [hentry] at he
        exact absurd he (by simp)
      simp only []
      rw [ih (pos + 1) (mapSet m0 r.into info)]
      constructor
      · intro h; exact Or.inr h
      · rintro (h | h)
        · exact absurd h hgood
        · exact h

/-- C11: constructing an inner AliasMap fails if and only if some refinement of the block
has `dir ≠ None` and either a `from` name that is not a key of the outer map or an access
vector whose length differs from that of the outer entry it borrows from; in particular a
block whose refinements all have `dir = None` is always given a map. -/
theorem AliasMap.inner_error_iff (outer : AliasMap) (block : Block) :
    ((∃ e, AliasMap.inner outer block = Except.error e) ↔
      ∃ r ∈ block.refs, r.dir ≠ RefDir.None ∧ (outer.info_ r.from_ = none ∨
        ∃ o, outer.info_ r.from_ = some o ∧ o.access.length ≠ r.access.length)) ∧
    ((∀ r ∈ block.refs, r.dir = RefDir.None) → ∃ m, AliasMap.inner outer block = Except.ok m) := by
  have hiff : (∃ e, AliasMap.inner outer block = Except.error e) ↔
      ∃ r ∈ block.refs, r.dir ≠ RefDir.None ∧ (outer.info_ r.from_ = none ∨
        ∃ o, outer.info_ r.from_ = some o ∧ o.access.length ≠ r.access.length) := by
    rw [← AliasMap.addRefs_error_iff outer (outer.depth_ + 1) block block.refs 0 (fun _ => none)]
    unfold AliasMap.inner
    cases AliasMap.addRefs outer (outer.depth_ + 1) block 0 block.refs (fun _ => none) <;> simp
  refine ⟨hiff, ?_⟩
  intro hall
  cases hres : AliasMap.inner outer block with
  | ok m => exact ⟨m, rfl⟩
  | error e =>
    obtain ⟨r, hr, hdir, _⟩ := hiff.1 ⟨e, hres⟩
    exact absurd (hall r hr) hdir

/-- C11 at `rootBlock`, whose only refinement is an allocation: the construction from the
root map succeeds. -/
theorem AliasMap.inner_error_iff_witness :
    (∀ r ∈ rootBlock.refs, r.dir = RefDir.None) ∧
      ∃ m, AliasMap.inner AliasMap.root rootBlock = Except.ok m :=
  have hall : ∀ r ∈ rootBlock.refs, r.dir = RefDir.None := by
    intro r hr
    simp only [rootBlock, List.mem_singleton] at hr
    subst hr
    rfl
  ⟨hall, (AliasMap.inner_error_iff AliasMap.root rootBlock).2 hall⟩

/-! ## Extents -/

theorem AliasMap.foldl_mapSet_spec (f : Index → Int) (idxs : List Index) :
    ∀ (m0 : String → Option Int), (idxs.map (fun idx => idx.name)).Nodup →
      (∀ idx ∈ idxs, idxs.foldl (fun m idx => mapSet m idx.name (f idx)) m0 idx.name
          = some (f idx)) ∧
      (∀ n, (∀ idx ∈ idxs, idx.name ≠ n) →
        idxs.foldl (fun m idx => mapSet m idx.name (f idx)) m0 n = m0 n) := by
  induction idxs with
  | nil => intro m0 _; simp
  | cons a rest ih =>
    intro m0 hnd
    have hnd' : a.name ∉ rest.map (fun idx => idx.name) ∧
        (rest.map (fun idx => idx.name)).Nodup := by simpa using hnd
    have hfresh : ∀ idx ∈ rest, idx.name ≠ a.name := by
      intro idx hidx e
      exact hnd'.1 (List.mem_map.2 ⟨idx, hidx, e⟩)
    obtain ⟨ih1, ih2⟩ := ih (mapSet m0 a.name (f a)) hnd'.2
    simp only [List.foldl_cons]
    refine ⟨?_, ?_⟩
    · intro idx hidx
      rcases List.mem_cons.1 hidx with rfl | hidx
      · rw [ih2 idx.name hfresh, mapSet_same]
      · exact ih1 idx hidx
    · intro n hn
      rw [ih2 n (fun idx hidx => hn idx (List.mem_cons_of_mem _ hidx))]
      exact mapSet_other _ _ _ _ (fun e => hn a (List.mem_cons_self _ _) e.symm)

theorem wrap64_of_in (x : Int) (h : InInt64 x) : wrap64 x = x := by
  unfold InInt64 at h
  unfold wrap64
  omega

theorem AliasMap.min_idxs_eq (idxs : List Index) :
    AliasMap.min_idxs idxs =
      idxs.foldl (fun m idx => mapSet m idx.name
        (if idx.affine.constant ≠ 0 then idx.affine.constant else 0)) (fun _ => none) := by
  unfold AliasMap.min_idxs
  congr 1
  funext m idx
  split <;> rfl

theorem AliasMap.max_idxs_eq (idxs : List Index) :
    AliasMap.max_idxs idxs =
      idxs.foldl (fun m idx => mapSet m idx.name
        (if idx.affine.constant ≠ 0 then idx.affine.constant
          else wrap64 ((idx.range : Int) - 1)))
        (fun _ => none) := by
  unfold AliasMap.max_idxs
  congr 1
  funext m idx
  split <;> rfl

/-- The bindings of `min_idxs` and `max_idxs` for distinctly named indices. -/
theorem AliasMap.idxs_spec (idxs : List Index) (hnd : (idxs.map (fun idx => idx.name)).Nodup) :
    (∀ idx ∈ idxs, idx.affine.constant ≠ 0 →
      AliasMap.min_idxs idxs idx.name = some idx.affine.constant ∧
      AliasMap.max_idxs idxs idx.name = some idx.affine.constant) ∧
    (∀ idx ∈ idxs, idx.affine.constant = 0 →
      AliasMap.min_idxs idxs idx.name = some 0 ∧
      AliasMap.max_idxs idxs idx.name = some (wrap64 ((idx.range : Int) - 1))) ∧
    (∀ n, (∀ idx ∈ idxs, idx.name ≠ n) →
      AliasMap.min_idxs idxs n = none ∧ AliasMap.max_idxs idxs n = none) := by
  rw [AliasMap.min_idxs_eq, AliasMap.max_idxs_eq]
  obtain ⟨hmin1, hmin2⟩ := AliasMap.foldl_mapSet_spec
    (fun idx => if idx.affine.constant ≠ 0 then idx.affine.constant else 0) idxs
    (fun _ => none) hnd
  obtain ⟨hmax1, hmax2⟩ := AliasMap.foldl_mapSet_spec
    (fun idx => if idx.affine.constant ≠ 0 then idx.affine.constant
      else wrap64 ((idx.range : Int) - 1))
    idxs (fun _ => none) hnd
  refine ⟨?_, ?_, ?_⟩
  · intro idx hidx hc
    rw [hmin1 idx hidx, hmax1 idx hidx]
    simp [hc]
  · intro idx hidx hc
    rw [hmin1 idx hidx, hmax1 idx hidx]
    simp [hc]
  · intro n hn
    exact ⟨hmin2 n hn, hmax2 n hn⟩

theorem AliasMap.extentsFrom_length (mn mx : String → Option Int) (dims : List TensorDimension)
    (l : List Affine) : ∀ k, (AliasMap.extentsFrom mn mx dims k l).length = l.length := by
  induction l with
  | nil => intro k; rfl
  | cons a rest ih => intro k; simp [AliasMap.extentsFrom, ih]

theorem AliasMap.extentsFrom_getElem? (mn mx : String → Option Int)
    (dims : List TensorDimension) (l : List Affine) :
    ∀ (k i : Nat) (a : Affine), l[i]? = some a →
      (AliasMap.extentsFrom mn mx dims k l)[i]? =
        some { min := wrap64 (a.eval mn),
               max := wrap64 (a.eval mx + ((dims.getD (k + i) default).size : Int) - 1) } := by
  induction l with
  | nil => intro k i a h; simp at h
  | cons b rest ih =>
    intro k i a h
    cases i with
    | zero =>
      simp only [List.getElem?_cons_zero, Option.some.injEq] at h
      subst h
      simp [AliasMap.extentsFrom]
    | succ i =>
      simp only [List.getElem?_cons_succ] at h
      simp only [AliasMap.extentsFrom, List.getElem?_cons_succ]
      rw [ih (k + 1) i a h]
      have hk : k + 1 + i = k + (i + 1) := by omega
      rw [hk]

/-- The extents of an entry written by the constructor. -/
theorem AliasMap.entry_extents (outer : AliasMap) (depth : Nat) (block : Block) (pos : Nat)
    (r : Refinement) (old info : AliasInfo)
    (h : AliasMap.entry outer depth block pos r old = Except.ok info) :
    info.extents =
      AliasMap.extentsFrom (AliasMap.min_idxs block.idxs) (AliasMap.max_idxs block.idxs)
        r.interior_shape.dims 0 r.access := by
  unfold AliasMap.entry at h
  by_cases hdir : r.dir = RefDir.None
  · simp only [hdir, ne_eq, not_true_eq_false, if_false, resize_length] at h
    simp only [Except.ok.injEq] at h
    subst h
    rfl
  · simp only [ne_eq, hdir, not_false_eq_true, if_true] at h
    cases ho : outer.info_ r.from_ with
    | none => rw [ho] at h; simp at h
    | some o =>
      rw [ho] at h
      by_cases hlen : o.access.length = r.access.length
      · simp only [hlen, not_true_eq_false, if_false, Except.ok.injEq] at h
        subst h
        rfl
      · simp [hlen] at h

theorem inner_offsetBlock : AliasMap.inner AliasMap.root offsetBlock = Except.ok offsetMap := rfl

theorem inner_reversedBlock :
    AliasMap.inner AliasMap.root reversedBlock = Except.ok reversedMap := rfl

theorem inner_edgeBlock : AliasMap.inner AliasMap.root edgeBlock = Except.ok edgeMap := rfl

/-- C12 fails as stated, in two ways.  The index `i` of `offsetBlock` has the affine `x + 3`,
which is not a pure constant, yet the constructor binds it to 3 in both `min_idxs` and
`max_idxs` instead of 0 and `range - 1 = 3` (the extent of `T` comes out as `[3, 3]`, not
`[0, 3]`).  And the maximum is computed in 64-bit arithmetic: in `edgeBlock` the access is
the constant `2^63 - 1` and the size 2, so `eval(max_idxs) + size - 1` is `2^63`, while the
extent holds the maximum `-2^63`. -/
theorem AliasMap.inner_extents_counterexample :
    (AliasMap.inner AliasMap.root offsetBlock = Except.ok offsetMap ∧
      offsetMap.info_ "T" = some entryOffsetT ∧
      entryOffsetT.extents = [{ min := 3, max := 3 }] ∧
      ¬ (∀ idx ∈ offsetBlock.idxs, idx.affine.isConstant = false →
          AliasMap.min_idxs offsetBlock.idxs idx.name = some 0 ∧
          AliasMap.max_idxs offsetBlock.idxs idx.name = some ((idx.range : Int) - 1))) ∧
    (AliasMap.inner AliasMap.root edgeBlock = Except.ok edgeMap ∧
      edgeMap.info_ "T" = some entryEdgeT ∧
      entryEdgeT.extents = [{ min := 9223372036854775807, max := -9223372036854775808 }] ∧
      (⟨[("", 9223372036854775807)]⟩ : Affine).eval (AliasMap.max_idxs edgeBlock.idxs)
        + ((shape1 2).dims[0].size : Int) - 1 = 9223372036854775808 ∧
      ¬ (∀ e, entryEdgeT.extents[0]? = some e →
          e.max = (⟨[("", 9223372036854775807)]⟩ : Affine).eval
              (AliasMap.max_idxs edgeBlock.idxs) + ((shape1 2).dims[0].size : Int) - 1)) := by
  refine ⟨⟨rfl, rfl, rfl, ?_⟩, ⟨rfl, rfl, rfl, by decide, ?_⟩⟩
  · intro h
    have h' := (h offsetIdx (List.mem_cons_self _ _) (by decide)).1
    have hmin : AliasMap.min_idxs offsetBlock.idxs offsetIdx.name = some 3 := by decide
    rw [hmin] at h'
    exact absurd h' (by decide)
  · intro h
    have h' := h { min := 9223372036854775807, max := -9223372036854775808 } rfl
    exact absurd h' (by decide)

/-- C12, amended: for every refinement `r` of a block with distinct `into` names and
distinct index names for which the constructor succeeds, and every dimension `i` of `r`
for which `r.access[i].eval(min_idxs)` and
`r.access[i].eval(max_idxs) + interior_shape.dims[i].size - 1` are values of `int64_t`
(between `-2^63` and `2^63 - 1`), the entry of `r` has
`extents[i].min = r.access[i].eval(min_idxs)` and
`extents[i].max = r.access[i].eval(max_idxs) + interior_shape.dims[i].size - 1`, where for
every index of the block whose affine has a nonzero constant term both `min_idxs` and
`max_idxs` map its name to that constant term, and for every index whose affine has
constant term zero `min_idxs` maps its name to 0 and, when `range - 1` is a value of
`int64_t`, `max_idxs` maps it to `range - 1`. -/
theorem AliasMap.inner_extents (outer : AliasMap) (block : Block) (m : AliasMap)
    (h : AliasMap.inner outer block = Except.ok m)
    (hnd : (block.refs.map (fun r => r.into)).Nodup)
    (hidx : (block.idxs.map (fun idx => idx.name)).Nodup)
    (r : Refinement) (hr : r ∈ block.refs) :
    (∃ info, m.info_ r.into = some info ∧ info.extents.length = r.access.length ∧
      ∀ (i : Nat) (hi : i < r.access.length) (hd : i < r.interior_shape.dims.length),
        InInt64 (r.access[i].eval (AliasMap.min_idxs block.idxs)) →
        InInt64 (r.access[i].eval (AliasMap.max_idxs block.idxs)
          + (r.interior_shape.dims[i].size : Int) - 1) →
        info.extents[i]? = some
          { min := r.access[i].eval (AliasMap.min_idxs block.idxs),
            max := r.access[i].eval (AliasMap.max_idxs block.idxs)
              + (r.interior_shape.dims[i].size : Int) - 1 }) ∧
    (∀ idx ∈ block.idxs, idx.affine.constant ≠ 0 →
      AliasMap.min_idxs block.idxs idx.name = some idx.affine.constant ∧
      AliasMap.max_idxs block.idxs idx.name = some idx.affine.constant) ∧
    (∀ idx ∈ block.idxs, idx.affine.constant = 0 →
      AliasMap.min_idxs block.idxs idx.name = some 0 ∧
      (InInt64 ((idx.range : Int) - 1) →
        AliasMap.max_idxs block.idxs idx.name = some ((idx.range : Int) - 1))) := by
  obtain ⟨hfix, hrange, _⟩ := AliasMap.idxs_spec block.idxs hidx
  refine ⟨?_, hfix, ?_⟩
  · obtain ⟨j, hj⟩ := exists_getElem?_of_mem block.refs r hr
    obtain ⟨info, he, hm⟩ := (AliasMap.inner_spec outer block m h hnd).1 j r hj
    have hext := AliasMap.entry_extents outer (outer.depth_ + 1) block j r default info he
    refine ⟨info, hm, ?_, ?_⟩
    · rw [hext, AliasMap.extentsFrom_length]
    · intro i hi hd hmin hmax
      rw [hext, AliasMap.extentsFrom_getElem? _ _ _ r.access 0 i r.access[i]
        (List.getElem?_eq_getElem hi)]
      have hdim : (r.interior_shape.dims.getD (0 + i) default) = r.interior_shape.dims[i] := by
        simp [List.getD_eq_getElem?_getD, List.getElem?_eq_getElem hd]
      rw [hdim, wrap64_of_in _ hmin, wrap64_of_in _ hmax]
  · intro idx hi hc
    obtain ⟨h0, h1⟩ := hrange idx hi hc
    refine ⟨h0, fun hfit => ?_⟩
    rw [h1, wrap64_of_in _ hfit]

/-- The amended C12 at `innerBlock` inside `rootBlock`: the refinement `x`, with access
`4 * i` over the index `i` of range 4 and four elements per step, has one extent, computed
from `min_idxs` and `max_idxs` (it is `[0, 15]`). -/
theorem AliasMap.inner_extents_witness :
    AliasMap.inner rootMap innerBlock = Except.ok innerMap ∧
    (innerBlock.refs.map (fun r => r.into)).Nodup ∧
    (innerBlock.idxs.map (fun idx => idx.name)).Nodup ∧
    borrowX ∈ innerBlock.refs ∧
    InInt64 ((⟨[("i", 4)]⟩ : Affine).eval (AliasMap.min_idxs innerBlock.idxs)) ∧
    InInt64 ((⟨[("i", 4)]⟩ : Affine).eval (AliasMap.max_idxs innerBlock.idxs)
      + ((4 : Nat) : Int) - 1) ∧
    (∃ info, innerMap.info_ borrowX.into = some info ∧
      info.extents.length = borrowX.access.length ∧
      info.extents[0]? = some
        { min := (⟨[("i", 4)]⟩ : Affine).eval (AliasMap.min_idxs innerBlock.idxs),
          max := (⟨[("i", 4)]⟩ : Affine).eval (AliasMap.max_idxs innerBlock.idxs)
            + ((4 : Nat) : Int) - 1 }) :=
  ⟨inner_innerBlock, by decide, by decide, List.mem_cons_self _ _, by decide, by decide,
    match (AliasMap.inner_extents rootMap innerBlock innerMap inner_innerBlock (by decide)
      (by decide) borrowX (List.mem_cons_self _ _)).1 with
    | ⟨info, h1, h2, h3⟩ =>
      ⟨info, h1, h2, h3 0 (by decide) (by decide) (by decide) (by decide)⟩⟩

theorem Affine.eval_mono (a : Affine) (ha : a.NonNegVars) (e1 e2 : String → Option Int)
    (hle : ∀ k, (e1 k).getD 0 ≤ (e2 k).getD 0) : a.eval e1 ≤ a.eval e2 := by
  unfold Affine.eval
  apply List.sum_le_sum
  intro t ht
  by_cases hk : t.1 = ""
  · simp [hk]
  · simp only [hk, if_false]
    exact mul_le_mul_of_nonneg_left (hle t.1) (ha t ht hk)

/-- Every assignment of the indices lies between `min_idxs` and `max_idxs`, when `range - 1`
is a value of `int64_t` for every index that ranges. -/
theorem AliasMap.idxs_bounds (idxs : List Index)
    (hnd : (idxs.map (fun idx => idx.name)).Nodup)
    (hfit : ∀ idx ∈ idxs, idx.affine.constant = 0 → InInt64 ((idx.range : Int) - 1))
    (env : String → Option Int)
    (henv : IndexAssignment idxs env) (k : String) :
    ((AliasMap.min_idxs idxs k).getD 0 ≤ (env k).getD 0) ∧
      ((env k).getD 0 ≤ (AliasMap.max_idxs idxs k).getD 0) := by
  obtain ⟨hfix, hrange, hnone⟩ := AliasMap.idxs_spec idxs hnd
  by_cases hk : ∃ idx ∈ idxs, idx.name = k
  · obtain ⟨idx, hidx, rfl⟩ := hk
    by_cases hc : idx.affine.constant = 0
    · obtain ⟨v, hv, h0, h1⟩ := (henv.2 idx hidx).2 hc
      obtain ⟨hmin, hmax⟩ := hrange idx hidx hc
      rw [hmin, hmax, hv, wrap64_of_in _ (hfit idx hidx hc)]
      simp only [Option.getD_some]
      omega
    · have hv := (henv.2 idx hidx).1 hc
      obtain ⟨hmin, hmax⟩ := hfix idx hidx hc
      rw [hmin, hmax, hv]
      simp
  · have hall : ∀ idx ∈ idxs, idx.name ≠ k := fun idx hidx e => hk ⟨idx, hidx, e⟩
    obtain ⟨hmin, hmax⟩ := hnone k hall
    rw [hmin, hmax, henv.1 k hall]
    simp

theorem specAssignment_reversed : SpecIndexAssignment reversedBlock.idxs envZero := by
  refine ⟨?_, ?_⟩
  · intro n hn
    have hne : n ≠ "i" := fun e => hn { name := "i", range := 4 } (List.mem_cons_self _ _) e.symm
    simp [envZero, mapSet, hne]
  · intro idx hidx
    simp only [reversedBlock, List.mem_singleton] at hidx
    subst hidx
    exact ⟨fun _ => rfl, fun hc => absurd hc (by decide)⟩

theorem specAssignment_offset : SpecIndexAssignment offsetBlock.idxs envZero := by
  refine ⟨?_, ?_⟩
  · intro n hn
    have hne : n ≠ "i" := fun e => hn offsetIdx (List.mem_cons_self _ _) e.symm
    simp [envZero, mapSet, hne]
  · intro idx hidx
    simp only [offsetBlock, List.mem_singleton] at hidx
    subst hidx
    exact ⟨fun hc => absurd hc (by decide), fun _ => ⟨0, rfl, by decide, by decide⟩⟩

theorem specAssignment_edge : SpecIndexAssignment edgeBlock.idxs envNone :=
  ⟨fun _ _ => rfl, fun idx hidx => absurd hidx (List.not_mem_nil idx)⟩

/-- C13 fails as stated, in three ways.  In `reversedBlock` the access `-i` has a negative
coefficient: the constructor evaluates it at `i = 0` for the minimum and at `i = 3` for
the maximum and gets the extent `[0, -3]`, which does not contain the element 0 touched at
`i = 0`.  In `offsetBlock` the index `i` has the affine `x + 3`, not a pure constant, so it
ranges over `[0, 4)`; the constructor binds it to 3 and gets the extent `[3, 3]`, which does
not contain the element 0 touched at `i = 0`.  In `edgeBlock`, which has no index, the
access is the constant `2^63 - 1` and the size 2: the maximum of the extent, computed in
64-bit arithmetic, is `-2^63`, below the access. -/
theorem AliasMap.inner_extents_bound_counterexample :
    (AliasMap.inner AliasMap.root reversedBlock = Except.ok reversedMap ∧
      reversedMap.info_ "T" = some entryReversedT ∧
      ¬ (SpecIndexAssignment reversedBlock.idxs envZero →
          ∀ e, entryReversedT.extents[0]? = some e →
            e.min ≤ (⟨[("i", -1)]⟩ : Affine).eval envZero ∧
            (⟨[("i", -1)]⟩ : Affine).eval envZero + ((shape1 1).dims[0].size : Int) - 1 ≤ e.max)) ∧
    (AliasMap.inner AliasMap.root offsetBlock = Except.ok offsetMap ∧
      offsetMap.info_ "T" = some entryOffsetT ∧
      ¬ (SpecIndexAssignment offsetBlock.idxs envZero →
          ∀ e, entryOffsetT.extents[0]? = some e →
            e.min ≤ (⟨[("i", 1)]⟩ : Affine).eval envZero ∧
            (⟨[("i", 1)]⟩ : Affine).eval envZero + ((shape1 1).dims[0].size : Int) - 1 ≤ e.max)) ∧
    (AliasMap.inner AliasMap.root edgeBlock = Except.ok edgeMap ∧
      edgeMap.info_ "T" = some entryEdgeT ∧
      ¬ (SpecIndexAssignment edgeBlock.idxs envNone →
          ∀ e, entryEdgeT.extents[0]? = some e →
            e.min ≤ (⟨[("", 9223372036854775807)]⟩ : Affine).eval envNone ∧
            (⟨[("", 9223372036854775807)]⟩ : Affine).eval envNone
              + ((shape1 2).dims[0].size : Int) - 1 ≤ e.max)) := by
  refine ⟨⟨rfl, rfl, ?_⟩, ⟨rfl, rfl, ?_⟩, ⟨rfl, rfl, ?_⟩⟩
  · intro h
    have h' := (h specAssignment_reversed { min := 0, max := -3 } rfl).2
    exact absurd h' (by decide)
  · intro h
    have h' := (h specAssignment_offset { min := 3, max := 3 } rfl).1
    exact absurd h' (by decide)
  · intro h
    have h' := (h specAssignment_edge
      { min := 9223372036854775807, max := -9223372036854775808 } rfl).2
    exact absurd h' (by decide)

/-- C13, amended: for every refinement `r` of a block with distinct `into` names and
distinct index names for which the constructor succeeds, where `range - 1` is a value of
`int64_t` (between `-2^63` and `2^63 - 1`) for every index whose affine has constant term
zero, every dimension `i` of `r` whose access has no negative coefficient on an index name
and for which `r.access[i].eval(min_idxs)` and
`r.access[i].eval(max_idxs) + interior_shape.dims[i].size - 1` are values of `int64_t`, and
every assignment of the block's indices in which each index whose affine has constant term
zero takes a value in `[0, range)` and each index whose affine has a nonzero constant term
takes that constant term, `extents[i].min ≤ r.access[i].eval(assignment)` and
`r.access[i].eval(assignment) + interior_shape.dims[i].size - 1 ≤ extents[i].max`. -/
theorem AliasMap.inner_extents_bound (outer : AliasMap) (block : Block) (m : AliasMap)
    (h : AliasMap.inner outer block = Except.ok m)
    (hnd : (block.refs.map (fun r => r.into)).Nodup)
    (hidx : (block.idxs.map (fun idx => idx.name)).Nodup)
    (hfit : ∀ idx ∈ block.idxs, idx.affine.constant = 0 → InInt64 ((idx.range : Int) - 1))
    (r : Refinement) (hr : r ∈ block.refs)
    (env : String → Option Int) (henv : IndexAssignment block.idxs env)
    (i : Nat) (hi : i < r.access.length) (hd : i < r.interior_shape.dims.length)
    (hpos : r.access[i].NonNegVars)
    (hmin : InInt64 (r.access[i].eval (AliasMap.min_idxs block.idxs)))
    (hmax : InInt64 (r.access[i].eval (AliasMap.max_idxs block.idxs)
      + (r.interior_shape.dims[i].size : Int) - 1)) :
    ∃ info e, m.info_ r.into = some info ∧ info.extents[i]? = some e ∧
      e.min ≤ r.access[i].eval env ∧
      r.access[i].eval env + (r.interior_shape.dims[i].size : Int) - 1 ≤ e.max := by
  obtain ⟨j, hj⟩ := exists_getElem?_of_mem block.refs r hr
  obtain ⟨info, he, hm⟩ := (AliasMap.inner_spec outer block m h hnd).1 j r hj
  have hext := AliasMap.entry_extents outer (outer.depth_ + 1) block j r default info he
  have hget := AliasMap.extentsFrom_getElem? (AliasMap.min_idxs block.idxs)
    (AliasMap.max_idxs block.idxs) r.interior_shape.dims r.access 0 i r.access[i]
    (List.getElem?_eq_getElem hi)
  have hdim : (r.interior_shape.dims.getD (0 + i) default) = r.interior_shape.dims[i] := by
    simp [List.getD_eq_getElem?_getD, List.getElem?_eq_getElem hd]
  rw [hdim, wrap64_of_in _ hmin, wrap64_of_in _ hmax] at hget
  refine ⟨info, _, hm, by rw [hext]; exact hget, ?_, ?_⟩
  · exact Affine.eval_mono _ hpos _ _
      (fun k => (AliasMap.idxs_bounds block.idxs hidx hfit env henv k).1)
  · have := Affine.eval_mono _ hpos _ _
      (fun k => (AliasMap.idxs_bounds block.idxs hidx hfit env henv k).2)
    show r.access[i].eval env + (r.interior_shape.dims[i].size : Int) - 1
      ≤ r.access[i].eval (AliasMap.max_idxs block.idxs) + (r.interior_shape.dims[i].size : Int) - 1
    omega

theorem assignment_inner : IndexAssignment innerBlock.idxs envTwo := by
  refine ⟨?_, ?_⟩
  · intro n hn
    have hne : n ≠ "i" := fun e => hn { name := "i", range := 4 } (List.mem_cons_self _ _) e.symm
    simp [envTwo, mapSet, hne]
  · intro idx hidx
    simp only [innerBlock, List.mem_singleton] at hidx
    subst hidx
    exact ⟨fun hc => absurd rfl hc, fun _ => ⟨2, rfl, by decide, by decide⟩⟩

theorem nonNeg_borrowX : (⟨[("i", 4)]⟩ : Affine).NonNegVars := by
  intro t ht _
  simp only [List.mem_singleton] at ht
  subst ht
  decide

/-- The amended C13 at `innerBlock` inside `rootBlock`, for the refinement `x` (access
`4 * i`, four elements per step) and the assignment `i = 2`: elements 8..11 lie in the
extent. -/
theorem AliasMap.inner_extents_bound_witness :
    AliasMap.inner rootMap innerBlock = Except.ok innerMap ∧
    (innerBlock.refs.map (fun r => r.into)).Nodup ∧
    (innerBlock.idxs.map (fun idx => idx.name)).Nodup ∧
    (∀ idx ∈ innerBlock.idxs, idx.affine.constant = 0 → InInt64 ((idx.range : Int) - 1)) ∧
    borrowX ∈ innerBlock.refs ∧ IndexAssignment innerBlock.idxs envTwo ∧
    (⟨[("i", 4)]⟩ : Affine).NonNegVars ∧
    InInt64 ((⟨[("i", 4)]⟩ : Affine).eval (AliasMap.min_idxs innerBlock.idxs)) ∧
    InInt64 ((⟨[("i", 4)]⟩ : Affine).eval (AliasMap.max_idxs innerBlock.idxs)
      + ((4 : Nat) : Int) - 1) ∧
    ∃ info e, innerMap.info_ borrowX.into = some info ∧ info.extents[0]? = some e ∧
      e.min ≤ (⟨[("i", 4)]⟩ : Affine).eval envTwo ∧
      (⟨[("i", 4)]⟩ : Affine).eval envTwo + ((4 : Nat) : Int) - 1 ≤ e.max :=
  ⟨inner_innerBlock, by decide, by decide, by decide, List.mem_cons_self _ _,
    assignment_inner, nonNeg_borrowX, by decide, by decide,
    AliasMap.inner_extents_bound rootMap innerBlock innerMap inner_innerBlock (by decide)
      (by decide) (by decide) borrowX (List.mem_cons_self _ _) envTwo assignment_inner 0
      (by decide) (by decide) nonNeg_borrowX (by decide) (by decide)⟩

/-! ## RefUseCounts -/

theorem foldl_setEmplace_spec (l : List String) :
    ∀ (s : List String), s.Nodup →
      (l.foldl setEmplace s).Nodup ∧ ∀ x, x ∈ l.foldl setEmplace s ↔ x ∈ s ∨ x ∈ l := by
  induction l with
  | nil => intro s hs; simp [hs]
  | cons a l ih =>
    intro s hs
    have hstep : (setEmplace s a).Nodup ∧ ∀ x, x ∈ setEmplace s a ↔ x ∈ s ∨ x = a := by
      unfold setEmplace
      by_cases ha : a ∈ s
      · simp only [ha, if_true]
        refine ⟨hs, fun x => ⟨Or.inl, ?_⟩⟩
        rintro (h | rfl)
        · exact h
        · exact ha
      · simp only [ha, if_false]
        refine ⟨?_, fun x => by simp⟩
        rw [List.nodup_append]
        refine ⟨hs, List.nodup_singleton a, ?_⟩
        intro x hx hx'
        simp only [List.mem_singleton] at hx'
        subst hx'
        exact ha hx
    obtain ⟨ih1, ih2⟩ := ih (setEmplace s a) hstep.1
    refine ⟨ih1, fun x => ?_⟩
    rw [List.foldl_cons, ih2 x, hstep.2 x, List.mem_cons]
    tauto

theorem buf_use_spec (rd wr : Block → List String) (stmt : Statement) :
    (buf_use rd wr stmt).Nodup ∧
      ∀ x, x ∈ buf_use rd wr stmt ↔ Statement.mentions rd wr x stmt = true := by
  obtain ⟨h1, h2⟩ := foldl_setEmplace_spec (stmt.buffer_reads rd) [] List.nodup_nil
  obtain ⟨h3, h4⟩ := foldl_setEmplace_spec (stmt.buffer_writes wr) _ h1
  refine ⟨h3, fun x => ?_⟩
  unfold buf_use Statement.mentions
  rw [h4 x, h2 x]
  simp

/-- Incrementing the counters of the names of a duplicate-free list. -/
theorem foldl_increment_spec (bu : List String) :
    ∀ (uc : String → Option Nat), bu.Nodup → ∀ name,
      bu.foldl (fun uc str => mapSet uc str ((uc str).getD 0 + 1)) uc name =
        if name ∈ bu then some ((uc name).getD 0 + 1) else uc name := by
  induction bu with
  | nil => intro uc _ name; simp
  | cons a bu ih =>
    intro uc hnd name
    obtain ⟨ha, hnd'⟩ := List.nodup_cons.1 hnd
    rw [List.foldl_cons, ih _ hnd' name]
    by_cases hname : name = a
    · subst hname
      simp [ha, mapSet_same]
    · by_cases hmem : name ∈ bu
      · simp [hmem, mapSet_other _ _ _ _ hname]
      · simp [hmem, hname, mapSet_other _ _ _ _ hname]

/-- The loop over the statements, from any starting map. -/
theorem RefUseCounts_fold (rd wr : Block → List String) (stmts : List Statement) :
    ∀ (uc0 : String → Option Nat) (name : String),
      stmts.foldl
        (fun use_count stmt =>
          (buf_use rd wr stmt).foldl
            (fun uc str => mapSet uc str ((uc str).getD 0 + 1)) use_count) uc0 name =
        if stmts.countP (Statement.mentions rd wr name) = 0 then uc0 name
        else some ((uc0 name).getD 0 + stmts.countP (Statement.mentions rd wr name)) := by
  induction stmts with
  | nil => intro uc0 name; simp
  | cons s rest ih =>
    intro uc0 name
    obtain ⟨hnd, hmem⟩ := buf_use_spec rd wr s
    rw [List.foldl_cons, ih, foldl_increment_spec _ uc0 hnd name]
    by_cases hs : Statement.mentions rd wr name s = true
    · have hin : name ∈ buf_use rd wr s := (hmem name).2 hs
      rw [List.countP_cons_of_pos _ _ hs, if_pos hin, if_neg (Nat.succ_ne_zero _)]
      by_cases hrest : List.countP (Statement.mentions rd wr name) rest = 0
      · rw [if_pos hrest, hrest]
      · rw [if_neg hrest]
        simp only [Option.getD_some, Option.some.injEq]
        omega
    · have hin : name ∉ buf_use rd wr s := fun h => hs ((hmem name).1 h)
      rw [List.countP_cons_of_neg _ _ hs, if_neg hin]

/-- C14: `RefUseCounts(block)` maps every buffer name to the number of direct child
statements of the block whose `buffer_reads` or `buffer_writes` contain it, each statement
counted once however often it mentions the name; a name that no statement mentions is
absent; and no count exceeds the number of statements. -/
theorem AliasMap.RefUseCounts_spec (m : AliasMap) (blockReads blockWrites : Block → List String)
    (block : Block) (name : String) :
    AliasMap.RefUseCounts m blockReads blockWrites block name =
        (if block.stmts.countP (Statement.mentions blockReads blockWrites name) = 0 then none
         else some (block.stmts.countP (Statement.mentions blockReads blockWrites name))) ∧
      block.stmts.countP (Statement.mentions blockReads blockWrites name) ≤ block.stmts.length ∧
      (∀ c, AliasMap.RefUseCounts m blockReads blockWrites block name = some c →
        c ≤ block.stmts.length) := by
  have hcount := List.countP_le_length (Statement.mentions blockReads blockWrites name)
    (l := block.stmts)
  have hval : AliasMap.RefUseCounts m blockReads blockWrites block name =
      (if block.stmts.countP (Statement.mentions blockReads blockWrites name) = 0 then none
       else some (block.stmts.countP (Statement.mentions blockReads blockWrites name))) := by
    unfold AliasMap.RefUseCounts
    rw [RefUseCounts_fold]
    by_cases h0 : block.stmts.countP (Statement.mentions blockReads blockWrites name) = 0
    · rw [if_pos h0, if_pos h0]
    · rw [if_neg h0, if_neg h0]
      simp
  refine ⟨hval, hcount, ?_⟩
  intro c hc
  rw [hval] at hc
  by_cases h0 : block.stmts.countP (Statement.mentions blockReads blockWrites name) = 0
  · rw [if_pos h0] at hc
    exact absurd hc (by simp)
  · rw [if_neg h0] at hc
    simp only [Option.some.injEq] at hc
    omega

/-- C14 on `usesBlock`: `A` is mentioned by the load and (three times) by the special, so
its count is 2, which is at most the three statements of the block. -/
theorem AliasMap.RefUseCounts_spec_witness :
    AliasMap.RefUseCounts AliasMap.root (fun _ => []) (fun _ => []) usesBlock "A" = some 2 ∧
      2 ≤ usesBlock.stmts.length :=
  ⟨by decide,
    (AliasMap.RefUseCounts_spec AliasMap.root (fun _ => []) (fun _ => []) usesBlock "A").2.2 2
      (by decide)⟩

/-! ## RunOnBlocks -/

theorem has_tags_iff (tags reqs : Tags) : has_tags tags reqs = true ↔ ∀ t ∈ reqs, t ∈ tags := by
  simp [has_tags]

theorem topBlocks_eq (reqs : Tags) (b : Block) :
    topBlocks reqs b =
      if has_tags b.tags reqs then [([], b)] else topBlocksStmts reqs 0 b.stmts := by
  cases b
  simp [topBlocks]

theorem mem_topBlocksStmt (reqs : Tags) (stmt : Statement) (p : List Nat) (c : Block) :
    (p, c) ∈ topBlocksStmt reqs stmt ↔
      ∃ inner, stmt = Statement.Block inner ∧ (p, c) ∈ topBlocks reqs inner := by
  cases stmt <;> simp [topBlocksStmt]

/-- The stops below a list of statements are the stops of its nested blocks, each path
extended by the position of the block. -/
theorem mem_topBlocksStmts (reqs : Tags) (stmts : List Statement) :
    ∀ (k : Nat) (p : List Nat) (c : Block),
      (p, c) ∈ topBlocksStmts reqs k stmts ↔
        ∃ (i : Nat) (inner : Block) (rest : List Nat), p = (k + i) :: rest ∧
          stmts[i]? = some (Statement.Block inner) ∧ (rest, c) ∈ topBlocks reqs inner := by
  induction stmts with
  | nil => intro k p c; simp [topBlocksStmts]
  | cons s stmts ih =>
    intro k p c
    simp only [topBlocksStmts, List.mem_append, List.mem_map, Prod.mk.injEq, Prod.exists]
    constructor
    · rintro (⟨q, d, hmem, rfl, rfl⟩ | h)
      · obtain ⟨inner, rfl, hin⟩ := (mem_topBlocksStmt reqs s q d).1 hmem
        exact ⟨0, inner, q, by simp, by simp, hin⟩
      · obtain ⟨i, inner, rest, rfl, hget, hin⟩ := (ih (k + 1) p c).1 h
        exact ⟨i + 1, inner, rest, by congr 1; omega, by simpa using hget, hin⟩
    · rintro ⟨i, inner, rest, rfl, hget, hin⟩
      cases i with
      | zero =>
        simp only [List.getElem?_cons_zero, Option.some.injEq] at hget
        subst hget
        exact Or.inl ⟨rest, c, (mem_topBlocksStmt reqs _ rest c).2 ⟨inner, rfl, hin⟩, by simp, rfl⟩
      | succ i =>
        simp only [List.getElem?_cons_succ] at hget
        refine Or.inr ((ih (k + 1) _ c).2 ⟨i, inner, rest, ?_, hget, hin⟩)
        congr 1
        omega

theorem subBlock_cons (b : Block) (i : Nat) (rest : List Nat) (c : Block) :
    subBlock b (i :: rest) = some c ↔
      ∃ inner, b.stmts[i]? = some (Statement.Block inner) ∧ subBlock inner rest = some c := by
  simp only [subBlock]
  cases hget : b.stmts[i]? with
  | none => simp
  | some s => cases s <;> simp

/-- The stops computed by `topBlocks` are the blocks whose tags contain `reqs` while the
tags of no proper ancestor do. -/
theorem mem_topBlocks_iff (reqs : Tags) (p : List Nat) :
    ∀ (b c : Block), (p, c) ∈ topBlocks reqs b ↔ TopMatch reqs b p c := by
  induction p with
  | nil =>
    intro b c
    rw [topBlocks_eq]
    unfold TopMatch
    by_cases ht : has_tags b.tags reqs = true
    · have ht' := (has_tags_iff b.tags reqs).1 ht
      rw [if_pos ht]
      simp only [List.mem_singleton, Prod.mk.injEq, true_and, subBlock, Option.some.injEq]
      constructor
      · rintro rfl
        refine ⟨rfl, ht', ?_⟩
        intro q a hq hne
        exact absurd (List.prefix_nil.1 hq) hne
      · rintro ⟨rfl, _, _⟩
        rfl
    · rw [if_neg ht]
      simp only [subBlock, Option.some.injEq]
      constructor
      · intro h
        obtain ⟨i, inner, rest, hp, _, _⟩ := (mem_topBlocksStmts reqs b.stmts 0 [] c).1 h
        exact absurd hp (by simp)
      · rintro ⟨rfl, hall, _⟩
        exact absurd ((has_tags_iff b.tags reqs).2 hall) ht
  | cons i rest ih =>
    intro b c
    rw [topBlocks_eq]
    unfold TopMatch
    by_cases ht : has_tags b.tags reqs = true
    · have ht' := (has_tags_iff b.tags reqs).1 ht
      rw [if_pos ht]
      simp only [List.mem_singleton, Prod.mk.injEq]
      constructor
      · rintro ⟨h, _⟩
        exact absurd h (by simp)
      · rintro ⟨_, _, hanc⟩
        exact absurd ht' (hanc [] b List.nil_prefix (by simp) rfl)
    · rw [if_neg ht, mem_topBlocksStmts]
      constructor
      · rintro ⟨j, inner, rest', hp, hget, hin⟩
        simp only [Nat.zero_add, List.cons.injEq] at hp
        obtain ⟨rfl, rfl⟩ := hp
        obtain ⟨hsub, htags, hanc⟩ := (ih inner c).1 hin
        refine ⟨(subBlock_cons b i rest c).2 ⟨inner, hget, hsub⟩, htags, ?_⟩
        intro q a hq hne ha
        rcases List.prefix_cons_iff.1 hq with rfl | ⟨t, rfl, ht2⟩
        · simp only [subBlock, Option.some.injEq] at ha
          subst ha
          exact fun hall => ht ((has_tags_iff _ reqs).2 hall)
        · obtain ⟨inner', hget', hsub'⟩ := (subBlock_cons b i t a).1 ha
          rw [hget] at hget'
          simp only [Option.some.injEq, Statement.Block.injEq] at hget'
          subst hget'
          exact hanc t a ht2 (fun e => hne (by rw [e])) hsub'
      · rintro ⟨hsub, htags, hanc⟩
        obtain ⟨inner, hget, hsub'⟩ := (subBlock_cons b i rest c).1 hsub
        refine ⟨i, inner, rest, by simp, hget, (ih inner c).2 ⟨hsub', htags, ?_⟩⟩
        intro q a hq hne ha
        exact hanc (i :: q) a (List.cons_prefix_cons.2 ⟨rfl, hq⟩) (fun e => hne (by simpa using e))
          ((subBlock_cons b i q a).2 ⟨inner, hget, ha⟩)

theorem map_snd_extend (i : Nat) (l : List (List Nat × Block)) :
    (l.map (fun pb => (i :: pb.1, pb.2))).map Prod.snd = l.map Prod.snd := by
  simp [List.map_map, Function.comp_def]

theorem map_fst_extend (i : Nat) (l : List (List Nat × Block)) :
    (l.map (fun pb => (i :: pb.1, pb.2))).map Prod.fst = (l.map Prod.fst).map (fun p => i :: p) := by
  simp [List.map_map, Function.comp_def]

/-- The stops of `topBlocks` come in pre-order: their paths increase lexicographically. -/
theorem topBlocks_ordered (reqs : Tags) (b : Block) :
    ((topBlocks reqs b).map Prod.fst).Pairwise (List.Lex (fun i j => i < j)) := by
  refine topBlocks.induct reqs
    (fun b => ((topBlocks reqs b).map Prod.fst).Pairwise (List.Lex (fun i j => i < j)))
    (fun i stmts =>
      ((topBlocksStmts reqs i stmts).map Prod.fst).Pairwise (List.Lex (fun i j => i < j)))
    (fun stmt =>
      ((topBlocksStmt reqs stmt).map Prod.fst).Pairwise (List.Lex (fun i j => i < j)))
    ?_ ?_ ?_ ?_ ?_ ?_ ?_ ?_ ?_ ?_ b
  · intro inner ih
    simpa [topBlocksStmt] using ih
  · intros; simp [topBlocksStmt]
  · intros; simp [topBlocksStmt]
  · intros; simp [topBlocksStmt]
  · intros; simp [topBlocksStmt]
  · intros; simp [topBlocksStmt]
  · intro tags deps name comments idxs constraints refs stmts location ht
    simp [topBlocks, ht]
  · intro tags deps name comments idxs constraints refs stmts location ht ih
    simpa [topBlocks, ht] using ih
  · intro i
    simp [topBlocksStmts]
  · intro i stmt rest ih1 ih2
    simp only [topBlocksStmts, List.map_append, map_fst_extend]
    rw [List.pairwise_append]
    refine ⟨?_, ih2, ?_⟩
    · rw [List.pairwise_map]
      exact ih1.imp (fun h => List.Lex.cons h)
    · intro p hp q hq
      obtain ⟨p', _, rfl⟩ := List.mem_map.1 hp
      obtain ⟨⟨q1, c⟩, hqc, rfl⟩ := List.mem_map.1 hq
      obtain ⟨j, inner, rest', hq1, _, _⟩ := (mem_topBlocksStmts reqs rest (i + 1) q1 c).1 hqc
      simp only at hq1 ⊢
      rw [hq1]
      exact List.Lex.rel (by omega)

theorem lex_irrefl (l : List Nat) : ¬ List.Lex (fun i j => i < j) l l := by
  induction l with
  | nil => intro h; cases h
  | cons a l ih =>
    intro h
    cases h with
    | cons h' => exact ih h'
    | rel h' => exact absurd h' (Nat.lt_irrefl a)

/-- Whatever the callback does, the traversal appends to the trace of its invocations the
stops of `topBlocks`, in order. -/
theorem RunOnBlocksRecurse_trace {σ : Type}
    (func : AliasMap → Block → σ → Except String (Block × σ)) (reqs : Tags) (b : Block) :
    ∀ (map : AliasMap) (st : σ × List Block) (r : Block × (σ × List Block)),
      RunOnBlocksRecurse (recording func) reqs map b st = Except.ok r →
      r.2.2 = st.2 ++ (topBlocks reqs b).map Prod.snd := by
  refine topBlocks.induct reqs
    (fun b => ∀ (map : AliasMap) (st : σ × List Block) (r : Block × (σ × List Block)),
      RunOnBlocksRecurse (recording func) reqs map b st = Except.ok r →
      r.2.2 = st.2 ++ (topBlocks reqs b).map Prod.snd)
    (fun i stmts => ∀ (map : AliasMap) (st : σ × List Block)
        (r : List Statement × (σ × List Block)),
      RunOnBlocksStmts (recording func) reqs map stmts st = Except.ok r →
      r.2.2 = st.2 ++ (topBlocksStmts reqs i stmts).map Prod.snd)
    (fun stmt => ∀ (map : AliasMap) (st : σ × List Block) (r : Statement × (σ × List Block)),
      RunOnBlocksStmt (recording func) reqs map stmt st = Except.ok r →
      r.2.2 = st.2 ++ (topBlocksStmt reqs stmt).map Prod.snd)
    ?_ ?_ ?_ ?_ ?_ ?_ ?_ ?_ ?_ ?_ b
  · intro inner ih map st r h
    simp only [RunOnBlocksStmt] at h
    cases hm : AliasMap.inner map inner with
    | error e => rw [hm] at h; simp at h
    | ok inner_map =>
      rw [hm] at h
      simp only at h
      cases hrec : RunOnBlocksRecurse (recording func) reqs inner_map inner st with
      | error e => rw [hrec] at h; simp at h
      | ok r' =>
        rw [hrec] at h
        have hr' := ih inner_map st r' hrec
        simp only [Except.ok.injEq] at h
        subst h
        simpa [topBlocksStmt] using hr'
  · intro tags deps from_ into map st r h
    simp only [RunOnBlocksStmt, Except.ok.injEq] at h
    subst h
    simp [topBlocksStmt]
  · intro tags deps from_ into map st r h
    simp only [RunOnBlocksStmt, Except.ok.injEq] at h
    subst h
    simp [topBlocksStmt]
  · intro tags deps name type iconst map st r h
    simp only [RunOnBlocksStmt, Except.ok.injEq] at h
    subst h
    simp [topBlocksStmt]
  · intro tags deps name params inputs outputs map st r h
    simp only [RunOnBlocksStmt, Except.ok.injEq] at h
    subst h
    simp [topBlocksStmt]
  · intro tags deps name type inputs outputs map st r h
    simp only [RunOnBlocksStmt, Except.ok.injEq] at h
    subst h
    simp [topBlocksStmt]
  · intro tags deps name comments idxs constraints refs stmts location ht map st r h
    simp only [RunOnBlocksRecurse, ht, if_true, recording] at h
    cases hf : func map ⟨tags, deps, name, comments, idxs, constraints, refs, stmts, location⟩
        st.1 with
    | error e => rw [hf] at h; simp at h
    | ok r' =>
      rw [hf] at h
      simp only [Except.ok.injEq] at h
      subst h
      simp [topBlocks, ht]
  · intro tags deps name comments idxs constraints refs stmts location ht ih map st r h
    simp only [RunOnBlocksRecurse, ht, Bool.false_eq_true, if_false] at h
    cases hst : RunOnBlocksStmts (recording func) reqs map stmts st with
    | error e => rw [hst] at h; simp at h
    | ok r' =>
      rw [hst] at h
      have hr' := ih map st r' hst
      simp only [Except.ok.injEq] at h
      subst h
      simpa [topBlocks, ht] using hr'
  · intro i map st r h
    simp only [RunOnBlocksStmts, Except.ok.injEq] at h
    subst h
    simp [topBlocksStmts]
  · intro i stmt rest ih1 ih2 map st r h
    simp only [RunOnBlocksStmts] at h
    cases h1 : RunOnBlocksStmt (recording func) reqs map stmt st with
    | error e => rw [h1] at h; simp at h
    | ok r1 =>
      rw [h1] at h
      have hr1 := ih1 map st r1 h1
      simp only at h
      cases h2 : RunOnBlocksStmts (recording func) reqs map rest r1.2 with
      | error e => rw [h2] at h; simp at h
      | ok r2 =>
        rw [h2] at h
        have hr2 := ih2 map r1.2 r2 h2
        simp only [Except.ok.injEq] at h
        subst h
        simp only [topBlocksStmts, List.map_append, map_snd_extend]
        rw [hr2, hr1, List.append_assoc]

/-- C15: whatever the callback does, when `RunOnBlocks(root, reqs, func)` returns (every
alias construction and every invocation having succeeded), `func` has been invoked on the
blocks of a list of visits such that: a block at a path of the tree is visited if and only
if its tags contain all of `reqs` and the tags of none of its proper ancestors do; the
paths of the visits increase in pre-order (lexicographically, by statement positions), so
no block is visited twice; and with empty `reqs` the only invocation is on the root. -/
theorem RunOnBlocks_visits {σ : Type} (func : AliasMap → Block → σ → Except String (Block × σ))
    (root : Block) (reqs : Tags) (s s' : σ) (root' : Block) (trace : List Block)
    (h : RunOnBlocks (recording func) root reqs (s, []) = Except.ok (root', (s', trace))) :
    (∃ visits : List (List Nat × Block),
      trace = visits.map Prod.snd ∧
      (∀ p b, (p, b) ∈ visits ↔ TopMatch reqs root p b) ∧
      (visits.map Prod.fst).Pairwise (List.Lex (fun i j => i < j)) ∧
      (visits.map Prod.fst).Nodup) ∧
    (reqs = [] → trace = [root]) := by
  unfold RunOnBlocks at h
  cases hm : AliasMap.inner AliasMap.root root with
  | error e => rw [hm] at h; simp at h
  | ok root_map =>
    rw [hm] at h
    have htr := RunOnBlocksRecurse_trace func reqs root root_map (s, []) _ h
    simp only [List.nil_append] at htr
    have hord := topBlocks_ordered reqs root
    refine ⟨⟨topBlocks reqs root, htr, fun p b => mem_topBlocks_iff reqs p root b, hord, ?_⟩, ?_⟩
    · show List.Pairwise (fun a b => a ≠ b) _
      refine hord.imp ?_
      intro a b hlex e
      subst e
      exact lex_irrefl _ hlex
    · intro hreqs
      subst hreqs
      rw [htr, topBlocks_eq]
      simp [has_tags]

/-- C15 on `treeBlock` with `reqs = {main}` and a callback that changes nothing: the
invocations are on `main` (path 0) and on `kernel` (path 2, 0), in this order; the block
nested in `main` and the untagged blocks are not visited. -/
theorem RunOnBlocks_visits_witness :
    RunOnBlocks (recording keepBlock) treeBlock ["main"] ((), [])
      = Except.ok (treeBlock, ((), [mainBlock, leafBlock "kernel" ["main", "k"]])) ∧
    ((∃ visits : List (List Nat × Block),
      [mainBlock, leafBlock "kernel" ["main", "k"]] = visits.map Prod.snd ∧
      (∀ p b, (p, b) ∈ visits ↔ TopMatch ["main"] treeBlock p b) ∧
      (visits.map Prod.fst).Pairwise (List.Lex (fun i j => i < j)) ∧
      (visits.map Prod.fst).Nodup) ∧
    (["main"] = ([] : Tags) → [mainBlock, leafBlock "kernel" ["main", "k"]] = [treeBlock])) :=
  ⟨rfl, RunOnBlocks_visits keepBlock treeBlock ["main"] () () treeBlock _ rfl⟩

/-! ## ApplyCache -/

theorem refByInto_none_iff (name : String) (refs : List Refinement) :
    ∀ pos, refByInto name pos refs = none ↔ ∀ r ∈ refs, r.into ≠ name := by
  induction refs with
  | nil => intro pos; simp [refByInto]
  | cons a rest ih =>
    intro pos
    by_cases ha : a.into = name
    · simp [refByInto, ha]
    · simp [refByInto, ha, ih (pos + 1)]

/-- What `ref_by_into` returns when it finds a refinement: the first one named `name`. -/
theorem refByInto_some (name : String) (refs : List Refinement) :
    ∀ (pos i : Nat) (r : Refinement), refByInto name pos refs = some (i, r) →
      pos ≤ i ∧ refs[i - pos]? = some r ∧ r.into = name ∧
        ∀ j r', j < i - pos → refs[j]? = some r' → r'.into ≠ name := by
  induction refs with
  | nil => intro pos i r h; simp [refByInto] at h
  | cons a rest ih =>
    intro pos i r h
    by_cases ha : a.into = name
    · simp only [refByInto, ha, if_true, Option.some.injEq, Prod.mk.injEq] at h
      obtain ⟨rfl, rfl⟩ := h
      refine ⟨Nat.le_refl _, by simp, ha, ?_⟩
      intro j r' hj
      omega
    · simp only [refByInto, ha, if_false] at h
      obtain ⟨hle, hget, hinto, hfirst⟩ := ih (pos + 1) i r h
      have hsub : i - pos = (i - (pos + 1)) + 1 := by omega
      refine ⟨by omega, ?_, hinto, ?_⟩
      · rw [hsub, List.getElem?_cons_succ]
        exact hget
      · intro j r' hj hr'
        cases j with
        | zero =>
          simp only [List.getElem?_cons_zero, Option.some.injEq] at hr'
          subst hr'
          exact ha
        | succ j =>
          simp only [List.getElem?_cons_succ] at hr'
          exact hfirst j r' (by omega) hr'

theorem ref_by_into_some (block : Block) (name : String) (pos : Nat) (r : Refinement)
    (h : ref_by_into block name = some (pos, r)) :
    block.refs[pos]? = some r ∧ r.into = name ∧
      ∀ j r', j < pos → block.refs[j]? = some r' → r'.into ≠ name := by
  obtain ⟨_, hget, hinto, hfirst⟩ := refByInto_some name block.refs 0 pos r h
  exact ⟨by simpa using hget, hinto, by simpa using hfirst⟩

theorem FixupRefs_refs (block : Block) (var_name : String) :
    (FixupRefs block var_name).refs = block.refs := by
  unfold FixupRefs
  cases ref_by_into block var_name with
  | none => rfl
  | some p => rfl

/-- What a call of `ApplyCache` that finds its refinement does. -/
theorem ApplyCache_of_found (block : Block) (var_name : String) (mem_loc xfer_loc : Location)
    (pos : Nat) (it : Refinement) (h : ref_by_into block var_name = some (pos, it)) :
    ApplyCache block var_name mem_loc xfer_loc =
      (Except.ok (),
        FixupRefs
          { block with
            refs := block.refs.set pos
                { it with into := unique_ref_name block (var_name ++ "_raw") }
              ++ [ApplyCache.new_ref it var_name mem_loc]
            stmts :=
              (if IsWriteDir it.dir then
                (if IsReadDir it.dir then
                  emplace_front
                    (Statement.Block (ApplyCache.cache_load it var_name
                      (unique_ref_name block (var_name ++ "_raw")) mem_loc xfer_loc))
                    block.stmts
                else block.stmts)
                  ++ [Statement.Block (ApplyCache.cache_store it var_name
                      (unique_ref_name block (var_name ++ "_raw")) mem_loc xfer_loc)]
              else
                (if IsReadDir it.dir then
                  emplace_front
                    (Statement.Block (ApplyCache.cache_load it var_name
                      (unique_ref_name block (var_name ++ "_raw")) mem_loc xfer_loc))
                    block.stmts
                else block.stmts)) }
          var_name) := by
  unfold ApplyCache
  rw [h]

/-- C16: `ApplyCache(block, V, mem_loc, xfer_loc)` fails if and only if no refinement of the
block has `into = V`, and in that case the call leaves the block as it was. -/
theorem ApplyCache_error_iff (block : Block) (var_name : String) (mem_loc xfer_loc : Location) :
    ((∃ e, (ApplyCache block var_name mem_loc xfer_loc).1 = Except.error e) ↔
      ∀ r ∈ block.refs, r.into ≠ var_name) ∧
    ((∀ r ∈ block.refs, r.into ≠ var_name) →
      (ApplyCache block var_name mem_loc xfer_loc).2 = block) := by
  cases hfind : ref_by_into block var_name with
  | none =>
    have hall : ∀ r ∈ block.refs, r.into ≠ var_name :=
      (refByInto_none_iff var_name block.refs 0).1 hfind
    have hres : ApplyCache block var_name mem_loc xfer_loc =
        (Except.error "ApplyCache: Invalid var_name", block) := by
      unfold ApplyCache
      rw [hfind]
    rw [hres]
    exact ⟨⟨fun _ => hall, fun _ => ⟨_, rfl⟩⟩, fun _ => rfl⟩
  | some p =>
    obtain ⟨pos, it⟩ := p
    obtain ⟨hget, hinto, _⟩ := ref_by_into_some block var_name pos it hfind
    have hmem : it ∈ block.refs := by
      obtain ⟨hlt, e⟩ := List.getElem?_eq_some.1 hget
      rw [← e]; exact List.getElem_mem hlt
    have hnot : ¬ ∀ r ∈ block.refs, r.into ≠ var_name := fun hall => hall it hmem hinto
    rw [ApplyCache_of_found block var_name mem_loc xfer_loc pos it hfind]
    refine ⟨⟨?_, fun hall => absurd hall hnot⟩, fun hall => absurd hall hnot⟩
    rintro ⟨e, he⟩
    exact absurd he (by simp)

/-- C16 on `cacheBlockIn` and the name `W`, which no refinement of the block has: the call
fails and returns the block untouched. -/
theorem ApplyCache_error_iff_witness :
    (∀ r ∈ cacheBlockIn.refs, r.into ≠ "W") ∧
      (ApplyCache cacheBlockIn "W" { name := "CACHE" } { name := "DMA" }).2 = cacheBlockIn :=
  have hall : ∀ r ∈ cacheBlockIn.refs, r.into ≠ "W" := by
    intro r hr
    simp only [cacheBlockIn, List.mem_singleton] at hr
    subst hr
    decide
  ⟨hall, (ApplyCache_error_iff cacheBlockIn "W" { name := "CACHE" } { name := "DMA" }).2 hall⟩

theorem simpleDims_length (sizes : List Nat) : (simpleDims sizes).length = sizes.length := by
  induction sizes with
  | nil => rfl
  | cons a rest ih => simp [simpleDims, ih]

/-- C17: after a successful `ApplyCache(block, V, mem_loc, xfer_loc)` the block has one
refinement more.  The first ones are the original refinements in their order, the
refinement `R` that `ref_by_into` finds for `V` (the first with `into = V`) having become
`R` with `into = unique_ref_name(V + "_raw")`, the name being computed on the original
block; the last one is new: `dir = None`, empty `from`, `into = V`, `location = mem_loc`,
shape `SimpleShape(type, sizes)` of `R`'s interior shape, and an access of as many zero
Affines as that shape has dimensions. -/
theorem ApplyCache_refs (block : Block) (var_name : String) (mem_loc xfer_loc : Location)
    (block' : Block)
    (h : ApplyCache block var_name mem_loc xfer_loc = (Except.ok (), block')) :
    ∃ (pos : Nat) (R : Refinement),
      block.refs[pos]? = some R ∧ R.into = var_name ∧
      (∀ j r, j < pos → block.refs[j]? = some r → r.into ≠ var_name) ∧
      block'.refs.length = block.refs.length + 1 ∧
      block'.refs =
        block.refs.set pos { R with into := unique_ref_name block (var_name ++ "_raw") }
          ++ [{ dir := RefDir.None, from_ := "", into := var_name,
                access := List.replicate
                  (SimpleShape R.interior_shape.type R.interior_shape.sizes).dims.length {},
                interior_shape := SimpleShape R.interior_shape.type R.interior_shape.sizes,
                agg_op := "", location := mem_loc }] := by
  cases hfind : ref_by_into block var_name with
  | none =>
    have hres : ApplyCache block var_name mem_loc xfer_loc =
        (Except.error "ApplyCache: Invalid var_name", block) := by
      unfold ApplyCache
      rw [hfind]
    rw [hres] at h
    simp at h
  | some p =>
    obtain ⟨pos, it⟩ := p
    obtain ⟨hget, hinto, hfirst⟩ := ref_by_into_some block var_name pos it hfind
    rw [ApplyCache_of_found block var_name mem_loc xfer_loc pos it hfind] at h
    simp only [Prod.mk.injEq, true_and] at h
    subst h
    refine ⟨pos, it, hget, hinto, hfirst, ?_, ?_⟩
    · rw [FixupRefs_refs]
      simp
    · rw [FixupRefs_refs]
      simp only [ApplyCache.new_ref]
      rw [resize_nil_affine]

/-- C17 on `cacheBlockIn` and its refinement `V`. -/
theorem ApplyCache_refs_witness :
    ApplyCache cacheBlockIn "V" { name := "CACHE" } { name := "DMA" } =
      (Except.ok (), (ApplyCache cacheBlockIn "V" { name := "CACHE" } { name := "DMA" }).2) ∧
    ∃ (pos : Nat) (R : Refinement),
      cacheBlockIn.refs[pos]? = some R ∧ R.into = "V" ∧
      (∀ j r, j < pos → cacheBlockIn.refs[j]? = some r → r.into ≠ "V") ∧
      (ApplyCache cacheBlockIn "V" { name := "CACHE" } { name := "DMA" }).2.refs.length
        = cacheBlockIn.refs.length + 1 ∧
      (ApplyCache cacheBlockIn "V" { name := "CACHE" } { name := "DMA" }).2.refs =
        cacheBlockIn.refs.set pos { R with into := unique_ref_name cacheBlockIn ("V" ++ "_raw") }
          ++ [{ dir := RefDir.None, from_ := "", into := "V",
                access := List.replicate
                  (SimpleShape R.interior_shape.type R.interior_shape.sizes).dims.length {},
                interior_shape := SimpleShape R.interior_shape.type R.interior_shape.sizes,
                agg_op := "", location := { name := "CACHE" } }] :=
  ⟨rfl, ApplyCache_refs cacheBlockIn "V" { name := "CACHE" } { name := "DMA" } _ rfl⟩

theorem shiftDeps_zero (s : Statement) : Statement.shiftDeps 0 s = s := by
  cases s <;> simp [Statement.shiftDeps]

theorem ref_by_into_append_new (block : Block) (refs : List Refinement) (stmts : List Statement)
    (r : Refinement) :
    ∃ q cached, ref_by_into { block with refs := refs ++ [r], stmts := stmts } r.into
      = some (q, cached) := by
  cases hfind : ref_by_into { block with refs := refs ++ [r], stmts := stmts } r.into with
  | some p => exact ⟨p.1, p.2, rfl⟩
  | none =>
    have hall := (refByInto_none_iff r.into (refs ++ [r]) 0).1 hfind
    exact absurd rfl (hall r (by simp))

theorem IsReadDir_iff (dir : RefDir) :
    IsReadDir dir = true ↔ dir = RefDir.In ∨ dir = RefDir.InOut := by
  cases dir <;> simp [IsReadDir]

theorem IsWriteDir_iff (dir : RefDir) :
    IsWriteDir dir = true ↔ dir = RefDir.Out ∨ dir = RefDir.InOut := by
  cases dir <;> simp [IsWriteDir]

/-- The statements that a successful `ApplyCache` leaves, in terms of the refinement `it`
it found and of the refinement `cached` that `FixupRefs` binds to. -/
theorem ApplyCache_stmts_of_found (block : Block) (var_name : String)
    (mem_loc xfer_loc : Location) (pos : Nat) (it : Refinement)
    (h : ref_by_into block var_name = some (pos, it)) :
    ∃ cached : Refinement,
      (ApplyCache block var_name mem_loc xfer_loc).2.stmts =
        (if IsReadDir it.dir then
          [FixupRefs.stmt cached var_name (Statement.Block (ApplyCache.cache_load it var_name
            (unique_ref_name block (var_name ++ "_raw")) mem_loc xfer_loc))]
         else [])
        ++ block.stmts.map (fun s => FixupRefs.stmt cached var_name
            (Statement.shiftDeps (if IsReadDir it.dir then 1 else 0) s))
        ++ (if IsWriteDir it.dir then
          [FixupRefs.stmt cached var_name (Statement.Block (ApplyCache.cache_store it var_name
            (unique_ref_name block (var_name ++ "_raw")) mem_loc xfer_loc))]
         else []) := by
  rw [ApplyCache_of_found block var_name mem_loc xfer_loc pos it h]
  obtain ⟨q, cached, hq⟩ := ref_by_into_append_new block
    (block.refs.set pos { it with into := unique_ref_name block (var_name ++ "_raw") })
    (if IsWriteDir it.dir then
      (if IsReadDir it.dir then
        emplace_front
          (Statement.Block (ApplyCache.cache_load it var_name
            (unique_ref_name block (var_name ++ "_raw")) mem_loc xfer_loc))
          block.stmts
      else block.stmts)
        ++ [Statement.Block (ApplyCache.cache_store it var_name
            (unique_ref_name block (var_name ++ "_raw")) mem_loc xfer_loc)]
    else
      (if IsReadDir it.dir then
        emplace_front
          (Statement.Block (ApplyCache.cache_load it var_name
            (unique_ref_name block (var_name ++ "_raw")) mem_loc xfer_loc))
          block.stmts
      else block.stmts))
    (ApplyCache.new_ref it var_name mem_loc)
  have hname : (ApplyCache.new_ref it var_name mem_loc).into = var_name := rfl
  rw [hname] at hq
  refine ⟨cached, ?_⟩
  simp only [FixupRefs, hq]
  cases hr : IsReadDir it.dir <;> cases hw : IsWriteDir it.dir <;>
    simp [emplace_front, List.map_map, Function.comp_def, shiftDeps_zero]

/-- C18: after a successful `ApplyCache` on the refinement `R` named `V`, the statement
list is `[load_V] ++ old statements ++ [store_V]`: the block `load_V`, tagged exactly
`{cache, cache_load}`, is there if and only if `R.dir` is `In` or `InOut`; the block
`store_V`, tagged exactly `{cache, cache_store}`, if and only if `R.dir` is `Out` or
`InOut`; between them come the old statements, one for one and in their order (each with
the positions in its `deps` following the insertion at the front, and with the
refinements of nested blocks that borrow `V` re-bound by `FixupRefs`); so `dir = None`
adds no statement and `dir = InOut` adds exactly two. -/
theorem ApplyCache_stmts (block : Block) (var_name : String) (mem_loc xfer_loc : Location)
    (block' : Block)
    (h : ApplyCache block var_name mem_loc xfer_loc = (Except.ok (), block')) :
    ∃ (pos : Nat) (R cached : Refinement) (L S : Block),
      ref_by_into block var_name = some (pos, R) ∧
      L.name = "load_" ++ var_name ∧ L.tags = ["cache", "cache_load"] ∧
      S.name = "store_" ++ var_name ∧ S.tags = ["cache", "cache_store"] ∧
      block'.stmts =
        (if IsReadDir R.dir then [Statement.Block L] else [])
        ++ block.stmts.map (fun s => FixupRefs.stmt cached var_name
            (Statement.shiftDeps (if IsReadDir R.dir then 1 else 0) s))
        ++ (if IsWriteDir R.dir then [Statement.Block S] else []) ∧
      (IsReadDir R.dir = true ↔ R.dir = RefDir.In ∨ R.dir = RefDir.InOut) ∧
      (IsWriteDir R.dir = true ↔ R.dir = RefDir.Out ∨ R.dir = RefDir.InOut) ∧
      (R.dir = RefDir.None → block'.stmts.length = block.stmts.length) ∧
      (R.dir = RefDir.InOut → block'.stmts.length = block.stmts.length + 2) := by
  cases hfind : ref_by_into block var_name with
  | none =>
    have hres : ApplyCache block var_name mem_loc xfer_loc =
        (Except.error "ApplyCache: Invalid var_name", block) := by
      unfold ApplyCache
      rw [hfind]
    rw [hres] at h
    simp at h
  | some p =>
    obtain ⟨pos, it⟩ := p
    obtain ⟨cached, hst⟩ := ApplyCache_stmts_of_found block var_name mem_loc xfer_loc pos it hfind
    rw [h] at hst
    simp only at hst
    refine ⟨pos, it, cached,
      { ApplyCache.cache_load it var_name (unique_ref_name block (var_name ++ "_raw"))
          mem_loc xfer_loc with
        refs := (ApplyCache.cache_load it var_name (unique_ref_name block (var_name ++ "_raw"))
          mem_loc xfer_loc).refs.map (FixupRefs.ref cached var_name) },
      { ApplyCache.cache_store it var_name (unique_ref_name block (var_name ++ "_raw"))
          mem_loc xfer_loc with
        refs := (ApplyCache.cache_store it var_name (unique_ref_name block (var_name ++ "_raw"))
          mem_loc xfer_loc).refs.map (FixupRefs.ref cached var_name) },
      rfl, rfl, rfl, rfl, rfl, hst, IsReadDir_iff it.dir, IsWriteDir_iff it.dir, ?_, ?_⟩
    · intro hdir
      rw [hst, hdir]
      simp [IsReadDir, IsWriteDir]
    · intro hdir
      rw [hst, hdir]
      simp [IsReadDir, IsWriteDir]

/-- C18 on `cacheBlockIn`, whose refinement `V` has `dir = In`. -/
theorem ApplyCache_stmts_witness :
    ApplyCache cacheBlockIn "V" { name := "CACHE" } { name := "DMA" } =
      (Except.ok (), (ApplyCache cacheBlockIn "V" { name := "CACHE" } { name := "DMA" }).2) ∧
    ∃ (pos : Nat) (R cached : Refinement) (L S : Block),
      ref_by_into cacheBlockIn "V" = some (pos, R) ∧
      L.name = "load_" ++ "V" ∧ L.tags = ["cache", "cache_load"] ∧
      S.name = "store_" ++ "V" ∧ S.tags = ["cache", "cache_store"] ∧
      (ApplyCache cacheBlockIn "V" { name := "CACHE" } { name := "DMA" }).2.stmts =
        (if IsReadDir R.dir then [Statement.Block L] else [])
        ++ cacheBlockIn.stmts.map (fun s => FixupRefs.stmt cached "V"
            (Statement.shiftDeps (if IsReadDir R.dir then 1 else 0) s))
        ++ (if IsWriteDir R.dir then [Statement.Block S] else []) ∧
      (IsReadDir R.dir = true ↔ R.dir = RefDir.In ∨ R.dir = RefDir.InOut) ∧
      (IsWriteDir R.dir = true ↔ R.dir = RefDir.Out ∨ R.dir = RefDir.InOut) ∧
      (R.dir = RefDir.None →
        (ApplyCache cacheBlockIn "V" { name := "CACHE" } { name := "DMA" }).2.stmts.length
          = cacheBlockIn.stmts.length) ∧
      (R.dir = RefDir.InOut →
        (ApplyCache cacheBlockIn "V" { name := "CACHE" } { name := "DMA" }).2.stmts.length
          = cacheBlockIn.stmts.length + 2) :=
  ⟨rfl, ApplyCache_stmts cacheBlockIn "V" { name := "CACHE" } { name := "DMA" } _ rfl⟩

theorem unique_ref_name_free (block : Block) (into : String)
    (hfree : ∀ r ∈ block.refs, r.into ≠ into) : unique_ref_name block into = into := by
  unfold unique_ref_name
  have hall : block.refs.all (fun r => decide (r.into ≠ into)) = true := by
    simpa using hfree
  rw [if_pos hall]

/-- C19 fails as stated: in `cacheBlockTaken` the refinement `V` has `dir = In` and another
refinement is already named `V_raw`; `ApplyCache` renames `V` to `V_raw_2`, not to
`V + "_raw"`. -/
theorem ApplyCache_In_counterexample :
    ¬ (ref_by_into cacheBlockTaken "V" = some (0, refV) → refV.dir = RefDir.In →
        ((ApplyCache cacheBlockTaken "V" { name := "CACHE" } { name := "DMA" }).2.refs[0]?).map
          (fun r => r.into) = some ("V" ++ "_raw")) := by
  decide

/-- C19, amended: for every block in which the refinement named `V` (the one `ref_by_into`
finds, the first with `into = V`) has `dir = In`, `ApplyCache(block, V, mem_loc, xfer_loc)`
succeeds; it prepends a block tagged `cache_load` to the statements and adds no other
statement, so no block tagged `cache_store` (the prepended block is not tagged so, and the
old statements follow one for one); it renames that refinement to
`unique_ref_name(V + "_raw")`, which is `V + "_raw"` when no refinement of the block has
that name; and it introduces, as last refinement, a new one named `V` with `dir = None`
located at `mem_loc`. -/
theorem ApplyCache_In (block : Block) (var_name : String) (mem_loc xfer_loc : Location)
    (pos : Nat) (R : Refinement) (hfind : ref_by_into block var_name = some (pos, R))
    (hdir : R.dir = RefDir.In) :
    ∃ (block' L : Block) (cached fresh : Refinement),
      ApplyCache block var_name mem_loc xfer_loc = (Except.ok (), block') ∧
      block'.stmts = Statement.Block L ::
        block.stmts.map (fun s => FixupRefs.stmt cached var_name (Statement.shiftDeps 1 s)) ∧
      "cache_load" ∈ L.tags ∧ "cache_store" ∉ L.tags ∧
      block'.stmts.length = block.stmts.length + 1 ∧
      block'.refs[pos]? = some { R with into := unique_ref_name block (var_name ++ "_raw") } ∧
      ((∀ r ∈ block.refs, r.into ≠ var_name ++ "_raw") →
        unique_ref_name block (var_name ++ "_raw") = var_name ++ "_raw") ∧
      block'.refs.getLast? = some fresh ∧ fresh.into = var_name ∧
      fresh.dir = RefDir.None ∧ fresh.location = mem_loc := by
  obtain ⟨cached, hst⟩ := ApplyCache_stmts_of_found block var_name mem_loc xfer_loc pos R hfind
  have hres := ApplyCache_of_found block var_name mem_loc xfer_loc pos R hfind
  obtain ⟨hget, _, _⟩ := ref_by_into_some block var_name pos R hfind
  have hlt : pos < block.refs.length := (List.getElem?_eq_some.1 hget).1
  have hrefs : (ApplyCache block var_name mem_loc xfer_loc).2.refs =
      block.refs.set pos { R with into := unique_ref_name block (var_name ++ "_raw") }
        ++ [ApplyCache.new_ref R var_name mem_loc] := by
    rw [hres]
    simp only [FixupRefs_refs]
  have hstmts : (ApplyCache block var_name mem_loc xfer_loc).2.stmts =
      FixupRefs.stmt cached var_name (Statement.Block (ApplyCache.cache_load R var_name
        (unique_ref_name block (var_name ++ "_raw")) mem_loc xfer_loc)) ::
      block.stmts.map (fun s => FixupRefs.stmt cached var_name (Statement.shiftDeps 1 s)) := by
    rw [hst, hdir]
    simp [IsReadDir, IsWriteDir]
  refine ⟨(ApplyCache block var_name mem_loc xfer_loc).2,
    { ApplyCache.cache_load R var_name (unique_ref_name block (var_name ++ "_raw"))
        mem_loc xfer_loc with
      refs := (ApplyCache.cache_load R var_name (unique_ref_name block (var_name ++ "_raw"))
        mem_loc xfer_loc).refs.map (FixupRefs.ref cached var_name) },
    cached, ApplyCache.new_ref R var_name mem_loc, ?_, hstmts, ?_, ?_, ?_, ?_, ?_, ?_, rfl, rfl, rfl⟩
  · rw [hres]
  · simp [ApplyCache.cache_load]
  · simp [ApplyCache.cache_load]
  · rw [hstmts]
    simp
  · rw [hrefs, List.getElem?_append_left (by simpa using hlt)]
    simp [List.getElem?_set, hlt]
  · exact unique_ref_name_free block (var_name ++ "_raw")
  · rw [hrefs]
    simp

/-- The amended C19 on `cacheBlockIn`, whose refinement `V` has `dir = In`. -/
theorem ApplyCache_In_witness :
    ref_by_into cacheBlockIn "V" = some (0, refV) ∧ refV.dir = RefDir.In ∧
    ∃ (block' L : Block) (cached fresh : Refinement),
      ApplyCache cacheBlockIn "V" { name := "CACHE" } { name := "DMA" }
        = (Except.ok (), block') ∧
      block'.stmts = Statement.Block L ::
        cacheBlockIn.stmts.map (fun s => FixupRefs.stmt cached "V" (Statement.shiftDeps 1 s)) ∧
      "cache_load" ∈ L.tags ∧ "cache_store" ∉ L.tags ∧
      block'.stmts.length = cacheBlockIn.stmts.length + 1 ∧
      block'.refs[0]? = some { refV with into := unique_ref_name cacheBlockIn ("V" ++ "_raw") } ∧
      ((∀ r ∈ cacheBlockIn.refs, r.into ≠ "V" ++ "_raw") →
        unique_ref_name cacheBlockIn ("V" ++ "_raw") = "V" ++ "_raw") ∧
      block'.refs.getLast? = some fresh ∧ fresh.into = "V" ∧
      fresh.dir = RefDir.None ∧ fresh.location = { name := "CACHE" } :=
  ⟨rfl, rfl,
    ApplyCache_In cacheBlockIn "V" { name := "CACHE" } { name := "DMA" } 0 refV rfl rfl⟩

theorem xferIdxsFrom_eq (sizes : List Nat) :
    ∀ k, xferIdxsFrom k sizes =
      ((sizes.enumFrom k).filter (fun p => decide (p.2 > 1))).map
        (fun p => ({ name := "i" ++ toString p.1, range := p.2 } : Index)) := by
  induction sizes with
  | nil => intro k; rfl
  | cons a rest ih =>
    intro k
    by_cases ha : a > 1
    · simp [xferIdxsFrom, List.enumFrom_cons, ha, ih (k + 1)]
    · simp [xferIdxsFrom, List.enumFrom_cons, ha, ih (k + 1)]

theorem xferAccessFrom_eq (sizes : List Nat) :
    ∀ k, xferAccessFrom k sizes =
      (sizes.enumFrom k).map
        (fun p => if p.2 > 1 then (⟨[("i" ++ toString p.1, 1)]⟩ : Affine) else {}) := by
  induction sizes with
  | nil => intro k; rfl
  | cons a rest ih =>
    intro k
    simp only [xferAccessFrom, List.enumFrom_cons, List.map_cons, ih (k + 1)]
    congr 1

theorem unitSizes_size (shape : TensorShape) : ∀ d ∈ (unitSizes shape).dims, d.size = 1 := by
  intro d hd
  simp only [unitSizes, List.mem_map] at hd
  obtain ⟨d', _, rfl⟩ := hd
  rfl

theorem copyStrides_size (dims : List TensorDimension) :
    ∀ source, (∀ d ∈ dims, d.size = 1) → ∀ d ∈ copyStrides dims source, d.size = 1 := by
  induction dims with
  | nil => intro source _ d hd; simp [copyStrides] at hd
  | cons a rest ih =>
    intro source hall d hd
    cases source with
    | nil =>
      simp only [copyStrides] at hd
      exact hall d hd
    | cons s source =>
      simp only [copyStrides, List.mem_cons] at hd
      rcases hd with rfl | hd
      · exact hall a (List.mem_cons_self _ _)
      · exact ih source (fun d' hd' => hall d' (List.mem_cons_of_mem _ hd')) d hd

/-- `FixupRefs` keeps the access and the unit sizes of a refinement. -/
theorem FixupRefs.ref_keeps (cached : Refinement) (var_name : String) (r : Refinement)
    (hsize : ∀ d ∈ r.interior_shape.dims, d.size = 1) :
    (FixupRefs.ref cached var_name r).access = r.access ∧
      ∀ d ∈ (FixupRefs.ref cached var_name r).interior_shape.dims, d.size = 1 := by
  unfold FixupRefs.ref
  by_cases hf : r.from_ = var_name
  · rw [if_pos hf]
    exact ⟨rfl, copyStrides_size _ _ hsize⟩
  · rw [if_neg hf]
    exact ⟨rfl, hsize⟩

/-- A transfer block stays one when `FixupRefs` re-binds its refinements. -/
theorem IsTransferBlock_fixup (sizes : List Nat) (xfer_loc : Location) (t : Block)
    (cached : Refinement) (var_name : String) (ht : IsTransferBlock sizes xfer_loc t) :
    IsTransferBlock sizes xfer_loc
      { t with refs := t.refs.map (FixupRefs.ref cached var_name) } := by
  obtain ⟨hloc, hidx, hlen, hrefs⟩ := ht
  refine ⟨hloc, hidx, by simpa using hlen, ?_⟩
  intro r hr
  simp only [List.mem_map] at hr
  obtain ⟨r0, hr0, rfl⟩ := hr
  obtain ⟨hacc, hsize⟩ := hrefs r0 hr0
  obtain ⟨hacc', hsize'⟩ := FixupRefs.ref_keeps cached var_name r0 hsize
  exact ⟨by rw [hacc', hacc], hsize'⟩

theorem IsTransferBlock_cache_load (it : Refinement) (var_name raw_name : String)
    (mem_loc xfer_loc : Location) :
    IsTransferBlock it.interior_shape.sizes xfer_loc
      (ApplyCache.cache_load it var_name raw_name mem_loc xfer_loc) := by
  refine ⟨rfl, ?_, rfl, ?_⟩
  · simp only [ApplyCache.cache_load, ApplyCache.xfer_block, xferIdxsFrom_eq, List.enum]
  · intro r hr
    simp only [ApplyCache.cache_load, List.mem_cons, List.mem_singleton, List.not_mem_nil,
      or_false] at hr
    rcases hr with rfl | rfl
    · exact ⟨by simp only [ApplyCache.src, xferAccessFrom_eq, List.enum], unitSizes_size _⟩
    · exact ⟨by simp only [ApplyCache.dst, xferAccessFrom_eq, List.enum], unitSizes_size _⟩

theorem IsTransferBlock_cache_store (it : Refinement) (var_name raw_name : String)
    (mem_loc xfer_loc : Location) :
    IsTransferBlock it.interior_shape.sizes xfer_loc
      (ApplyCache.cache_store it var_name raw_name mem_loc xfer_loc) := by
  refine ⟨rfl, ?_, rfl, ?_⟩
  · simp only [ApplyCache.cache_store, ApplyCache.xfer_block, xferIdxsFrom_eq, List.enum]
  · intro r hr
    simp only [ApplyCache.cache_store, List.mem_cons, List.mem_singleton, List.not_mem_nil,
      or_false] at hr
    rcases hr with rfl | rfl
    · exact ⟨by simp only [ApplyCache.src, xferAccessFrom_eq, List.enum], unitSizes_size _⟩
    · exact ⟨by simp only [ApplyCache.dst, xferAccessFrom_eq, List.enum], unitSizes_size _⟩

/-- C20: after a successful `ApplyCache` on the refinement `R` named `V`, whose interior
shape has the dimension sizes `s_0..s_(n-1)`, every transfer block it built (`load_V`,
first statement of the block when `R.dir` is a read direction; `store_V`, last statement
when it is a write direction) is located at `xfer_loc`; its indices are, in increasing
order of `i`, one index `i<i>` of range `s_i` for each dimension with `s_i > 1`, and no
other; it has two refinements, each with an access of length `n` whose `i`-th entry is the
Affine of the index `i<i>` when `s_i > 1` and the zero Affine otherwise, and with an
interior shape whose dimension sizes are all 1. -/
theorem ApplyCache_transfer (block : Block) (var_name : String) (mem_loc xfer_loc : Location)
    (block' : Block)
    (h : ApplyCache block var_name mem_loc xfer_loc = (Except.ok (), block')) :
    ∃ (pos : Nat) (R : Refinement),
      ref_by_into block var_name = some (pos, R) ∧
      (IsReadDir R.dir = true →
        ∃ L, block'.stmts.head? = some (Statement.Block L) ∧ L.name = "load_" ++ var_name ∧
          IsTransferBlock R.interior_shape.sizes xfer_loc L) ∧
      (IsWriteDir R.dir = true →
        ∃ S, block'.stmts.getLast? = some (Statement.Block S) ∧ S.name = "store_" ++ var_name ∧
          IsTransferBlock R.interior_shape.sizes xfer_loc S) := by
  cases hfind : ref_by_into block var_name with
  | none =>
    have hres : ApplyCache block var_name mem_loc xfer_loc =
        (Except.error "ApplyCache: Invalid var_name", block) := by
      unfold ApplyCache
      rw [hfind]
    rw [hres] at h
    simp at h
  | some p =>
    obtain ⟨pos, it⟩ := p
    obtain ⟨cached, hst⟩ := ApplyCache_stmts_of_found block var_name mem_loc xfer_loc pos it hfind
    rw [h] at hst
    simp only at hst
    refine ⟨pos, it, rfl, ?_, ?_⟩
    · intro hr
      refine ⟨_, ?_, ?_, IsTransferBlock_fixup _ _ _ cached var_name
        (IsTransferBlock_cache_load it var_name
          (unique_ref_name block (var_name ++ "_raw")) mem_loc xfer_loc)⟩
      · rw [hst, hr]
        simp [FixupRefs.stmt]
      · rfl
    · intro hw
      refine ⟨_, ?_, ?_, IsTransferBlock_fixup _ _ _ cached var_name
        (IsTransferBlock_cache_store it var_name
          (unique_ref_name block (var_name ++ "_raw")) mem_loc xfer_loc)⟩
      · rw [hst, hw]
        simp [FixupRefs.stmt]
      · rfl

/-- C20 on `cacheBlockIn`, whose refinement `V` (16 elements in one dimension) has
`dir = In`: the block `load_V`. -/
theorem ApplyCache_transfer_witness :
    ApplyCache cacheBlockIn "V" { name := "CACHE" } { name := "DMA" } =
      (Except.ok (), (ApplyCache cacheBlockIn "V" { name := "CACHE" } { name := "DMA" }).2) ∧
    ∃ (pos : Nat) (R : Refinement),
      ref_by_into cacheBlockIn "V" = some (pos, R) ∧
      (IsReadDir R.dir = true →
        ∃ L, (ApplyCache cacheBlockIn "V" { name := "CACHE" } { name := "DMA" }).2.stmts.head?
            = some (Statement.Block L) ∧ L.name = "load_" ++ "V" ∧
          IsTransferBlock R.interior_shape.sizes { name := "DMA" } L) ∧
      (IsWriteDir R.dir = true →
        ∃ S, (ApplyCache cacheBlockIn "V" { name := "CACHE" } { name := "DMA" }).2.stmts.getLast?
            = some (Statement.Block S) ∧ S.name = "store_" ++ "V" ∧
          IsTransferBlock R.interior_shape.sizes { name := "DMA" } S) :=
  ⟨rfl, ApplyCache_transfer cacheBlockIn "V" { name := "CACHE" } { name := "DMA" } _ rfl⟩

/-! ## ApplyCache: fresh names and the direction of the transfers -/

theorem toString_nat_inj (j k : Nat) (h : toString j = toString k) : j = k := by
  obtain ⟨lj, hj, hvj, _⟩ := toDigitsCore_spec (j + 1) j [] (Nat.lt_succ_self j)
  obtain ⟨lk, hk, hvk, _⟩ := toDigitsCore_spec (k + 1) k [] (Nat.lt_succ_self k)
  have ej : (toString j).data = lj := by
    show (Nat.repr j).data = lj
    simp only [Nat.repr, Nat.toDigits, hj, List.append_nil]
    rfl
  have ek : (toString k).data = lk := by
    show (Nat.repr k).data = lk
    simp only [Nat.repr, Nat.toDigits, hk, List.append_nil]
    rfl
  rw [← hvj, ← hvk, ← ej, ← ek, h]

theorem string_append_cancel_left (a b c : String) (h : a ++ b = a ++ c) : b = c := by
  have hdata := congrArg String.data h
  simp only [String.data_append] at hdata
  exact String.ext (List.append_cancel_left hdata)

/-- The name returned by `unique_ref_name` starts with the name asked for. -/
theorem unique_ref_name_pfx (block : Block) (into : String) :
    ∃ s, unique_ref_name block into = into ++ s := by
  unfold unique_ref_name
  by_cases hall : block.refs.all (fun r => decide (r.into ≠ into)) = true
  · rw [if_pos hall]
    exact ⟨"", by simp⟩
  · rw [if_neg hall]
    cases (List.range (block.refs.length + 1)).find?
        (fun k => block.refs.all (fun r => decide (r.into ≠ into ++ "_" ++ toString (k + 2)))) with
    | some k => exact ⟨"_" ++ toString (k + 2), by simp [String.append_assoc]⟩
    | none => exact ⟨"_" ++ toString (block.refs.length + 3), by simp [String.append_assoc]⟩

/-- The raw name chosen by `ApplyCache` differs from the name of the variable. -/
theorem unique_ref_name_ne (block : Block) (var_name : String) :
    unique_ref_name block (var_name ++ "_raw") ≠ var_name := by
  obtain ⟨s, hs⟩ := unique_ref_name_pfx block (var_name ++ "_raw")
  intro h
  rw [hs] at h
  have hlen := congrArg String.length h
  simp only [String.length_append] at hlen
  have h4 : "_raw".length = 4 := by decide
  omega

/-- The name returned by `unique_ref_name` is the name of no refinement of the block: of
the candidates `into_2`, ..., `into_(n+2)`, pairwise different, the `n` refinements cannot
take all. -/
theorem unique_ref_name_fresh (block : Block) (into : String) :
    ∀ r ∈ block.refs, r.into ≠ unique_ref_name block into := by
  unfold unique_ref_name
  by_cases hall : block.refs.all (fun r => decide (r.into ≠ into)) = true
  · rw [if_pos hall]
    simpa using hall
  · rw [if_neg hall]
    cases hf : (List.range (block.refs.length + 1)).find?
        (fun k => block.refs.all (fun r => decide (r.into ≠ into ++ "_" ++ toString (k + 2)))) with
    | some k =>
      have hk := List.find?_some hf
      simpa using hk
    | none =>
      exfalso
      have hnone := List.find?_eq_none.1 hf
      have hnd : ((List.range (block.refs.length + 1)).map
          (fun k => into ++ "_" ++ toString (k + 2))).Nodup := by
        refine (List.nodup_range _).map ?_
        intro j k hjk
        have h1 := string_append_cancel_left _ _ _ hjk
        have h2 := toString_nat_inj _ _ h1
        omega
      have hsub : (List.range (block.refs.length + 1)).map
          (fun k => into ++ "_" ++ toString (k + 2)) ⊆ block.refs.map (fun r => r.into) := by
        intro x hx
        simp only [List.mem_map] at hx
        obtain ⟨k, hk, rfl⟩ := hx
        have hnk := hnone k hk
        simp only [List.all_eq_true, decide_eq_true_eq, not_forall] at hnk
        obtain ⟨r, hr, hne⟩ := hnk
        simp only [List.mem_map]
        exact ⟨r, hr, not_not.1 hne⟩
      have hlen := (List.subperm_of_subset hnd hsub).length_le
      simp only [List.length_map, List.length_range] at hlen
      omega

theorem refByInto_append (name : String) (l1 l2 : List Refinement) :
    ∀ pos, (∀ r ∈ l1, r.into ≠ name) →
      refByInto name pos (l1 ++ l2) = refByInto name (pos + l1.length) l2 := by
  induction l1 with
  | nil => intro pos _; simp
  | cons a rest ih =>
    intro pos hall
    have ha : a.into ≠ name := hall a (List.mem_cons_self _ _)
    have hstep : refByInto name pos (a :: (rest ++ l2)) = refByInto name (pos + 1) (rest ++ l2) := by
      simp only [refByInto, ha, if_false]
    rw [List.cons_append, hstep, ih (pos + 1) (fun r hr => hall r (List.mem_cons_of_mem _ hr))]
    congr 1
    simp only [List.length_cons]
    omega

/-- In a list with distinct names, two positions with the same name are one. -/
theorem nodup_into_pos (refs : List Refinement) (hnd : (refs.map (fun r => r.into)).Nodup)
    (i j : Nat) (ri rj : Refinement) (hi : refs[i]? = some ri) (hj : refs[j]? = some rj)
    (h : ri.into = rj.into) : i = j :=
  getElem?_inj_of_nodup_map (fun r => r.into) refs hnd i j ri rj hi hj h

/-- With distinct names, the refinement named `var_name` once renamed, no refinement of the
list has that name. -/
theorem set_raw_ne (refs : List Refinement) (hnd : (refs.map (fun r => r.into)).Nodup)
    (pos : Nat) (it : Refinement) (hget : refs[pos]? = some it) (raw : String)
    (hraw : raw ≠ it.into) :
    ∀ r ∈ refs.set pos { it with into := raw }, r.into ≠ it.into := by
  intro r hr
  obtain ⟨j, hj, hrj⟩ := List.getElem_of_mem hr
  have hj' : j < refs.length := by simpa using hj
  by_cases hjp : pos = j
  · subst hjp
    rw [List.getElem_set_self] at hrj
    rw [← hrj]
    exact hraw
  · rw [List.getElem_set_ne hjp] at hrj
    intro hinto
    have hgj : refs[j]? = some r := by
      rw [List.getElem?_eq_getElem hj', hrj]
    exact hjp (nodup_into_pos refs hnd pos j it r hget hgj hinto.symm)

/-- With distinct names in the block, `FixupRefs` at the end of `ApplyCache` binds to the
refinement that `ApplyCache` has just appended. -/
theorem ref_by_into_cached (block : Block) (var_name : String)
    (hnd : (block.refs.map (fun r => r.into)).Nodup)
    (pos : Nat) (it : Refinement) (h : ref_by_into block var_name = some (pos, it))
    (cached : Refinement) (hc : cached.into = var_name) (stmts : List Statement) :
    ref_by_into
      { block with
        refs := block.refs.set pos
          { it with into := unique_ref_name block (var_name ++ "_raw") } ++ [cached]
        stmts := stmts } var_name = some (block.refs.length, cached) := by
  obtain ⟨hget, hinto, _⟩ := ref_by_into_some block var_name pos it h
  have hne := set_raw_ne block.refs hnd pos it hget
    (unique_ref_name block (var_name ++ "_raw"))
    (by rw [hinto]; exact unique_ref_name_ne block var_name)
  rw [hinto] at hne
  unfold ref_by_into
  show refByInto var_name 0 (_ ++ [cached]) = _
  rw [refByInto_append var_name _ _ 0 hne]
  simp [refByInto, hc]

theorem copyStrides_unit (dims : List TensorDimension) :
    copyStrides (dims.map (fun d => { d with size := 1 })) dims
      = dims.map (fun d => { d with size := 1 }) := by
  induction dims with
  | nil => rfl
  | cons a rest ih => simp only [List.map_cons, copyStrides, ih]

/-- The statements that a successful `ApplyCache` leaves in a block with distinct names:
`FixupRefs` binds to the refinement just appended. -/
theorem ApplyCache_stmts_cached (block : Block) (var_name : String)
    (mem_loc xfer_loc : Location) (pos : Nat) (it : Refinement)
    (h : ref_by_into block var_name = some (pos, it))
    (hnd : (block.refs.map (fun r => r.into)).Nodup) :
    (ApplyCache block var_name mem_loc xfer_loc).2.stmts =
      (if IsReadDir it.dir then
        [FixupRefs.stmt (ApplyCache.new_ref it var_name mem_loc) var_name
          (Statement.Block (ApplyCache.cache_load it var_name
            (unique_ref_name block (var_name ++ "_raw")) mem_loc xfer_loc))]
       else [])
      ++ block.stmts.map (fun s => FixupRefs.stmt (ApplyCache.new_ref it var_name mem_loc)
          var_name (Statement.shiftDeps (if IsReadDir it.dir then 1 else 0) s))
      ++ (if IsWriteDir it.dir then
        [FixupRefs.stmt (ApplyCache.new_ref it var_name mem_loc) var_name
          (Statement.Block (ApplyCache.cache_store it var_name
            (unique_ref_name block (var_name ++ "_raw")) mem_loc xfer_loc))]
       else []) := by
  rw [ApplyCache_of_found block var_name mem_loc xfer_loc pos it h]
  simp only [FixupRefs]
  rw [ref_by_into_cached block var_name hnd pos it h (ApplyCache.new_ref it var_name mem_loc) rfl]
  cases hr : IsReadDir it.dir <;> cases hw : IsWriteDir it.dir <;>
    simp [emplace_front, List.map_map, Function.comp_def, shiftDeps_zero]

/-- The block `load_V` as `FixupRefs` leaves it copies from the raw buffer to the cache. -/
theorem CopiesFromTo_cache_load (it : Refinement) (var_name raw_name : String)
    (mem_loc xfer_loc : Location) (hraw : raw_name ≠ var_name) :
    ∃ L, FixupRefs.stmt (ApplyCache.new_ref it var_name mem_loc) var_name
        (Statement.Block (ApplyCache.cache_load it var_name raw_name mem_loc xfer_loc))
          = Statement.Block L ∧ L.name = "load_" ++ var_name ∧
      CopiesFromTo L raw_name it.location it.interior_shape.strides
        var_name mem_loc (SimpleShape it.interior_shape.type it.interior_shape.sizes).strides := by
  refine ⟨_, rfl, rfl, ?_⟩
  refine ⟨_, _, rfl, ?_⟩
  simp only [FixupRefs.ref, ApplyCache.src, ApplyCache.dst, hraw, if_false, if_true,
    ApplyCache.new_ref, unitSizes, TensorShape.strides, copyStrides_unit, List.map_map,
    Function.comp_def, ApplyCache.cache_load, ApplyCache.xfer_block, and_self]

/-- The block `store_V` as `FixupRefs` leaves it copies from the cache to the raw buffer. -/
theorem CopiesFromTo_cache_store (it : Refinement) (var_name raw_name : String)
    (mem_loc xfer_loc : Location) (hraw : raw_name ≠ var_name) :
    ∃ S, FixupRefs.stmt (ApplyCache.new_ref it var_name mem_loc) var_name
        (Statement.Block (ApplyCache.cache_store it var_name raw_name mem_loc xfer_loc))
          = Statement.Block S ∧ S.name = "store_" ++ var_name ∧
      CopiesFromTo S var_name mem_loc
        (SimpleShape it.interior_shape.type it.interior_shape.sizes).strides
        raw_name it.location it.interior_shape.strides := by
  refine ⟨_, rfl, rfl, ?_⟩
  refine ⟨_, _, rfl, ?_⟩
  simp only [FixupRefs.ref, ApplyCache.src, ApplyCache.dst, hraw, if_false, if_true,
    ApplyCache.new_ref, unitSizes, TensorShape.strides, copyStrides_unit, List.map_map,
    Function.comp_def, ApplyCache.cache_store, ApplyCache.xfer_block, and_self]

/-- C21: the transfer blocks that `ApplyCache` builds for the refinement `R` named `V`, in
a block with distinct `into` names, copy in the right direction.  When `R.dir` is a read
direction the first statement is the block `load_V`, whose `refs[0]` (`src`, dir In) has
`from` = the raw name, `R`'s location and `R`'s strides, and whose `refs[1]` (`dst`, dir
Out) has `from = V`, location `mem_loc` and the dense strides of the cached shape; when
`R.dir` is a write direction the last statement is the block `store_V`, whose `refs[0]`
(`src`, dir In) has `from = V`, location `mem_loc` (and the dense strides), and whose
`refs[1]` (`dst`, dir Out) has `from` = the raw name, `R`'s location and `R`'s strides; the
body of each is exactly `Load(src → $X)` followed by `Store($X → dst)`. -/
theorem ApplyCache_direction (block : Block) (var_name : String) (mem_loc xfer_loc : Location)
    (pos : Nat) (R : Refinement) (hfind : ref_by_into block var_name = some (pos, R))
    (hnd : (block.refs.map (fun r => r.into)).Nodup) :
    (ApplyCache block var_name mem_loc xfer_loc).1 = Except.ok () ∧
    (IsReadDir R.dir = true →
      ∃ L, (ApplyCache block var_name mem_loc xfer_loc).2.stmts.head? = some (Statement.Block L) ∧
        L.name = "load_" ++ var_name ∧
        CopiesFromTo L (unique_ref_name block (var_name ++ "_raw")) R.location
          R.interior_shape.strides
          var_name mem_loc (SimpleShape R.interior_shape.type R.interior_shape.sizes).strides) ∧
    (IsWriteDir R.dir = true →
      ∃ S, (ApplyCache block var_name mem_loc xfer_loc).2.stmts.getLast?
          = some (Statement.Block S) ∧
        S.name = "store_" ++ var_name ∧
        CopiesFromTo S var_name mem_loc
          (SimpleShape R.interior_shape.type R.interior_shape.sizes).strides
          (unique_ref_name block (var_name ++ "_raw")) R.location R.interior_shape.strides) := by
  have hst := ApplyCache_stmts_cached block var_name mem_loc xfer_loc pos R hfind hnd
  refine ⟨?_, ?_, ?_⟩
  · rw [ApplyCache_of_found block var_name mem_loc xfer_loc pos R hfind]
  · intro hr
    obtain ⟨L, hL, hname, hcopy⟩ := CopiesFromTo_cache_load R var_name
      (unique_ref_name block (var_name ++ "_raw")) mem_loc xfer_loc
      (unique_ref_name_ne block var_name)
    refine ⟨L, ?_, hname, hcopy⟩
    rw [hst, hr, if_pos rfl, hL]
    simp
  · intro hw
    obtain ⟨S, hS, hname, hcopy⟩ := CopiesFromTo_cache_store R var_name
      (unique_ref_name block (var_name ++ "_raw")) mem_loc xfer_loc
      (unique_ref_name_ne block var_name)
    refine ⟨S, ?_, hname, hcopy⟩
    rw [hst, hw, if_pos rfl, hS]
    simp

/-- C21 on `cacheBlockIn`, whose refinement `V` has `dir = In`: the block `load_V` copies
from `V_raw` in RAM to `V` in the cache. -/
theorem ApplyCache_direction_witness :
    ref_by_into cacheBlockIn "V" = some (0, refV) ∧
    (cacheBlockIn.refs.map (fun r => r.into)).Nodup ∧
    IsReadDir refV.dir = true ∧
    ∃ L, (ApplyCache cacheBlockIn "V" { name := "CACHE" } { name := "DMA" }).2.stmts.head?
        = some (Statement.Block L) ∧
      L.name = "load_" ++ "V" ∧
      CopiesFromTo L (unique_ref_name cacheBlockIn ("V" ++ "_raw")) refV.location
        refV.interior_shape.strides
        "V" { name := "CACHE" }
        (SimpleShape refV.interior_shape.type refV.interior_shape.sizes).strides :=
  ⟨by decide, by decide, by decide,
    (ApplyCache_direction cacheBlockIn "V" { name := "CACHE" } { name := "DMA" } 0 refV
      (by decide) (by decide)).2.1 (by decide)⟩

/-- The refinements that a call of `ApplyCache` which finds its refinement leaves. -/
theorem ApplyCache_refs_of_found (block : Block) (var_name : String)
    (mem_loc xfer_loc : Location) (pos : Nat) (it : Refinement)
    (h : ref_by_into block var_name = some (pos, it)) :
    (ApplyCache block var_name mem_loc xfer_loc).2.refs =
      block.refs.set pos { it with into := unique_ref_name block (var_name ++ "_raw") }
        ++ [ApplyCache.new_ref it var_name mem_loc] := by
  rw [ApplyCache_of_found block var_name mem_loc xfer_loc pos it h]
  simp only [FixupRefs_refs]

/-- `ApplyCache` keeps the names of the refinements distinct. -/
theorem ApplyCache_refs_nodup (block : Block) (var_name : String)
    (mem_loc xfer_loc : Location) (pos : Nat) (it : Refinement)
    (h : ref_by_into block var_name = some (pos, it))
    (hnd : (block.refs.map (fun r => r.into)).Nodup) :
    ((ApplyCache block var_name mem_loc xfer_loc).2.refs.map (fun r => r.into)).Nodup := by
  obtain ⟨hget, hinto, _⟩ := ref_by_into_some block var_name pos it h
  rw [ApplyCache_refs_of_found block var_name mem_loc xfer_loc pos it h]
  have hfresh : unique_ref_name block (var_name ++ "_raw") ∉ block.refs.map (fun r => r.into) := by
    intro hmem
    simp only [List.mem_map] at hmem
    obtain ⟨r, hr, he⟩ := hmem
    exact unique_ref_name_fresh block (var_name ++ "_raw") r hr he
  have hne := set_raw_ne block.refs hnd pos it hget
    (unique_ref_name block (var_name ++ "_raw"))
    (by rw [hinto]; exact unique_ref_name_ne block var_name)
  rw [hinto] at hne
  rw [List.map_append, List.map_set]
  refine List.Nodup.append (hnd.set hfresh) (List.nodup_singleton _) ?_
  intro x hx1 hx2
  simp only [List.map_cons, List.map_nil, List.mem_singleton] at hx2
  rw [← List.map_set] at hx1
  simp only [List.mem_map] at hx1
  obtain ⟨r, hr, he⟩ := hx1
  rw [hx2] at he
  exact hne r hr he

/-- C22: `ApplyCache` preserves the uniqueness of refinement names: when the `into` names of
the block are pairwise distinct before a successful `ApplyCache(block, V, ...)`, they are
pairwise distinct afterwards.  In particular `ApplyCache` can then be applied again to the
same `V`: the refinement it finds is the cached one (`dir = None`, at `mem_loc`) that the
first call appended, the call succeeds, it renames that refinement to a raw name different
from every name present before this second call, and the names are again pairwise
distinct. -/
theorem ApplyCache_unique (block : Block) (var_name : String) (mem_loc xfer_loc : Location)
    (block' : Block)
    (hnd : (block.refs.map (fun r => r.into)).Nodup)
    (h : ApplyCache block var_name mem_loc xfer_loc = (Except.ok (), block')) :
    (block'.refs.map (fun r => r.into)).Nodup ∧
    ∀ mem_loc2 xfer_loc2 : Location, ∃ (pos : Nat) (cached : Refinement) (block'' : Block),
      ref_by_into block' var_name = some (pos, cached) ∧
      cached.dir = RefDir.None ∧ cached.location = mem_loc ∧
      ApplyCache block' var_name mem_loc2 xfer_loc2 = (Except.ok (), block'') ∧
      block''.refs[pos]? =
        some { cached with into := unique_ref_name block' (var_name ++ "_raw") } ∧
      (∀ r ∈ block'.refs, r.into ≠ unique_ref_name block' (var_name ++ "_raw")) ∧
      (block''.refs.map (fun r => r.into)).Nodup := by
  cases hfind : ref_by_into block var_name with
  | none =>
    have hres : ApplyCache block var_name mem_loc xfer_loc =
        (Except.error "ApplyCache: Invalid var_name", block) := by
      unfold ApplyCache
      rw [hfind]
    rw [hres] at h
    simp at h
  | some p =>
    obtain ⟨pos, it⟩ := p
    have hnd' := ApplyCache_refs_nodup block var_name mem_loc xfer_loc pos it hfind hnd
    have hfind' : ref_by_into block' var_name
        = some (block.refs.length, ApplyCache.new_ref it var_name mem_loc) := by
      have hb : block' = (ApplyCache block var_name mem_loc xfer_loc).2 := by rw [h]
      rw [hb, ApplyCache_of_found block var_name mem_loc xfer_loc pos it hfind]
      simp only [FixupRefs]
      rw [ref_by_into_cached block var_name hnd pos it hfind
        (ApplyCache.new_ref it var_name mem_loc) rfl]
      exact ref_by_into_cached block var_name hnd pos it hfind
        (ApplyCache.new_ref it var_name mem_loc) rfl _
    rw [h] at hnd'
    refine ⟨hnd', ?_⟩
    intro mem_loc2 xfer_loc2
    refine ⟨block.refs.length, ApplyCache.new_ref it var_name mem_loc,
      (ApplyCache block' var_name mem_loc2 xfer_loc2).2, hfind', rfl, rfl, ?_, ?_,
      unique_ref_name_fresh block' (var_name ++ "_raw"),
      ApplyCache_refs_nodup block' var_name mem_loc2 xfer_loc2 _ _ hfind' hnd'⟩
    · rw [ApplyCache_of_found block' var_name mem_loc2 xfer_loc2 _ _ hfind']
    · obtain ⟨hget, _, _⟩ := ref_by_into_some block' var_name _ _ hfind'
      have hlt : block.refs.length < block'.refs.length := by
        by_contra hge
        rw [List.getElem?_eq_none (by omega)] at hget
        exact absurd hget (by simp)
      rw [ApplyCache_refs_of_found block' var_name mem_loc2 xfer_loc2 _ _ hfind']
      rw [List.getElem?_append_left (by simpa using hlt)]
      exact List.getElem?_set_self hlt

/-- C22 on `cacheBlockIn`: after a first cache of `V`, a second one succeeds and renames the
cached refinement to a fresh name. -/
theorem ApplyCache_unique_witness :
    (cacheBlockIn.refs.map (fun r => r.into)).Nodup ∧
    (((ApplyCache cacheBlockIn "V" { name := "CACHE" } { name := "DMA" }).2.refs.map
        (fun r => r.into)).Nodup ∧
      ∀ mem_loc2 xfer_loc2 : Location, ∃ (pos : Nat) (cached : Refinement) (block'' : Block),
        ref_by_into (ApplyCache cacheBlockIn "V" { name := "CACHE" } { name := "DMA" }).2 "V"
          = some (pos, cached) ∧
        cached.dir = RefDir.None ∧ cached.location = { name := "CACHE" } ∧
        ApplyCache (ApplyCache cacheBlockIn "V" { name := "CACHE" } { name := "DMA" }).2 "V"
          mem_loc2 xfer_loc2 = (Except.ok (), block'') ∧
        block''.refs[pos]? =
          some { cached with
            into := unique_ref_name
              (ApplyCache cacheBlockIn "V" { name := "CACHE" } { name := "DMA" }).2
              ("V" ++ "_raw") } ∧
        (∀ r ∈ (ApplyCache cacheBlockIn "V" { name := "CACHE" } { name := "DMA" }).2.refs,
          r.into ≠ unique_ref_name
            (ApplyCache cacheBlockIn "V" { name := "CACHE" } { name := "DMA" }).2
            ("V" ++ "_raw")) ∧
        (block''.refs.map (fun r => r.into)).Nodup) :=
  ⟨by decide,
    ApplyCache_unique cacheBlockIn "V" { name := "CACHE" } { name := "DMA" } _ (by decide) rfl⟩

/-! ## CacheBlock -/

/-- The loop of `CacheBlock` is `ApplyCache` once for each refinement of the copy whose
`dir` is in `dirs`, in the order of the copy. -/
theorem CacheBlock.loop_eq_each (dirs : List RefDir) (mem_loc xfer_loc : Location) :
    ∀ (refs : List Refinement) (block : Block),
      CacheBlock.loop dirs mem_loc xfer_loc refs block =
        ApplyCacheEach mem_loc xfer_loc
          ((refs.filter (fun r => decide (r.dir ∈ dirs))).map (fun r => r.into)) block := by
  intro refs
  induction refs with
  | nil => intro block; rfl
  | cons ref rest ih =>
    intro block
    by_cases hd : ref.dir ∈ dirs
    · have hf : (ref :: rest).filter (fun r => decide (r.dir ∈ dirs))
          = ref :: rest.filter (fun r => decide (r.dir ∈ dirs)) := by
        simp [List.filter_cons, hd]
      rw [hf]
      simp only [CacheBlock.loop, hd, if_true, List.map_cons, ApplyCacheEach, ih]
    · have hf : (ref :: rest).filter (fun r => decide (r.dir ∈ dirs))
          = rest.filter (fun r => decide (r.dir ∈ dirs)) := by
        simp [List.filter_cons, hd]
      rw [hf]
      simp only [CacheBlock.loop, hd, if_false]
      exact ih block

theorem set_append_middle {α : Type} (pre rest post : List α) (a b : α) :
    (pre ++ a :: rest ++ post).set pre.length b = pre ++ b :: rest ++ post := by
  induction pre with
  | nil => simp
  | cons x pre ih =>
    simp only [List.cons_append, List.length_cons, List.set_cons_succ]
    rw [← ih]

/-- The invariant of the loop of `CacheBlock`: with the refinements still to visit in the
middle of the block's refinements and all names distinct, the loop ends normally; the
refinements before and after stay, the visited ones keep their places (those whose `dir` is
not in `dirs` unchanged), and one refinement with `dir = None` at `mem_loc` is appended for
each visited refinement whose `dir` is in `dirs`, under the name that one had. -/
theorem CacheBlock.loop_spec (dirs : List RefDir) (mem_loc xfer_loc : Location) :
    ∀ (rest pre post : List Refinement) (block : Block),
      block.refs = pre ++ rest ++ post →
      (block.refs.map (fun r => r.into)).Nodup →
      ∃ (block' : Block) (rest' news : List Refinement),
        CacheBlock.loop dirs mem_loc xfer_loc rest block = (Except.ok (), block') ∧
        block'.refs = pre ++ rest' ++ post ++ news ∧
        (block'.refs.map (fun r => r.into)).Nodup ∧
        rest'.length = rest.length ∧
        (∀ (i : Nat) (r : Refinement), rest[i]? = some r → r.dir ∉ dirs → rest'[i]? = some r) ∧
        news.length = rest.countP (fun r => decide (r.dir ∈ dirs)) ∧
        (∀ c ∈ news, c.dir = RefDir.None ∧ c.location = mem_loc) ∧
        (∀ r ∈ rest, r.dir ∈ dirs → ∃ c ∈ news, c.into = r.into) ∧
        (rest.countP (fun r => decide (r.dir ∈ dirs)) = 0 → block' = block) := by
  intro rest
  induction rest with
  | nil =>
    intro pre post block hrefs hnd
    refine ⟨block, [], [], rfl, by simpa using hrefs, hnd, rfl, ?_, rfl, ?_, ?_, fun _ => rfl⟩
    · intro i r h; simp at h
    · intro c hc; simp at hc
    · intro r hr; simp at hr
  | cons ref rest ih =>
    intro pre post block hrefs hnd
    by_cases hd : ref.dir ∈ dirs
    · -- the refinement is cached
      have hp : (fun r : Refinement => decide (r.dir ∈ dirs)) ref = true := by simpa using hd
      have hget : block.refs[pre.length]? = some ref := by
        rw [hrefs, List.append_assoc, List.getElem?_append_right (Nat.le_refl _)]
        simp
      have hfind : ref_by_into block ref.into = some (pre.length, ref) := by
        have := refByInto_of_getElem? block.refs 0 pre.length ref hnd hget
        simpa [ref_by_into] using this
      have hres := ApplyCache_of_found block ref.into mem_loc xfer_loc pre.length ref hfind
      have hrefs1 := ApplyCache_refs_of_found block ref.into mem_loc xfer_loc pre.length ref hfind
      have hnd1 := ApplyCache_refs_nodup block ref.into mem_loc xfer_loc pre.length ref hfind hnd
      have hrefs1' : (ApplyCache block ref.into mem_loc xfer_loc).2.refs =
          (pre ++ [{ ref with into := unique_ref_name block (ref.into ++ "_raw") }]) ++ rest
            ++ (post ++ [ApplyCache.new_ref ref ref.into mem_loc]) := by
        rw [hrefs1, hrefs, set_append_middle]
        simp
      obtain ⟨block', rest', news, hloop, hr', hnd', hlen, hkeep, hnews, hnone, hnamed, _⟩ :=
        ih _ _ _ hrefs1' hnd1
      refine ⟨block', { ref with into := unique_ref_name block (ref.into ++ "_raw") } :: rest',
        ApplyCache.new_ref ref ref.into mem_loc :: news, ?_, ?_, hnd', ?_, ?_, ?_, ?_, ?_, ?_⟩
      · have hok : ApplyCache block ref.into mem_loc xfer_loc
            = (Except.ok (), (ApplyCache block ref.into mem_loc xfer_loc).2) := by
          rw [hres]
        simp only [CacheBlock.loop, hd, if_true]
        rw [hok]
        exact hloop
      · rw [hr']
        simp
      · simp [hlen]
      · intro i r hi hnot
        cases i with
        | zero =>
          simp only [List.getElem?_cons_zero, Option.some.injEq] at hi
          subst hi
          exact absurd hd hnot
        | succ i =>
          simp only [List.getElem?_cons_succ] at hi ⊢
          exact hkeep i r hi hnot
      · rw [List.countP_cons_of_pos _ rest hp]
        simp [hnews]
      · intro c hc
        simp only [List.mem_cons] at hc
        rcases hc with rfl | hc
        · exact ⟨rfl, rfl⟩
        · exact hnone c hc
      · intro r hr hrd
        simp only [List.mem_cons] at hr
        rcases hr with rfl | hr
        · exact ⟨_, List.mem_cons_self _ _, rfl⟩
        · obtain ⟨c, hc, he⟩ := hnamed r hr hrd
          exact ⟨c, List.mem_cons_of_mem _ hc, he⟩
      · intro h0
        rw [List.countP_cons_of_pos _ rest hp] at h0
        omega
    · -- the refinement is passed over
      have hp : ¬ ((fun r : Refinement => decide (r.dir ∈ dirs)) ref = true) := by simpa using hd
      have hrefs' : block.refs = (pre ++ [ref]) ++ rest ++ post := by
        rw [hrefs]
        simp
      obtain ⟨block', rest', news, hloop, hr', hnd', hlen, hkeep, hnews, hnone, hnamed, hsame⟩ :=
        ih _ _ _ hrefs' hnd
      refine ⟨block', ref :: rest', news, ?_, ?_, hnd', ?_, ?_, ?_, hnone, ?_, ?_⟩
      · simp only [CacheBlock.loop, hd, if_false]
        exact hloop
      · rw [hr']
        simp
      · simp [hlen]
      · intro i r hi hnot
        cases i with
        | zero =>
          simpa using hi
        | succ i =>
          simp only [List.getElem?_cons_succ] at hi ⊢
          exact hkeep i r hi hnot
      · rw [List.countP_cons_of_neg _ rest hp]
        exact hnews
      · intro r hr hrd
        simp only [List.mem_cons] at hr
        rcases hr with rfl | hr
        · exact absurd hrd hd
        · exact hnamed r hr hrd
      · intro h0
        rw [List.countP_cons_of_neg _ rest hp] at h0
        exact hsame h0

/-- C23: for every block with pairwise distinct `into` names and every set `dirs`,
`CacheBlock(block, dirs, mem_loc, xfer_loc)` returns normally (so never with an
invalid-variable error) and is `ApplyCache` applied exactly once for each refinement of the
original refs whose `dir` is in `dirs`, in original order.  Afterwards `block.refs` has
`n + k` entries, `k` being the number of such refinements; each such original name names
(is what `ref_by_into` finds as) a refinement with `dir = None` at `mem_loc`; the
refinements whose `dir` is not in `dirs` are unchanged, at their positions; and with
`k = 0` the block is unchanged. -/
theorem CacheBlock_spec (block : Block) (dirs : List RefDir) (mem_loc xfer_loc : Location)
    (hnd : (block.refs.map (fun r => r.into)).Nodup) :
    ∃ block' : Block,
      CacheBlock block dirs mem_loc xfer_loc = (Except.ok (), block') ∧
      CacheBlock block dirs mem_loc xfer_loc =
        ApplyCacheEach mem_loc xfer_loc
          ((block.refs.filter (fun r => decide (r.dir ∈ dirs))).map (fun r => r.into)) block ∧
      block'.refs.length
        = block.refs.length + block.refs.countP (fun r => decide (r.dir ∈ dirs)) ∧
      (∀ r ∈ block.refs, r.dir ∈ dirs →
        ∃ (pos : Nat) (c : Refinement), ref_by_into block' r.into = some (pos, c) ∧
          c.dir = RefDir.None ∧ c.location = mem_loc) ∧
      (∀ (i : Nat) (r : Refinement), block.refs[i]? = some r → r.dir ∉ dirs →
        block'.refs[i]? = some r) ∧
      (block.refs.countP (fun r => decide (r.dir ∈ dirs)) = 0 → block' = block) := by
  obtain ⟨block', rest', news, hloop, hr', hnd', hlen, hkeep, hnews, hnone, hnamed, hsame⟩ :=
    CacheBlock.loop_spec dirs mem_loc xfer_loc block.refs [] [] block (by simp) hnd
  have hr'' : block'.refs = rest' ++ news := by simpa using hr'
  refine ⟨block', hloop, CacheBlock.loop_eq_each dirs mem_loc xfer_loc block.refs block,
    ?_, ?_, ?_, hsame⟩
  · rw [hr'', List.length_append, hlen, hnews]
  · intro r hr hrd
    obtain ⟨c, hc, he⟩ := hnamed r hr hrd
    have hmem : c ∈ block'.refs := by
      rw [hr'']
      exact List.mem_append_right _ hc
    obtain ⟨pos, hpos⟩ := exists_getElem?_of_mem block'.refs c hmem
    have hfind := refByInto_of_getElem? block'.refs 0 pos c hnd' hpos
    refine ⟨pos, c, ?_, (hnone c hc).1, (hnone c hc).2⟩
    rw [← he]
    simpa [ref_by_into] using hfind
  · intro i r hi hnot
    have h1 := hkeep i r hi hnot
    obtain ⟨hlt, _⟩ := List.getElem?_eq_some.1 h1
    rw [hr'', List.getElem?_append_left hlt]
    exact h1

/-- C23 on `cacheBlockMixed`, with `dirs = {In, Out}`: two of its three refinements are
cached. -/
theorem CacheBlock_spec_witness :
    (cacheBlockMixed.refs.map (fun r => r.into)).Nodup ∧
    ∃ block' : Block,
      CacheBlock cacheBlockMixed [RefDir.In, RefDir.Out] { name := "CACHE" } { name := "DMA" }
        = (Except.ok (), block') ∧
      CacheBlock cacheBlockMixed [RefDir.In, RefDir.Out] { name := "CACHE" } { name := "DMA" } =
        ApplyCacheEach { name := "CACHE" } { name := "DMA" }
          ((cacheBlockMixed.refs.filter
            (fun r => decide (r.dir ∈ [RefDir.In, RefDir.Out]))).map (fun r => r.into))
          cacheBlockMixed ∧
      block'.refs.length = cacheBlockMixed.refs.length
        + cacheBlockMixed.refs.countP (fun r => decide (r.dir ∈ [RefDir.In, RefDir.Out])) ∧
      (∀ r ∈ cacheBlockMixed.refs, r.dir ∈ [RefDir.In, RefDir.Out] →
        ∃ (pos : Nat) (c : Refinement), ref_by_into block' r.into = some (pos, c) ∧
          c.dir = RefDir.None ∧ c.location = { name := "CACHE" }) ∧
      (∀ (i : Nat) (r : Refinement), cacheBlockMixed.refs[i]? = some r →
        r.dir ∉ [RefDir.In, RefDir.Out] → block'.refs[i]? = some r) ∧
      (cacheBlockMixed.refs.countP (fun r => decide (r.dir ∈ [RefDir.In, RefDir.Out])) = 0 →
        block' = cacheBlockMixed) :=
  ⟨by decide,
    CacheBlock_spec cacheBlockMixed [RefDir.In, RefDir.Out] { name := "CACHE" } { name := "DMA" }
      (by decide)⟩

/-! ## Optimize -/

theorem lastIR_cons (block b : Block) (irs : List Block) :
    lastIR block (b :: irs) = lastIR b irs := by
  simp [lastIR, List.getLast_cons]

/-- The `switch` of `Optimize` calls the function that corresponds to the kind, and throws
for the unset kind. -/
theorem Optimize.dispatch_spec {ω : Type} (fns : PassFns ω) (pass : Pass ω) (block : Block) :
    Optimize.dispatch fns pass block =
      match specPassFunction fns pass.pass_case with
      | some f => f block pass.options
      | none => (Except.error ("Unsupported pass: " ++ pass.name), block) := by
  unfold Optimize.dispatch
  cases pass.pass_case <;> rfl

theorem irAfter_cons {ω : Type} (fns : PassFns ω) (pass : Pass ω) (rest : List (Pass ω))
    (block : Block) (irs : List Block) (h : irAfter fns (pass :: rest) block = some irs) :
    ∃ b' irs', Optimize.dispatch fns pass block = (Except.ok (), b') ∧
      irAfter fns rest b' = some irs' ∧ irs = b' :: irs' := by
  unfold irAfter at h
  cases hd : Optimize.dispatch fns pass block with
  | mk out b' =>
    rw [hd] at h
    cases out with
    | error e => simp at h
    | ok u =>
      cases u
      simp only [Option.map_eq_some'] at h
      obtain ⟨irs', h1, h2⟩ := h
      exact ⟨b', irs', rfl, h1, h2.symm⟩

theorem irAfter_length {ω : Type} (fns : PassFns ω) :
    ∀ (passes : List (Pass ω)) (block : Block) (irs : List Block),
      irAfter fns passes block = some irs → irs.length = passes.length := by
  intro passes
  induction passes with
  | nil => intro block irs h; simp [irAfter] at h; simp [← h]
  | cons p rest ih =>
    intro block irs h
    obtain ⟨b', irs', _, h1, h2⟩ := irAfter_cons fns p rest block irs h
    rw [h2, List.length_cons, ih b' irs' h1, List.length_cons]

/-- Passes applied in order as the specification has it are what the `switch` of `Optimize`
does with them one after the other. -/
theorem irAfter_of_spec {ω : Type} (fns : PassFns ω) :
    ∀ (passes : List (Pass ω)) (block : Block) (irs : List Block),
      SpecAppliedInOrder fns passes block irs → irAfter fns passes block = some irs := by
  intro passes
  induction passes with
  | nil =>
    intro block irs h
    have hl : irs = [] := List.length_eq_zero.1 h.1
    subst hl
    rfl
  | cons p rest ih =>
    intro block irs h
    obtain ⟨hlen, hk⟩ := h
    cases irs with
    | nil => simp at hlen
    | cons ir irs' =>
      obtain ⟨f, before, after, hf, hb, ha, hrun⟩ := hk 0 p (List.getElem?_cons_zero)
      simp only [List.getElem?_cons_zero, Option.some.injEq] at hb ha
      subst hb
      subst ha
      have hd : Optimize.dispatch fns p block = (Except.ok (), ir) := by
        rw [Optimize.dispatch_spec, hf]
        exact hrun
      have hrest : SpecAppliedInOrder fns rest ir irs' := by
        refine ⟨by simpa using hlen, ?_⟩
        intro k q hq
        obtain ⟨f', b', a', hf', hb', ha', hrun'⟩ := hk (k + 1) q (by simpa using hq)
        exact ⟨f', b', a', hf', by simpa using hb', by simpa using ha', hrun'⟩
      simp only [irAfter, hd, ih ir irs' hrest, Option.map_some']

/-- What the `switch` of `Optimize` does with passes that return normally is to apply them
in order as the specification has it. -/
theorem spec_of_irAfter {ω : Type} (fns : PassFns ω) :
    ∀ (passes : List (Pass ω)) (block : Block) (irs : List Block),
      irAfter fns passes block = some irs → SpecAppliedInOrder fns passes block irs := by
  intro passes
  induction passes with
  | nil =>
    intro block irs h
    simp only [irAfter, Option.some.injEq] at h
    subst h
    exact ⟨rfl, fun k p hp => by simp at hp⟩
  | cons p rest ih =>
    intro block irs h
    obtain ⟨b', irs', hd, h1, h2⟩ := irAfter_cons fns p rest block irs h
    subst h2
    obtain ⟨hlen, hk⟩ := ih b' irs' h1
    refine ⟨by simp [hlen], ?_⟩
    intro k q hq
    cases k with
    | zero =>
      simp only [List.getElem?_cons_zero, Option.some.injEq] at hq
      subst hq
      rw [Optimize.dispatch_spec] at hd
      cases hs : specPassFunction fns p.pass_case with
      | none => rw [hs] at hd; simp at hd
      | some f =>
        rw [hs] at hd
        exact ⟨f, block, b', rfl, List.getElem?_cons_zero, List.getElem?_cons_zero, hd⟩
    | succ k =>
      obtain ⟨f, b, a, hf, hb, ha, hrun⟩ := hk k q (by simpa using hq)
      exact ⟨f, b, a, hf, by simpa using hb, by simpa using ha, hrun⟩

/-- The loop of `Optimize` over passes that all return normally and whose dumps do not
throw: it goes on, after them, from the IR that the last of them left. -/
theorem Optimize.loop_append {ω : Type} (fns : PassFns ω) (fs : FileSys)
    (options : OptimizeOptions) (rest : List (Pass ω)) :
    ∀ (pre : List (Pass ω)) (block : Block) (counter : Nat) (files : List Dump)
      (irs : List Block) (files' : List Dump), irAfter fns pre block = some irs →
      dumpEach fs options (pre.map (fun p => p.name)) irs counter files = Except.ok files' →
      Optimize.loop fns fs options (pre ++ rest) block counter files =
        Optimize.loop fns fs options rest (lastIR block irs) (counter + pre.length) files' := by
  intro pre
  induction pre with
  | nil =>
    intro block counter files irs files' h hdumps
    simp only [irAfter, Option.some.injEq] at h
    subst h
    simp only [List.map_nil, dumpEach, Except.ok.injEq] at hdumps
    subst hdumps
    simp [lastIR]
  | cons p pre ih =>
    intro block counter files irs files' h hdumps
    obtain ⟨b', irs', hd, h1, h2⟩ := irAfter_cons fns p pre block irs h
    subst h2
    simp only [List.map_cons, dumpEach] at hdumps
    cases hdp : DumpProgram fs b' options p.name counter files with
    | error e => rw [hdp] at hdumps; simp at hdumps
    | ok files1 =>
      rw [hdp] at hdumps
      have hstep : Optimize.loop fns fs options (p :: (pre ++ rest)) block counter files =
          Optimize.loop fns fs options (pre ++ rest) b' (counter + 1) files1 := by
        simp only [Optimize.loop, hd, hdp]
      rw [List.cons_append, hstep, ih b' (counter + 1) files1 irs' files' h1 hdumps]
      simp only [lastIR_cons, List.length_cons]
      congr 1
      omega

/-- A call of `DumpProgram` returns normally when no dump is asked for or the directory can
be created. -/
theorem DumpProgram_returns (fs : FileSys) (options : OptimizeOptions)
    (hdir : options.dump_passes = true →
      ∀ n, fs.create_directory n options.dbg_dir = Except.ok ())
    (program : Block) (name : String) (counter : Nat) (files : List Dump) :
    ∃ files', DumpProgram fs program options name counter files = Except.ok files' := by
  unfold DumpProgram
  by_cases hdump : options.dump_passes = true
  · simp only [hdump, if_true, hdir hdump counter]
    split
    · exact ⟨_, rfl⟩
    · exact ⟨_, rfl⟩
  · simp only [hdump]
    exact ⟨_, rfl⟩

theorem dumpEach_returns (fs : FileSys) (options : OptimizeOptions)
    (hdir : options.dump_passes = true →
      ∀ n, fs.create_directory n options.dbg_dir = Except.ok ()) :
    ∀ (names : List String) (irs : List Block) (counter : Nat) (files : List Dump),
      ∃ files', dumpEach fs options names irs counter files = Except.ok files' := by
  intro names
  induction names with
  | nil => intro irs counter files; exact ⟨files, by simp [dumpEach]⟩
  | cons name names ih =>
    intro irs counter files
    cases irs with
    | nil => exact ⟨files, by simp [dumpEach]⟩
    | cons ir irs =>
      obtain ⟨files1, h1⟩ := DumpProgram_returns fs options hdir ir name counter files
      obtain ⟨files', h'⟩ := ih irs (counter + 1) files1
      exact ⟨files', by simp only [dumpEach, h1, h']⟩

/-- A pass that returns normally has a kind that is set. -/
theorem irAfter_set {ω : Type} (fns : PassFns ω) :
    ∀ (passes : List (Pass ω)) (block : Block) (irs : List Block),
      irAfter fns passes block = some irs →
      ∀ q ∈ passes, q.pass_case ≠ PassCase.PASS_NOT_SET := by
  intro passes
  induction passes with
  | nil => intro block irs _ q hq; simp at hq
  | cons p rest ih =>
    intro block irs h q hq
    obtain ⟨b', irs', hd, h1, _⟩ := irAfter_cons fns p rest block irs h
    simp only [List.mem_cons] at hq
    rcases hq with rfl | hq
    · intro hset
      simp [Optimize.dispatch, hset] at hd
    · exact ih b' irs' h1 q hq

theorem applied_tagFns :
    SpecAppliedInOrder tagFns [cachePassA, fusionPassB] rootBlock [rootAfterA, rootAfterAB] :=
  spec_of_irAfter tagFns _ _ _ rfl

/-- C24 fails as stated, in two ways.  With `dump_passes` and a directory `dbg_dir` that
cannot be created, `DumpProgram` throws in the dump of the initial IR: of the passes `a`,
`b`, `q`, where `a` and `b` are of known kinds and return normally and the kind of `q` is
not set, none is applied, and `Optimize` fails with the exception of `create_directory`,
not at `q`.  And a pass that throws ends `Optimize`: of the passes `a`, `u`, `b`, `q`, where
`u` throws, only `a` is applied; `b`, which stands before the first pass of unset kind, is
not, and `Optimize` fails with the exception of `u`, not at `q`. -/
theorem Optimize_order_counterexample :
    (unsetPass.pass_case = PassCase.PASS_NOT_SET ∧
      SpecAppliedInOrder tagFns [cachePassA, fusionPassB] rootBlock [rootAfterA, rootAfterAB] ∧
      Optimize tagFns noDirFs rootBlock { passes := [cachePassA, fusionPassB, unsetPass] }
          { dump_passes := true, dbg_dir := "/nonexistent/x/y" }
        = (Except.error "boost::filesystem::create_directory: No such file or directory",
            rootBlock, []) ∧
      rootBlock.name = "program" ∧
      rootAfterAB.name = "program CachePass(x) FusionPass(y)" ∧
      ¬ ∃ files, Optimize tagFns noDirFs rootBlock
          { passes := [cachePassA, fusionPassB, unsetPass] }
          { dump_passes := true, dbg_dir := "/nonexistent/x/y" }
        = (Except.error ("Unsupported pass: " ++ unsetPass.name),
            lastIR rootBlock [rootAfterA, rootAfterAB], files)) ∧
    (unsetPass.pass_case = PassCase.PASS_NOT_SET ∧
      (∀ q ∈ [cachePassA, unrollPassU, fusionPassB], q.pass_case ≠ PassCase.PASS_NOT_SET) ∧
      Optimize tagFns flatFs rootBlock
          { passes := [cachePassA, unrollPassU, fusionPassB, unsetPass] } {}
        = (Except.error "UnrollPass: failed", rootAfterA, []) ∧
      rootAfterA.name = "program CachePass(x)" ∧
      ¬ ∃ files, Optimize tagFns flatFs rootBlock
          { passes := [cachePassA, unrollPassU, fusionPassB, unsetPass] } {}
        = (Except.error ("Unsupported pass: " ++ unsetPass.name), rootAfterAB, files)) := by
  refine ⟨⟨rfl, applied_tagFns, rfl, rfl, rfl, ?_⟩, ⟨rfl, by decide, rfl, rfl, ?_⟩⟩
  · rintro ⟨files, h⟩
    have h1 : (Except.error "boost::filesystem::create_directory: No such file or directory"
        : Except String Unit) = Except.error ("Unsupported pass: " ++ unsetPass.name) :=
      congrArg Prod.fst h
    exact absurd h1 (by decide)
  · rintro ⟨files, h⟩
    have h1 : (Except.error "UnrollPass: failed" : Except String Unit)
        = Except.error ("Unsupported pass: " ++ unsetPass.name) := congrArg Prod.fst h
    exact absurd h1 (by decide)

/-- C24, amended: when no dump throws (`dump_passes` is unset, or `create_directory` returns
normally on `dbg_dir` each time), `Optimize` applies the passes of the configuration
strictly in list order, each to the IR left by the previous one.  If every pass is of a
known kind and the function of its kind returns normally on the IR left by the pass before
it, `Optimize` returns normally and leaves the IR that the last pass left.  If the pass at
position `k` is of unknown (unset) kind and the passes before it are applied in that way
(which makes it the first such pass), `Optimize` fails at that point with
"Unsupported pass", having applied exactly the passes before position `k`: the IR is the
one that the pass at position `k - 1` left, and the result depends on no pass after
position `k`.  If the function of the pass at position `k` throws instead, `Optimize` ends
at that point in the same way, with the exception of the pass and the IR as the pass
left it. -/
theorem Optimize_order {ω : Type} (fns : PassFns ω) (fs : FileSys) (block : Block)
    (options : OptimizeOptions)
    (hdir : options.dump_passes = true →
      ∀ n, fs.create_directory n options.dbg_dir = Except.ok ()) :
    (∀ (passes : List (Pass ω)) (irs : List Block),
      SpecAppliedInOrder fns passes block irs →
      ∃ files, Optimize fns fs block { passes := passes } options
        = (Except.ok (), lastIR block irs, files)) ∧
    (∀ (pre : List (Pass ω)) (p : Pass ω) (irs : List Block),
      p.pass_case = PassCase.PASS_NOT_SET → SpecAppliedInOrder fns pre block irs →
      (∀ q ∈ pre, q.pass_case ≠ PassCase.PASS_NOT_SET) ∧
      ∃ files, ∀ post' : List (Pass ω),
        Optimize fns fs block { passes := pre ++ p :: post' } options
          = (Except.error ("Unsupported pass: " ++ p.name), lastIR block irs, files)) ∧
    (∀ (pre post : List (Pass ω)) (p : Pass ω) (irs : List Block)
      (f : Block → ω → Except String Unit × Block) (e : String) (b' : Block),
      SpecAppliedInOrder fns pre block irs →
      specPassFunction fns p.pass_case = some f →
      f (lastIR block irs) p.options = (Except.error e, b') →
      ∃ files, Optimize fns fs block { passes := pre ++ p :: post } options
        = (Except.error e, b', files)) := by
  obtain ⟨files0, h0⟩ := DumpProgram_returns fs options hdir block "initial" 0 []
  refine ⟨?_, ?_, ?_⟩
  · intro passes irs hs
    have h := irAfter_of_spec fns passes block irs hs
    obtain ⟨files', hd⟩ := dumpEach_returns fs options hdir (passes.map (fun p => p.name))
      irs 1 files0
    refine ⟨files', ?_⟩
    have := Optimize.loop_append fns fs options [] passes block 1 files0 irs files' h hd
    simp only [List.append_nil] at this
    simp only [Optimize, h0, this, Optimize.loop]
  · intro pre p irs hp hs
    have h := irAfter_of_spec fns pre block irs hs
    obtain ⟨files', hd⟩ := dumpEach_returns fs options hdir (pre.map (fun p => p.name))
      irs 1 files0
    refine ⟨irAfter_set fns pre block irs h, files', ?_⟩
    intro post'
    have := Optimize.loop_append fns fs options (p :: post') pre block 1 files0 irs files' h hd
    simp only [Optimize, h0, this, Optimize.loop, Optimize.dispatch, hp]
  · intro pre post p irs f e b' hs hf hrun
    have h := irAfter_of_spec fns pre block irs hs
    obtain ⟨files', hd⟩ := dumpEach_returns fs options hdir (pre.map (fun p => p.name))
      irs 1 files0
    refine ⟨files', ?_⟩
    have hdisp : Optimize.dispatch fns p (lastIR block irs) = (Except.error e, b') := by
      rw [Optimize.dispatch_spec, hf]
      exact hrun
    have := Optimize.loop_append fns fs options (p :: post) pre block 1 files0 irs files' h hd
    simp only [Optimize, h0, this, Optimize.loop, hdisp]

/-- The amended C24 with pass functions that record their calls in the name of the IR, and
dumps into a directory that can be created: of the passes `a` (cache), `b` (fusion), `q`,
and any passes after them, where the kind of `q` is not set, `a` and `b` are applied in
this order, and `Optimize` fails at `q`, leaving the IR named
`program CachePass(x) FusionPass(y)`. -/
theorem Optimize_order_witness :
    (({ dump_passes := true, dbg_dir := "dbg" } : OptimizeOptions).dump_passes = true →
      ∀ n, flatFs.create_directory n "dbg" = Except.ok ()) ∧
    unsetPass.pass_case = PassCase.PASS_NOT_SET ∧
    SpecAppliedInOrder tagFns [cachePassA, fusionPassB] rootBlock [rootAfterA, rootAfterAB] ∧
    (lastIR rootBlock [rootAfterA, rootAfterAB]).name = "program CachePass(x) FusionPass(y)" ∧
    (∀ q ∈ [cachePassA, fusionPassB], q.pass_case ≠ PassCase.PASS_NOT_SET) ∧
    ∃ files, ∀ post' : List (Pass String),
      Optimize tagFns flatFs rootBlock
          { passes := [cachePassA, fusionPassB] ++ unsetPass :: post' }
          { dump_passes := true, dbg_dir := "dbg" }
        = (Except.error ("Unsupported pass: " ++ unsetPass.name),
            lastIR rootBlock [rootAfterA, rootAfterAB], files) :=
  ⟨fun _ _ => rfl, rfl, applied_tagFns, rfl,
    (Optimize_order tagFns flatFs rootBlock { dump_passes := true, dbg_dir := "dbg" }
      (fun _ _ => rfl)).2.1 [cachePassA, fusionPassB] unsetPass [rootAfterA, rootAfterAB] rfl
      applied_tagFns⟩

/-- With `dump_passes`, a directory that can be created and files that open, the calls of
`DumpProgram` after the passes append one file each, numbered from `counter` on. -/
theorem dumpEach_spec (fs : FileSys) (options : OptimizeOptions)
    (hdump : options.dump_passes = true)
    (hdir : ∀ n, fs.create_directory n options.dbg_dir = Except.ok ()) :
    ∀ (names : List String) (irs : List Block) (counter : Nat) (files : List Dump),
      (∀ (k : Nat) (name : String), names[k]? = some name →
        fs.opens options.dbg_dir (fmt02 (counter + k) ++ "_" ++ name ++ ".txt") = true) →
      dumpEach fs options names irs counter files =
        Except.ok (files ++ ((List.zip names irs).enumFrom counter).map
          (fun p => { dbg_dir := options.dbg_dir,
                      filename := fmt02 p.1 ++ "_" ++ p.2.1 ++ ".txt", program := p.2.2 })) := by
  intro names
  induction names with
  | nil => intro irs counter files _; simp [dumpEach]
  | cons name names ih =>
    intro irs counter files hopen
    cases irs with
    | nil => simp [dumpEach]
    | cons ir irs =>
      have h0 := hopen 0 name List.getElem?_cons_zero
      simp only [Nat.add_zero] at h0
      have hrest : ∀ (k : Nat) (name' : String), names[k]? = some name' →
          fs.opens options.dbg_dir (fmt02 (counter + 1 + k) ++ "_" ++ name' ++ ".txt")
            = true := by
        intro k name' hk
        have := hopen (k + 1) name' (by simpa using hk)
        have e : counter + (k + 1) = counter + 1 + k := by omega
        rw [e] at this
        exact this
      simp only [dumpEach, DumpProgram, hdump, if_true, hdir counter, h0,
        ih irs (counter + 1) _ hrest, List.zip_cons_cons, List.enumFrom_cons, List.map_cons,
        List.append_assoc, List.singleton_append]

/-- The files that `Optimize` writes with `dump_passes` when every pass returns normally,
the directory can be created and the files open. -/
theorem Optimize_files {ω : Type} (fns : PassFns ω) (fs : FileSys) (block : Block)
    (options : OptimizeOptions) (passes : List (Pass ω)) (irs : List Block)
    (hdump : options.dump_passes = true)
    (hdir : ∀ n, fs.create_directory n options.dbg_dir = Except.ok ())
    (hinit : fs.opens options.dbg_dir (fmt02 0 ++ "_" ++ "initial" ++ ".txt") = true)
    (hopen : ∀ (k : Nat) (p : Pass ω), passes[k]? = some p →
      fs.opens options.dbg_dir (fmt02 (k + 1) ++ "_" ++ p.name ++ ".txt") = true)
    (h : irAfter fns passes block = some irs) :
    Optimize fns fs block { passes := passes } options =
      (Except.ok (), lastIR block irs,
        dumpsSpec options.dbg_dir block (passes.map (fun p => p.name)) irs) := by
  have h0 : DumpProgram fs block options "initial" 0 [] =
      Except.ok [{ dbg_dir := options.dbg_dir,
                   filename := fmt02 0 ++ "_" ++ "initial" ++ ".txt", program := block }] := by
    simp only [DumpProgram, hdump, if_true, hdir 0, hinit, List.nil_append]
  have hnames : ∀ (k : Nat) (name : String),
      (passes.map (fun p => p.name))[k]? = some name →
      fs.opens options.dbg_dir (fmt02 (1 + k) ++ "_" ++ name ++ ".txt") = true := by
    intro k name hk
    simp only [List.getElem?_map, Option.map_eq_some'] at hk
    obtain ⟨p, hp, rfl⟩ := hk
    have e : 1 + k = k + 1 := by omega
    rw [e]
    exact hopen k p hp
  have hd := dumpEach_spec fs options hdump hdir (passes.map (fun p => p.name)) irs 1
    [{ dbg_dir := options.dbg_dir,
       filename := fmt02 0 ++ "_" ++ "initial" ++ ".txt", program := block }] hnames
  have := Optimize.loop_append fns fs options [] passes block 1 _ irs _ h hd
  simp only [List.append_nil] at this
  unfold Optimize
  rw [h0]
  simp only [this, Optimize.loop, dumpsSpec, List.singleton_append]

set_option maxRecDepth 100000 in

/-- Up to 99 the conversion `%02zu` gives exactly two digits, which denote the number, and
the result for a number sorts before the result for the next one (up to 98). -/
theorem fmt02_small : ∀ N, N < 100 → ((fmt02 N).length = 2 ∧ digitsVal (fmt02 N).data = N ∧
    keyLt (fmt02 N) (fmt02 (N + 1)) = (decide (N + 1 < 100))) := by
  decide

theorem irAfter_idFns_replicate (p : Pass Unit) (hp : p.pass_case = PassCase.kPruneRefs)
    (block : Block) :
    ∀ n, irAfter idFns (List.replicate n p) block = some (List.replicate n block) := by
  intro n
  induction n with
  | zero => rfl
  | succ n ih =>
    have hd : Optimize.dispatch idFns p block = (Except.ok (), block) := by
      simp [Optimize.dispatch, hp, idFns]
    simp only [List.replicate_succ, irAfter, hd, ih, Option.map_some']

/-- C25 fails as stated, in three ways.  A configuration of a hundred passes (here passes
that leave the IR as it is) is run with `dump_passes`, every file opening; the dump after
the hundredth pass is named `100_p.txt`: its counter is not printed as exactly two digits,
and its prefix does not sort after the prefix `99` of the dump before it.  With a directory
`dbg_dir` that cannot be created, `DumpProgram` throws and no dump is written, neither the
initial one nor one after the pass.  And the stream is not checked: after a pass named
`a/b` the path is `dbg/01_a/b.txt`, which does not open as `dbg` has no directory `01_a`,
and the only dump written is the initial one. -/
theorem Optimize_dumps_counterexample :
    (∃ d : Dump,
      (Optimize idFns okFs rootBlock hundredPasses
          { dump_passes := true, dbg_dir := "dbg" }).2.2[100]? = some d ∧
      d.filename = fmt02 100 ++ "_" ++ "p" ++ ".txt" ∧ d.filename = "100_p.txt" ∧
      ¬ ((fmt02 100).length = 2 ∧ keyLt (fmt02 99) (fmt02 100) = true)) ∧
    (noDirFs.create_directory 0 "/nonexistent/x/y"
        = Except.error "boost::filesystem::create_directory: No such file or directory" ∧
      Optimize idFns noDirFs rootBlock { passes := [prunePass] }
          { dump_passes := true, dbg_dir := "/nonexistent/x/y" }
        = (Except.error "boost::filesystem::create_directory: No such file or directory",
            rootBlock, [])) ∧
    (flatFs.opens "dbg" (fmt02 1 ++ "_" ++ slashPass.name ++ ".txt") = false ∧
      ∃ files, Optimize idFns flatFs rootBlock { passes := [slashPass] }
          { dump_passes := true, dbg_dir := "dbg" } = (Except.ok (), rootBlock, files) ∧
        files.map (fun d => d.filename) = ["00_initial.txt"]) := by
  refine ⟨?_, ⟨rfl, rfl⟩, ⟨by decide, _, rfl, by decide⟩⟩
  have hfiles := Optimize_files idFns okFs rootBlock { dump_passes := true, dbg_dir := "dbg" }
    hundredPasses.passes (List.replicate 100 rootBlock) rfl (fun _ => rfl) rfl
    (fun _ _ _ => rfl) (irAfter_idFns_replicate _ rfl rootBlock 100)
  have hcfg : ({ passes := hundredPasses.passes } : Config Unit) = hundredPasses := rfl
  rw [hcfg] at hfiles
  rw [hfiles]
  refine ⟨{ dbg_dir := "dbg", filename := "100_p.txt", program := rootBlock }, ?_, ?_, rfl, ?_⟩
  · rfl
  · decide
  · decide

/-- C25, amended: with `dump_passes` set, a run of `Optimize` in which `create_directory`
returns normally on `dbg_dir` each time, the stream of every dump opens and the passes all
return normally writes one dump named `<NN>_<name>.txt` for the initial IR (counter 0, name
`initial`) and one after each pass (the `k`-th pass, counting from 1, gets counter `k` and
the IR which that pass left), and nothing else; `NN` is the counter converted by `%02zu`:
for every counter up to 99 it is exactly two decimal digits, which denote the counter, and
for every `N` from 1 to 99 the prefix of the `N`-th dump sorts, as a string, strictly after
the prefix of the `(N-1)`-th dump. -/
theorem Optimize_dumps {ω : Type} (fns : PassFns ω) (fs : FileSys) (block : Block)
    (options : OptimizeOptions) (passes : List (Pass ω)) (irs : List Block)
    (hdump : options.dump_passes = true)
    (hdir : ∀ n, fs.create_directory n options.dbg_dir = Except.ok ())
    (hinit : fs.opens options.dbg_dir (fmt02 0 ++ "_" ++ "initial" ++ ".txt") = true)
    (hopen : ∀ (k : Nat) (p : Pass ω), passes[k]? = some p →
      fs.opens options.dbg_dir (fmt02 (k + 1) ++ "_" ++ p.name ++ ".txt") = true)
    (h : SpecAppliedInOrder fns passes block irs) :
    ∃ files : List Dump,
      Optimize fns fs block { passes := passes } options
        = (Except.ok (), lastIR block irs, files) ∧
      files.length = passes.length + 1 ∧
      (∃ d, files[0]? = some d ∧ d.dbg_dir = options.dbg_dir ∧
        d.filename = fmt02 0 ++ "_" ++ "initial" ++ ".txt" ∧ d.program = block) ∧
      (∀ (k : Nat) (p : Pass ω), passes[k]? = some p →
        ∃ d ir, files[k + 1]? = some d ∧ irs[k]? = some ir ∧ d.dbg_dir = options.dbg_dir ∧
          d.filename = fmt02 (k + 1) ++ "_" ++ p.name ++ ".txt" ∧ d.program = ir) ∧
      (∀ N, N ≤ 99 → (fmt02 N).length = 2 ∧ digitsVal (fmt02 N).data = N ∧
        (1 ≤ N → keyLt (fmt02 (N - 1)) (fmt02 N) = true)) := by
  have hlen := h.1
  refine ⟨_, Optimize_files fns fs block options passes irs hdump hdir hinit hopen
    (irAfter_of_spec fns passes block irs h), ?_, ?_, ?_, ?_⟩
  · simp [dumpsSpec, hlen]
  · exact ⟨{ dbg_dir := options.dbg_dir, filename := fmt02 0 ++ "_" ++ "initial" ++ ".txt",
             program := block }, by simp [dumpsSpec], rfl, rfl, rfl⟩
  · intro k p hk
    obtain ⟨hkl, _⟩ := List.getElem?_eq_some.1 hk
    have hir : irs[k]? = some irs[k] := List.getElem?_eq_getElem (by omega)
    have hzip : (List.zip (passes.map (fun p => p.name)) irs)[k]? = some (p.name, irs[k]) := by
      rw [List.getElem?_zip_eq_some]
      exact ⟨by simp [hk], hir⟩
    have e : 1 + k = k + 1 := by omega
    refine ⟨{ dbg_dir := options.dbg_dir, filename := fmt02 (k + 1) ++ "_" ++ p.name ++ ".txt",
              program := irs[k] }, irs[k], ?_, hir, rfl, rfl, rfl⟩
    simp only [dumpsSpec, List.getElem?_cons_succ, List.getElem?_map, List.getElem?_enumFrom,
      hzip, Option.map_some', e]
  · intro N hN
    obtain ⟨h1, h2, _⟩ := fmt02_small N (by omega)
    refine ⟨h1, h2, ?_⟩
    intro hpos
    obtain ⟨_, _, h3⟩ := fmt02_small (N - 1) (by omega)
    have e : N - 1 + 1 = N := by omega
    rw [e] at h3
    rw [h3]
    simp only [decide_eq_true_eq]
    omega

theorem opens_prunePass : ∀ (k : Nat) (p : Pass Unit), [prunePass][k]? = some p →
    flatFs.opens "dbg" (fmt02 (k + 1) ++ "_" ++ p.name ++ ".txt") = true := by
  intro k p hk
  cases k with
  | zero =>
    simp only [List.getElem?_cons_zero, Option.some.injEq] at hk
    subst hk
    decide
  | succ k => simp at hk

/-- The amended C25 with pass functions that leave the IR as it is, in a directory without
subdirectories: the two dumps of a run over one pass. -/
theorem Optimize_dumps_witness :
    ({ dump_passes := true, dbg_dir := "dbg" } : OptimizeOptions).dump_passes = true ∧
    (∀ n, flatFs.create_directory n "dbg" = Except.ok ()) ∧
    flatFs.opens "dbg" (fmt02 0 ++ "_" ++ "initial" ++ ".txt") = true ∧
    (∀ (k : Nat) (p : Pass Unit), [prunePass][k]? = some p →
      flatFs.opens "dbg" (fmt02 (k + 1) ++ "_" ++ p.name ++ ".txt") = true) ∧
    SpecAppliedInOrder idFns [prunePass] rootBlock [rootBlock] ∧
    ∃ files : List Dump,
      Optimize idFns flatFs rootBlock { passes := [prunePass] }
          { dump_passes := true, dbg_dir := "dbg" }
        = (Except.ok (), lastIR rootBlock [rootBlock], files) ∧
      files.length = [prunePass].length + 1 ∧
      (∃ d, files[0]? = some d ∧ d.dbg_dir = "dbg" ∧
        d.filename = fmt02 0 ++ "_" ++ "initial" ++ ".txt" ∧ d.program = rootBlock) ∧
      (∀ (k : Nat) (p : Pass Unit), [prunePass][k]? = some p →
        ∃ d ir, files[k + 1]? = some d ∧ [rootBlock][k]? = some ir ∧ d.dbg_dir = "dbg" ∧
          d.filename = fmt02 (k + 1) ++ "_" ++ p.name ++ ".txt" ∧ d.program = ir) ∧
      (∀ N, N ≤ 99 → (fmt02 N).length = 2 ∧ digitsVal (fmt02 N).data = N ∧
        (1 ≤ N → keyLt (fmt02 (N - 1)) (fmt02 N) = true)) :=
  ⟨rfl, fun _ => rfl, by decide, opens_prunePass, spec_of_irAfter idFns _ _ _ rfl,
    Optimize_dumps idFns flatFs rootBlock { dump_passes := true, dbg_dir := "dbg" } [prunePass]
      [rootBlock] rfl (fun _ => rfl) (by decide) opens_prunePass
      (spec_of_irAfter idFns _ _ _ rfl)⟩

/-! ## UniqifyAffine -/

theorem Affine.coeff_cons (k0 : String) (c0 : Int) (rest : List (String × Int)) (k : String) :
    Affine.coeff ⟨(k0, c0) :: rest⟩ k = if k0 = k then c0 else Affine.coeff ⟨rest⟩ k := by
  by_cases h : k0 = k
  · simp [Affine.coeff, List.find?, h]
  · simp [Affine.coeff, List.find?, h]

/-- A name below all the keys of a map has coefficient 0. -/
theorem Affine.coeff_of_lt (k : String) (l : List (String × Int))
    (h : ∀ t ∈ l, keyLt k t.1 = true) : Affine.coeff ⟨l⟩ k = 0 := by
  induction l with
  | nil => rfl
  | cons t l ih =>
    obtain ⟨k0, c0⟩ := t
    have hk : keyLt k k0 = true := h (k0, c0) (List.mem_cons_self _ _)
    have hne : k0 ≠ k := by
      rintro rfl
      rw [keyLt_irrefl] at hk
      exact absurd hk (by decide)
    rw [Affine.coeff_cons, if_neg hne]
    exact ih (fun t ht => h t (List.mem_cons_of_mem _ ht))

/-- `map_[k] += c` adds `c` to the coefficient of `k` and leaves the others. -/
theorem Affine.coeff_addTerm (k : String) (c : Int) (l : List (String × Int))
    (hl : l.Pairwise (fun s t => keyLt s.1 t.1 = true)) (k' : String) :
    Affine.coeff ⟨Affine.addTerm k c l⟩ k'
      = Affine.coeff ⟨l⟩ k' + (if k' = k then c else 0) := by
  induction l with
  | nil =>
    by_cases hc : c = 0
    · simp [Affine.addTerm, hc, Affine.coeff]
    · by_cases hk : k' = k
      · simp [Affine.addTerm, hc, Affine.coeff, List.find?, hk]
      · have hk' : ¬ k = k' := fun e => hk e.symm
        simp [Affine.addTerm, hc, Affine.coeff, List.find?, hk, hk']
  | cons s l ih =>
    obtain ⟨k0, c0⟩ := s
    obtain ⟨hhead, htail⟩ := List.pairwise_cons.1 hl
    have hrest0 : Affine.coeff ⟨l⟩ k0 = 0 := Affine.coeff_of_lt k0 l hhead
    by_cases hk : k = k0
    · subst hk
      by_cases hz : c0 + c = 0
      · simp only [Affine.addTerm, hz, if_true]
        rw [Affine.coeff_cons]
        by_cases hk' : k = k'
        · subst hk'
          rw [if_pos rfl, if_pos rfl, hrest0, hz]
        · have hk'' : ¬ k' = k := fun e => hk' e.symm
          rw [if_neg hk', if_neg hk'', Int.add_zero]
      · simp only [Affine.addTerm, hz, if_true, if_false]
        rw [Affine.coeff_cons, Affine.coeff_cons]
        by_cases hk' : k = k'
        · subst hk'
          rw [if_pos rfl, if_pos rfl, if_pos rfl]
        · have hk'' : ¬ k' = k := fun e => hk' e.symm
          rw [if_neg hk', if_neg hk', if_neg hk'', Int.add_zero]
    · by_cases hlt : keyLt k k0 = true
      · have hl0 : Affine.coeff ⟨(k0, c0) :: l⟩ k = 0 := by
          apply Affine.coeff_of_lt
          intro t ht
          rcases List.mem_cons.1 ht with ht | ht
          · rw [ht]; exact hlt
          · exact keyLt_trans k k0 t.1 hlt (hhead t ht)
        by_cases hc : c = 0
        · simp only [Affine.addTerm, hk, hlt, hc, if_true, if_false]
          simp
        · simp only [Affine.addTerm, hk, hlt, hc, if_true, if_false]
          rw [Affine.coeff_cons]
          by_cases hk' : k = k'
          · subst hk'
            rw [if_pos rfl, if_pos rfl, hl0, Int.zero_add]
          · have hk'' : ¬ k' = k := fun e => hk' e.symm
            rw [if_neg hk', if_neg hk'', Int.add_zero]
      · simp only [Affine.addTerm, hk, hlt, if_false, Bool.false_eq_true]
        rw [Affine.coeff_cons, Affine.coeff_cons]
        by_cases hk' : k0 = k'
        · subst hk'
          have hk'' : ¬ k0 = k := fun e => hk e.symm
          rw [if_pos rfl, if_pos rfl, if_neg hk'', Int.add_zero]
        · rw [if_neg hk', if_neg hk']
          exact ih htail

/-- `map_[k] += c` adds to the value of the polynomial `c` times the value of `k`. -/
theorem Affine.eval_addTerm (k : String) (c : Int) (l : List (String × Int))
    (env : String → Option Int) :
    Affine.eval ⟨Affine.addTerm k c l⟩ env
      = Affine.eval ⟨l⟩ env + (if k = "" then c else c * (env k).getD 0) := by
  induction l with
  | nil =>
    by_cases hc : c = 0
    · simp [Affine.addTerm, hc, Affine.eval]
    · simp [Affine.addTerm, hc, Affine.eval]
  | cons s l ih =>
    obtain ⟨k0, c0⟩ := s
    by_cases hk : k = k0
    · subst hk
      by_cases hz : c0 + c = 0
      · have hc : c = -c0 := by omega
        simp only [Affine.addTerm, hz, if_true, Affine.eval, List.map_cons, List.sum_cons]
        by_cases he : k = ""
        · simp only [he, if_true]
          omega
        · simp only [he, if_false, hc]
          ring
      · simp only [Affine.addTerm, hz, if_true, if_false, Affine.eval, List.map_cons,
          List.sum_cons]
        by_cases he : k = ""
        · simp only [he, if_true]
          omega
        · simp only [he, if_false]
          ring
    · by_cases hlt : keyLt k k0 = true
      · by_cases hc : c = 0
        · simp [Affine.addTerm, hk, hlt, hc, Affine.eval]
        · simp only [Affine.addTerm, hk, hlt, hc, if_true, if_false, Affine.eval, List.map_cons,
            List.sum_cons]
          omega
      · simp only [Affine.addTerm, hk, hlt, if_false, Bool.false_eq_true, Affine.eval,
          List.map_cons, List.sum_cons]
        have := ih
        simp only [Affine.eval] at this
        rw [this]
        omega

theorem Affine.add_term (ret : Affine) (k : String) (c : Int) :
    ret + Affine.term k c = if c = 0 then ret else ⟨Affine.addTerm k c ret.map_⟩ := by
  show Affine.mk ((Affine.term k c).map_.foldl (fun acc t => Affine.addTerm t.1 t.2 acc) ret.map_)
    = _
  by_cases hc : c = 0
  · simp [Affine.term, Affine.addTerm, hc]
  · simp [Affine.term, Affine.addTerm, hc]

theorem string_append_ne_empty (p v : String) (hv : v ≠ "") : p ++ v ≠ "" := by
  intro h
  have hdata := congrArg String.data h
  simp only [String.data_append] at hdata
  have hnil : p.data ++ v.data = [] := hdata
  exact hv (String.ext (List.append_eq_nil.1 hnil).2)

/-- One turn of the loop of `UniqifyAffine` adds the coefficient of the term to the
coefficient of the renamed name. -/
theorem UniqifyAffine.step_coeff (pfx : String) (ret : Affine) (hret : ret.WF)
    (t : String × Int) (k' : String) :
    (if t.1 = "" then ret.addConst t.2 else ret + Affine.term (pfx ++ t.1) t.2).coeff k'
      = ret.coeff k' + (if k' = (if t.1 = "" then "" else pfx ++ t.1) then t.2 else 0) := by
  by_cases ht : t.1 = ""
  · rw [if_pos ht, if_pos ht]
    exact Affine.coeff_addTerm "" t.2 ret.map_ hret.1 k'
  · rw [if_neg ht, if_neg ht, Affine.add_term]
    by_cases hc : t.2 = 0
    · rw [if_pos hc, hc]
      simp
    · rw [if_neg hc]
      exact Affine.coeff_addTerm (pfx ++ t.1) t.2 ret.map_ hret.1 k'

/-- One turn of the loop of `UniqifyAffine` adds the value of the renamed term. -/
theorem UniqifyAffine.step_eval (pfx : String) (ret : Affine) (t : String × Int)
    (env : String → Option Int) :
    (if t.1 = "" then ret.addConst t.2 else ret + Affine.term (pfx ++ t.1) t.2).eval env
      = ret.eval env + (if t.1 = "" then t.2 else t.2 * (env (pfx ++ t.1)).getD 0) := by
  by_cases ht : t.1 = ""
  · rw [if_pos ht, if_pos ht]
    have := Affine.eval_addTerm "" t.2 ret.map_ env
    simpa using this
  · rw [if_neg ht, if_neg ht, Affine.add_term]
    by_cases hc : t.2 = 0
    · rw [if_pos hc, hc]
      simp
    · rw [if_neg hc]
      have := Affine.eval_addTerm (pfx ++ t.1) t.2 ret.map_ env
      rw [if_neg (string_append_ne_empty pfx t.1 ht)] at this
      exact this

theorem UniqifyAffine.fold_coeff (pfx : String) (k' : String) :
    ∀ (l : List (String × Int)) (ret : Affine), ret.WF →
      (l.foldl (fun ret kvp =>
        if kvp.1 = "" then ret.addConst kvp.2
        else ret + Affine.term (pfx ++ kvp.1) kvp.2) ret).coeff k'
      = ret.coeff k'
        + (l.map (fun t => if k' = (if t.1 = "" then "" else pfx ++ t.1) then t.2 else 0)).sum := by
  intro l
  induction l with
  | nil => intro ret _; simp
  | cons t l ih =>
    intro ret hret
    have hstep : (if t.1 = "" then ret.addConst t.2
        else ret + Affine.term (pfx ++ t.1) t.2).WF := by
      by_cases ht : t.1 = ""
      · rw [if_pos ht]
        exact Affine.addConst_WF ret t.2 hret
      · rw [if_neg ht]
        exact Affine.add_WF ret _ hret
    rw [List.foldl_cons, ih _ hstep, UniqifyAffine.step_coeff pfx ret hret t k']
    simp only [List.map_cons, List.sum_cons]
    omega

theorem UniqifyAffine.fold_eval (pfx : String) (env : String → Option Int) :
    ∀ (l : List (String × Int)) (ret : Affine),
      (l.foldl (fun ret kvp =>
        if kvp.1 = "" then ret.addConst kvp.2
        else ret + Affine.term (pfx ++ kvp.1) kvp.2) ret).eval env
      = ret.eval env
        + (l.map (fun t => if t.1 = "" then t.2 else t.2 * (env (pfx ++ t.1)).getD 0)).sum := by
  intro l
  induction l with
  | nil => intro ret; simp
  | cons t l ih =>
    intro ret
    rw [List.foldl_cons, ih _, UniqifyAffine.step_eval pfx ret t env]
    simp only [List.map_cons, List.sum_cons]
    omega

/-- In a map with increasing keys, the coefficient of a name is the sum of the coefficients
of the terms with that name. -/
theorem Affine.sum_eq_coeff (v : String) (l : List (String × Int))
    (hl : l.Pairwise (fun s t => keyLt s.1 t.1 = true)) :
    (l.map (fun t => if t.1 = v then t.2 else 0)).sum = Affine.coeff ⟨l⟩ v := by
  induction l with
  | nil => rfl
  | cons s l ih =>
    obtain ⟨k0, c0⟩ := s
    obtain ⟨hhead, htail⟩ := List.pairwise_cons.1 hl
    rw [List.map_cons, List.sum_cons, Affine.coeff_cons, ih htail]
    by_cases hk : k0 = v
    · subst hk
      simp only [if_true]
      rw [Affine.coeff_of_lt k0 l hhead, Int.add_zero]
    · simp only [hk, if_false, Int.zero_add]

theorem sum_ne_zero_exists (l : List (String × Int)) (P : String × Int → Prop)
    [DecidablePred P] (h : (l.map (fun t => if P t then t.2 else 0)).sum ≠ 0) :
    ∃ t ∈ l, P t := by
  induction l with
  | nil => simp at h
  | cons s l ih =>
    by_cases hs : P s
    · exact ⟨s, List.mem_cons_self _ _, hs⟩
    · simp only [List.map_cons, List.sum_cons, hs, if_false, Int.zero_add] at h
      obtain ⟨t, ht, hp⟩ := ih h
      exact ⟨t, List.mem_cons_of_mem _ ht, hp⟩

/-- C30: for every Affine `a` (in canonical form) and prefix `p`, `UniqifyAffine(a, p)` has
the same constant term as `a`; for every non-empty name `v` it has, as coefficient of
`p + v`, the coefficient of `v` in `a`; it has no other variables: a non-empty name with a
coefficient in it is `p + v` for a variable `v` of `a`.  Hence, for every environment
`env`, evaluating `UniqifyAffine(a, p)` under an environment that maps `p + v` to `env(v)`
gives the same integer as evaluating `a` under `env`. -/
theorem UniqifyAffine_spec (a : Affine) (pfx : String) (ha : a.WF) :
    (UniqifyAffine a pfx).constant = a.constant ∧
    (∀ v, v ≠ "" → (UniqifyAffine a pfx).coeff (pfx ++ v) = a.coeff v) ∧
    (∀ k, k ≠ "" → (UniqifyAffine a pfx).coeff k ≠ 0 →
      ∃ v, v ≠ "" ∧ k = pfx ++ v ∧ a.coeff v ≠ 0) ∧
    (∀ env env' : String → Option Int, (∀ v, v ≠ "" → env' (pfx ++ v) = env v) →
      (UniqifyAffine a pfx).eval env' = a.eval env) := by
  have hcoeff : ∀ k', (UniqifyAffine a pfx).coeff k'
      = (a.map_.map
          (fun t => if k' = (if t.1 = "" then "" else pfx ++ t.1) then t.2 else 0)).sum := by
    intro k'
    have := UniqifyAffine.fold_coeff pfx k' a.map_ {} Affine.WF_zero
    have h0 : Affine.coeff {} k' = 0 := rfl
    rw [h0, Int.zero_add] at this
    exact this
  have hvar : ∀ v, v ≠ "" → (UniqifyAffine a pfx).coeff (pfx ++ v) = a.coeff v := by
    intro v hv
    rw [hcoeff, ← Affine.sum_eq_coeff v a.map_ ha.1]
    congr 1
    apply List.map_congr_left
    intro t _
    by_cases ht : t.1 = ""
    · have h1 : ¬ pfx ++ v = "" := string_append_ne_empty pfx v hv
      have h2 : ¬ t.1 = v := fun e => hv (e ▸ ht)
      simp only [ht, if_true, h1, if_false]
      rw [ht] at h2
      rw [if_neg h2]
    · by_cases hv' : t.1 = v
      · subst hv'
        simp only [ht, if_false, if_true]
      · have h1 : ¬ pfx ++ v = pfx ++ t.1 :=
          fun e => hv' (string_append_cancel_left pfx v t.1 e).symm
        simp only [ht, if_false, hv', h1]
  refine ⟨?_, hvar, ?_, ?_⟩
  · show (UniqifyAffine a pfx).coeff "" = a.coeff ""
    rw [hcoeff, ← Affine.sum_eq_coeff "" a.map_ ha.1]
    congr 1
    apply List.map_congr_left
    intro t _
    by_cases ht : t.1 = ""
    · simp only [ht, if_true]
    · have h1 : ¬ "" = pfx ++ t.1 := fun e => string_append_ne_empty pfx t.1 ht e.symm
      simp only [ht, if_false, h1]
  · intro k hk hne
    rw [hcoeff] at hne
    obtain ⟨t, _, ht⟩ := sum_ne_zero_exists a.map_
      (fun t => k = (if t.1 = "" then "" else pfx ++ t.1)) hne
    by_cases ht0 : t.1 = ""
    · rw [if_pos ht0] at ht
      exact absurd ht hk
    · rw [if_neg ht0] at ht
      refine ⟨t.1, ht0, ht, ?_⟩
      rw [← hvar t.1 ht0, ← ht, hcoeff]
      exact hne
  · intro env env' henv
    have := UniqifyAffine.fold_eval pfx env' a.map_ {}
    have h0 : Affine.eval {} env' = 0 := rfl
    rw [h0, Int.zero_add] at this
    unfold UniqifyAffine
    rw [this]
    show _ = (a.map_.map (fun t => if t.1 = "" then t.2 else t.2 * (env t.1).getD 0)).sum
    congr 1
    apply List.map_congr_left
    intro t _
    by_cases ht : t.1 = ""
    · simp only [ht, if_true]
    · simp only [ht, if_false, henv t.1 ht]

/-- C30 on `5 + 2*i - 3*j` with the prefix `d1:`: the coefficients move to `d1:i` and
`d1:j`, and the value under `i = 4`, `j = 1` is kept. -/
theorem UniqifyAffine_spec_witness :
    affineIJ.WF ∧
    (UniqifyAffine affineIJ "d1:").constant = affineIJ.constant ∧
    (∀ v, v ≠ "" → (UniqifyAffine affineIJ "d1:").coeff ("d1:" ++ v) = affineIJ.coeff v) ∧
    (∀ k, k ≠ "" → (UniqifyAffine affineIJ "d1:").coeff k ≠ 0 →
      ∃ v, v ≠ "" ∧ k = "d1:" ++ v ∧ affineIJ.coeff v ≠ 0) ∧
    (∀ env env' : String → Option Int, (∀ v, v ≠ "" → env' ("d1:" ++ v) = env v) →
      (UniqifyAffine affineIJ "d1:").eval env' = affineIJ.eval env) :=
  ⟨by decide, UniqifyAffine_spec affineIJ "d1:" (by decide)⟩

/-! ## Schedule pass -/

/-- The test `Statement.same` is sound. -/
theorem Statement.eq_of_same : ∀ a b : Statement, Statement.same a b = true → a = b := by
  apply Statement.same.induct (fun a b => Statement.same a b = true → a = b)
    (fun as bs => Statement.sameList as bs = true → as = bs)
  · intro tags deps from_ into tags' deps' from_' into' h
    simp only [Statement.same, Bool.and_eq_true, decide_eq_true_eq] at h
    obtain ⟨⟨⟨rfl, rfl⟩, rfl⟩, rfl⟩ := h
    rfl
  · intro tags deps from_ into tags' deps' from_' into' h
    simp only [Statement.same, Bool.and_eq_true, decide_eq_true_eq] at h
    obtain ⟨⟨⟨rfl, rfl⟩, rfl⟩, rfl⟩ := h
    rfl
  · intro tags deps name type iconst tags' deps' name' type' iconst' h
    simp only [Statement.same, Bool.and_eq_true, decide_eq_true_eq] at h
    obtain ⟨⟨⟨⟨rfl, rfl⟩, rfl⟩, rfl⟩, rfl⟩ := h
    rfl
  · intro tags deps name params inputs outputs tags' deps' name' params' inputs' outputs' h
    simp only [Statement.same, Bool.and_eq_true, decide_eq_true_eq] at h
    obtain ⟨⟨⟨⟨⟨rfl, rfl⟩, rfl⟩, rfl⟩, rfl⟩, rfl⟩ := h
    rfl
  · intro tags deps name type inputs outputs tags' deps' name' type' inputs' outputs' h
    simp only [Statement.same, Bool.and_eq_true, decide_eq_true_eq] at h
    obtain ⟨⟨⟨⟨⟨rfl, rfl⟩, rfl⟩, rfl⟩, rfl⟩, rfl⟩ := h
    rfl
  · intro tags deps name comments idxs constraints refs stmts location
      tags' deps' name' comments' idxs' constraints' refs' stmts' location' ih h
    simp only [Statement.same, Bool.and_eq_true, decide_eq_true_eq] at h
    obtain ⟨⟨⟨⟨⟨⟨⟨⟨rfl, rfl⟩, rfl⟩, rfl⟩, rfl⟩, rfl⟩, rfl⟩, rfl⟩, hs⟩ := h
    rw [ih hs]
  · intro t x h1 h2 h3 h4 h5 h6 h
    cases t with
    | Load tags deps from_ into =>
      cases x <;> first | exact (h1 _ _ _ _ _ _ _ _ rfl rfl).elim | simp [Statement.same] at h
    | Store tags deps from_ into =>
      cases x <;> first | exact (h2 _ _ _ _ _ _ _ _ rfl rfl).elim | simp [Statement.same] at h
    | Constant tags deps name type iconst =>
      cases x <;> first | exact (h3 _ _ _ _ _ _ _ _ _ _ rfl rfl).elim | simp [Statement.same] at h
    | Special tags deps name params inputs outputs =>
      cases x <;> first
        | exact (h4 _ _ _ _ _ _ _ _ _ _ _ _ rfl rfl).elim
        | simp [Statement.same] at h
    | Intrinsic tags deps name type inputs outputs =>
      cases x <;> first
        | exact (h5 _ _ _ _ _ _ _ _ _ _ _ _ rfl rfl).elim
        | simp [Statement.same] at h
    | Block b =>
      obtain ⟨tags, deps, name, comments, idxs, constraints, refs, stmts, location⟩ := b
      cases x with
      | Block b' =>
        obtain ⟨tags', deps', name', comments', idxs', constraints', refs', stmts', location'⟩ := b'
        exact (h6 _ _ _ _ _ _ _ _ _ _ _ _ _ _ _ _ _ _ rfl rfl).elim
      | Load _ _ _ _ => simp [Statement.same] at h
      | Store _ _ _ _ => simp [Statement.same] at h
      | Constant _ _ _ _ _ => simp [Statement.same] at h
      | Special _ _ _ _ _ _ => simp [Statement.same] at h
      | Intrinsic _ _ _ _ _ _ => simp [Statement.same] at h
  · intro _
    rfl
  · intro a as b bs iha ihas h
    simp only [Statement.sameList, Bool.and_eq_true] at h
    rw [iha h.1, ihas h.2]
  · intro t x h1 h2 h
    cases t with
    | nil =>
      cases x with
      | nil => exact (h1 rfl rfl).elim
      | cons b bs => simp [Statement.sameList] at h
    | cons a as =>
      cases x with
      | nil => simp [Statement.sameList] at h
      | cons b bs => exact (h2 _ _ _ _ rfl rfl).elim

/-- A result that passes the test `returnsBlock` is the normal return of the block. -/
theorem eq_of_returnsBlock (r : Except String Block) (b : Block)
    (h : returnsBlock r b = true) : r = Except.ok b := by
  cases r with
  | error e => simp [returnsBlock] at h
  | ok b' =>
    simp only [returnsBlock] at h
    have := Statement.eq_of_same _ _ h
    simp only [Statement.Block.injEq] at this
    rw [this]

/-- The model gives what `ScheduleTest.EmptyMain` expects: the IR unchanged. -/
theorem SchedulePass_EmptyMain :
    SchedulePass (fixProgram fixMain) scheduleOptions = Except.ok (fixProgram fixMain) :=
  eq_of_returnsBlock _ _ (by decide!)

/-- The model gives what `ScheduleTest.CachesIO` expects. -/
theorem SchedulePass_Caches :
    SchedulePass (fixProgram fixMainCaches) scheduleOptions
      = Except.ok (fixProgram fixMainCachesExpected) :=
  eq_of_returnsBlock _ _ (by decide!)

/-- A traversal whose callback changes nothing returns the block it was given. -/
theorem RunOnBlocksRecurse_keep (reqs : Tags) (b : Block) :
    ∀ (map : AliasMap) (s : Unit) (r : Block × Unit),
      RunOnBlocksRecurse keepBlock reqs map b s = Except.ok r → r = (b, s) := by
  refine topBlocks.induct reqs
    (fun b => ∀ (map : AliasMap) (s : Unit) (r : Block × Unit),
      RunOnBlocksRecurse keepBlock reqs map b s = Except.ok r → r = (b, s))
    (fun _ stmts => ∀ (map : AliasMap) (s : Unit) (r : List Statement × Unit),
      RunOnBlocksStmts keepBlock reqs map stmts s = Except.ok r → r = (stmts, s))
    (fun stmt => ∀ (map : AliasMap) (s : Unit) (r : Statement × Unit),
      RunOnBlocksStmt keepBlock reqs map stmt s = Except.ok r → r = (stmt, s))
    ?_ ?_ ?_ ?_ ?_ ?_ ?_ ?_ ?_ ?_ b
  · intro inner ih map s r h
    simp only [RunOnBlocksStmt] at h
    cases hm : AliasMap.inner map inner with
    | error e => rw [hm] at h; simp at h
    | ok inner_map =>
      rw [hm] at h
      simp only at h
      cases hrec : RunOnBlocksRecurse keepBlock reqs inner_map inner s with
      | error e => rw [hrec] at h; simp at h
      | ok r' =>
        rw [hrec] at h
        have hr' := ih inner_map s r' hrec
        simp only [Except.ok.injEq] at h
        subst h
        rw [hr']
  · intro tags deps from_ into map s r h
    simp only [RunOnBlocksStmt, Except.ok.injEq] at h
    exact h.symm
  · intro tags deps from_ into map s r h
    simp only [RunOnBlocksStmt, Except.ok.injEq] at h
    exact h.symm
  · intro tags deps name type iconst map s r h
    simp only [RunOnBlocksStmt, Except.ok.injEq] at h
    exact h.symm
  · intro tags deps name params inputs outputs map s r h
    simp only [RunOnBlocksStmt, Except.ok.injEq] at h
    exact h.symm
  · intro tags deps name type inputs outputs map s r h
    simp only [RunOnBlocksStmt, Except.ok.injEq] at h
    exact h.symm
  · intro tags deps name comments idxs constraints refs stmts location ht map s r h
    simp only [RunOnBlocksRecurse, ht, if_true, keepBlock, Except.ok.injEq] at h
    exact h.symm
  · intro tags deps name comments idxs constraints refs stmts location ht ih map s r h
    simp only [RunOnBlocksRecurse, ht, Bool.false_eq_true, if_false] at h
    cases hst : RunOnBlocksStmts keepBlock reqs map stmts s with
    | error e => rw [hst] at h; simp at h
    | ok r' =>
      rw [hst] at h
      have hr' := ih map s r' hst
      simp only [Except.ok.injEq] at h
      subst h
      rw [hr']
  · intro i map s r h
    simp only [RunOnBlocksStmts, Except.ok.injEq] at h
    exact h.symm
  · intro i stmt rest ih1 ih2 map s r h
    simp only [RunOnBlocksStmts] at h
    cases h1 : RunOnBlocksStmt keepBlock reqs map stmt s with
    | error e => rw [h1] at h; simp at h
    | ok r1 =>
      rw [h1] at h
      have hr1 := ih1 map s r1 h1
      simp only at h
      cases h2 : RunOnBlocksStmts keepBlock reqs map rest r1.2 with
      | error e => rw [h2] at h; simp at h
      | ok r2 =>
        rw [h2] at h
        have hr2 := ih2 map r1.2 r2 h2
        simp only [Except.ok.injEq] at h
        subst h
        rw [hr2, hr1]

/-- A callback that returns unchanged every block at which the traversal stops makes the
traversal behave as with a callback that changes nothing. -/
theorem RunOnBlocksRecurse_idle (func : AliasMap → Block → Unit → Except String (Block × Unit))
    (reqs : Tags) (b : Block) :
    (∀ pb ∈ topBlocks reqs b, ∀ (map : AliasMap) (s : Unit),
      func map pb.2 s = Except.ok (pb.2, s)) →
    ∀ (map : AliasMap) (s : Unit),
      RunOnBlocksRecurse func reqs map b s = RunOnBlocksRecurse keepBlock reqs map b s := by
  refine topBlocks.induct reqs
    (fun b => (∀ pb ∈ topBlocks reqs b, ∀ (map : AliasMap) (s : Unit),
        func map pb.2 s = Except.ok (pb.2, s)) →
      ∀ (map : AliasMap) (s : Unit),
        RunOnBlocksRecurse func reqs map b s = RunOnBlocksRecurse keepBlock reqs map b s)
    (fun i stmts => (∀ pb ∈ topBlocksStmts reqs i stmts, ∀ (map : AliasMap) (s : Unit),
        func map pb.2 s = Except.ok (pb.2, s)) →
      ∀ (map : AliasMap) (s : Unit),
        RunOnBlocksStmts func reqs map stmts s = RunOnBlocksStmts keepBlock reqs map stmts s)
    (fun stmt => (∀ pb ∈ topBlocksStmt reqs stmt, ∀ (map : AliasMap) (s : Unit),
        func map pb.2 s = Except.ok (pb.2, s)) →
      ∀ (map : AliasMap) (s : Unit),
        RunOnBlocksStmt func reqs map stmt s = RunOnBlocksStmt keepBlock reqs map stmt s)
    ?_ ?_ ?_ ?_ ?_ ?_ ?_ ?_ ?_ ?_ b
  · intro inner ih hf map s
    simp only [RunOnBlocksStmt]
    cases hm : AliasMap.inner map inner with
    | error e => rfl
    | ok inner_map =>
      simp only
      rw [ih (by simpa [topBlocksStmt] using hf) inner_map s]
  · intro tags deps from_ into _ map s
    simp only [RunOnBlocksStmt]
  · intro tags deps from_ into _ map s
    simp only [RunOnBlocksStmt]
  · intro tags deps name type iconst _ map s
    simp only [RunOnBlocksStmt]
  · intro tags deps name params inputs outputs _ map s
    simp only [RunOnBlocksStmt]
  · intro tags deps name type inputs outputs _ map s
    simp only [RunOnBlocksStmt]
  · intro tags deps name comments idxs constraints refs stmts location ht hf map s
    simp only [RunOnBlocksRecurse, ht, if_true, keepBlock]
    exact hf ([], ⟨tags, deps, name, comments, idxs, constraints, refs, stmts, location⟩)
      (by simp [topBlocks, ht]) map s
  · intro tags deps name comments idxs constraints refs stmts location ht ih hf map s
    simp only [RunOnBlocksRecurse, ht, Bool.false_eq_true, if_false]
    rw [ih (by simpa [topBlocks, ht] using hf) map s]
  · intro i _ map s
    simp only [RunOnBlocksStmts]
  · intro i stmt rest ih1 ih2 hf map s
    simp only [RunOnBlocksStmts]
    have hf1 : ∀ pb ∈ topBlocksStmt reqs stmt, ∀ (map : AliasMap) (s : Unit),
        func map pb.2 s = Except.ok (pb.2, s) := by
      intro pb hpb
      exact hf (i :: pb.1, pb.2) (by
        simp only [topBlocksStmts, List.mem_append, List.mem_map]
        exact Or.inl ⟨pb, hpb, rfl⟩)
    have hf2 : ∀ pb ∈ topBlocksStmts reqs (i + 1) rest, ∀ (map : AliasMap) (s : Unit),
        func map pb.2 s = Except.ok (pb.2, s) := by
      intro pb hpb
      exact hf pb (by
        simp only [topBlocksStmts, List.mem_append]
        exact Or.inr hpb)
    rw [ih1 hf1 map s]
    cases h1 : RunOnBlocksStmt keepBlock reqs map stmt s with
    | error e => rfl
    | ok r1 =>
      simp only
      rw [ih2 hf2 map r1.2]

theorem schedRefs_nil (mem_loc : Location) (refs : List Refinement) :
    schedRefs [] mem_loc refs = refs := by
  unfold schedRefs
  simp only [List.find?_nil, List.enum]
  suffices h : ∀ k, ((refs.enumFrom k).map (fun jO => [jO.2])).flatten = refs from h 0
  induction refs with
  | nil => intro k; rfl
  | cons r rest ih =>
    intro k
    simp only [List.enumFrom_cons, List.map_cons, List.flatten_cons, List.singleton_append,
      ih (k + 1)]

/-- Modelled behaviour on a block without statements: nothing is scheduled. -/
theorem ScheduleBlock_empty (alias_map : AliasMap) (block : Block)
    (options : SchedulePassOptions) (h : block.stmts = []) :
    ScheduleBlock alias_map block options = Except.ok block := by
  obtain ⟨tags, deps, name, comments, idxs, constraints, refs, stmts, location⟩ := block
  simp only at h
  subst h
  have htw : schedTwins alias_map
      ⟨tags, deps, name, comments, idxs, constraints, refs, [], location⟩ options.mem_loc = [] := by
    simp [schedTwins, stmtsWhere]
  simp only [ScheduleBlock, htw, placementOrder, List.reverse_nil, List.insertionSort,
    placeTwins, schedRefs_nil, List.all_nil, if_true, List.length_nil, schedItems,
    List.filterMap_nil, List.range_zero, List.map_nil, List.append_nil, List.enum_nil]

/-- C26: for every program in which every block matching the schedule `reqs` (a block at
which the traversal stops) has no statements, `SchedulePass` leaves the whole IR unchanged:
whatever it returns is the program it was given, and it returns whenever the traversal
itself does (the alias construction succeeds), so that no refinement is added and no
statement inserted. -/
theorem SchedulePass_empty (root : Block) (options : SchedulePassOptions)
    (hempty : ∀ p b, TopMatch options.reqs root p b → b.stmts = []) :
    (∀ r, SchedulePass root options = Except.ok r → r = root) ∧
    (∀ r, RunOnBlocks keepBlock root options.reqs () = Except.ok r →
      SchedulePass root options = Except.ok root) := by
  have hidle : ∀ map : AliasMap,
      RunOnBlocksRecurse
        (fun map block (_ : Unit) =>
          match ScheduleBlock map block options with
          | Except.error e => Except.error e
          | Except.ok block' => Except.ok (block', ()))
        options.reqs map root ()
      = RunOnBlocksRecurse keepBlock options.reqs map root () := by
    intro map
    apply RunOnBlocksRecurse_idle
    intro pb hpb map' s
    have hst : pb.2.stmts = [] :=
      hempty pb.1 pb.2 ((mem_topBlocks_iff options.reqs pb.1 root pb.2).1 hpb)
    simp only [ScheduleBlock_empty map' pb.2 options hst]
  have hpass : SchedulePass root options =
      (match RunOnBlocks keepBlock root options.reqs () with
        | Except.error e => Except.error e
        | Except.ok (root', _) => Except.ok root') := by
    unfold SchedulePass RunOnBlocks
    cases AliasMap.inner AliasMap.root root with
    | error e => rfl
    | ok root_map =>
      simp only
      rw [hidle root_map]
  have hkeep : ∀ r, RunOnBlocks keepBlock root options.reqs () = Except.ok r → r = (root, ()) := by
    intro r hr
    unfold RunOnBlocks at hr
    cases hm : AliasMap.inner AliasMap.root root with
    | error e => rw [hm] at hr; simp at hr
    | ok root_map =>
      rw [hm] at hr
      exact RunOnBlocksRecurse_keep options.reqs root root_map () r hr
  constructor
  · intro r hr
    rw [hpass] at hr
    cases hk : RunOnBlocks keepBlock root options.reqs () with
    | error e => rw [hk] at hr; simp at hr
    | ok r' =>
      rw [hk] at hr
      have := hkeep r' hk
      subst this
      simp only [Except.ok.injEq] at hr
      exact hr.symm
  · intro r hr
    rw [hpass, hr]
    have := hkeep r hr
    subst this
    rfl

/-- C26 on the program of `ScheduleTest.EmptyMain`: the block `main`, the only one tagged
`main`, has no statements. -/
theorem SchedulePass_empty_witness :
    (∀ p b, TopMatch scheduleOptions.reqs (fixProgram fixMain) p b → b.stmts = []) ∧
    (∀ r, SchedulePass (fixProgram fixMain) scheduleOptions = Except.ok r →
      r = fixProgram fixMain) ∧
    (∀ r, RunOnBlocks keepBlock (fixProgram fixMain) scheduleOptions.reqs () = Except.ok r →
      SchedulePass (fixProgram fixMain) scheduleOptions = Except.ok (fixProgram fixMain)) :=
  have hempty : ∀ p b, TopMatch scheduleOptions.reqs (fixProgram fixMain) p b → b.stmts = [] := by
    intro p b h
    have hmem := (mem_topBlocks_iff scheduleOptions.reqs p (fixProgram fixMain) b).2 h
    have htop : topBlocks scheduleOptions.reqs (fixProgram fixMain) = [([0], fixMain)] := by
      rfl
    rw [htop] at hmem
    simp only [List.mem_singleton, Prod.mk.injEq] at hmem
    rw [hmem.2]
    rfl
  ⟨hempty, SchedulePass_empty (fixProgram fixMain) scheduleOptions hempty⟩

/-! ## The schedule: statements, twins, offsets -/

theorem mem_stmtsWhere (p : Statement → Bool) (stmts : List Statement) (i : Nat) :
    i ∈ stmtsWhere p stmts ↔ ∃ s, stmts[i]? = some s ∧ p s = true := by
  unfold stmtsWhere
  simp only [List.mem_filter, List.mem_range]
  constructor
  · rintro ⟨hi, h⟩
    rw [List.getElem?_eq_getElem hi] at h
    exact ⟨stmts[i], List.getElem?_eq_getElem hi, h⟩
  · rintro ⟨s, hs, hp⟩
    obtain ⟨hi, _⟩ := List.getElem?_eq_some.1 hs
    refine ⟨hi, ?_⟩
    rw [hs]
    exact hp

/-- What the twins of a block are: one for each refinement of the block that a child
statement borrows and that the AliasMap locates outside `mem_loc`. -/
theorem mem_schedTwins (alias_map : AliasMap) (block : Block) (mem_loc : Location)
    (t : SchedTwin) :
    t ∈ schedTwins alias_map block mem_loc ↔
      block.refs[t.pos]? = some t.source ∧
      t.users = stmtsWhere (Statement.uses t.source.into) block.stmts ∧ t.users ≠ [] ∧
      (∃ info, alias_map.info_ t.source.into = some info ∧ info.location ≠ mem_loc) ∧
      t.swap_in = (if t.source.dir = RefDir.None then none
        else (stmtsWhere (Statement.reads t.source.into) block.stmts).head?) ∧
      t.swap_out = (if t.source.dir = RefDir.None then none
        else (stmtsWhere (Statement.writes t.source.into) block.stmts).getLast?) := by
  unfold schedTwins
  simp only [List.mem_filterMap]
  constructor
  · rintro ⟨⟨j, O⟩, hmem, h⟩
    have hget : block.refs[j]? = some O := by
      have := List.mem_iff_getElem?.1 hmem
      obtain ⟨k, hk⟩ := this
      rw [List.getElem?_enum] at hk
      simp only [Option.map_eq_some', Prod.mk.injEq] at hk
      obtain ⟨a, ha, rfl, rfl⟩ := hk
      exact ha
    split at h
    · rename_i hc
      simp only [Option.some.injEq] at h
      subst h
      refine ⟨hget, rfl, hc.1, ?_, rfl, rfl⟩
      cases hinfo : alias_map.info_ O.into with
      | none =>
        have := hc.2
        simp only at this
        rw [hinfo] at this
        simp at this
      | some info =>
        have := hc.2
        simp only at this
        rw [hinfo] at this
        exact ⟨info, rfl, by simpa using this⟩
    · simp at h
  · rintro ⟨hget, husers, hne, ⟨info, hinfo, hloc⟩, hin, hout⟩
    refine ⟨(t.pos, t.source), ?_, ?_⟩
    · apply List.mem_iff_getElem?.2
      refine ⟨t.pos, ?_⟩
      rw [List.getElem?_enum, hget]
      rfl
    · simp only
      rw [if_pos]
      · cases t
        simp only at husers hin hout
        simp only [husers, hin, hout]
      · refine ⟨by rw [← husers]; exact hne, ?_⟩
        rw [hinfo]
        simpa using hloc

/-- The twin of a position is unique. -/
theorem schedTwins_pos_inj (alias_map : AliasMap) (block : Block) (mem_loc : Location)
    (t u : SchedTwin) (ht : t ∈ schedTwins alias_map block mem_loc)
    (hu : u ∈ schedTwins alias_map block mem_loc) (h : t.pos = u.pos) : t = u := by
  obtain ⟨hget, husers, _, _, hin, hout⟩ := (mem_schedTwins alias_map block mem_loc t).1 ht
  obtain ⟨hget', husers', _, _, hin', hout'⟩ := (mem_schedTwins alias_map block mem_loc u).1 hu
  rw [h, hget'] at hget
  simp only [Option.some.injEq] at hget
  cases t
  cases u
  simp only at h hget husers husers' hin hin' hout hout'
  subst h hget
  simp only [husers, husers', hin, hin', hout, hout']
theorem SchedTwin.overlaps_comm (t u : SchedTwin) : t.overlaps u = u.overlaps t := by
  unfold SchedTwin.overlaps
  rw [Bool.and_comm]

theorem alignUp_dvd (alignment x : Nat) : alignment ∣ alignUp alignment x :=
  Dvd.intro_left _ rfl

/-- What `firstFit` returns: an offset that is a multiple of the alignment, within the
capacity, at which the twin conflicts with no placed twin. -/
theorem firstFit_ok (options : SchedulePassOptions) (t : SchedTwin)
    (placed : List (SchedTwin × Nat)) (c : Nat) (h : firstFit options t placed = Except.ok c) :
    options.alignment ∣ c ∧ c + t.size ≤ options.mem_KiB * 1024 ∧
      t.conflicts c placed = false := by
  unfold firstFit at h
  by_cases ha : options.alignment = 0
  · rw [if_pos ha] at h
    simp at h
  · rw [if_neg ha] at h
    cases hf : ((0 :: placed.map (fun p => alignUp options.alignment (p.2 + p.1.size))).insertionSort
        (fun a b => a ≤ b)).find? (fun c => !t.conflicts c placed) with
    | none => rw [hf] at h; simp at h
    | some c' =>
      rw [hf] at h
      simp only at h
      by_cases hcap : c' + t.size ≤ options.mem_KiB * 1024
      · rw [if_pos hcap] at h
        simp only [Except.ok.injEq] at h
        subst h
        have hmem := List.mem_of_find?_eq_some hf
        have hpred := List.find?_some hf
        rw [List.mem_insertionSort] at hmem
        refine ⟨?_, hcap, by simpa using hpred⟩
        rcases List.mem_cons.1 hmem with h0 | hm
        · rw [h0]
          exact Nat.dvd_zero _
        · simp only [List.mem_map] at hm
          obtain ⟨p, _, rfl⟩ := hm
          exact alignUp_dvd _ _
      · rw [if_neg hcap] at h
        simp at h

/-- The twins are placed in the order given, and a sound placement stays sound. -/
theorem placeTwins_ok (options : SchedulePassOptions) :
    ∀ (l : List SchedTwin) (placed0 placed : List (SchedTwin × Nat)),
      placeTwins options l placed0 = Except.ok placed → PlacedOk options placed0 →
      PlacedOk options placed ∧ placed.map Prod.fst = placed0.map Prod.fst ++ l := by
  intro l
  induction l with
  | nil =>
    intro placed0 placed h hok
    simp only [placeTwins, Except.ok.injEq] at h
    subst h
    exact ⟨hok, by simp⟩
  | cons t rest ih =>
    intro placed0 placed h hok
    simp only [placeTwins] at h
    cases hf : firstFit options t placed0 with
    | error e => rw [hf] at h; simp at h
    | ok c =>
      rw [hf] at h
      simp only at h
      obtain ⟨hdvd, hcap, hconf⟩ := firstFit_ok options t placed0 c hf
      have hok' : PlacedOk options (placed0 ++ [(t, c)]) := by
        refine ⟨?_, ?_⟩
        · intro p hp
          rcases List.mem_append.1 hp with hp | hp
          · exact hok.1 p hp
          · simp only [List.mem_singleton] at hp
            subst hp
            exact ⟨hdvd, hcap⟩
        · rw [List.pairwise_append]
          refine ⟨hok.2, List.pairwise_singleton _ _, ?_⟩
          intro a ha b hb hov
          simp only [List.mem_singleton] at hb
          subst hb
          simp only [SchedTwin.conflicts, List.any_eq_false, Bool.and_eq_true, decide_eq_true_eq,
            not_and] at hconf
          have := hconf a ha
          rw [SchedTwin.overlaps_comm] at this
          simp only at hov ⊢
          by_cases hlt : c < a.2 + a.1.size
          · have h2 := this ⟨hov, hlt⟩
            omega
          · omega
      obtain ⟨hres, hmap⟩ := ih _ _ h hok'
      refine ⟨hres, ?_⟩
      rw [hmap]
      simp

theorem placedOk_nil (options : SchedulePassOptions) : PlacedOk options [] :=
  ⟨by simp, List.Pairwise.nil⟩

/-- The twins placed are the twins of the block, each once. -/
theorem placed_perm (options : SchedulePassOptions) (twins : List SchedTwin)
    (placed : List (SchedTwin × Nat))
    (h : placeTwins options (placementOrder twins) [] = Except.ok placed) :
    PlacedOk options placed ∧ (placed.map Prod.fst).Perm twins := by
  obtain ⟨hok, hmap⟩ := placeTwins_ok options _ [] placed h (placedOk_nil options)
  refine ⟨hok, ?_⟩
  rw [hmap]
  simp only [List.map_nil, List.nil_append, placementOrder]
  exact (List.perm_insertionSort _ _).trans (List.reverse_perm _)

/-- The statements of the schedule are in non-decreasing order of place. -/
theorem schedItems_sorted (placed : List (SchedTwin × Nat)) (n : Nat) :
    (schedItems placed n).Pairwise (fun a b => a.slot ≤ b.slot) := by
  haveI : IsTotal SchedItem (fun a b => a.slot ≤ b.slot) := ⟨fun a b => Nat.le_total _ _⟩
  haveI : IsTrans SchedItem (fun a b => a.slot ≤ b.slot) := ⟨fun _ _ _ h1 h2 => Nat.le_trans h1 h2⟩
  exact List.sorted_insertionSort (fun a b : SchedItem => a.slot ≤ b.slot) _

/-- The statements of the schedule: the child statements, a swap-in for every placed twin
that has one, a swap-out for every placed twin that has one. -/
theorem mem_schedItems (placed : List (SchedTwin × Nat)) (n : Nat) (x : SchedItem) :
    x ∈ schedItems placed n ↔
      (∃ p ∈ placed, ∃ a, p.1.swap_in = some a ∧ x = SchedItem.swapIn p.1.pos a) ∨
      (∃ i, i < n ∧ x = SchedItem.stmt i) ∨
      (∃ p ∈ placed, ∃ w, p.1.swap_out = some w ∧ x = SchedItem.swapOut p.1.pos w) := by
  unfold schedItems
  rw [List.mem_insertionSort]
  simp only [List.mem_append, List.mem_filterMap, List.mem_map, List.mem_range,
    List.mem_insertionSort, Option.map_eq_some']
  constructor
  · rintro ((⟨p, hp, a, ha, rfl⟩ | ⟨i, hi, rfl⟩) | ⟨p, hp, w, hw, rfl⟩)
    · exact Or.inl ⟨p, hp, a, ha, rfl⟩
    · exact Or.inr (Or.inl ⟨i, hi, rfl⟩)
    · exact Or.inr (Or.inr ⟨p, hp, w, hw, rfl⟩)
  · rintro (⟨p, hp, a, ha, rfl⟩ | ⟨i, hi, rfl⟩ | ⟨p, hp, w, hw, rfl⟩)
    · exact Or.inl (Or.inl ⟨p, hp, a, ha, rfl⟩)
    · exact Or.inl (Or.inr ⟨i, hi, rfl⟩)
    · exact Or.inr ⟨p, hp, w, hw, rfl⟩

/-- Positions in the schedule follow the places: a statement at a lower place comes
first. -/
theorem schedItems_lt_of_slot_lt (placed : List (SchedTwin × Nat)) (n : Nat) (p q : Nat)
    (x y : SchedItem) (hp : (schedItems placed n)[p]? = some x)
    (hq : (schedItems placed n)[q]? = some y) (h : x.slot < y.slot) : p < q := by
  by_contra hge
  have hqp : q ≤ p := by omega
  obtain ⟨hpl, ex⟩ := List.getElem?_eq_some.1 hp
  obtain ⟨hql, ey⟩ := List.getElem?_eq_some.1 hq
  rcases Nat.eq_or_lt_of_le hqp with heq | hlt
  · subst heq
    rw [ex] at ey
    subst ey
    omega
  · have := (List.pairwise_iff_getElem.1 (schedItems_sorted placed n)) q p hql hpl hlt
    rw [ex, ey] at this
    omega

theorem schedItems_slot_le (placed : List (SchedTwin × Nat)) (n : Nat) (p q : Nat)
    (x y : SchedItem) (hp : (schedItems placed n)[p]? = some x)
    (hq : (schedItems placed n)[q]? = some y) (h : p ≤ q) : x.slot ≤ y.slot := by
  by_contra hlt
  have := schedItems_lt_of_slot_lt placed n q p y x hq hp (by omega)
  omega
/-- A placed twin is a twin of the block, and every twin of the block is placed. -/
theorem mem_placed_iff (options : SchedulePassOptions) (twins : List SchedTwin)
    (placed : List (SchedTwin × Nat))
    (h : placeTwins options (placementOrder twins) [] = Except.ok placed) (t : SchedTwin) :
    t ∈ twins ↔ ∃ offset, (t, offset) ∈ placed := by
  obtain ⟨_, hperm⟩ := placed_perm options twins placed h
  rw [← hperm.mem_iff]
  simp only [List.mem_map, Prod.exists, exists_and_right, exists_eq_right]

theorem getElem?_enumFrom_filterMap {α β : Type} (f : Nat → α → Option β) :
    ∀ (l : List α) (k : Nat), (∀ p x, l[p]? = some x → (f (k + p) x).isSome = true) →
      ∀ p, ((l.enumFrom k).filterMap (fun y => f y.1 y.2))[p]? = l[p]?.bind (f (k + p)) := by
  intro l
  induction l with
  | nil => intro k _ p; simp
  | cons a rest ih =>
    intro k hf p
    have ha := hf 0 a (by simp)
    obtain ⟨b, hb⟩ := Option.isSome_iff_exists.1 ha
    simp only [Nat.add_zero] at hb
    have ih' := ih (k + 1) (fun q x hq => by
      have := hf (q + 1) x (by simpa using hq)
      rwa [show k + 1 + q = k + (q + 1) by omega])
    simp only [List.enumFrom_cons, List.filterMap_cons, hb]
    cases p with
    | zero => simp [hb]
    | succ q =>
      simp only [List.getElem?_cons_succ]
      rw [ih' q, show k + 1 + q = k + (q + 1) by omega]

/-- Where every element renders, the rendered list has, at each position, the rendering
of the element at that position. -/
theorem getElem?_enum_filterMap {α β : Type} (f : Nat → α → Option β) (l : List α)
    (hf : ∀ p x, l[p]? = some x → (f p x).isSome = true) (p : Nat) :
    (l.enum.filterMap (fun y => f y.1 y.2))[p]? = l[p]?.bind (f p) := by
  have := getElem?_enumFrom_filterMap f l 0 (fun q x hq => by simpa using hf q x hq) p
  simpa [List.enum] using this

/-- Every statement of the schedule of a block has its rendering. -/
theorem renderItem_isSome (alias_map : AliasMap) (block : Block) (options : SchedulePassOptions)
    (placed : List (SchedTwin × Nat))
    (h : placeTwins options (placementOrder (schedTwins alias_map block options.mem_loc)) []
      = Except.ok placed) (deps : List Nat) (x : SchedItem)
    (hx : x ∈ schedItems placed block.stmts.length) :
    (renderItem (schedTwins alias_map block options.mem_loc) options block.stmts deps x).isSome
      = true := by
  have hfind : ∀ p ∈ placed, ((schedTwins alias_map block options.mem_loc).find?
      (fun t => decide (t.pos = p.1.pos))).isSome = true := by
    intro p hp
    rw [List.find?_isSome]
    exact ⟨p.1, (mem_placed_iff options _ placed h p.1).2 ⟨p.2, hp⟩, by simp⟩
  rcases (mem_schedItems placed _ x).1 hx with ⟨p, hp, a, _, rfl⟩ | ⟨i, hi, rfl⟩ | ⟨p, hp, w, _, rfl⟩
  · simpa [renderItem] using hfind p hp
  · simp [renderItem, List.getElem?_eq_getElem hi]
  · simpa [renderItem] using hfind p hp

/-- What a successful `ScheduleBlock` returns: there is the placement of the twins, the
refinements are those of `schedRefs`, and the statement at each position is the rendering of
the statement of the schedule at that position, with the deps of `schedDeps`. -/
theorem ScheduleBlock_plan (alias_map : AliasMap) (block : Block) (options : SchedulePassOptions)
    (block' : Block) (h : ScheduleBlock alias_map block options = Except.ok block') :
    ∃ placed,
      placeTwins options (placementOrder (schedTwins alias_map block options.mem_loc)) []
        = Except.ok placed ∧
      block'.refs = schedRefs placed options.mem_loc block.refs ∧
      ∀ p, block'.stmts[p]? = (schedItems placed block.stmts.length)[p]?.bind (fun x =>
        renderItem (schedTwins alias_map block options.mem_loc) options block.stmts
          (schedDeps (schedTwins alias_map block options.mem_loc) placed block.stmts
            (schedItems placed block.stmts.length) p) x) := by
  unfold ScheduleBlock at h
  split at h
  · cases hpl : placeTwins options (placementOrder (schedTwins alias_map block options.mem_loc)) []
      with
    | error e => rw [hpl] at h; simp at h
    | ok placed =>
      rw [hpl] at h
      simp only [Except.ok.injEq] at h
      refine ⟨placed, rfl, by rw [← h], ?_⟩
      intro p
      rw [← h]
      exact getElem?_enum_filterMap
        (fun q x => renderItem (schedTwins alias_map block options.mem_loc) options block.stmts
          (schedDeps (schedTwins alias_map block options.mem_loc) placed block.stmts
            (schedItems placed block.stmts.length) q) x)
        (schedItems placed block.stmts.length)
        (fun q x hq => renderItem_isSome alias_map block options placed hpl _ x
          (List.getElem?_mem hq)) p
  · simp at h

/-- A successful `ScheduleBlock` found every borrowed buffer of the child statements among
the refinements of the block and in the AliasMap. -/
theorem ScheduleBlock_known (alias_map : AliasMap) (block : Block) (options : SchedulePassOptions)
    (block' : Block) (h : ScheduleBlock alias_map block options = Except.ok block')
    (s : Statement) (hs : s ∈ block.stmts) (r : Refinement) (hr : r ∈ s.refs)
    (hdir : r.dir ≠ RefDir.None) :
    (ref_by_into block r.from_).isSome = true ∧ (alias_map.info_ r.from_).isSome = true := by
  unfold ScheduleBlock at h
  split at h
  · rename_i hall
    have := List.all_eq_true.1 (List.all_eq_true.1 hall s hs) r hr
    simpa [hdir] using this
  · simp at h

theorem Statement.refs_setDeps (deps : List Nat) (s : Statement) :
    (s.setDeps deps).refs = s.refs := by
  cases s <;> rfl

theorem Statement.refs_rebind (twins : List SchedTwin) (mem_loc : Location) (s : Statement) :
    (s.rebind twins mem_loc).refs = s.refs.map (Stripe.rebind twins mem_loc) := by
  cases s <;> rfl

/-- A twin of the block is the one found at its position. -/
theorem find_twin (alias_map : AliasMap) (block : Block) (mem_loc : Location) (t : SchedTwin)
    (ht : t ∈ schedTwins alias_map block mem_loc) :
    (schedTwins alias_map block mem_loc).find? (fun u => decide (u.pos = t.pos)) = some t := by
  cases h : (schedTwins alias_map block mem_loc).find? (fun u => decide (u.pos = t.pos)) with
  | none =>
    rw [List.find?_eq_none] at h
    have := h t ht
    simp at this
  | some u =>
    have hu := List.mem_of_find?_eq_some h
    have hpos := List.find?_some h
    simp only [decide_eq_true_eq] at hpos
    rw [schedTwins_pos_inj alias_map block mem_loc u t hu ht hpos]

/-- On the block `main` of `ScheduleTest.UsesTmps`, with its AliasMap, `ScheduleBlock`
returns the block `main` that the test expects. -/
theorem ScheduleBlock_UsesTmps :
    ScheduleBlock (fixAliasMap fixMainTmps) fixMainTmps scheduleOptions
      = Except.ok fixMainTmpsExpected :=
  eq_of_returnsBlock _ _ (by decide!)

/-- A refinement of the scheduled block is one of the block or the refinement of a placed
twin. -/
theorem mem_schedRefs (placed : List (SchedTwin × Nat)) (mem_loc : Location)
    (refs : List Refinement) (C : Refinement) (h : C ∈ schedRefs placed mem_loc refs) :
    C ∈ refs ∨ ∃ p ∈ placed, C = p.1.ref mem_loc p.2 := by
  unfold schedRefs at h
  rw [List.mem_flatten] at h
  obtain ⟨l, hl, hC⟩ := h
  rw [List.mem_map] at hl
  obtain ⟨jO, hjO, rfl⟩ := hl
  have hmem : jO.2 ∈ refs := by
    obtain ⟨n, hn⟩ := List.mem_iff_getElem?.1 hjO
    rw [List.getElem?_enum] at hn
    cases hr : refs[n]? with
    | none => rw [hr] at hn; simp at hn
    | some r =>
      rw [hr] at hn
      simp only [Option.map_some', Option.some.injEq] at hn
      rw [← hn]
      exact List.getElem?_mem hr
  cases hf : placed.find? (fun p => decide (p.1.pos = jO.1)) with
  | none =>
    rw [hf] at hC
    simp only [List.mem_singleton] at hC
    exact Or.inl (hC ▸ hmem)
  | some p =>
    rw [hf] at hC
    simp only [List.mem_cons, List.mem_singleton, List.not_mem_nil, or_false] at hC
    rcases hC with rfl | rfl
    · exact Or.inl hmem
    · exact Or.inr ⟨p, List.mem_of_find?_eq_some hf, rfl⟩

theorem string_append_cancel_right (a b c : String) (h : a ++ c = b ++ c) : a = b := by
  have hdata := congrArg String.data h
  simp only [String.data_append] at hdata
  exact String.ext (List.append_cancel_right hdata)

/-- With distinct names of the refinements of the block, of which none is the name of a
scratchpad twin, a twin is known by its name and no refinement of the block has it. -/
theorem twin_of_name (alias_map : AliasMap) (block : Block) (mem_loc : Location)
    (hnd : (block.refs.map (fun r => r.into)).Nodup)
    (hfresh : ∀ O ∈ block.refs, ∀ O' ∈ block.refs, O'.into ≠ O.into ++ "^0")
    (t : SchedTwin) (ht : t ∈ schedTwins alias_map block mem_loc) :
    (∀ u ∈ schedTwins alias_map block mem_loc, u.name = t.name → u = t) ∧
    (∀ O' ∈ block.refs, O'.into ≠ t.name) := by
  have htO := ((mem_schedTwins alias_map block mem_loc t).1 ht).1
  constructor
  · intro u hu hname
    have huO := ((mem_schedTwins alias_map block mem_loc u).1 hu).1
    have hinto : u.source.into = t.source.into :=
      string_append_cancel_right _ _ "^0" hname
    exact schedTwins_pos_inj alias_map block mem_loc u t hu ht
      (nodup_into_pos block.refs hnd u.pos t.pos u.source t.source huO htO hinto)
  · intro O' hO'
    exact hfresh t.source (List.getElem?_mem htO) O' hO'

/-- With distinct names of the refinements of the block, of which none is the name of a
scratchpad twin: a statement of the scheduled block that borrows the twin `t` stands at a
place of the schedule at which `t` is accessed. -/
theorem uses_twin_slot (alias_map : AliasMap) (block : Block) (options : SchedulePassOptions)
    (block' : Block) (h : ScheduleBlock alias_map block options = Except.ok block')
    (placed : List (SchedTwin × Nat))
    (hpl : placeTwins options (placementOrder (schedTwins alias_map block options.mem_loc)) []
      = Except.ok placed)
    (hst : ∀ p, block'.stmts[p]? = (schedItems placed block.stmts.length)[p]?.bind (fun x =>
      renderItem (schedTwins alias_map block options.mem_loc) options block.stmts
        (schedDeps (schedTwins alias_map block options.mem_loc) placed block.stmts
          (schedItems placed block.stmts.length) p) x))
    (hnd : (block.refs.map (fun r => r.into)).Nodup)
    (hfresh : ∀ O ∈ block.refs, ∀ O' ∈ block.refs, O'.into ≠ O.into ++ "^0")
    (t : SchedTwin) (ht : t ∈ schedTwins alias_map block options.mem_loc)
    (p : Nat) (s' : Statement) (hs' : block'.stmts[p]? = some s')
    (huse : s'.uses t.name = true) :
    ∃ x, (schedItems placed block.stmts.length)[p]? = some x ∧ x.slot ∈ t.slots := by
  obtain ⟨hname, hfree⟩ := twin_of_name alias_map block options.mem_loc hnd hfresh t ht
  rw [hst p] at hs'
  cases hx : (schedItems placed block.stmts.length)[p]? with
  | none => rw [hx] at hs'; simp at hs'
  | some x =>
    rw [hx] at hs'
    simp only [Option.some_bind] at hs'
    refine ⟨x, rfl, ?_⟩
    rcases (mem_schedItems placed _ x).1 (List.getElem?_mem hx) with
      ⟨q, hq, a, hqa, rfl⟩ | ⟨i, hi, rfl⟩ | ⟨q, hq, w, hqw, rfl⟩
    · have hqt := (mem_placed_iff options _ placed hpl q.1).2 ⟨q.2, hq⟩
      simp only [renderItem, find_twin alias_map block options.mem_loc q.1 hqt,
        Option.map_some', Option.some.injEq] at hs'
      rw [← hs'] at huse
      simp only [Statement.uses, Statement.refs, SchedTwin.swap_in_block, SchedTwin.outer,
        SchedTwin.inner, List.any_cons, List.any_nil, Bool.or_false, Bool.or_eq_true,
        Bool.and_eq_true, decide_eq_true_eq] at huse
      have hqeq : q.1 = t := by
        rcases huse with ⟨_, hsrc⟩ | ⟨_, hnm⟩
        · exact absurd hsrc (hfree q.1.source
            (List.getElem?_mem ((mem_schedTwins alias_map block options.mem_loc q.1).1 hqt).1))
        · exact hname q.1 hqt hnm
      rw [hqeq] at hqa
      simp [SchedTwin.slots, SchedItem.slot, hqa]
    · obtain ⟨s, hs⟩ : ∃ s, block.stmts[i]? = some s := ⟨_, List.getElem?_eq_getElem hi⟩
      simp only [renderItem, hs, Option.map_some', Option.some.injEq] at hs'
      rw [← hs'] at huse
      unfold Statement.uses at huse
      rw [Statement.refs_setDeps, Statement.refs_rebind, List.any_eq_true] at huse
      obtain ⟨r', hr', hrd⟩ := huse
      obtain ⟨r, hr, rfl⟩ := List.mem_map.1 hr'
      simp only [Bool.and_eq_true, decide_eq_true_eq] at hrd
      have hiu : i ∈ t.users := by
        rw [((mem_schedTwins alias_map block options.mem_loc t).1 ht).2.1]
        refine (mem_stmtsWhere _ _ i).2 ⟨s, hs, ?_⟩
        unfold Statement.uses
        rw [List.any_eq_true]
        refine ⟨r, hr, ?_⟩
        unfold Stripe.rebind at hrd
        split at hrd
        · rename_i hc
          simp only [Bool.and_eq_true, decide_eq_true_eq]
          exact ⟨hc.1, string_append_cancel_right _ _ "^0" hrd.2⟩
        · exfalso
          have hknown := (ScheduleBlock_known alias_map block options block' h s
            (List.getElem?_mem hs) r hr hrd.1).1
          rw [hrd.2] at hknown
          have hnone : ref_by_into block t.name ≠ none := by
            intro e
            rw [e] at hknown
            simp at hknown
          apply hnone
          unfold ref_by_into
          rw [refByInto_none_iff]
          exact hfree
      simp only [SchedTwin.slots, SchedItem.slot, List.mem_append, List.mem_map]
      exact Or.inl (Or.inr ⟨i, hiu, rfl⟩)
    · have hqt := (mem_placed_iff options _ placed hpl q.1).2 ⟨q.2, hq⟩
      simp only [renderItem, find_twin alias_map block options.mem_loc q.1 hqt,
        Option.map_some', Option.some.injEq] at hs'
      rw [← hs'] at huse
      simp only [Statement.uses, Statement.refs, SchedTwin.swap_out_block, SchedTwin.outer,
        SchedTwin.inner, List.any_cons, List.any_nil, Bool.or_false, Bool.or_eq_true,
        Bool.and_eq_true, decide_eq_true_eq] at huse
      have hqeq : q.1 = t := by
        rcases huse with ⟨_, hnm⟩ | ⟨_, hsrc⟩
        · exact hname q.1 hqt hnm
        · exact absurd hsrc (hfree q.1.source
            (List.getElem?_mem ((mem_schedTwins alias_map block options.mem_loc q.1).1 hqt).1))
      rw [hqeq] at hqw
      simp [SchedTwin.slots, SchedItem.slot, hqw]

/-- Overlapping live ranges in the scheduled block are overlapping live ranges of the
twins. -/
theorem overlaps_of_liveOverlap (alias_map : AliasMap) (block : Block)
    (options : SchedulePassOptions) (block' : Block)
    (h : ScheduleBlock alias_map block options = Except.ok block')
    (placed : List (SchedTwin × Nat))
    (hpl : placeTwins options (placementOrder (schedTwins alias_map block options.mem_loc)) []
      = Except.ok placed)
    (hst : ∀ p, block'.stmts[p]? = (schedItems placed block.stmts.length)[p]?.bind (fun x =>
      renderItem (schedTwins alias_map block options.mem_loc) options block.stmts
        (schedDeps (schedTwins alias_map block options.mem_loc) placed block.stmts
          (schedItems placed block.stmts.length) p) x))
    (hnd : (block.refs.map (fun r => r.into)).Nodup)
    (hfresh : ∀ O ∈ block.refs, ∀ O' ∈ block.refs, O'.into ≠ O.into ++ "^0")
    (t u : SchedTwin) (ht : t ∈ schedTwins alias_map block options.mem_loc)
    (hu : u ∈ schedTwins alias_map block options.mem_loc)
    (hlive : LiveOverlap block'.stmts t.name u.name) : t.overlaps u = true := by
  obtain ⟨⟨p, q, s, s', hpq, hs, hs', hsu, hsu'⟩, ⟨q2, p2, s2', s2, hqp2, hs2', hs2, hsu2',
    hsu2⟩⟩ := hlive
  obtain ⟨x, hx, hxs⟩ := uses_twin_slot alias_map block options block' h placed hpl hst hnd
    hfresh t ht p s hs hsu
  obtain ⟨y, hy, hys⟩ := uses_twin_slot alias_map block options block' h placed hpl hst hnd
    hfresh u hu q s' hs' hsu'
  obtain ⟨y2, hy2, hys2⟩ := uses_twin_slot alias_map block options block' h placed hpl hst hnd
    hfresh u hu q2 s2' hs2' hsu2'
  obtain ⟨x2, hx2, hxs2⟩ := uses_twin_slot alias_map block options block' h placed hpl hst hnd
    hfresh t ht p2 s2 hs2 hsu2
  unfold SchedTwin.overlaps
  rw [Bool.and_eq_true, List.any_eq_true, List.any_eq_true]
  refine ⟨⟨x.slot, hxs, ?_⟩, ⟨y2.slot, hys2, ?_⟩⟩
  · rw [List.any_eq_true]
    exact ⟨y.slot, hys, decide_eq_true (schedItems_slot_le placed _ p q x y hx hy hpq)⟩
  · rw [List.any_eq_true]
    exact ⟨x2.slot, hxs2, decide_eq_true (schedItems_slot_le placed _ q2 p2 y2 x2 hy2 hx2 hqp2)⟩

/-- C27: after a successful `ScheduleBlock` on a block whose refinements have distinct
names, none of them the name `O^0` of a scratchpad twin: every refinement that the pass
created (one of the new block that is not one of the block) is at `mem_loc`, its offset is
a multiple of `alignment` and `offset + size_bytes(shape) ≤ mem_KiB * 1024`; and two
different such refinements whose live ranges overlap in the new block occupy disjoint byte
intervals. -/
theorem ScheduleBlock_capacity (alias_map : AliasMap) (block : Block)
    (options : SchedulePassOptions) (block' : Block)
    (h : ScheduleBlock alias_map block options = Except.ok block')
    (hnd : (block.refs.map (fun r => r.into)).Nodup)
    (hfresh : ∀ O ∈ block.refs, ∀ O' ∈ block.refs, O'.into ≠ O.into ++ "^0") :
    (∀ C ∈ block'.refs, C ∉ block.refs →
      C.location = options.mem_loc ∧ C.offset % options.alignment = 0 ∧
        C.offset + size_bytes C.interior_shape ≤ options.mem_KiB * 1024) ∧
    (∀ C ∈ block'.refs, ∀ D ∈ block'.refs, C ∉ block.refs → D ∉ block.refs → C ≠ D →
      LiveOverlap block'.stmts C.into D.into →
      C.offset + size_bytes C.interior_shape ≤ D.offset ∨
        D.offset + size_bytes D.interior_shape ≤ C.offset) := by
  obtain ⟨placed, hpl, hrefs, hst⟩ := ScheduleBlock_plan alias_map block options block' h
  obtain ⟨⟨hfit, hpair⟩, _⟩ := placed_perm options _ placed hpl
  have htwin : ∀ C ∈ block'.refs, C ∉ block.refs →
      ∃ p ∈ placed, C = p.1.ref options.mem_loc p.2 := by
    intro C hC hnew
    rw [hrefs] at hC
    rcases mem_schedRefs placed options.mem_loc block.refs C hC with hold | hp
    · exact absurd hold hnew
    · exact hp
  constructor
  · intro C hC hnew
    obtain ⟨p, hp, rfl⟩ := htwin C hC hnew
    obtain ⟨hdvd, hcap⟩ := hfit p hp
    refine ⟨rfl, ?_, hcap⟩
    obtain ⟨k, hk⟩ := hdvd
    show p.2 % options.alignment = 0
    rw [hk]
    exact Nat.mul_mod_right _ _
  · intro C hC D hD hCnew hDnew hne hlive
    obtain ⟨p, hp, rfl⟩ := htwin C hC hCnew
    obtain ⟨q, hq, rfl⟩ := htwin D hD hDnew
    have hpq : p ≠ q := fun e => hne (by rw [e])
    have hov : p.1.overlaps q.1 = true :=
      overlaps_of_liveOverlap alias_map block options block' h placed hpl hst hnd hfresh p.1 q.1
        ((mem_placed_iff options _ placed hpl p.1).2 ⟨p.2, hp⟩)
        ((mem_placed_iff options _ placed hpl q.1).2 ⟨q.2, hq⟩) hlive
    have hsymm : Symmetric (fun a b : SchedTwin × Nat =>
        a.1.overlaps b.1 = true → a.2 + a.1.size ≤ b.2 ∨ b.2 + b.1.size ≤ a.2) := by
      intro a b hab hba
      rw [SchedTwin.overlaps_comm] at hba
      exact (hab hba).symm
    exact hpair.forall hsymm hp hq hpq hov

/-- C27 on the block `main` of `ScheduleTest.UsesTmps`, whose refinements `i1`, `i2`, `o1`
and `t1` have distinct names, none of the form `O^0`. -/
theorem ScheduleBlock_capacity_witness :
    (fixMainTmps.refs.map (fun r => r.into)).Nodup ∧
    (∀ O ∈ fixMainTmps.refs, ∀ O' ∈ fixMainTmps.refs, O'.into ≠ O.into ++ "^0") ∧
    (∀ C ∈ fixMainTmpsExpected.refs, C ∉ fixMainTmps.refs →
      C.location = scheduleOptions.mem_loc ∧ C.offset % scheduleOptions.alignment = 0 ∧
        C.offset + size_bytes C.interior_shape ≤ scheduleOptions.mem_KiB * 1024) ∧
    (∀ C ∈ fixMainTmpsExpected.refs, ∀ D ∈ fixMainTmpsExpected.refs, C ∉ fixMainTmps.refs →
      D ∉ fixMainTmps.refs → C ≠ D →
      LiveOverlap fixMainTmpsExpected.stmts C.into D.into →
      C.offset + size_bytes C.interior_shape ≤ D.offset ∨
        D.offset + size_bytes D.interior_shape ≤ C.offset) :=
  ⟨by decide, by decide,
    ScheduleBlock_capacity (fixAliasMap fixMainTmps) fixMainTmps scheduleOptions
      fixMainTmpsExpected ScheduleBlock_UsesTmps (by decide) (by decide)⟩

/-! ## Traversal without a matching block -/

/-- Below a block at which the traversal stops nowhere, the callback has no part in the
traversal: it fails as it does with a callback that changes nothing, and else returns the
block and the state it was given. -/
theorem RunOnBlocksRecurse_nostop {σ : Type}
    (func : AliasMap → Block → σ → Except String (Block × σ)) (reqs : Tags) (b : Block) :
    topBlocks reqs b = [] →
    ∀ (map : AliasMap) (s : σ),
      RunOnBlocksRecurse func reqs map b s =
        (match RunOnBlocksRecurse keepBlock reqs map b () with
          | Except.error e => Except.error e
          | Except.ok _ => Except.ok (b, s)) := by
  refine topBlocks.induct reqs
    (fun b => topBlocks reqs b = [] →
      ∀ (map : AliasMap) (s : σ),
        RunOnBlocksRecurse func reqs map b s =
          (match RunOnBlocksRecurse keepBlock reqs map b () with
            | Except.error e => Except.error e
            | Except.ok _ => Except.ok (b, s)))
    (fun i stmts => topBlocksStmts reqs i stmts = [] →
      ∀ (map : AliasMap) (s : σ),
        RunOnBlocksStmts func reqs map stmts s =
          (match RunOnBlocksStmts keepBlock reqs map stmts () with
            | Except.error e => Except.error e
            | Except.ok _ => Except.ok (stmts, s)))
    (fun stmt => topBlocksStmt reqs stmt = [] →
      ∀ (map : AliasMap) (s : σ),
        RunOnBlocksStmt func reqs map stmt s =
          (match RunOnBlocksStmt keepBlock reqs map stmt () with
            | Except.error e => Except.error e
            | Except.ok _ => Except.ok (stmt, s)))
    ?_ ?_ ?_ ?_ ?_ ?_ ?_ ?_ ?_ ?_ b
  · intro inner ih hf map s
    simp only [RunOnBlocksStmt]
    cases hm : AliasMap.inner map inner with
    | error e => rfl
    | ok inner_map =>
      simp only
      rw [ih (by simpa [topBlocksStmt] using hf) inner_map s]
      cases RunOnBlocksRecurse keepBlock reqs inner_map inner () with
      | error e => rfl
      | ok r => rfl
  · intro tags deps from_ into _ map s
    simp only [RunOnBlocksStmt]
  · intro tags deps from_ into _ map s
    simp only [RunOnBlocksStmt]
  · intro tags deps name type iconst _ map s
    simp only [RunOnBlocksStmt]
  · intro tags deps name params inputs outputs _ map s
    simp only [RunOnBlocksStmt]
  · intro tags deps name type inputs outputs _ map s
    simp only [RunOnBlocksStmt]
  · intro tags deps name comments idxs constraints refs stmts location ht hf map s
    simp [topBlocks, ht] at hf
  · intro tags deps name comments idxs constraints refs stmts location ht ih hf map s
    simp only [RunOnBlocksRecurse, ht, Bool.false_eq_true, if_false]
    rw [ih (by simpa [topBlocks, ht] using hf) map s]
    cases RunOnBlocksStmts keepBlock reqs map stmts () with
    | error e => rfl
    | ok r => rfl
  · intro i _ map s
    simp only [RunOnBlocksStmts]
  · intro i stmt rest ih1 ih2 hf map s
    simp only [topBlocksStmts, List.append_eq_nil, List.map_eq_nil_iff] at hf
    simp only [RunOnBlocksStmts]
    rw [ih1 hf.1 map s]
    cases h1 : RunOnBlocksStmt keepBlock reqs map stmt () with
    | error e => rfl
    | ok r1 =>
      simp only
      rw [ih2 hf.2 map s]
      cases RunOnBlocksStmts keepBlock reqs map rest () with
      | error e => rfl
      | ok r => rfl

/-- Where no block of the tree has tags containing all of `reqs`, the traversal stops
nowhere. -/
theorem topBlocks_nil_of_no_match (reqs : Tags) (root : Block)
    (hno : ∀ p b, subBlock root p = some b → ¬ (∀ t ∈ reqs, t ∈ b.tags)) :
    topBlocks reqs root = [] := by
  cases h : topBlocks reqs root with
  | nil => rfl
  | cons pb rest =>
    exfalso
    have hmem : (pb.1, pb.2) ∈ topBlocks reqs root := by rw [h]; exact List.mem_cons_self _ _
    obtain ⟨hsub, htags, _⟩ := (mem_topBlocks_iff reqs pb.1 root pb.2).1 hmem
    exact hno pb.1 pb.2 hsub htags
/-- C35: if no block of the tree rooted at `root` (root included) has tags containing all
of `reqs`, `RunOnBlocks` never invokes its callback: whatever the callback and its state,
the traversal fails exactly as it does with a callback that changes nothing and never
fails (that is, in an alias construction), and else returns the IR and the state it was
given, the trace of the invocations being empty; so `SchedulePass` and `CachePass` with
such `reqs` fail with that error of the alias construction or return the IR unchanged. -/
theorem RunOnBlocks_no_match (root : Block) (reqs : Tags)
    (hno : ∀ p b, subBlock root p = some b → ¬ (∀ t ∈ reqs, t ∈ b.tags)) :
    (∀ (σ : Type) (func : AliasMap → Block → σ → Except String (Block × σ)) (s : σ),
      RunOnBlocks func root reqs s =
        (match RunOnBlocks keepBlock root reqs () with
          | Except.error e => Except.error e
          | Except.ok _ => Except.ok (root, s))) ∧
    (∀ (σ : Type) (func : AliasMap → Block → σ → Except String (Block × σ)) (s : σ)
      (r : Block × (σ × List Block)),
      RunOnBlocks (recording func) root reqs (s, []) = Except.ok r → r = (root, (s, []))) ∧
    (∀ options : SchedulePassOptions, options.reqs = reqs →
      SchedulePass root options =
        (match RunOnBlocks keepBlock root reqs () with
          | Except.error e => Except.error e
          | Except.ok _ => Except.ok root)) ∧
    (∀ options : CachePassOptions, options.reqs = reqs →
      CachePass root options =
        (match RunOnBlocks keepBlock root reqs () with
          | Except.error e => Except.error e
          | Except.ok _ => Except.ok root)) := by
  have htop := topBlocks_nil_of_no_match reqs root hno
  have hrun : ∀ (σ : Type) (func : AliasMap → Block → σ → Except String (Block × σ)) (s : σ),
      RunOnBlocks func root reqs s =
        (match RunOnBlocks keepBlock root reqs () with
          | Except.error e => Except.error e
          | Except.ok _ => Except.ok (root, s)) := by
    intro σ func s
    unfold RunOnBlocks
    cases hm : AliasMap.inner AliasMap.root root with
    | error e => rfl
    | ok root_map =>
      simp only
      exact RunOnBlocksRecurse_nostop func reqs root htop root_map s
  refine ⟨hrun, ?_, ?_, ?_⟩
  · intro σ func s r h
    rw [hrun] at h
    cases hk : RunOnBlocks keepBlock root reqs () with
    | error e => rw [hk] at h; simp at h
    | ok r' =>
      rw [hk] at h
      simp only [Except.ok.injEq] at h
      exact h.symm
  · intro options hreqs
    unfold SchedulePass
    rw [hreqs, hrun]
    cases RunOnBlocks keepBlock root reqs () with
    | error e => rfl
    | ok r => rfl
  · intro options hreqs
    unfold CachePass
    rw [hreqs, hrun]
    cases RunOnBlocks keepBlock root reqs () with
    | error e => rfl
    | ok r => rfl

/-- C35 on the program of `ScheduleTest.EmptyMain` with the tag `other`, which neither
`program` nor `main` has: the alias constructions succeed and the passes return the
program unchanged. -/
theorem RunOnBlocks_no_match_witness :
    (∀ p b, subBlock (fixProgram fixMain) p = some b → ¬ (∀ t ∈ ["other"], t ∈ b.tags)) ∧
    (∀ (σ : Type) (func : AliasMap → Block → σ → Except String (Block × σ)) (s : σ),
      RunOnBlocks func (fixProgram fixMain) ["other"] s = Except.ok (fixProgram fixMain, s)) ∧
    SchedulePass (fixProgram fixMain) { scheduleOptions with reqs := ["other"] }
      = Except.ok (fixProgram fixMain) ∧
    CachePass (fixProgram fixMain) { reqs := ["other"], dirs := [RefDir.In] }
      = Except.ok (fixProgram fixMain) :=
  have hno : ∀ p b, subBlock (fixProgram fixMain) p = some b →
      ¬ (∀ t ∈ ["other"], t ∈ b.tags) := by
    intro p b h htags
    have hother := htags "other" (List.mem_singleton.2 rfl)
    cases p with
    | nil =>
      simp only [subBlock, Option.some.injEq] at h
      rw [← h] at hother
      revert hother
      decide
    | cons i rest =>
      cases i with
      | zero =>
        cases rest with
        | nil =>
          have h' : fixMain = b := by simpa [subBlock, fixProgram] using h
          rw [← h'] at hother
          revert hother
          decide
        | cons k rest' =>
          simp [subBlock, fixProgram, fixMain] at h
      | succ k =>
        simp [subBlock, fixProgram] at h
  have hkeep : ∃ r, RunOnBlocks keepBlock (fixProgram fixMain) ["other"] () = Except.ok r := by
    have hb : (RunOnBlocks keepBlock (fixProgram fixMain) ["other"] ()).toBool = true := by
      decide!
    cases hk : RunOnBlocks keepBlock (fixProgram fixMain) ["other"] () with
    | error e => rw [hk] at hb; simp [Except.toBool] at hb
    | ok r => exact ⟨r, rfl⟩
  have hall := RunOnBlocks_no_match (fixProgram fixMain) ["other"] hno
  ⟨hno,
    fun σ func s => by
      obtain ⟨r, hr⟩ := hkeep
      rw [hall.1 σ func s, hr],
    by
      obtain ⟨r, hr⟩ := hkeep
      rw [hall.2.2.1 _ rfl, hr],
    by
      obtain ⟨r, hr⟩ := hkeep
      rw [hall.2.2.2 _ rfl, hr]⟩

/-! ## ApplyCache: deps and reference integrity -/

/-- A successful `ApplyCache` has found its refinement. -/
theorem ApplyCache_found (block : Block) (var_name : String) (mem_loc xfer_loc : Location)
    (block' : Block) (h : ApplyCache block var_name mem_loc xfer_loc = (Except.ok (), block')) :
    ∃ pos it, ref_by_into block var_name = some (pos, it) := by
  cases hfind : ref_by_into block var_name with
  | none =>
    have hres : ApplyCache block var_name mem_loc xfer_loc =
        (Except.error "ApplyCache: Invalid var_name", block) := by
      unfold ApplyCache
      rw [hfind]
    rw [hres] at h
    simp at h
  | some p => exact ⟨p.1, p.2, rfl⟩

theorem Statement.deps_shiftDeps (k : Nat) (s : Statement) :
    (Statement.shiftDeps k s).deps = s.deps.map (fun d => d + k) := by
  cases s <;> rfl

theorem FixupRefs.stmt_deps (cached : Refinement) (var_name : String) (s : Statement) :
    (FixupRefs.stmt cached var_name s).deps = s.deps := by
  cases s <;> rfl

/-- What `FixupRefs` does to a nested block: only its refinements change. -/
theorem FixupRefs.stmt_block (cached : Refinement) (var_name : String) (B : Block) :
    ∃ B' : Block, FixupRefs.stmt cached var_name (Statement.Block B) = Statement.Block B' ∧
      B'.name = B.name ∧ B'.deps = B.deps ∧ B'.tags = B.tags ∧
      B'.refs = B.refs.map (FixupRefs.ref cached var_name) :=
  ⟨_, rfl, rfl, rfl, rfl, rfl⟩

/-- C34: after a successful `ApplyCache` on the refinement `R` named `V`, with `k = 1` when
`load_V` is inserted at the front (`R.dir` read) and `k = 0` otherwise: every statement of
the block is, re-bound by `FixupRefs`, at its old position moved by `k`, and its deps are
its old deps moved by `k`, so that they refer to the same statements as before; the blocks
`load_V` (first) and `store_V` (last, when `R.dir` is a write direction) have empty deps;
and if every dep of every statement referred to an earlier statement of the list before the
call, the same holds afterwards. -/
theorem ApplyCache_deps (block : Block) (var_name : String) (mem_loc xfer_loc : Location)
    (block' : Block) (h : ApplyCache block var_name mem_loc xfer_loc = (Except.ok (), block')) :
    ∃ (pos k : Nat) (R cached : Refinement),
      ref_by_into block var_name = some (pos, R) ∧
      k = (if IsReadDir R.dir then 1 else 0) ∧
      block'.stmts.length =
        k + block.stmts.length + (if IsWriteDir R.dir then 1 else 0) ∧
      (∀ i s, block.stmts[i]? = some s →
        block'.stmts[i + k]? =
            some (FixupRefs.stmt cached var_name (Statement.shiftDeps k s)) ∧
          (FixupRefs.stmt cached var_name (Statement.shiftDeps k s)).deps
            = s.deps.map (fun d => d + k)) ∧
      (IsReadDir R.dir = true → ∃ L, block'.stmts[0]? = some (Statement.Block L) ∧
        L.name = "load_" ++ var_name ∧ L.deps = []) ∧
      (IsWriteDir R.dir = true → ∃ S,
        block'.stmts[k + block.stmts.length]? = some (Statement.Block S) ∧
        S.name = "store_" ++ var_name ∧ S.deps = []) ∧
      ((∀ (i : Nat) (s : Statement), block.stmts[i]? = some s → ∀ d ∈ s.deps, d < i) →
        ∀ (i : Nat) (s' : Statement), block'.stmts[i]? = some s' → ∀ d ∈ s'.deps, d < i) := by
  obtain ⟨pos, it, hfind⟩ := ApplyCache_found block var_name mem_loc xfer_loc block' h
  obtain ⟨cached, hst⟩ := ApplyCache_stmts_of_found block var_name mem_loc xfer_loc pos it hfind
  rw [h] at hst
  simp only at hst
  have hold : ∀ i s, block.stmts[i]? = some s →
      block'.stmts[i + (if IsReadDir it.dir then 1 else 0)]? =
        some (FixupRefs.stmt cached var_name
          (Statement.shiftDeps (if IsReadDir it.dir then 1 else 0) s)) := by
    intro i s hs
    have hi : i < block.stmts.length := (List.getElem?_eq_some.1 hs).1
    rw [hst, List.append_assoc]
    cases hr : IsReadDir it.dir with
    | false =>
      simp only [Bool.false_eq_true, if_false, List.nil_append, Nat.add_zero]
      rw [List.getElem?_append_left (by simpa using hi), List.getElem?_map, hs]
      rfl
    | true =>
      simp only [if_true]
      rw [List.getElem?_append_right (by simp), List.length_singleton, Nat.add_sub_cancel,
        List.getElem?_append_left (by simpa using hi), List.getElem?_map, hs]
      rfl
  have hload : IsReadDir it.dir = true → ∃ L, block'.stmts[0]? = some (Statement.Block L) ∧
      L.name = "load_" ++ var_name ∧ L.deps = [] := by
    intro hr
    obtain ⟨L, hL, hname, hdeps, _, _⟩ := FixupRefs.stmt_block cached var_name
      (ApplyCache.cache_load it var_name (unique_ref_name block (var_name ++ "_raw"))
        mem_loc xfer_loc)
    refine ⟨L, ?_, hname, hdeps⟩
    rw [hst, hr, hL]
    simp
  have hstore : IsWriteDir it.dir = true → ∃ S,
      block'.stmts[(if IsReadDir it.dir then 1 else 0) + block.stmts.length]?
        = some (Statement.Block S) ∧ S.name = "store_" ++ var_name ∧ S.deps = [] := by
    intro hw
    obtain ⟨S, hS, hname, hdeps, _, _⟩ := FixupRefs.stmt_block cached var_name
      (ApplyCache.cache_store it var_name (unique_ref_name block (var_name ++ "_raw"))
        mem_loc xfer_loc)
    refine ⟨S, ?_, hname, hdeps⟩
    rw [hst, hw, hS]
    cases hr : IsReadDir it.dir
    · simp
    · simp only [if_true]
      rw [List.getElem?_append_right (by simp; omega)]
      simp [Nat.add_comm]
  have hlen : block'.stmts.length =
      (if IsReadDir it.dir then 1 else 0) + block.stmts.length
        + (if IsWriteDir it.dir then 1 else 0) := by
    rw [hst]
    cases hr : IsReadDir it.dir <;> cases hw : IsWriteDir it.dir <;> simp <;> omega
  refine ⟨pos, if IsReadDir it.dir then 1 else 0, it, cached, hfind, rfl, hlen, ?_, hload,
    hstore, ?_⟩
  · intro i s hs
    refine ⟨hold i s hs, ?_⟩
    rw [FixupRefs.stmt_deps, Statement.deps_shiftDeps]
  · intro hacyc i s' hs' d hd
    have hi : i < block'.stmts.length := (List.getElem?_eq_some.1 hs').1
    rw [hlen] at hi
    by_cases h1 : i < (if IsReadDir it.dir then 1 else 0)
    · have hr : IsReadDir it.dir = true := by
        cases hr : IsReadDir it.dir with
        | false => rw [hr] at h1; simp at h1
        | true => rfl
      have hi0 : i = 0 := by rw [hr] at h1; simpa using h1
      obtain ⟨L, hL, _, hdeps⟩ := hload hr
      rw [hi0, hL] at hs'
      simp only [Option.some.injEq] at hs'
      rw [← hs'] at hd
      simp only [Statement.deps, hdeps, List.not_mem_nil] at hd
    · by_cases h2 : i < (if IsReadDir it.dir then 1 else 0) + block.stmts.length
      · obtain ⟨j, hj⟩ : ∃ j, i = j + (if IsReadDir it.dir then 1 else 0) :=
          ⟨i - (if IsReadDir it.dir then 1 else 0), by omega⟩
        have hjl : j < block.stmts.length := by omega
        have hs := hold j _ (List.getElem?_eq_getElem hjl)
        rw [← hj, hs'] at hs
        simp only [Option.some.injEq] at hs
        rw [hs, FixupRefs.stmt_deps, Statement.deps_shiftDeps, List.mem_map] at hd
        obtain ⟨d0, hd0, rfl⟩ := hd
        have := hacyc j _ (List.getElem?_eq_getElem hjl) d0 hd0
        omega
      · have hw : IsWriteDir it.dir = true := by
          cases hw : IsWriteDir it.dir with
          | false => rw [hw] at hi; simp at hi; omega
          | true => rfl
        have hie : i = (if IsReadDir it.dir then 1 else 0) + block.stmts.length := by
          rw [hw] at hi
          simp only [if_true] at hi
          omega
        obtain ⟨S, hS, _, hdeps⟩ := hstore hw
        rw [hie, hS] at hs'
        simp only [Option.some.injEq] at hs'
        rw [← hs'] at hd
        simp only [Statement.deps, hdeps, List.not_mem_nil] at hd
/-- C34 on `cacheBlockDeps`, whose refinement `V` has `dir = InOut` and whose second
statement depends on the first. -/
theorem ApplyCache_deps_witness :
    ApplyCache cacheBlockDeps "V" { name := "CACHE" } { name := "DMA" } =
      (Except.ok (), (ApplyCache cacheBlockDeps "V" { name := "CACHE" } { name := "DMA" }).2) ∧
    ∃ (pos k : Nat) (R cached : Refinement),
      ref_by_into cacheBlockDeps "V" = some (pos, R) ∧
      k = (if IsReadDir R.dir then 1 else 0) ∧
      (ApplyCache cacheBlockDeps "V" { name := "CACHE" } { name := "DMA" }).2.stmts.length =
        k + cacheBlockDeps.stmts.length + (if IsWriteDir R.dir then 1 else 0) ∧
      (∀ i s, cacheBlockDeps.stmts[i]? = some s →
        (ApplyCache cacheBlockDeps "V" { name := "CACHE" } { name := "DMA" }).2.stmts[i + k]? =
            some (FixupRefs.stmt cached "V" (Statement.shiftDeps k s)) ∧
          (FixupRefs.stmt cached "V" (Statement.shiftDeps k s)).deps
            = s.deps.map (fun d => d + k)) ∧
      (IsReadDir R.dir = true → ∃ L,
        (ApplyCache cacheBlockDeps "V" { name := "CACHE" } { name := "DMA" }).2.stmts[0]?
          = some (Statement.Block L) ∧
        L.name = "load_" ++ "V" ∧ L.deps = []) ∧
      (IsWriteDir R.dir = true → ∃ S,
        (ApplyCache cacheBlockDeps "V" { name := "CACHE" } { name := "DMA" }).2.stmts[
            k + cacheBlockDeps.stmts.length]? = some (Statement.Block S) ∧
        S.name = "store_" ++ "V" ∧ S.deps = []) ∧
      ((∀ (i : Nat) (s : Statement), cacheBlockDeps.stmts[i]? = some s →
          ∀ d ∈ s.deps, d < i) →
        ∀ (i : Nat) (s' : Statement),
          (ApplyCache cacheBlockDeps "V" { name := "CACHE" } { name := "DMA" }).2.stmts[i]?
            = some s' → ∀ d ∈ s'.deps, d < i) :=
  ⟨rfl, ApplyCache_deps cacheBlockDeps "V" { name := "CACHE" } { name := "DMA" } _ rfl⟩
theorem copyStrides_length (dims : List TensorDimension) :
    ∀ source, (copyStrides dims source).length = dims.length := by
  induction dims with
  | nil => intro source; simp [copyStrides]
  | cons a rest ih =>
    intro source
    cases source with
    | nil => simp [copyStrides]
    | cons s source => simp [copyStrides, ih source]

theorem xferAccessFrom_length (sizes : List Nat) :
    ∀ k, (xferAccessFrom k sizes).length = sizes.length := by
  induction sizes with
  | nil => intro k; rfl
  | cons a rest ih => intro k; simp [xferAccessFrom, ih (k + 1)]

/-- `FixupRefs` keeps the direction, the source, the access and the number of dimensions of
a refinement. -/
theorem FixupRefs.ref_frame (cached : Refinement) (var_name : String) (r : Refinement) :
    (FixupRefs.ref cached var_name r).dir = r.dir ∧
    (FixupRefs.ref cached var_name r).from_ = r.from_ ∧
    (FixupRefs.ref cached var_name r).access = r.access ∧
    (FixupRefs.ref cached var_name r).interior_shape.dims.length
      = r.interior_shape.dims.length := by
  unfold FixupRefs.ref
  by_cases hf : r.from_ = var_name
  · rw [if_pos hf]
    exact ⟨rfl, rfl, rfl, copyStrides_length _ _⟩
  · rw [if_neg hf]
    exact ⟨rfl, rfl, rfl, rfl⟩

/-- The two refinements of the transfer blocks of `ApplyCache` have an access of as many
entries as they have dimensions. -/
theorem ApplyCache.xfer_refs_access (it : Refinement) (var_name raw_name : String)
    (mem_loc xfer_loc : Location) (r : Refinement)
    (hr : r ∈ (ApplyCache.cache_load it var_name raw_name mem_loc xfer_loc).refs ∨
      r ∈ (ApplyCache.cache_store it var_name raw_name mem_loc xfer_loc).refs) :
    r.access.length = r.interior_shape.dims.length ∧
      (r.from_ = raw_name ∨ r.from_ = var_name) := by
  have hlen : (xferAccessFrom 0 it.interior_shape.sizes).length
      = it.interior_shape.dims.length := by
    rw [xferAccessFrom_length]
    simp [TensorShape.sizes]
  have hsimple : (unitSizes (SimpleShape it.interior_shape.type
      it.interior_shape.sizes)).dims.length = it.interior_shape.dims.length := by
    simp [unitSizes, SimpleShape, simpleDims_length, TensorShape.sizes]
  have hraw : (unitSizes it.interior_shape).dims.length = it.interior_shape.dims.length := by
    simp [unitSizes]
  simp only [ApplyCache.cache_load, ApplyCache.cache_store, List.mem_cons, List.mem_singleton,
    List.not_mem_nil, or_false] at hr
  rcases hr with (rfl | rfl) | (rfl | rfl)
  · exact ⟨by simp only [ApplyCache.src]; rw [hlen, hraw], Or.inl rfl⟩
  · exact ⟨by simp only [ApplyCache.dst]; rw [hlen, hsimple], Or.inr rfl⟩
  · exact ⟨by simp only [ApplyCache.src]; rw [hlen, hsimple], Or.inr rfl⟩
  · exact ⟨by simp only [ApplyCache.dst]; rw [hlen, hraw], Or.inl rfl⟩

/-- After `ApplyCache`, a name of a refinement of the block before the call, the raw name
and the name `V` are names of refinements of the block. -/
theorem ApplyCache_names (block : Block) (var_name : String) (mem_loc xfer_loc : Location)
    (pos : Nat) (it : Refinement) (h : ref_by_into block var_name = some (pos, it)) :
    (∀ R ∈ block.refs, ∃ R' ∈ (ApplyCache block var_name mem_loc xfer_loc).2.refs,
      R'.into = R.into) ∧
    (∃ R' ∈ (ApplyCache block var_name mem_loc xfer_loc).2.refs,
      R'.into = unique_ref_name block (var_name ++ "_raw")) ∧
    (∃ R' ∈ (ApplyCache block var_name mem_loc xfer_loc).2.refs, R'.into = var_name) := by
  obtain ⟨hget, hinto, _⟩ := ref_by_into_some block var_name pos it h
  have hpos : pos < block.refs.length := (List.getElem?_eq_some.1 hget).1
  rw [ApplyCache_refs_of_found block var_name mem_loc xfer_loc pos it h]
  have hnew : ∃ R' ∈ block.refs.set pos
        { it with into := unique_ref_name block (var_name ++ "_raw") }
        ++ [ApplyCache.new_ref it var_name mem_loc], R'.into = var_name :=
    ⟨ApplyCache.new_ref it var_name mem_loc, by simp, rfl⟩
  refine ⟨?_, ?_, hnew⟩
  · intro R hR
    obtain ⟨j, hj⟩ := List.mem_iff_getElem?.1 hR
    by_cases hjp : j = pos
    · rw [hjp, hget] at hj
      simp only [Option.some.injEq] at hj
      rw [← hj, hinto]
      exact hnew
    · refine ⟨R, List.mem_append_left _ ?_, rfl⟩
      apply List.getElem?_mem (n := j)
      rw [List.getElem?_set_ne (fun e => hjp e.symm)]
      exact hj
  · refine ⟨{ it with into := unique_ref_name block (var_name ++ "_raw") },
      List.mem_append_left _ ?_, rfl⟩
    apply List.getElem?_mem (n := pos)
    rw [List.getElem?_set_self hpos]
/-- C33: if before `ApplyCache(block, V, ...)` every borrowed refinement (`dir ≠ None`) of
every direct child block names, through `from`, a refinement of the block and has as many
access entries as dimensions, then after a successful call the same holds for every direct
child block of the block; the blocks `load_V` (when the cached refinement `R` is read) and
`store_V` (when it is written) are among them; the refinement appended last is named `V` and
has as many access entries as dimensions; and names that were distinct stay distinct, so
that the refinement named through `from` is the only one of its name. -/
theorem ApplyCache_integrity (block : Block) (var_name : String) (mem_loc xfer_loc : Location)
    (block' : Block) (h : ApplyCache block var_name mem_loc xfer_loc = (Except.ok (), block'))
    (hpre : ∀ c, Statement.Block c ∈ block.stmts → ∀ r ∈ c.refs, r.dir ≠ RefDir.None →
      (∃ R ∈ block.refs, R.into = r.from_) ∧
        r.access.length = r.interior_shape.dims.length) :
    (∀ c, Statement.Block c ∈ block'.stmts → ∀ r ∈ c.refs, r.dir ≠ RefDir.None →
      (∃ R ∈ block'.refs, R.into = r.from_) ∧
        r.access.length = r.interior_shape.dims.length) ∧
    (∃ (pos : Nat) (R : Refinement), ref_by_into block var_name = some (pos, R) ∧
      (IsReadDir R.dir = true →
        ∃ L, Statement.Block L ∈ block'.stmts ∧ L.name = "load_" ++ var_name) ∧
      (IsWriteDir R.dir = true →
        ∃ S, Statement.Block S ∈ block'.stmts ∧ S.name = "store_" ++ var_name)) ∧
    (∃ V, block'.refs.getLast? = some V ∧ V.into = var_name ∧
      V.access.length = V.interior_shape.dims.length) ∧
    ((block.refs.map (fun r => r.into)).Nodup → (block'.refs.map (fun r => r.into)).Nodup) := by
  obtain ⟨pos, it, hfind⟩ := ApplyCache_found block var_name mem_loc xfer_loc block' h
  obtain ⟨cached, hst⟩ := ApplyCache_stmts_of_found block var_name mem_loc xfer_loc pos it hfind
  have hrefs := ApplyCache_refs_of_found block var_name mem_loc xfer_loc pos it hfind
  obtain ⟨hold, hraw, hnew⟩ := ApplyCache_names block var_name mem_loc xfer_loc pos it hfind
  have hnd := ApplyCache_refs_nodup block var_name mem_loc xfer_loc pos it hfind
  rw [h] at hst hrefs hold hraw hnew hnd
  simp only at hst hrefs hold hraw hnew hnd
  obtain ⟨L, hL, hLname, _, _, hLrefs⟩ := FixupRefs.stmt_block cached var_name
    (ApplyCache.cache_load it var_name (unique_ref_name block (var_name ++ "_raw"))
      mem_loc xfer_loc)
  obtain ⟨S, hS, hSname, _, _, hSrefs⟩ := FixupRefs.stmt_block cached var_name
    (ApplyCache.cache_store it var_name (unique_ref_name block (var_name ++ "_raw"))
      mem_loc xfer_loc)
  have hxfer : ∀ r0, (r0 ∈ (ApplyCache.cache_load it var_name
        (unique_ref_name block (var_name ++ "_raw")) mem_loc xfer_loc).refs ∨
      r0 ∈ (ApplyCache.cache_store it var_name
        (unique_ref_name block (var_name ++ "_raw")) mem_loc xfer_loc).refs) →
      (∃ R ∈ block'.refs, R.into = (FixupRefs.ref cached var_name r0).from_) ∧
        (FixupRefs.ref cached var_name r0).access.length
          = (FixupRefs.ref cached var_name r0).interior_shape.dims.length := by
    intro r0 hr0
    obtain ⟨_, hfrom, hacc, hdims⟩ := FixupRefs.ref_frame cached var_name r0
    obtain ⟨hlen, hname⟩ := ApplyCache.xfer_refs_access it var_name _ mem_loc xfer_loc r0 hr0
    rw [hfrom, hacc, hdims]
    refine ⟨?_, hlen⟩
    rcases hname with e | e
    · rw [e]; exact hraw
    · rw [e]; exact hnew
  refine ⟨?_, ⟨pos, it, hfind, ?_, ?_⟩, ?_, hnd⟩
  · intro c hc r hr hdir
    rw [hst, List.mem_append, List.mem_append] at hc
    rcases hc with (hc | hc) | hc
    · split at hc
      · rw [List.mem_singleton, hL, Statement.Block.injEq] at hc
        rw [hc, hLrefs, List.mem_map] at hr
        obtain ⟨r0, hr0, rfl⟩ := hr
        exact hxfer r0 (Or.inl hr0)
      · simp at hc
    · rw [List.mem_map] at hc
      obtain ⟨s, hs, hsc⟩ := hc
      cases s with
      | Block c0 =>
        obtain ⟨c1, hc1, _, _, _, hc1refs⟩ := FixupRefs.stmt_block cached var_name
          { c0 with deps := c0.deps.map (fun d => d + (if IsReadDir it.dir then 1 else 0)) }
        have hsc' : Statement.Block c1 = Statement.Block c := by
          rw [← hc1, ← hsc]
          rfl
        rw [Statement.Block.injEq] at hsc'
        rw [← hsc', hc1refs, List.mem_map] at hr
        obtain ⟨r0, hr0, rfl⟩ := hr
        obtain ⟨hd, hfrom, hacc, hdims⟩ := FixupRefs.ref_frame cached var_name r0
        rw [hd] at hdir
        obtain ⟨⟨R, hR, hRinto⟩, hlen⟩ := hpre c0 hs r0 hr0 hdir
        rw [hfrom, hacc, hdims]
        refine ⟨?_, hlen⟩
        rw [← hRinto]
        exact hold R hR
      | Load tags deps from_ into => simp [Statement.shiftDeps, FixupRefs.stmt] at hsc
      | Store tags deps from_ into => simp [Statement.shiftDeps, FixupRefs.stmt] at hsc
      | Constant tags deps name type iconst => simp [Statement.shiftDeps, FixupRefs.stmt] at hsc
      | Special tags deps name params inputs outputs =>
        simp [Statement.shiftDeps, FixupRefs.stmt] at hsc
      | Intrinsic tags deps name type inputs outputs =>
        simp [Statement.shiftDeps, FixupRefs.stmt] at hsc
    · split at hc
      · rw [List.mem_singleton, hS, Statement.Block.injEq] at hc
        rw [hc, hSrefs, List.mem_map] at hr
        obtain ⟨r0, hr0, rfl⟩ := hr
        exact hxfer r0 (Or.inr hr0)
      · simp at hc
  · intro hr
    refine ⟨L, ?_, hLname⟩
    rw [hst, hr, hL]
    simp
  · intro hw
    refine ⟨S, ?_, hSname⟩
    rw [hst, hw, hS]
    simp
  · refine ⟨ApplyCache.new_ref it var_name mem_loc, ?_, rfl, ?_⟩
    · rw [hrefs]
      simp
    · simp only [ApplyCache.new_ref]
      exact resize_nil_length _

/-- C33 on `cacheBlockDeps`, whose two nested blocks borrow the refinement `V` of the block
with an access of one entry for one dimension. -/
theorem ApplyCache_integrity_witness :
    ApplyCache cacheBlockDeps "V" { name := "CACHE" } { name := "DMA" } =
      (Except.ok (), (ApplyCache cacheBlockDeps "V" { name := "CACHE" } { name := "DMA" }).2) ∧
    (∀ c, Statement.Block c ∈ cacheBlockDeps.stmts → ∀ r ∈ c.refs, r.dir ≠ RefDir.None →
      (∃ R ∈ cacheBlockDeps.refs, R.into = r.from_) ∧
        r.access.length = r.interior_shape.dims.length) ∧
    (∀ c, Statement.Block c ∈
        (ApplyCache cacheBlockDeps "V" { name := "CACHE" } { name := "DMA" }).2.stmts →
      ∀ r ∈ c.refs, r.dir ≠ RefDir.None →
      (∃ R ∈ (ApplyCache cacheBlockDeps "V" { name := "CACHE" } { name := "DMA" }).2.refs,
          R.into = r.from_) ∧
        r.access.length = r.interior_shape.dims.length) ∧
    (∃ (pos : Nat) (R : Refinement), ref_by_into cacheBlockDeps "V" = some (pos, R) ∧
      (IsReadDir R.dir = true → ∃ L, Statement.Block L ∈
          (ApplyCache cacheBlockDeps "V" { name := "CACHE" } { name := "DMA" }).2.stmts ∧
        L.name = "load_" ++ "V") ∧
      (IsWriteDir R.dir = true → ∃ S, Statement.Block S ∈
          (ApplyCache cacheBlockDeps "V" { name := "CACHE" } { name := "DMA" }).2.stmts ∧
        S.name = "store_" ++ "V")) ∧
    (∃ V, (ApplyCache cacheBlockDeps "V" { name := "CACHE" } { name := "DMA" }).2.refs.getLast?
        = some V ∧ V.into = "V" ∧ V.access.length = V.interior_shape.dims.length) ∧
    ((cacheBlockDeps.refs.map (fun r => r.into)).Nodup →
      ((ApplyCache cacheBlockDeps "V" { name := "CACHE" } { name := "DMA" }).2.refs.map
        (fun r => r.into)).Nodup) :=
  have hpre : ∀ c, Statement.Block c ∈ cacheBlockDeps.stmts → ∀ r ∈ c.refs,
      r.dir ≠ RefDir.None →
      (∃ R ∈ cacheBlockDeps.refs, R.into = r.from_) ∧
        r.access.length = r.interior_shape.dims.length := by
    intro c hc r hr _
    simp only [cacheBlockDeps, List.mem_cons, Statement.Block.injEq, List.mem_singleton,
      List.not_mem_nil, or_false] at hc
    rcases hc with rfl | rfl
    · simp only [cacheChild, List.mem_singleton] at hr
      subst hr
      exact ⟨⟨_, List.mem_singleton.2 rfl, rfl⟩, rfl⟩
    · simp only [cacheChild, List.mem_singleton] at hr
      subst hr
      exact ⟨⟨_, List.mem_singleton.2 rfl, rfl⟩, rfl⟩
  ⟨rfl, hpre,
    ApplyCache_integrity cacheBlockDeps "V" { name := "CACHE" } { name := "DMA" } _ rfl hpre⟩

/-! ## Accesses along the chains of borrows -/

/-- The value of a sum of polynomials is the sum of the values. -/
theorem Affine.eval_add (a b : Affine) (env : String → Option Int) :
    (a + b).eval env = a.eval env + b.eval env := by
  show Affine.eval ⟨b.map_.foldl (fun acc t => Affine.addTerm t.1 t.2 acc) a.map_⟩ env = _
  obtain ⟨l⟩ := b
  obtain ⟨la⟩ := a
  simp only
  induction l generalizing la with
  | nil => simp [Affine.eval]
  | cons t l ih =>
    rw [List.foldl_cons, ih, Affine.eval_addTerm]
    simp only [Affine.eval, List.map_cons, List.sum_cons]
    omega

/-- The value of `UniqifyAffine(a, pfx)` under an assignment that gives `pfx + v` the value
of `v`. -/
theorem UniqifyAffine_eval (a : Affine) (pfx : String) (env env' : String → Option Int)
    (h : ∀ v, env' (pfx ++ v) = env v) :
    (UniqifyAffine a pfx).eval env' = a.eval env := by
  unfold UniqifyAffine
  rw [UniqifyAffine.fold_eval pfx env' a.map_ {}]
  have h0 : Affine.eval {} env' = 0 := rfl
  rw [h0, Int.zero_add]
  unfold Affine.eval
  congr 1
  apply List.map_congr_left
  intro t _
  rw [h t.1]

theorem takeWhile_append_cons {α : Type} (p : α → Bool) (x : α) (hx : p x = false) :
    ∀ (l r : List α), (∀ c ∈ l, p c = true) →
      (l ++ x :: r).takeWhile p = l ∧ (l ++ x :: r).dropWhile p = x :: r := by
  intro l
  induction l with
  | nil => intro r _; simp [List.takeWhile, List.dropWhile, hx]
  | cons a l ih =>
    intro r hl
    have ha := hl a (List.mem_cons_self _ _)
    obtain ⟨h1, h2⟩ := ih r (fun c hc => hl c (List.mem_cons_of_mem _ hc))
    simp [List.takeWhile, List.dropWhile, ha, h1, h2]

/-- The union of the assignments gives the renamed name `"d<k>:" + v` the value of `v` at
depth `k`. -/
theorem unionEnv_spec (envs : Nat → String → Option Int) (k : Nat) (v : String) :
    unionEnv envs (depthPrefix k ++ v) = envs k v := by
  obtain ⟨l, hl, hval, hc⟩ := depthPrefix_data k
  have hdata : (depthPrefix k ++ v).data = 'd' :: (l ++ ':' :: v.data) := by
    rw [String.data_append, hl]
    simp
  obtain ⟨h1, h2⟩ := takeWhile_append_cons (fun c => decide (c ≠ ':')) ':' (by simp) l v.data
    (fun c hcl => by simpa using hc c hcl)
  unfold unionEnv
  rw [hdata]
  simp only [h1, h2, hval, List.drop_succ_cons, List.drop_zero]
/-- One step of nested construction keeps the accesses traced along the chains of
borrows. -/
theorem AliasMap.inner_accessTraced (path : List Block) (m : AliasMap) (b : Block)
    (m' : AliasMap) (hd : m.depth_ = path.length) (hinv : AliasMap.AccessTraced path m)
    (h : AliasMap.inner m b = Except.ok m')
    (hnd : (b.refs.map (fun r => r.into)).Nodup) :
    m'.depth_ = (path ++ [b]).length ∧ AliasMap.AccessTraced (path ++ [b]) m' := by
  obtain ⟨hdepth, _⟩ := AliasMap.inner_ok m b m' h
  obtain ⟨hentries, hnone⟩ := AliasMap.inner_spec m b m' h hnd
  refine ⟨by simp [hdepth, hd], ?_⟩
  intro name info hinfo envs i a ha
  have hex : ∃ r ∈ b.refs, r.into = name := by
    by_contra hcon
    have hall : ∀ r ∈ b.refs, r.into ≠ name := fun r hr e => hcon ⟨r, hr, e⟩
    rw [hnone name hall] at hinfo
    simp at hinfo
  obtain ⟨r, hr, rfl⟩ := hex
  obtain ⟨j, hj⟩ := exists_getElem?_of_mem b.refs r hr
  obtain ⟨info', he, hm⟩ := hentries j r hj
  rw [hinfo] at hm
  simp only [Option.some.injEq] at hm
  subst hm
  have hfind : refByInto r.into 0 b.refs = some (j, r) := by
    simpa using refByInto_of_getElem? b.refs 0 j r hnd hj
  have hchain : borrowChain (path ++ [b]).reverse r.into =
      if r.dir = RefDir.None then [(path.length + 1, r)]
      else (path.length + 1, r) :: borrowChain path.reverse r.from_ := by
    simp [borrowChain, hfind]
  have huniq : ∀ x : Affine, (UniqifyAffine x (depthPrefix (m.depth_ + 1))).eval (unionEnv envs)
      = x.eval (envs (path.length + 1)) := by
    intro x
    rw [hd]
    exact UniqifyAffine_eval x _ _ _ (fun v => unionEnv_spec envs (path.length + 1) v)
  by_cases hdir : r.dir = RefDir.None
  · obtain ⟨info', he', _, _, _, _, _, hacc⟩ :=
      AliasMap.entry_alloc m (m.depth_ + 1) b j r hdir
    rw [he] at he'
    simp only [Except.ok.injEq] at he'
    subst he'
    rw [hacc, List.getElem?_map] at ha
    cases hx : r.access[i]? with
    | none => rw [hx] at ha; simp at ha
    | some x =>
      rw [hx] at ha
      simp only [Option.map_some', Option.some.injEq] at ha
      rw [← ha, hchain, if_pos hdir, huniq]
      simp [chainAccess, List.getD_eq_getElem?_getD, hx]
  · obtain ⟨o, ho, hlen, _, _, _, hacc, _, _, _⟩ :=
      AliasMap.entry_borrow m (m.depth_ + 1) b j r default info hdir he
    rw [hacc] at ha
    obtain ⟨ao, x, hao, hx, hax⟩ := List.getElem?_zipWith_eq_some.1 ha
    have hrec := hinv r.from_ o ho envs i ao hao
    rw [← hax, Affine.eval_add, huniq, hrec, hchain, if_neg hdir]
    simp only [chainAccess, List.map_cons, List.sum_cons, List.getD_eq_getElem?_getD, hx,
      Option.getD_some]
    omega

theorem AliasMap.nestFrom_accessTraced (rest : List Block) :
    ∀ (path : List Block) (m m' : AliasMap), m.depth_ = path.length →
      AliasMap.AccessTraced path m → AliasMap.nestFrom m rest = Except.ok m' →
      (∀ b ∈ rest, (b.refs.map (fun r => r.into)).Nodup) →
      AliasMap.AccessTraced (path ++ rest) m' := by
  induction rest with
  | nil =>
    intro path m m' _ hinv h _
    simp only [AliasMap.nestFrom, Except.ok.injEq] at h
    subst h
    simpa using hinv
  | cons b rest ih =>
    intro path m m' hd hinv h hnd
    simp only [AliasMap.nestFrom] at h
    cases hin : AliasMap.inner m b with
    | error e => rw [hin] at h; simp at h
    | ok m1 =>
      rw [hin] at h
      simp only at h
      obtain ⟨hd1, hinv1⟩ := AliasMap.inner_accessTraced path m b m1 hd hinv hin
        (hnd b (List.mem_cons_self _ _))
      have := ih (path ++ [b]) m1 m' hd1 hinv1 h
        (fun b' hb' => hnd b' (List.mem_cons_of_mem _ hb'))
      simpa using this

/-- C31: the renamed names of different depths are different (`"d<j>:" + u` is
`"d<k>:" + v` for no `j ≠ k`), so that the union of the index assignments of the depths is
defined on the renamed names; and in an AliasMap obtained by nested construction along a
path of blocks with distinct `into` names per block, the access of every entry evaluates in
each dimension `i`, under that union, to the sum over the chain of borrows of the entry of
`ref.access[i]` evaluated under the index assignment of its own depth, whatever the
assignments are and whatever names the indices of the blocks have. -/
theorem AliasMap.nest_access (path : List Block) (m : AliasMap)
    (h : AliasMap.nest path = Except.ok m)
    (hnd : ∀ b ∈ path, (b.refs.map (fun r => r.into)).Nodup) :
    (∀ (j k : Nat) (u v : String), j ≠ k → depthPrefix j ++ u ≠ depthPrefix k ++ v) ∧
    (∀ (envs : Nat → String → Option Int) (k : Nat) (v : String),
      unionEnv envs (depthPrefix k ++ v) = envs k v) ∧
    ∀ name info, m.info_ name = some info →
      ∀ (envs : Nat → String → Option Int) (i : Nat) (a : Affine),
        info.access[i]? = some a →
        a.eval (unionEnv envs) = chainAccess envs i (borrowChain path.reverse name) := by
  refine ⟨fun j k u v hjk e => hjk (depthPrefix_append_inj j k u v e).1, unionEnv_spec, ?_⟩
  have hroot : AliasMap.AccessTraced [] AliasMap.root := by
    intro name info hinfo
    simp [AliasMap.root] at hinfo
  simpa using AliasMap.nestFrom_accessTraced path [] AliasMap.root m rfl hroot h hnd
/-- C31 on `innermostBlock` in `innerBlock` in `rootBlock`: the blocks at depths 2 and 3
both name their index `i`; with `i = k` at depth `k`, the access of `y`, which is
`4 * d2:i + d3:i`, has the value `4 * 2 + 3`. -/
theorem AliasMap.nest_access_witness :
    ∃ m, AliasMap.nest [rootBlock, innerBlock, innermostBlock] = Except.ok m ∧
      (∀ b ∈ [rootBlock, innerBlock, innermostBlock], (b.refs.map (fun r => r.into)).Nodup) ∧
      (∀ name info, m.info_ name = some info →
        ∀ (envs : Nat → String → Option Int) (i : Nat) (a : Affine),
          info.access[i]? = some a →
          a.eval (unionEnv envs) = chainAccess envs i
            (borrowChain [rootBlock, innerBlock, innermostBlock].reverse name)) ∧
      chainAccess (fun k => mapSet (fun _ => none) "i" (k : Int)) 0
        (borrowChain [rootBlock, innerBlock, innermostBlock].reverse "y") = 11 := by
  have hb : (AliasMap.nest [rootBlock, innerBlock, innermostBlock]).toBool = true := by
    decide
  cases hm : AliasMap.nest [rootBlock, innerBlock, innermostBlock] with
  | error e => rw [hm] at hb; simp [Except.toBool] at hb
  | ok m =>
    have hnd : ∀ b ∈ [rootBlock, innerBlock, innermostBlock],
        (b.refs.map (fun r => r.into)).Nodup := by
      decide
    exact ⟨m, rfl, hnd,
      (AliasMap.nest_access [rootBlock, innerBlock, innermostBlock] m hm hnd).2.2, by decide⟩

/-! ## A None verdict and the memory touched -/

/-- The entries of `a` and `b` in the map of `tilesBlock`. -/
theorem nest_tilesBlock :
    ∃ m, AliasMap.nest [rootBlock, viewsBlock, tilesBlock] = Except.ok m ∧
      m.info_ "a" = some entryTileA ∧ m.info_ "b" = some entryTileB := by
  have ha : (match AliasMap.nest [rootBlock, viewsBlock, tilesBlock] with
      | Except.ok m => m.info_ "a"
      | Except.error _ => none) = some entryTileA := by decide
  have hb : (match AliasMap.nest [rootBlock, viewsBlock, tilesBlock] with
      | Except.ok m => m.info_ "b"
      | Except.error _ => none) = some entryTileB := by decide
  cases hm : AliasMap.nest [rootBlock, viewsBlock, tilesBlock] with
  | error e => rw [hm] at ha; simp at ha
  | ok m =>
    rw [hm] at ha hb
    exact ⟨m, rfl, ha, hb⟩

/-- C32 fails on `tilesBlock` in `viewsBlock` in `rootBlock`, a tree without indices: the
entries of `a` and `b` have the same base `d1:A`, the same location and equal shapes, and
`Compare` returns `None` for them, their extents (4..7 and 0..3, each relative to its own
view) being disjoint; yet the element at in-tile offset 2 of `a` and the element at in-tile
offset 0 of `b` are the same element 6 of `A`.  The verdict `None` is documented in alias.h
as "Buffers access unrelated spaces". -/
theorem Compare_none_memory_counterexample :
    ∃ m a b, AliasMap.nest [rootBlock, viewsBlock, tilesBlock] = Except.ok m ∧
      m.info_ "a" = some a ∧ m.info_ "b" = some b ∧
      AliasInfo.Compare a b = Except.ok AliasType.None ∧
      a.base_name = b.base_name ∧ a.location = b.location ∧ a.shape = shape1 4 ∧
      b.shape = shape1 4 ∧
      ∃ xa xb, a.access = [xa] ∧ b.access = [xb] ∧
        ∀ envs : Nat → String → Option Int,
          xa.eval (unionEnv envs) + 2 = 6 ∧ xb.eval (unionEnv envs) + 0 = 6 := by
  obtain ⟨m, hm, ha, hb⟩ := nest_tilesBlock
  exact ⟨m, entryTileA, entryTileB, hm, ha, hb, by decide, rfl, rfl, rfl, rfl, _, _, rfl, rfl,
    fun envs => ⟨rfl, rfl⟩⟩
/-- A `None` verdict on two entries with the same base name: different banks, or extents
that do not intersect in every dimension. -/
theorem Compare_none_same_base (a b : AliasInfo) (hn : a.base_name = b.base_name)
    (hlen : a.extents.length = b.extents.length)
    (h : AliasInfo.Compare a b = Except.ok AliasType.None) :
    (a.shape = b.shape ∧ DifferentBanks a b) ∨
      ¬ List.Forall₂ (fun x y => y.min ≤ x.max ∧ x.min ≤ y.max) a.extents b.extents := by
  rw [Compare_cases, CheckOverlap_of_length _ _ hlen] at h
  by_cases hs : a.shape = b.shape
  · by_cases hb : DifferentBanks a b
    · exact Or.inl ⟨hs, hb⟩
    · right
      intro hov
      have hloop := (CheckOverlap.loop_true_iff a.extents b.extents hlen).2 hov
      by_cases hacc : a.access = b.access
      · simp [hn, hs, hb, hacc] at h
      · simp [hn, hs, hb, hacc, hloop] at h
  · simp [hn, hs] at h

/-- The entry of a borrowing refinement of a block, in terms of the entry of the outer map
that it borrows. -/
theorem AliasMap.inner_entry (outer : AliasMap) (block : Block) (m : AliasMap)
    (h : AliasMap.inner outer block = Except.ok m)
    (hnd : (block.refs.map (fun r => r.into)).Nodup)
    (r : Refinement) (hr : r ∈ block.refs) (hdir : r.dir ≠ RefDir.None)
    (info : AliasInfo) (hinfo : m.info_ r.into = some info) :
    ∃ o, outer.info_ r.from_ = some o ∧ o.access.length = r.access.length ∧
      info.base_name = o.base_name ∧
      info.access = List.zipWith
        (fun a x => a + UniqifyAffine x (depthPrefix (outer.depth_ + 1))) o.access r.access ∧
      info.extents =
        AliasMap.extentsFrom (AliasMap.min_idxs block.idxs) (AliasMap.max_idxs block.idxs)
          r.interior_shape.dims 0 r.access := by
  obtain ⟨j, hj⟩ := exists_getElem?_of_mem block.refs r hr
  obtain ⟨info', he, hm⟩ := (AliasMap.inner_spec outer block m h hnd).1 j r hj
  rw [hinfo] at hm
  simp only [Option.some.injEq] at hm
  subst hm
  obtain ⟨o, ho, hlen, _, _, hname, hacc, _, _, _⟩ :=
    AliasMap.entry_borrow outer (outer.depth_ + 1) block j r default info hdir he
  exact ⟨o, ho, hlen, hname, hacc,
    AliasMap.entry_extents outer (outer.depth_ + 1) block j r default info he⟩

/-- A point of a tile, relative to the view that the refinement borrows, lies within the
extent of its dimension, when no value computed for the extents leaves `int64_t`. -/
theorem AliasMap.extent_holds (idxs : List Index)
    (hidx : (idxs.map (fun idx => idx.name)).Nodup) (env : String → Option Int)
    (henv : IndexAssignment idxs env) (r : Refinement) (hfit : AliasMap.ExtentsFit idxs r)
    (hpos : ∀ x ∈ r.access, x.NonNegVars) (i : Nat) (x : Affine)
    (hx : r.access[i]? = some x) (d : TensorDimension) (hd : r.interior_shape.dims[i]? = some d)
    (off : Nat) (hoff : off < d.size) :
    ∃ e, (AliasMap.extentsFrom (AliasMap.min_idxs idxs) (AliasMap.max_idxs idxs)
        r.interior_shape.dims 0 r.access)[i]? = some e ∧
      e.min ≤ x.eval env + (off : Int) ∧ x.eval env + (off : Int) ≤ e.max := by
  have hget := AliasMap.extentsFrom_getElem? (AliasMap.min_idxs idxs) (AliasMap.max_idxs idxs)
    r.interior_shape.dims r.access 0 i x hx
  have hdim : r.interior_shape.dims.getD (0 + i) default = d := by
    simp [List.getD_eq_getElem?_getD, hd]
  obtain ⟨hin1, hin2⟩ := hfit.2 i x d hx hd
  rw [hdim, wrap64_of_in _ hin1, wrap64_of_in _ hin2] at hget
  have hnn := hpos x (List.getElem?_mem hx)
  have h1 := Affine.eval_mono x hnn _ _
    (fun k => (AliasMap.idxs_bounds idxs hidx hfit.1 env henv k).1)
  have h2 := Affine.eval_mono x hnn _ _
    (fun k => (AliasMap.idxs_bounds idxs hidx hfit.1 env henv k).2)
  refine ⟨_, hget, ?_, ?_⟩
  · show x.eval (AliasMap.min_idxs idxs) ≤ x.eval env + (off : Int)
    omega
  · show x.eval env + (off : Int) ≤ x.eval (AliasMap.max_idxs idxs) + (d.size : Int) - 1
    omega
/-- Where a `None` verdict is sound for the memory touched: in the AliasMap constructed for
a block with distinct `into` names and distinct index names, let `a` and `b` be the entries
of two refinements that borrow the same refinement of the enclosing block, with as many
access entries as dimensions, no negative coefficient on an index, and no value computed
for their extents leaving `int64_t`.  They have the same
base allocation, and if `Compare(a, b)` returns `None` then either the shapes are equal and
the locations differ with constant units, or
there is no assignment of the indices of the enclosing blocks and of the block (each index
of the block within its range, or at the nonzero constant of its affine) and no pair of
in-tile offsets (within the two interior shapes) at which the composed accesses of `a` and
`b` give the same element in every dimension. -/
theorem Compare_none_local (outer : AliasMap) (block : Block) (m : AliasMap)
    (h : AliasMap.inner outer block = Except.ok m)
    (hnd : (block.refs.map (fun r => r.into)).Nodup)
    (hidx : (block.idxs.map (fun idx => idx.name)).Nodup)
    (ra rb : Refinement) (hra : ra ∈ block.refs) (hrb : rb ∈ block.refs)
    (hda : ra.dir ≠ RefDir.None) (hdb : rb.dir ≠ RefDir.None) (hfrom : ra.from_ = rb.from_)
    (hpa : ∀ x ∈ ra.access, x.NonNegVars) (hpb : ∀ x ∈ rb.access, x.NonNegVars)
    (hfa : AliasMap.ExtentsFit block.idxs ra) (hfb : AliasMap.ExtentsFit block.idxs rb)
    (hla : ra.access.length = ra.interior_shape.dims.length)
    (hlb : rb.access.length = rb.interior_shape.dims.length)
    (a b : AliasInfo) (ha : m.info_ ra.into = some a) (hb : m.info_ rb.into = some b)
    (hnone : AliasInfo.Compare a b = Except.ok AliasType.None) :
    a.base_name = b.base_name ∧
    ((a.shape = b.shape ∧ DifferentBanks a b) ∨
      ∀ envs : Nat → String → Option Int,
        IndexAssignment block.idxs (envs (outer.depth_ + 1)) →
        ∀ oa ob : List Nat,
          (∀ (i : Nat) (d : TensorDimension), ra.interior_shape.dims[i]? = some d →
            oa.getD i 0 < d.size) →
          (∀ (i : Nat) (d : TensorDimension), rb.interior_shape.dims[i]? = some d →
            ob.getD i 0 < d.size) →
          ¬ ∀ (i : Nat) (xa xb : Affine), a.access[i]? = some xa → b.access[i]? = some xb →
            xa.eval (unionEnv envs) + (oa.getD i 0 : Int)
              = xb.eval (unionEnv envs) + (ob.getD i 0 : Int)) := by
  obtain ⟨o, ho, hlena, hnamea, hacca, hexta⟩ :=
    AliasMap.inner_entry outer block m h hnd ra hra hda a ha
  obtain ⟨o', ho', hlenb, hnameb, haccb, hextb⟩ :=
    AliasMap.inner_entry outer block m h hnd rb hrb hdb b hb
  rw [← hfrom, ho] at ho'
  simp only [Option.some.injEq] at ho'
  subst ho'
  have hname : a.base_name = b.base_name := by rw [hnamea, hnameb]
  have hlen : a.extents.length = b.extents.length := by
    rw [hexta, hextb, AliasMap.extentsFrom_length, AliasMap.extentsFrom_length, ← hlena, hlenb]
  refine ⟨hname, ?_⟩
  rcases Compare_none_same_base a b hname hlen hnone with hbank | hno
  · exact Or.inl hbank
  · right
    intro envs henv oa ob hoa hob heq
    apply hno
    rw [forall₂_iff_index _ _ hlen]
    intro i hia hib
    have hia' : i < ra.access.length := by
      rw [hexta, AliasMap.extentsFrom_length] at hia
      exact hia
    have hib' : i < rb.access.length := by
      rw [hextb, AliasMap.extentsFrom_length] at hib
      exact hib
    have hio : i < o.access.length := by omega
    have hxa : ra.access[i]? = some ra.access[i] := List.getElem?_eq_getElem hia'
    have hxb : rb.access[i]? = some rb.access[i] := List.getElem?_eq_getElem hib'
    have hda' : ra.interior_shape.dims[i]? = some ra.interior_shape.dims[i] :=
      List.getElem?_eq_getElem (by omega)
    have hdb' : rb.interior_shape.dims[i]? = some rb.interior_shape.dims[i] :=
      List.getElem?_eq_getElem (by omega)
    obtain ⟨ea, hea, hea1, hea2⟩ := AliasMap.extent_holds block.idxs hidx
      (envs (outer.depth_ + 1)) henv ra hfa hpa i _ hxa _ hda' (oa.getD i 0) (hoa i _ hda')
    obtain ⟨eb, heb, heb1, heb2⟩ := AliasMap.extent_holds block.idxs hidx
      (envs (outer.depth_ + 1)) henv rb hfb hpb i _ hxb _ hdb' (ob.getD i 0) (hob i _ hdb')
    have hea' : a.extents[i] = ea := by
      have h1 : a.extents[i]? = some a.extents[i] := List.getElem?_eq_getElem hia
      have h2 : a.extents[i]? = some ea := by rw [hexta]; exact hea
      rw [h1] at h2
      exact Option.some.inj h2
    have heb' : b.extents[i] = eb := by
      have h1 : b.extents[i]? = some b.extents[i] := List.getElem?_eq_getElem hib
      have h2 : b.extents[i]? = some eb := by rw [hextb]; exact heb
      rw [h1] at h2
      exact Option.some.inj h2
    have huniq : ∀ x : Affine,
        (UniqifyAffine x (depthPrefix (outer.depth_ + 1))).eval (unionEnv envs)
          = x.eval (envs (outer.depth_ + 1)) :=
      fun x => UniqifyAffine_eval x _ _ _ (fun v => unionEnv_spec envs (outer.depth_ + 1) v)
    have hga : a.access[i]? = some (o.access[i] + UniqifyAffine ra.access[i]
        (depthPrefix (outer.depth_ + 1))) := by
      rw [hacca, List.getElem?_zipWith_eq_some]
      exact ⟨_, _, List.getElem?_eq_getElem hio, hxa, rfl⟩
    have hgb : b.access[i]? = some (o.access[i] + UniqifyAffine rb.access[i]
        (depthPrefix (outer.depth_ + 1))) := by
      rw [haccb, List.getElem?_zipWith_eq_some]
      exact ⟨_, _, List.getElem?_eq_getElem hio, hxb, rfl⟩
    have hpoint := heq i _ _ hga hgb
    rw [Affine.eval_add, Affine.eval_add, huniq, huniq] at hpoint
    rw [hea', heb']
    constructor <;> omega
/-- The entries of `lo` and `hi` in the map of `splitBlock`. -/
theorem inner_splitBlock :
    ∃ m, AliasMap.inner rootMap splitBlock = Except.ok m ∧
      m.info_ "lo" = some entryLo ∧ m.info_ "hi" = some entryHi := by
  have ha : (match AliasMap.inner rootMap splitBlock with
      | Except.ok m => m.info_ "lo"
      | Except.error _ => none) = some entryLo := by decide
  have hb : (match AliasMap.inner rootMap splitBlock with
      | Except.ok m => m.info_ "hi"
      | Except.error _ => none) = some entryHi := by decide
  cases hm : AliasMap.inner rootMap splitBlock with
  | error e => rw [hm] at ha; simp at ha
  | ok m =>
    rw [hm] at ha hb
    exact ⟨m, rfl, ha, hb⟩

theorem nonNeg_loRef : ∀ x ∈ loRef.access, x.NonNegVars := by
  intro x hx t ht _
  simp only [loRef, List.mem_singleton] at hx
  subst hx
  simp only [List.mem_singleton] at ht
  subst ht
  decide

theorem nonNeg_hiRef : ∀ x ∈ hiRef.access, x.NonNegVars := by
  intro x hx t ht _
  simp only [hiRef, List.mem_singleton] at hx
  subst hx
  simp only [List.mem_cons, List.mem_singleton, List.not_mem_nil, or_false] at ht
  rcases ht with rfl | rfl <;> decide

theorem fit_loRef : AliasMap.ExtentsFit splitBlock.idxs loRef := by
  refine ⟨by decide, ?_⟩
  intro i x d hx hd
  cases i with
  | zero =>
    simp only [loRef, shape1, List.getElem?_cons_zero, Option.some.injEq] at hx hd
    subst hx
    subst hd
    decide
  | succ i => simp [loRef] at hx

theorem fit_hiRef : AliasMap.ExtentsFit splitBlock.idxs hiRef := by
  refine ⟨by decide, ?_⟩
  intro i x d hx hd
  cases i with
  | zero =>
    simp only [hiRef, shape1, List.getElem?_cons_zero, Option.some.injEq] at hx hd
    subst hx
    subst hd
    decide
  | succ i => simp [hiRef] at hx

/-- The sound case on `splitBlock` in `rootBlock`: `lo` holds the elements 0..3 of `A` and
`hi` the elements 8..11; `Compare` returns `None`, the locations are the same, and no
assignment and in-tile offsets give a common element. -/
theorem Compare_none_local_witness :
    ∃ m, AliasMap.inner rootMap splitBlock = Except.ok m ∧
      m.info_ loRef.into = some entryLo ∧ m.info_ hiRef.into = some entryHi ∧
      AliasInfo.Compare entryLo entryHi = Except.ok AliasType.None ∧
      entryLo.base_name = entryHi.base_name ∧
      ((entryLo.shape = entryHi.shape ∧ DifferentBanks entryLo entryHi) ∨
        ∀ envs : Nat → String → Option Int,
          IndexAssignment splitBlock.idxs (envs (rootMap.depth_ + 1)) →
          ∀ oa ob : List Nat,
            (∀ (i : Nat) (d : TensorDimension), loRef.interior_shape.dims[i]? = some d →
              oa.getD i 0 < d.size) →
            (∀ (i : Nat) (d : TensorDimension), hiRef.interior_shape.dims[i]? = some d →
              ob.getD i 0 < d.size) →
            ¬ ∀ (i : Nat) (xa xb : Affine), entryLo.access[i]? = some xa →
              entryHi.access[i]? = some xb →
              xa.eval (unionEnv envs) + (oa.getD i 0 : Int)
                = xb.eval (unionEnv envs) + (ob.getD i 0 : Int)) := by
  obtain ⟨m, hm, ha, hb⟩ := inner_splitBlock
  exact ⟨m, hm, ha, hb, by decide,
    Compare_none_local rootMap splitBlock m hm (by decide) (by decide) loRef hiRef
      (List.mem_cons_self _ _) (List.mem_cons_of_mem _ (List.mem_cons_self _ _))
      (by decide) (by decide) rfl nonNeg_loRef nonNeg_hiRef fit_loRef fit_hiRef rfl rfl
      entryLo entryHi ha hb
      (by decide)⟩

end Stripe
